import Mathlib

/-!
# Jagger: the runtime analyzer of the pattern-based tagger

A shallow embedding of the matcher (`longestPrefixSearchWithPOS`), of the
per-line tokenizer loop (`tokenize_line` of the binding; the loop of `run` in the
command-line program is the same, statement for statement, up to where the
output goes), of the bit-packed codecs of `read_model` and of the way
`read_model` numbers the symbols, followed by the properties proved about them.

Conventions of the embedding
* a byte is a `Nat` below 256, a buffer is a `List Nat`;
* `int` values are `Int`, `uint64_t` values are `Nat`; conversions between
  widths are written out with `%`;
* a pointer into the line is an offset from the start of the line;
* loops that the source does not bound syntactically take a `fuel` argument and
  return `none` when it runs out; a read outside the line also gives `none`;
* `jagger.h` and the trie header are not among the sources: what is taken from
  them is modelled from the specification and marked as such.
-/

namespace Jagger

/-! ## Unicode scanner -/

/-- Modelled from the spec: the constant `CP_MAX` of `jagger.h` (the header is
not among the sources); the data model bounds a code point by 0x10FFFF and
uses `CP_MAX + 1` for BOS. -/
def CP_MAX : Nat := 0x10ffff

/-- A UTF-8 continuation byte, `10xxxxxx`. -/
def isCont (c : Nat) : Bool := decide (0x80 ≤ c) && decide (c < 0xc0)

/-- Modelled from the spec: the scanner `unicode (p, b)` of `jagger.h` (the
header is not among the sources). Section 4.1: it decodes one code point from
a view onto the bytes between the cursor and the end of the extent and returns
the code point and its byte length; an invalid sequence (bad lead byte, missing
or bad continuation byte, value above `CP_MAX`) has length 1. The code point of
an invalid sequence is implementation defined; the model uses 0, the terminator,
so that the trie does not match it. -/
def unicode (view : List Nat) : Nat × Nat :=
  match view with
  | [] => (0, 1)
  | c0 :: rest =>
    if c0 < 0x80 then (c0, 1)
    else if c0 < 0xc0 then (0, 1)
    else if c0 < 0xe0 then
      match rest with
      | c1 :: _ =>
        if isCont c1 then (((c0 &&& 0x1f) <<< 6) ||| (c1 &&& 0x3f), 2) else (0, 1)
      | _ => (0, 1)
    else if c0 < 0xf0 then
      match rest with
      | c1 :: c2 :: _ =>
        if isCont c1 && isCont c2 then
          (((c0 &&& 0xf) <<< 12) ||| ((c1 &&& 0x3f) <<< 6) ||| (c2 &&& 0x3f), 3)
        else (0, 1)
      | _ => (0, 1)
    else if c0 < 0xf8 then
      match rest with
      | c1 :: c2 :: c3 :: _ =>
        let cp := ((c0 &&& 0x7) <<< 18) ||| ((c1 &&& 0x3f) <<< 12) |||
                  ((c2 &&& 0x3f) <<< 6) ||| (c3 &&& 0x3f)
        if isCont c1 && isCont c2 && isCont c3 && decide (cp ≤ CP_MAX) then (cp, 4)
        else (0, 1)
      | _ => (0, 1)
    else (0, 1)

/-- Modelled from the spec: `u8_len (p)` of `jagger.h` (the header is not among
the sources): the byte length the scanner reports for the character at the
cursor. -/
def u8_len (view : List Nat) : Nat := (unicode view).2

/-- The code points of the characters of `key`, read with the scanner one after
the other; `fuel` bounds the number of characters. -/
def codepointsAux : Nat → List Nat → List Nat
  | 0, _ => []
  | fuel + 1, rest =>
    if rest = [] then []
    else (unicode rest).1 :: codepointsAux fuel (rest.drop (unicode rest).2)

/-- The code points of the characters of `key`. -/
def codepoints (key : List Nat) : List Nat := codepointsAux key.length key

/-! ## Double-array trie -/

/-- One cell of the double array: `base` (or the stored value, for a value
cell) and `check`, the index of the parent. -/
structure node where
  base : Int
  check : Int
deriving DecidableEq, Repr

/-- The cell at index `i`; an index outside the array reads as a free cell,
which is the child of no node. -/
def nodeAt (array : List node) (i : Int) : node :=
  if 0 ≤ i then array.getD i.toNat ⟨0, -1⟩ else ⟨0, -1⟩

/-- Result of a trie lookup: a stored value, or one of the two sentinels. -/
inductive result where
  | value (v : Int)
  | CEDAR_NO_VALUE
  | CEDAR_NO_PATH
deriving DecidableEq, Repr

/-- Modelled from the spec: the lookup `_find` of `ccedar::da` (the trie header
is not among the sources). Section 4.4: a classical double array in which the
child of `frm` on symbol `sym` is the cell `base + sym` whose `check` is
`frm`; symbol 0 is the terminator, so the value of a node is held in the `base`
of its child on 0. It follows `key` from `frm` and returns the result together
with the node reached; on `CEDAR_NO_PATH` the node is the last one that was
reached. -/
def _find (array : List node) : List Int → Int → result × Int
  | [], frm =>
    let n := nodeAt array ((nodeAt array frm).base + 0)
    if n.check ≠ frm then (result.CEDAR_NO_VALUE, frm) else (result.value n.base, frm)
  | sym :: key, frm =>
    let to_ := (nodeAt array frm).base + sym
    if (nodeAt array to_).check ≠ frm then (result.CEDAR_NO_PATH, frm)
    else _find array key to_

/-- Modelled from the spec: `traverse (key, from, pos, len)` of `ccedar::da`:
extends the state `frm` by the symbols of `key` and returns the result and the
new state (`pos` is restarted at 0 by the only caller and is not kept). -/
def traverse (array : List node) (key : List Int) (frm : Int) : result × Int :=
  _find array key frm

/-- Modelled from the spec: `exactMatchSearch <int> (key, len, from)` of
`ccedar::da`: the value stored for `key` below `frm`, or `CEDAR_NO_VALUE`. -/
def exactMatchSearch (array : List node) (key : List Int) (frm : Int) : result :=
  match (_find array key frm).1 with
  | result.CEDAR_NO_PATH => result.CEDAR_NO_VALUE
  | r => r

/-! ## Matcher -/

/-- Registers of the character loop of `longestPrefixSearchWithPOS`. -/
structure feedState where
  frm : Int
  from_ : Int
  n : Int
deriving DecidableEq, Repr

/-- The character loop of `longestPrefixSearchWithPOS`:
`for (utf8_feeder f (key, end); (i = c2i[f.read (b)]); f.advance (b))`.
`rest` holds the bytes from `f.p` to `end`, `b` the length of the character
read last. `read` gives 0 at the end of the extent without touching `b`;
advancing past the end leaves the extent (`none`). -/
def feed (array : List node) (c2i : Nat → Nat) :
    Nat → List Nat → Nat → feedState → Option feedState
  | 0, _, _, _ => none
  | fuel + 1, rest, b, s =>
    let cb : Nat × Nat := if rest = [] then (0, b) else unicode rest
    let i := c2i cb.1
    if i = 0 then some s
    else
      match traverse array [(i : Int)] s.frm with
      | (result.CEDAR_NO_VALUE, to_) =>
        if rest.length < cb.2 then none
        else feed array c2i fuel (rest.drop cb.2) cb.2 { s with frm := to_ }
      | (result.CEDAR_NO_PATH, to_) => some { s with frm := to_ }
      | (result.value v, to_) =>
        if rest.length < cb.2 then none
        else feed array c2i fuel (rest.drop cb.2) cb.2 { frm := to_, from_ := to_, n := v }

/-- The parent walk of `longestPrefixSearchWithPOS`:
`for (;; from = array_[from].check)` probing `fi_prev` at every node. -/
def walk (array : List node) (fi_prev : Int) (from_ : Int) (n : Int) :
    Nat → Int → Option Int
  | 0, _ => none
  | fuel + 1, frm =>
    match exactMatchSearch array [fi_prev] frm with
    | result.value v => some v
    | _ => if frm = from_ then some n else walk array fi_prev from_ n fuel (nodeAt array frm).check

/-- The matcher `ccedar::da_::longestPrefixSearchWithPOS (key, end, fi_prev,
c2i, from)`; `key` is the byte range `[key, end)`. -/
def longestPrefixSearchWithPOS (fuel : Nat) (array : List node) (key : List Nat)
    (fi_prev : Nat) (c2i : Nat → Nat) (frm : Int) : Option Int :=
  match feed array c2i fuel key 0 { frm := frm, from_ := 0, n := 0 } with
  | none => none
  | some s =>
    if fi_prev = 0 then some s.n
    else walk array (fi_prev : Int) s.from_ s.n fuel s.frm

/-! ## Machine integers -/

/-- The bit pattern of an `int` as an unsigned 32-bit number. -/
def toU32 (r : Int) : Nat := (r % 4294967296).toNat

/-- The `int` whose bit pattern is the low 32 bits of `n` (conversion of a
wider unsigned value to `int`). -/
def toI32 (n : Nat) : Int :=
  if n % 4294967296 < 2147483648 then ((n % 4294967296 : Nat) : Int)
  else ((n % 4294967296 : Nat) : Int) - 4294967296

/-- The C expression `r & mask` for an `int` `r` and a non-negative mask. -/
def andI32 (r : Int) (mask : Nat) : Int := ((toU32 r &&& mask : Nat) : Int)

/-! ## Tokenizer -/

/-- The loaded model: the four arrays of `jagger::tagger`. `c2i` is read through
an index, `p2f` and `fs` are lists; a pattern id outside `p2f` reads as the
record 0 and a range outside `fs` is cut at the end of `fs`. -/
structure tagger where
  da : List node
  c2i : Nat → Nat
  p2f : List Nat
  fs : List Nat

/-- A token of the binding: `PyToken` with its surface and feature. -/
structure PyToken where
  surface : List Nat
  feature : List Nat
deriving DecidableEq, Repr

/-- The characters of `kWhitespace`, `" \n\r\t\f\v"`. -/
def kWhitespace (c : Nat) : Bool :=
  c == 32 || c == 10 || c == 13 || c == 9 || c == 12 || c == 11

/-- The helper `ltrim`: drops the leading whitespace. -/
def ltrim (s : List Nat) : List Nat := s.dropWhile kWhitespace

/-- The helper `rtrim`: drops the trailing whitespace. -/
def rtrim (s : List Nat) : List Nat := (s.reverse.dropWhile kWhitespace).reverse

/-- The bytes `",*,*,*\n"`. -/
def wildcardNl : List Nat := [44, 42, 44, 42, 44, 42, 10]

/-- The bytes `",*,*,*"`. -/
def wildcard : List Nat := [44, 42, 44, 42, 44, 42]

/-- The bytes `"EOS\n"`. -/
def eosNl : List Nat := [69, 79, 83, 10]

/-- The bytes `std::string (&fs[off], len)`. -/
def substr (fs : List Nat) (off len : Nat) : List Nat := (fs.drop off).take len

/-- Replaces the feature of `toks.back ()`. -/
def setBackFeature (toks : List PyToken) (f : List Nat) : List PyToken :=
  match toks.reverse with
  | [] => []
  | t :: ts => (({ t with feature := f }) :: ts).reverse

/-- Appends to the surface of `toks.back ()`. -/
def appendBackSurface (toks : List PyToken) (s : List Nat) : List PyToken :=
  match toks.reverse with
  | [] => []
  | t :: ts => (({ t with surface := t.surface ++ s }) :: ts).reverse

/-- Variables of the loop of `tokenize_line` that live across iterations; `p` is
the offset of the cursor from the start of the line, `res` the bytes written
through `_ptr`. -/
structure LoopState where
  p : Int
  bytes_prev : Int
  ctype_prev : Int
  offsets : Nat
  bos : Bool
  concat : Bool
  toks : List PyToken
  res : List Nat
deriving DecidableEq, Repr

/-- The field `id = r & 0xfffff`. -/
def payload_id (r : Int) : Int := andI32 r 0xfffff

/-- The field `bytes = (r >> 23) ? (r >> 23) : u8_len (p)`. -/
def payload_bytes (r : Int) (view : List Nat) : Int :=
  if r >>> (23 : Nat) ≠ 0 then r >>> (23 : Nat) else (u8_len view : Int)

/-- The field `ctype = (r >> 20) & 0x7`. -/
def payload_ctype (r : Int) : Int := andI32 (r >>> (20 : Nat)) 0x7

/-- The test that starts a new token after the first piece. -/
def boundary (ctype_prev bytes_prev ctype bytes : Int) : Bool :=
  decide (ctype_prev ≠ ctype) || decide (ctype_prev = 3) ||
    (decide (ctype_prev = 2) && decide (bytes_prev + bytes ≥ 18))

/-- The field `offsets & 0x3fff` of a pattern-to-feature record: the context
passed to the matcher. -/
def rec_ctx (offsets : Nat) : Nat := offsets &&& 0x3fff

/-- The field `(offsets >> MAX_KEY_BITS) & 0x7f`: the length of the POS part of
the feature. -/
def rec_surface_len (offsets : Nat) : Nat := (offsets >>> 14) &&& 0x7f

/-- The field `(offsets >> (MAX_KEY_BITS + MAX_FEATURE_BITS)) & 0x3ff`: the
length of the full feature. -/
def rec_full_len (offsets : Nat) : Nat := (offsets >>> (14 + 7)) &&& 0x3ff

/-- The field `offsets >> 34`: the offset of the feature in `fs`. -/
def rec_feat_offset (offsets : Nat) : Nat := offsets >>> 34

/-- The feature of the token that ends, as written to `_res` (first component)
and as stored in the token (second component). -/
def flush (fs : List Nat) (offsets : Nat) (concat : Bool) : List Nat × List Nat :=
  if concat then
    let s := substr fs (rec_feat_offset offsets) (rec_surface_len offsets)
    (s ++ wildcardNl, ltrim s ++ wildcard)
  else
    let s := substr fs (rec_feat_offset offsets) (rec_full_len offsets)
    (s, ltrim (rtrim s))

/-- The arguments `(key, fi_prev)` of the matcher call
`da.longestPrefixSearchWithPOS (p, p_end, offsets & 0x3fff, &c2i[0])` of the
iteration that starts in `st`; the key is the byte range `[p, p_end)`. -/
def matcherArgs (line : List Nat) (p_end : Nat) (st : LoopState) : List Nat × Nat :=
  ((line.take p_end).drop st.p.toNat, rec_ctx st.offsets)

/-- The tokens after a piece with surface `surface`: appended to the last token
when `concat` is set, a new token otherwise. -/
def putSurface (toks : List PyToken) (concat : Bool) (surface : List Nat) : List PyToken :=
  if concat then appendBackSurface toks surface
  else toks ++ [{ surface := surface, feature := [] }]

/-- The part of the loop body before the surface is written: the first piece
clears `bos`; a later piece either ends the previous token (its feature is
written and `concat` is cleared) or sets `concat`. -/
def decide_boundary (t : tagger) (st : LoopState) (ctype bytes : Int) : LoopState :=
  if st.bos then { st with bos := false }
  else if boundary st.ctype_prev st.bytes_prev ctype bytes then
    let f := flush t.fs st.offsets st.concat
    { st with res := st.res ++ f.1, toks := setBackFeature st.toks f.2, concat := false }
  else { st with concat := true }

/-- The loop body and increment of `tokenize_line` once the matcher has returned
the payload `r` for the key `key`. A negative `bytes` makes the copy of the
surface undefined (`none`). -/
def stepWith (t : tagger) (line : List Nat) (st : LoopState) (key : List Nat) (r : Int) :
    Option LoopState :=
  let id := payload_id r
  let bytes := payload_bytes r key
  let ctype := payload_ctype r
  if bytes < 0 then none
  else
    let surface := (line.drop st.p.toNat).take bytes.toNat
    let st1 := decide_boundary t st ctype bytes
    some { st1 with
      res := st1.res ++ surface, toks := putSurface st1.toks st1.concat surface,
      bytes_prev := bytes, ctype_prev := ctype,
      offsets := t.p2f.getD id.toNat 0, p := st.p + bytes }

/-- One iteration of the loop of `tokenize_line` (matcher call, body and
increment) at a cursor inside the line. -/
def step (fuel : Nat) (t : tagger) (line : List Nat) (p_end : Nat) (st : LoopState) :
    Option LoopState :=
  let a := matcherArgs line p_end st
  match longestPrefixSearchWithPOS fuel t.da a.1 a.2 t.c2i 0 with
  | none => none
  | some r => stepWith t line st a.1 r

/-- The loop `for (p = line; p != p_end; ...)` of `tokenize_line`; `k` bounds the
number of iterations. A cursor outside `[line, p_end]` makes the next read
undefined (`none`). -/
def loop (fuel : Nat) (t : tagger) (line : List Nat) (p_end : Nat) :
    Nat → LoopState → Option LoopState
  | 0, _ => none
  | k + 1, st =>
    if st.p = p_end then some st
    else if st.p < 0 ∨ (p_end : Int) < st.p then none
    else
      match step fuel t line p_end st with
      | none => none
      | some st1 => loop fuel t line p_end k st1

/-- The flag `ret (line[len - 1] == '\n')`. -/
def ret (line : List Nat) : Nat := if line.getLast? = some 10 then 1 else 0

/-- The state before the first iteration: `offsets = c2i[CP_MAX + 1]`. -/
def init (t : tagger) : LoopState :=
  { p := 0, bytes_prev := 0, ctype_prev := 0, offsets := t.c2i (CP_MAX + 1),
    bos := true, concat := false, toks := [], res := [] }

/-- The part of `tokenize_line` after the loop: the feature of the last token
and `"EOS\n"`. -/
def finish (t : tagger) (st : LoopState) : LoopState :=
  let st1 : LoopState :=
    if st.bos then st
    else
      let f := flush t.fs st.offsets st.concat
      { st with res := st.res ++ f.1, toks := setBackFeature st.toks f.2 }
  { st1 with res := st1.res ++ eosNl }

/-- The final state of `jagger::tagger::tokenize_line (addr, len)`; `line` is the
byte range `[addr, addr + len)`. -/
def tokenize_line_state (fuel : Nat) (t : tagger) (line : List Nat) : Option LoopState :=
  match loop fuel t line (line.length - ret line) fuel (init t) with
  | none => none
  | some st => some (finish t st)

/-- The tokens returned by `jagger::tagger::tokenize_line (addr, len)`. -/
def tokenize_line (fuel : Nat) (t : tagger) (line : List Nat) : Option (List PyToken) :=
  match tokenize_line_state fuel t line with
  | none => none
  | some st => some st.toks

/-- The method `jagger::tagger::tokenize (str)`. -/
def tokenize (fuel : Nat) (t : tagger) (str : List Nat) : Option (List PyToken) :=
  if str = [] then some [] else tokenize_line fuel t str

/-! ## Codecs of `read_model` -/

/-- The 64-bit value `read_model` keeps with a pattern key:
`(((bytes << 23) | ((ctype & 0x7) << 20) | (pid & 0xfffff)) << 12) | fi_prev`,
computed on `size_t`. -/
def keyValue (bytes ctype pid fi_prev : Nat) : Nat :=
  ((((bytes <<< 23) % 2 ^ 64 ||| ((ctype &&& 0x7) <<< 20) ||| (pid &&& 0xfffff)) <<< 12)
    % 2 ^ 64) ||| fi_prev

/-- The payload stored in the trie: `da.update (...) = it->second >> 12`, the
conversion of the 64-bit value to `int`. -/
def storedPayload (e : Nat) : Int := toI32 (e >>> 12)

/-- The 64-bit pattern-to-feature record built by `read_model`:
`(offset << 34) | (size << (MAX_KEY_BITS + MAX_FEATURE_BITS)) |
(q - f) << MAX_KEY_BITS | c2i_[...]`. -/
def p2fRecord (feat_offset full_feat_len surface_feat_len ctx_sid : Nat) : Nat :=
  (feat_offset <<< 34) % 2 ^ 64 ||| (full_feat_len <<< (14 + 7)) % 2 ^ 64 |||
    (surface_feat_len <<< 14) % 2 ^ 64 ||| ctx_sid

/-- A trie holding the key `[1]` with payload `v`, and below it the key `[1, 2]`
with payload `w`. -/
def smallTrie (v w : Int) : List node :=
  [⟨1, -1⟩, ⟨0, -1⟩, ⟨3, 0⟩, ⟨v, 2⟩, ⟨0, -1⟩, ⟨6, 2⟩, ⟨w, 5⟩]

/-! ## Compilation of the symbol map by `read_model` -/

/-- Modelled from the spec: the string interner `sbag_t` of `jagger.h` (the
header is not among the sources). Section 4.3: an append-only set of byte
strings with stable ids, given in order of first insertion. -/
structure sbag_t where
  strs : List (List Nat)
deriving DecidableEq, Repr

/-- Modelled from the spec: `sbag_t::to_i (s)`: the id of `s`, which is inserted
when it is new; duplicates collapse. -/
def sbag_t.to_i (bag : sbag_t) (str : List Nat) : Nat × sbag_t :=
  if str ∈ bag.strs then (bag.strs.indexOf str, bag)
  else (bag.strs.length, { strs := bag.strs ++ [str] })

/-- One line of the pattern file, as its fields
`COUNT PATTERN PREV_POS BYTES CHAR_TYPE FEATURES`: `f_prev` is the context with
its leading tab and is empty when the line has no context, `f_pos` is the part of
the features before the `NUM_POS_FIELD`-th comma (with the leading tab), `f` the
full features (leading tab to end of line). -/
structure patternLine where
  count : Nat
  pat : List Nat
  f_prev : List Nat
  bytes : Nat
  ctype : Nat
  f_pos : List Nat
  f : List Nat
deriving DecidableEq, Repr

/-- The statement `counter[idx].first += w` on the counts that are not zero;
`counter` lists `(index, count)`, a missing index counts 0, and the count is a
`size_t`. -/
def bump (counter : List (Nat × Nat)) (idx w : Nat) : List (Nat × Nat) :=
  match counter with
  | [] => [(idx, w % 2 ^ 64)]
  | (i, c) :: rest =>
    if i = idx then (i, (c + w) % 2 ^ 64) :: rest else (i, c) :: bump rest idx w

/-- The state of the first loop of `read_model` that decides the symbol map: the
interner `fbag`, the length of `counter` and its counts. -/
structure counterState where
  fbag : sbag_t
  size : Nat
  counter : List (Nat × Nat)
deriving DecidableEq, Repr

/-- The state before the first pattern line: `fbag ("\tBOS")` and
`counter (CP_MAX + 3)`. -/
def counterInit : counterState :=
  { fbag := { strs := [[9, 66, 79, 83]] }, size := CP_MAX + 3, counter := [] }

/-- The effect of one pattern line on `counter`: every character of the pattern
and the context, if there is one, get `count + 1`; a new entry is pushed when an
id of `fbag` reaches the length of `counter`. -/
def countLine (cs : counterState) (l : patternLine) : counterState :=
  let c1 := (codepoints l.pat).foldl (fun c cp => bump c cp (l.count + 1)) cs.counter
  let cs1 : counterState :=
    if l.f_prev = [] then { cs with counter := c1 }
    else
      let r := cs.fbag.to_i l.f_prev
      let fi_prev := r.1 + 1
      let size := if fi_prev + CP_MAX = cs.size then cs.size + 1 else cs.size
      { fbag := r.2, size := size, counter := bump c1 (fi_prev + CP_MAX) (l.count + 1) }
  let r := cs1.fbag.to_i l.f_pos
  let fi_ := r.1 + 1
  { cs1 with fbag := r.2, size := if fi_ + CP_MAX = cs1.size then cs1.size + 1 else cs1.size }

/-- The order of `std::greater <std::pair <size_t, int> >` on `(count, index)`,
for entries listed as `(index, count)`. -/
def greaterEntry (a b : Nat × Nat) : Prop := a.2 > b.2 ∨ (a.2 = b.2 ∧ a.1 > b.1)

instance : DecidableRel greaterEntry := fun a b => by unfold greaterEntry; infer_instance

/-- The entries of `counter` from position 1 on whose count is not zero, in the
order `std::sort (counter.begin () + 1, counter.end (), greater)` leaves them
in: they come before every entry whose count is zero. -/
def rankedEntries (counter : List (Nat × Nat)) : List (Nat × Nat) :=
  (counter.filter (fun e => decide (1 ≤ e.1) && decide (e.2 ≠ 0))).insertionSort greaterEntry

/-- The map `c2i_` after
`for (i = 1; i < counter.size () && counter[i].first; ++i)
   c2i_[counter[i].second] = static_cast <uint16_t> (i)`:
the rank of the entry of `x`, and 0 for a symbol without one. -/
def c2iOfCounter (counter : List (Nat × Nat)) (x : Nat) : Nat :=
  match (rankedEntries counter).findIdx? (fun e => e.1 == x) with
  | some i => (i + 1) % 2 ^ 16
  | none => 0

/-- The symbol map `c2i_` that `read_model` compiles from the lines of a pattern
file, with the entries of the contexts. -/
def compile_c2i (lines : List patternLine) : Nat → Nat :=
  c2iOfCounter (lines.foldl countLine counterInit).counter

/-- The persisted symbol map: `c2i_.resize (CP_MAX + 2)` keeps the entries of the
code points and of BOS. -/
def persisted_c2i (lines : List patternLine) (x : Nat) : Nat :=
  if x < CP_MAX + 2 then compile_c2i lines x else 0

/-! ## Compilation of the model by `read_model` -/

/-- The number of comma-separated fields of the POS part of a feature,
`#define NUM_POS_FIELD 4`. -/
def NUM_POS_FIELD : Nat := 4

/-- Modelled from the spec: the helper `skip_to (p, n, c)` of `jagger.h` (the
header is not among the sources), through its uses in `read_model`: the offset
from `p` of the byte after the `n`-th occurrence of `c`, so that
`skip_to (f, NUM_POS_FIELD, ',') - 1 - f` is the length of the short POS-prefix
feature of the data model. A string with fewer occurrences has no such offset;
its length stands for it. -/
def skip_to : List Nat → Nat → Nat → Nat
  | [], _, _ => 0
  | x :: rest, n, c =>
    if n = 0 then 0 else 1 + skip_to rest (if x = c then n - 1 else n) c

/-- Modelled from the spec: `sbag_t::to_s (id)` of `jagger.h` (the header is not
among the sources). Section 4.3: the string with the given id. -/
def sbag_t.to_s (bag : sbag_t) (id : Nat) : List Nat := bag.strs.getD id []

/-- Modelled from the spec: `sbag_t::serialize (ret, offsets)` of `jagger.h`
(the header is not among the sources). Section 4.3: all strings concatenated
into the feature blob, and the starting offset of each string. -/
def sbag_t.serialize (bag : sbag_t) : List Nat × List Nat :=
  (bag.strs.flatten, (List.range bag.strs.length).map (fun i => (bag.strs.take i).flatten.length))

/-- The ids `read_model` computes for one pattern line, with the fields of the
line that enter the trie: `fi_prev` (0 without context), `fi_`, `fi`, and the
pattern id `itb.first->second`. -/
structure lineIds where
  pat : List Nat
  bytes : Nat
  ctype : Nat
  fi_prev : Nat
  fi_ : Nat
  fi : Nat
  pid : Nat
deriving DecidableEq, Repr

/-- The state of the first loop of `read_model`: the state that decides the
symbol map, the interner `fbag_` of the full features, the vector `p2f_` (the
map `fs2pid` sends each of its entries to its position), and the ids of the
lines read so far. -/
structure compileState where
  cs : counterState
  fbag_ : sbag_t
  p2f_ : List Nat
  ids : List lineIds
deriving DecidableEq, Repr

/-- The state before the first pattern line: `fbag_ (FEAT_UNK + ",*,*,*\n")` and
`p2f_.push_back ((1ull << 32) | 2)`. The constant `FEAT_UNK` of `jagger.h` (the
header is not among the sources) is a parameter. -/
def compileInit (FEAT_UNK : List Nat) : compileState :=
  { cs := counterInit, fbag_ := { strs := [FEAT_UNK ++ wildcardNl] },
    p2f_ := [(1 <<< 32) ||| 2], ids := [] }

/-- The entry `(fi << 32) | fi_` of `p2f_` and key of `fs2pid`, computed on
`size_t`. -/
def recordKey (fi fi_ : Nat) : Nat := (fi <<< 32) % 2 ^ 64 ||| fi_

/-- The ids `read_model` computes for the pattern line `l` read in the state
`s`: `fi_prev = fbag.to_i (f_prev) + 1` for a line with context,
`fi_ = fbag.to_i (f, p - f) + 1`, `fi = fbag_.to_i (p, p_end - p) + 1`, and the
pattern id that `fs2pid.insert (make_pair ((fi << 32) | fi_, fs2pid.size ()))`
yields: the position of the entry in `p2f_`, the next position when it is
new. -/
def lineIdsOf (s : compileState) (l : patternLine) : lineIds :=
  let r1 := s.cs.fbag.to_i l.f_prev
  let fi_prev := if l.f_prev = [] then 0 else r1.1 + 1
  let fbag1 := if l.f_prev = [] then s.cs.fbag else r1.2
  let fi_ := (fbag1.to_i l.f_pos).1 + 1
  let fi := (s.fbag_.to_i l.f).1 + 1
  { pat := l.pat, bytes := l.bytes, ctype := l.ctype, fi_prev := fi_prev, fi_ := fi_, fi := fi,
    pid := if recordKey fi fi_ ∈ s.p2f_ then s.p2f_.indexOf (recordKey fi fi_)
           else s.p2f_.length }

/-- The effect of one pattern line on the first loop of `read_model`: the
counts and `fbag` change as in `countLine`, the full feature is interned in
`fbag_`, the entry `(fi << 32) | fi_` is pushed on `p2f_` when it is new, and
the ids of the line are kept for `keys`. -/
def compileLine (s : compileState) (l : patternLine) : compileState :=
  let e := lineIdsOf s l
  { cs := countLine s.cs l, fbag_ := (s.fbag_.to_i l.f).2,
    p2f_ := if recordKey e.fi e.fi_ ∈ s.p2f_ then s.p2f_ else s.p2f_ ++ [recordKey e.fi e.fi_],
    ids := s.ids ++ [e] }

/-- The state after the first loop of `read_model` over the lines of a pattern
file. -/
def compileLines (FEAT_UNK : List Nat) (lines : List patternLine) : compileState :=
  lines.foldl compileLine (compileInit FEAT_UNK)

/-- The entry `it->second` of `keys` for a line:
`(((bytes << 23) | ((ctype & 0x7) << 20) | (pid & 0xfffff)) << 12) | fi_prev`. -/
def lineIds.value (e : lineIds) : Nat := keyValue e.bytes e.ctype e.pid e.fi_prev

/-- The record that replaces the entry `e` of `p2f_`:
`(offsets[(e >> 32) - 1] << 34) | (f.size () << 21) | (q - f.c_str ()) << 14 |
c2i_[(e & 0xffffffff) + CP_MAX]` with `f = fbag_.to_s ((e >> 32) - 1)` and
`q = skip_to (f.c_str (), NUM_POS_FIELD, ',') - 1`. -/
def finalRecord (c2i_ : Nat → Nat) (fbag_ : sbag_t) (e : Nat) : Nat :=
  let f := fbag_.to_s ((e >>> 32) - 1)
  p2fRecord (fbag_.serialize.2.getD ((e >>> 32) - 1) 0) f.length
    (skip_to f NUM_POS_FIELD 44 - 1) (c2i_ ((e &&& 0xffffffff) + CP_MAX))

/-- The key of the trie for an entry of `keys`: the `c2i_`-mapped code points of
the pattern, followed by `c2i_[(it->second & 0xfff) + CP_MAX]` when
`it->second & 0xfff` is not zero. -/
def trieKey (c2i_ : Nat → Nat) (pat : List Nat) (value : Nat) : List Nat :=
  (codepoints pat).map c2i_ ++
    (if value &&& 0xfff ≠ 0 then [c2i_ ((value &&& 0xfff) + CP_MAX)] else [])

/-- What `read_model` compiles: the symbol map `c2i_` before it is cut, the
feature blob, the pattern-to-feature records, and the statements
`da.update (&key[0], key.size ()) = it->second >> 12` as pairs of key and stored
value, in order. -/
structure compiled where
  c2i_ : Nat → Nat
  fs_ : List Nat
  p2f : List Nat
  updates : List (List Nat × Int)

/-- The compilation of a pattern file by `read_model`. -/
def read_model (FEAT_UNK : List Nat) (lines : List patternLine) : compiled :=
  let s := compileLines FEAT_UNK lines
  let c2i_ := c2iOfCounter s.cs.counter
  { c2i_ := c2i_, fs_ := s.fbag_.serialize.1,
    p2f := s.p2f_.map (finalRecord c2i_ s.fbag_),
    updates := s.ids.map (fun e => (trieKey c2i_ e.pat e.value, storedPayload e.value)) }

/-- The count `counter[x].first` after the first loop of `read_model`. -/
def countOf (counter : List (Nat × Nat)) (x : Nat) : Nat :=
  match counter.find? (fun e => e.1 == x) with
  | some e => e.2
  | none => 0

/-- The number of symbols other than the code point 0 whose count is not zero
after the first loop of `read_model`. -/
def symbolCount (counter : List (Nat × Nat)) : Nat :=
  (counter.filter (fun e => decide (1 ≤ e.1) && decide (e.2 ≠ 0))).length

/-- The counts `counter` holds after the first loop of `read_model` over the
lines of a pattern file. -/
def counterOf (lines : List patternLine) : List (Nat × Nat) :=
  (lines.foldl countLine counterInit).counter

/-- The invariant of the first loop of `read_model` on the pattern ids: the id
kept for a line is a position of `p2f_`, and the entry at that position is the
entry `(fi << 32) | fi_` of the line. -/
def pidInv (s : compileState) : Prop :=
  ∀ e ∈ s.ids, e.pid < s.p2f_.length ∧ s.p2f_.getD e.pid 0 = recordKey e.fi e.fi_

/-- The method `std::vector::resize (n)` on a vector of numbers: the first `n`
entries, filled up with 0. -/
def resize (v : List Nat) (n : Nat) : List Nat := v.take n ++ List.replicate (n - v.length) 0

/-- The vector `c2i_` after `c2i_.resize (counter.size ())` and the loop that
stores the ranks: one entry for every index below the length of `counter`. -/
def c2iVector (lines : List patternLine) : List Nat :=
  (List.range (lines.foldl countLine counterInit).size).map (compile_c2i lines)

/-- The vector `c2i_` that is written to disk, after `c2i_.resize (CP_MAX + 2)`. -/
def persistedVector (lines : List patternLine) : List Nat :=
  resize (c2iVector lines) (CP_MAX + 2)

/-- The length of `counter` after `if (fi + CP_MAX == counter.size ())
counter.push_back (...)`. -/
def pushSize (size fi : Nat) : Nat := if fi + CP_MAX = size then size + 1 else size

/-- The invariant of the first loop of `read_model` on the length of `counter`:
`CP_MAX + 1 + max (2, number of strings of fbag)`. -/
def sizeInv (cs : counterState) : Prop :=
  1 ≤ cs.fbag.strs.length ∧ cs.size = CP_MAX + 1 + max 2 cs.fbag.strs.length

/-! ## The pruning step of the trainer -/

/-- The vector `s2c` of the pruning step of `train_jagger.cc` after
`s2c[jt->second.first] += jt->second.second` for every entry of `fi2sc`; an
entry is `(fi, s, c)`: the feature, the byte length recorded with it and its
count, and the entries come in the order of the map, by `fi`. -/
def s2c (fi2sc : List (Nat × Nat × Nat)) (max_plen : Nat) : List Nat :=
  fi2sc.foldl (fun v e => v.set e.2.1 (v.getD e.2.1 0 + e.2.2)) (List.replicate (max_plen + 1) 0)

/-- The variable `count` of the pruning step after the same loop: the sum of
the counts. -/
def totalCount (fi2sc : List (Nat × Nat × Nat)) : Nat :=
  fi2sc.foldl (fun n e => n + e.2.2) 0

/-- The loop `if (*it >= max_count) max_count = *it, bytes = distance (...)`
over the entries of `s2c` from the index `i` on; the state is
`(max_count, bytes)`. -/
def selectBytesFrom : List Nat → Nat → Nat × Nat → Nat × Nat
  | [], _, acc => acc
  | x :: rest, i, acc => selectBytesFrom rest (i + 1) (if x ≥ acc.1 then (x, i) else acc)

/-- The byte length the pruning step selects: `bytes` after the loop over `s2c`,
from `max_count = 0` and `bytes = p.size ()`. -/
def selectBytes (fi2sc : List (Nat × Nat × Nat)) (max_plen size : Nat) : Nat :=
  (selectBytesFrom (s2c fi2sc max_plen) 0 (0, size)).2

/-- The loop `if (jt->second.first == bytes && jt->second.second > max_sfc)
fi = jt->first, max_sfc = jt->second.second` over `fi2sc`; the state is
`(max_sfc, fi)`. -/
def selectFeatureFrom (bytes : Nat) : List (Nat × Nat × Nat) → Nat × Nat → Nat × Nat
  | [], acc => acc
  | e :: rest, acc =>
    selectFeatureFrom bytes rest (if e.2.1 = bytes ∧ e.2.2 > acc.1 then (e.2.2, e.1) else acc)

/-- The feature the pruning step selects for the byte length `bytes`: `fi` after
the loop, from `max_sfc = 0` and `fi = max_fi`. -/
def selectFeature (fi2sc : List (Nat × Nat × Nat)) (bytes max_fi : Nat) : Nat :=
  (selectFeatureFrom bytes fi2sc (0, max_fi)).2

/-- The sum of the counts of the features recorded with the byte length `s`. -/
def supportOfLength (fi2sc : List (Nat × Nat × Nat)) (s : Nat) : Nat :=
  ((fi2sc.filter (fun e => e.2.1 = s)).map (fun e => e.2.2)).sum

/-- The pair `(length, feature)` with the maximum count among the entries, the
longer length on ties (the first entry in the order of the map among those that
remain). -/
def bestPair : List (Nat × Nat × Nat) → Option (Nat × Nat × Nat)
  | [] => none
  | e :: rest =>
    match bestPair rest with
    | none => some e
    | some b => if b.2.2 > e.2.2 ∨ (b.2.2 = e.2.2 ∧ b.2.1 > e.2.1) then some b else some e

/-- The order of `std::string`: lexicographic on the bytes, a proper prefix
first. -/
def strLt : List Nat → List Nat → Bool
  | _, [] => false
  | [], _ :: _ => true
  | a :: as, b :: bs => decide (a < b) || (decide (a = b) && strLt as bs)

/-- A pattern candidate of the trainer: its string `pbag_.to_s (pi)`, its id
`pi`, the entries `(fi, s, c)` of `pi2fi2sc[pi]` (empty for a pattern not seen in
the corpus) and the entries `(fi_, fi)` of `si2fi2fi[pi]` (empty when `pi` is not
below `si2fi2fi.size ()`: the map of a word of the dictionary has an entry). -/
structure candidate where
  p : List Nat
  pi : Nat
  fi2sc : List (Nat × Nat × Nat)
  fi2fi : List (Nat × Nat)
deriving DecidableEq, Repr

/-- The order of the pairs `(pbag_.to_s (i), i)` in `pis`. -/
def pisLt (a b : candidate) : Prop := strLt a.p b.p = true ∨ (a.p = b.p ∧ a.pi < b.pi)

instance : DecidableRel pisLt := fun a b => by unfold pisLt; infer_instance

/-- The vector `pis` after `std::sort (pis.begin (), pis.end ())`. -/
def sortPis (cands : List candidate) : List candidate := cands.insertionSort pisLt

/-- The loop that chooses `fi_` for a word of the dictionary not seen in the
corpus: `if (fi2c[jt->first] > max_fic || (fi2c[jt->first] == max_fic))
fi_ = jt->first, max_fic = fi2c[fi_]`; the state is `(max_fic, fi_)`. -/
def seedFeatureFrom (fi2c : List Nat) : List (Nat × Nat) → Nat × Nat → Nat × Nat
  | [], acc => acc
  | e :: rest, acc =>
    seedFeatureFrom fi2c rest
      (if fi2c.getD e.1 0 > acc.1 ∨ fi2c.getD e.1 0 = acc.1 then (fi2c.getD e.1 0, e.1) else acc)

/-- The feature of a pattern not seen in the corpus: `max_fi`, or for a word of
the dictionary `fi2fi.find (fi_)->second`. -/
def seedFeature (fi2c : List Nat) (fi2fi : List (Nat × Nat)) (max_fi : Nat) : Nat :=
  match fi2fi with
  | [] => max_fi
  | e :: rest =>
    match (e :: rest).find? (fun x => x.1 == (seedFeatureFrom fi2c rest (fi2c.getD e.1 0, e.1)).2) with
    | some x => x.2
    | none => max_fi

/-- The variables the pruning loop builds: `counter`, the map `pi2sf` as its
entries `(pi, bytes, fi)` and the trie `patterns` as its keys with their
values. -/
structure pruneState where
  counter : List (Nat × Int)
  pi2sf : List (Nat × Nat × Nat)
  patterns : List (List Nat × Nat)
deriving DecidableEq, Repr

/-- The read `pi2sf[pi]`: the pair recorded for `pi`, a new `(0, 0)` when there
is none. -/
def pi2sfAt (pi2sf : List (Nat × Nat × Nat)) (pi : Nat) : Nat × Nat :=
  match pi2sf.find? (fun e => e.1 == pi) with
  | some e => e.2
  | none => (0, 0)

/-- The call `pi2sf.insert (std::make_pair (pi, sf))`: a key that is present
keeps its pair. -/
def pi2sfInsert (pi2sf : List (Nat × Nat × Nat)) (pi : Nat) (sf : Nat × Nat) :
    List (Nat × Nat × Nat) :=
  if (pi2sf.find? (fun e => e.1 == pi)).isSome then pi2sf else pi2sf ++ [(pi, sf)]

/-- Modelled from the spec: `update (key, len) = value` of `ccedar::da` (the trie
header is not among the sources), on the keys of the trie with their values:
the key gets the value, a key that is present is overwritten. -/
def patternsUpdate (patterns : List (List Nat × Nat)) (key : List Nat) (value : Nat) :
    List (List Nat × Nat) :=
  patterns.filter (fun kv => kv.1 ≠ key) ++ [(key, value)]

/-- Modelled from the spec: `commonPrefixSearch (key, result, result_len, len)`
of `ccedar::da` (the trie header is not among the sources). Section 4.8 uses it
to find the shorter prefixes of a candidate that are already present: the
values of the keys that are prefixes of `key` of 1 to `len` bytes, by
increasing length. The result array is taken to hold all of them. -/
def commonPrefixSearch (patterns : List (List Nat × Nat)) (key : List Nat) : List Nat :=
  (List.range key.length).filterMap (fun k =>
    (patterns.find? (fun kv => kv.1 == key.take (k + 1))).map (fun kv => kv.2))

/-- The test `num > 0 && std::make_pair (bytes, fi) == pi2sf[result[num - 1]]`
of the pruning loop. -/
def dropTest (st : pruneState) (p : List Nat) (bytes fi : Nat) : Bool :=
  match (commonPrefixSearch st.patterns p).getLast? with
  | none => false
  | some v => decide ((bytes, fi) = pi2sfAt st.pi2sf v)

/-- The end of the body of the pruning loop for a pattern that is kept: the
entry `(count, -i)` of `counter`, the pair of `pi2sf` and the key of
`patterns`. -/
def retain (st : pruneState) (i : Nat) (c : candidate) (bytes fi count : Nat) : pruneState :=
  { counter := st.counter ++ [(count, -(i : Int))],
    pi2sf := pi2sfInsert st.pi2sf c.pi (bytes, fi),
    patterns := patternsUpdate st.patterns c.p c.pi }

/-- The body of the pruning loop for `pis[i]`. -/
def pruneStep (fi2c : List Nat) (max_plen max_fi : Nat) (st : pruneState) (i : Nat)
    (c : candidate) : pruneState :=
  if c.fi2sc = [] then retain st i c c.p.length (seedFeature fi2c c.fi2fi max_fi) 0
  else
    let bytes := selectBytes c.fi2sc max_plen c.p.length
    let fi := selectFeature c.fi2sc bytes max_fi
    if dropTest st c.p bytes fi then st
    else retain st i c bytes fi (totalCount c.fi2sc)

/-- The pruning loop from the index `i` on. -/
def pruneFrom (fi2c : List Nat) (max_plen max_fi : Nat) :
    List candidate → Nat → pruneState → pruneState
  | [], _, st => st
  | c :: rest, i, st => pruneFrom fi2c max_plen max_fi rest (i + 1) (pruneStep fi2c max_plen max_fi st i c)

/-- The pruning step of the trainer: the loop over the sorted `pis`, from empty
`counter`, `pi2sf` and `patterns`. -/
def prune (fi2c : List Nat) (max_plen max_fi : Nat) (cands : List candidate) : pruneState :=
  pruneFrom fi2c max_plen max_fi (sortPis cands) 0 { counter := [], pi2sf := [], patterns := [] }

/-- The order of the pairs of `counter`, `(count, -i)`. -/
def counterLt (a b : Nat × Int) : Prop := a.1 < b.1 ∨ (a.1 = b.1 ∧ a.2 < b.2)

instance : DecidableRel counterLt := fun a b => by unfold counterLt; infer_instance

/-- The vector `counter` after `std::sort (counter.rbegin (), counter.rend ())`:
in descending order. -/
def sortCounter (counter : List (Nat × Int)) : List (Nat × Int) :=
  counter.insertionSort (fun a b => counterLt b a)

/-- The lines the trainer writes, each as its count, its pattern
`pbag_.to_s (pis[-it->second].second)` and the pair `pi2sf[pi]`. -/
def emitted (fi2c : List Nat) (max_plen max_fi : Nat) (cands : List candidate) :
    List (Nat × List Nat × Nat × Nat) :=
  (sortCounter (prune fi2c max_plen max_fi cands).counter).map (fun e =>
    match (sortPis cands).get? (-e.2).toNat with
    | some c => (e.1, c.p, pi2sfAt (prune fi2c max_plen max_fi cands).pi2sf c.pi)
    | none => (e.1, [], (0, 0)))

/-! ## The seeds of the trainer -/

/-- The flag `quoted` of the loop that reads the lexicon: `*p++ == '"'`. -/
def seedQuoted (row : List Nat) : Bool := row.head? == some 34

/-- The scan `while (*p != '"') ++p`: the number of bytes before the first
double quote; a string without one is left at its end. -/
def scanQuote : List Nat → Nat
  | [] => 0
  | x :: rest => if x = 34 then 0 else 1 + scanQuote rest

/-- The offset of `p` in the row after `p = skip_to (p, 1, ',')`: the scan
starts at offset 1, for a quoted row at the next double quote. -/
def seedEnd (row : List Nat) : Nat :=
  let p := if seedQuoted row then 1 + scanQuote (row.drop 1) else 1
  p + skip_to (row.drop p) 1 44

/-- The length `p - seed - (quoted ? 3 : 1)` of the seed. -/
def seedLen (row : List Nat) : Nat := seedEnd row - (if seedQuoted row then 3 else 1)

/-- The bytes interned as the seed of a row of the lexicon:
`pbag_.to_i (quoted ? seed + 1 : seed, p - seed - (quoted ? 3 : 1))`. -/
def seedSurface (row : List Nat) : List Nat :=
  substr row (if seedQuoted row then 1 else 0) (seedLen row)

/-- The value of `max_plen` after the rows of the lexicon. -/
def seedMaxPlen (rows : List (List Nat)) : Nat :=
  rows.foldl (fun m row => max (seedLen row) m) 0

/-- The first field of a row, read as the bytes before the first comma. -/
def firstField (row : List Nat) : List Nat := row.takeWhile (fun x => x ≠ 44)

/-! ## The line splitter of the binding -/

/-- The byte `p[i]` of `src.c_str ()`: a byte of `src`, or the terminating NUL
at the index `src.size ()`. -/
def byteAt (p : List Nat) (i : Nat) : Nat := p.getD i 0

/-- The test `is_line_ending (p, i, end_i)`. -/
def is_line_ending (p : List Nat) (i end_i : Nat) : Bool :=
  if byteAt p i = 0 then true
  else if byteAt p i = 10 then true
  else if byteAt p i = 13 then decide (i + 1 < end_i) && decide (byteAt p (i + 1) ≠ 10)
  else false

/-- A line of the source: `LineInfo` with its offset and length. -/
structure LineInfo where
  pos : Nat
  len : Nat
deriving DecidableEq, Repr

/-- The lines after `info.pos = prev_pos; info.len = i - prev_pos;
if (info.len > 0) line_infos[t].push_back (info)`. -/
def pushLine (acc : List LineInfo) (prev_pos i : Nat) : List LineInfo :=
  if i - prev_pos > 0 then acc ++ [⟨prev_pos, i - prev_pos⟩] else acc

/-- The loop `for (i = start_idx; i < end_idx; i++)` of a worker of
`split_lines`, for `n` indices from `i` on; the state is `new_line_found`,
`prev_pos` and the lines of the worker. -/
def chunkLoop (buffer : List Nat) (end_idx : Nat) :
    Nat → Nat → Bool × Nat × List LineInfo → Bool × Nat × List LineInfo
  | 0, _, st => st
  | n + 1, i, (nlf, prev, acc) =>
    if is_line_ending buffer i end_idx then
      if !nlf then chunkLoop buffer end_idx n (i + 1) (true, i + 1, acc)
      else chunkLoop buffer end_idx n (i + 1) (true, i + 1, pushLine acc prev i)
    else chunkLoop buffer end_idx n (i + 1) (nlf, prev, acc)

/-- The loop `for (i = end_idx; i < buffer_length; i++)` of a worker, which
stops at the first line ending, for `n` indices from `i` on. -/
def tailScan (buffer : List Nat) (buffer_length prev_pos : Nat) :
    Nat → Nat → List LineInfo → List LineInfo
  | 0, _, acc => acc
  | n + 1, i, acc =>
    if is_line_ending buffer i buffer_length then pushLine acc prev_pos i
    else tailScan buffer buffer_length prev_pos n (i + 1) acc

/-- The index `end_idx` of the worker `t`. -/
def chunkEnd (buffer_length num_threads chunk_size t : Nat) : Nat :=
  if t = num_threads - 1 then buffer_length - 1
  else min ((t + 1) * chunk_size) (buffer_length - 1)

/-- The lines `line_infos[t]` the worker `t` of `split_lines` finds. -/
def worker (buffer : List Nat) (num_threads chunk_size t : Nat) : List LineInfo :=
  let end_idx := chunkEnd buffer.length num_threads chunk_size t
  let st := chunkLoop buffer end_idx (end_idx - t * chunk_size) (t * chunk_size)
    (decide (t = 0) || is_line_ending buffer (t * chunk_size - 1) end_idx, t * chunk_size, [])
  if st.1 && decide (byteAt buffer (end_idx - 1) ≠ 10) then
    tailScan buffer buffer.length st.2.1 (buffer.length - end_idx) end_idx st.2.2
  else st.2.2

/-- The constant `kMaxThreads`. -/
def kMaxThreads : Nat := 1024

/-- The number of workers `split_lines` asks for: `req_nthreads`, or the
hardware count `hw` when it is 0, between 1 and `kMaxThreads`. -/
def requested (req_nthreads hw : Nat) : Nat :=
  max 1 (min (if req_nthreads = 0 then hw else req_nthreads) kMaxThreads)

/-- The function `split_lines (src, req_nthreads)`: the lines of each worker, in
the order of the workers. A source of at most one byte makes `end_idx` 0 in the
first worker, which then reads `buffer[end_idx - 1]` before the buffer, or makes
`buffer_length - 1` wrap: the result is undefined (`none`). -/
def split_lines (src : List Nat) (req_nthreads hw : Nat) : Option (List (List LineInfo)) :=
  if src.length ≤ 1 then none
  else if src.length < requested req_nthreads hw then some [worker src 1 src.length 0]
  else
    some ((List.range (requested req_nthreads hw)).map
      (worker src (requested req_nthreads hw) (src.length / requested req_nthreads hw)))

/-- The vector `lines` of `tokenize_batch`: the lines of the workers put
together in the order of the workers. -/
def batchLines (src : List Nat) (req_nthreads hw : Nat) : Option (List LineInfo) :=
  (split_lines src req_nthreads hw).map List.flatten

/-- The non-empty lines of a text from the offset `i` on, `prev` being the start
of the line that is open: the maximal segments between `'\n'` delimiters, a last
line without newline included. -/
def segments : List Nat → Nat → Nat → List LineInfo
  | [], prev, i => if i - prev > 0 then [⟨prev, i - prev⟩] else []
  | x :: rest, prev, i =>
    if x = 10 then
      (if i - prev > 0 then [⟨prev, i - prev⟩] else []) ++ segments rest (i + 1) (i + 1)
    else segments rest prev (i + 1)

/-- The non-empty lines of a text, in order. -/
def nonEmptyLines (src : List Nat) : List LineInfo := segments src 0 0

/-- The bytes of a line of the source. -/
def lineBytes (src : List Nat) (l : LineInfo) : List Nat := substr src l.pos l.len

/-- The lines a single scan of `n` bytes from the offset `i` on records when only
`'\n'` ends a line: `nlf` tells whether the line that is open started inside
the scan, `prev` is its start. A line is recorded at its newline. -/
def scanLines (src : List Nat) : Nat → Nat → Bool → Nat → List LineInfo
  | 0, _, _, _ => []
  | n + 1, i, nlf, prev =>
    if byteAt src i = 10 then
      (if nlf then pushLine [] prev i else []) ++ scanLines src n (i + 1) true (i + 1)
    else scanLines src n (i + 1) nlf prev

/-- The pair `(nlf, prev)` after the scan of `n` bytes from the offset `i`
on. -/
def scanState (src : List Nat) : Nat → Nat → Bool → Nat → Bool × Nat
  | 0, _, nlf, prev => (nlf, prev)
  | n + 1, i, nlf, prev =>
    if byteAt src i = 10 then scanState src n (i + 1) true (i + 1)
    else scanState src n (i + 1) nlf prev

/-- Whether a line starts at the offset `b`: at the start of the text or after a
newline. -/
def lineStart (src : List Nat) (b : Nat) : Bool :=
  decide (b = 0) || decide (byteAt src (b - 1) = 10)

/-! ## The feature parser of the binding -/

/-- The loop of `parse_feature` for `n` iterations from the index `i` on; the
state is `in_quoted_string`, `s_start` and `tokens`. The index advances by
`u8_len (curr_p)`, also after the `continue` of a quote character; the loop
stops at a line ending. -/
def parseLoop (p : List Nat) (delimiter : Nat) (quote_char : List Nat) :
    Nat → Nat → Bool × Nat × List (List Nat) → Bool × Nat × List (List Nat)
  | 0, _, st => st
  | n + 1, i, (q, s_start, tokens) =>
    if i < p.length then
      if is_line_ending p i (p.length - 1) then (q, s_start, tokens)
      else if i + u8_len quote_char < p.length ∧
          (p.drop i).take (u8_len quote_char) = (quote_char ++ [0]).take (u8_len quote_char) then
        parseLoop p delimiter quote_char n (i + u8_len (p.drop i)) (!q, s_start, tokens)
      else if q = false ∧ byteAt p i = delimiter then
        parseLoop p delimiter quote_char n (i + u8_len (p.drop i))
          (q, i + 1, tokens ++ [if s_start < i then substr p s_start (i - s_start) else []])
      else parseLoop p delimiter quote_char n (i + u8_len (p.drop i)) (q, s_start, tokens)
    else (q, s_start, tokens)

/-- The end of `parse_feature`: the remainder `p[s_start, len)` is a token when
`s_start <= len - 1`. -/
def parseRest (p : List Nat) (st : Bool × Nat × List (List Nat)) : List (List Nat) :=
  if st.2.1 ≤ p.length - 1 then st.2.2 ++ [substr p st.2.1 (p.length - st.2.1)] else st.2.2

/-- The function `parse_feature (p, len, delimiter, quote_char)`; every
iteration advances the index, so `len` iterations reach the end. -/
def parse_feature (p : List Nat) (delimiter : Nat) (quote_char : List Nat) : List (List Nat) :=
  if p.length = 0 then []
  else parseRest p (parseLoop p delimiter quote_char p.length 0 (false, 0, []))

/-- The test for a line ending at a byte `x` followed by the bytes `rest`, the
last of the input: NUL, `'\n'`, or a `'\r'` with at least two bytes after it, the
first of them not `'\n'`. -/
def lineEnd (x : Nat) (rest : List Nat) : Bool :=
  decide (x = 0) || decide (x = 10) ||
    (decide (x = 13) && decide (2 ≤ rest.length) && decide (rest.getD 0 0 ≠ 10))

/-- The fields of a text read byte by byte, as a reference for `parse_feature`
with a quote character of one byte: `inq` tells whether the scan is between an
opening quote and its closing quote, `cur` holds the bytes of the field that is
open. A quote character that is not the last byte toggles `inq`; a delimiter
outside quotes ends the field; at the first line ending the scan stops and the
field that is open takes the rest of the text. -/
def splitFields (d q : Nat) : List Nat → Bool → List Nat → List (List Nat)
  | [], _, cur => if cur = [] then [] else [cur]
  | x :: rest, inq, cur =>
    if lineEnd x rest then [cur ++ x :: rest]
    else if rest ≠ [] ∧ x = q then splitFields d q rest (!inq) (cur ++ [x])
    else if inq = false ∧ x = d then cur :: splitFields d q rest inq []
    else splitFields d q rest inq (cur ++ [x])

/-- The members of `PyJagger` that `load_model` and `tokenize` use: the flag
`_model_loaded`, `_model_path` and the arrays held by `_tagger` (none in a new
`jagger::tagger`). -/
structure PyJaggerState where
  model_loaded : Bool
  model_path : List Nat
  tagger_ : Option tagger

/-- The state after the constructor `PyJagger ()`. -/
def PyJaggerState.new : PyJaggerState :=
  { model_loaded := false, model_path := [], tagger_ := none }

/-- The method `PyJagger::load_model (model_path)`: `read` is the outcome of
`_tagger->read_model (model_path)`, the arrays it loaded when it returned true
and `none` when it returned false. A loaded model is discarded first; the
result is `_model_loaded`. -/
def load_model (s : PyJaggerState) (model_path : List Nat) (read : Option tagger) :
    Bool × PyJaggerState :=
  let s1 : PyJaggerState := if s.model_loaded then { s with tagger_ := none } else s
  match read with
  | some t => (true, { model_loaded := true, model_path := model_path, tagger_ := some t })
  | none => (false, { s1 with model_loaded := false })

/-- The method `PyJagger::tokenize (src)`: the empty list when no model is
loaded, `_tagger->tokenize (src)` otherwise. -/
def PyJaggerState.tokenize (s : PyJaggerState) (fuel : Nat) (src : List Nat) :
    Option (List PyToken) :=
  if s.model_loaded = false then some []
  else
    match s.tagger_ with
    | none => some []
    | some t => Jagger.tokenize fuel t src

/-- The state after a sequence of calls of `load_model`, each with its path and
the outcome of `read_model`. -/
def loadAll (s : PyJaggerState) : List (List Nat × Option tagger) → PyJaggerState
  | [] => s
  | c :: rest => loadAll (load_model s c.1 c.2).2 rest

/-! ## Small models used in the examples -/

/-- The symbol map that knows the letters `a` (1) and `b` (2). -/
def abMap (cp : Nat) : Nat := if cp = 97 then 1 else if cp = 98 then 2 else 0

/-- A model whose only pattern is `a`, one byte long, of character type 1 and
pattern id 1. -/
def unitModel : tagger :=
  { da := smallTrie 9437185 0, c2i := fun cp => if cp = 97 then 1 else 0, p2f := [0, 5],
    fs := [9, 65, 44, 66, 10] }

/-- A model whose pattern `a` claims a byte length of 2. -/
def longModel : tagger :=
  { da := smallTrie 17825793 0, c2i := fun cp => if cp = 97 then 1 else 0, p2f := [0, 0],
    fs := [] }

/-- A model whose pattern `a` was compiled with a byte length of 256. -/
def wideModel : tagger :=
  { da := smallTrie (storedPayload (keyValue 256 1 1 0)) 0,
    c2i := fun cp => if cp = 97 then 1 else 0, p2f := [0, 0], fs := [] }

/-- A pattern file with one line, the pattern `a` conditioned on the context
BOS. -/
def bosPatterns : List patternLine :=
  [{ count := 10, pat := [97], f_prev := [9, 66, 79, 83], bytes := 1, ctype := 1,
     f_pos := [9, 78, 44, 42, 44, 42, 44, 42],
     f := [9, 78, 44, 42, 44, 42, 44, 42, 44, 97, 10] }]

/-- The model with the symbol map compiled from `bosPatterns`; the other three
arrays do not enter the context of the first matcher call. -/
def bosModel : tagger := { da := [], c2i := persisted_c2i bosPatterns, p2f := [], fs := [] }

/-- A model with the patterns `a` (one byte, character type 1, pattern id 1) and
`ab` (two bytes, character type 3, pattern id 2), whose features are `"\tN,x\n"`
and `"\tV,y\n"`, both with a POS part of two bytes. -/
def tagModel : tagger :=
  { da := smallTrie 9437185 19922946, c2i := abMap,
    p2f := [p2fRecord 0 5 2 0, p2fRecord 0 5 2 0, p2fRecord 5 5 2 0],
    fs := [9, 78, 44, 120, 10, 9, 86, 44, 121, 10] }

/-- A pattern file with two lines: the pattern `a` with count 10 and the
pattern `b` with count 1, both without context. -/
def abPatterns : List patternLine :=
  [{ count := 10, pat := [97], f_prev := [], bytes := 1, ctype := 1,
     f_pos := [9, 78, 44, 42, 44, 42, 44, 42],
     f := [9, 78, 44, 42, 44, 42, 44, 42, 44, 97, 10] },
   { count := 1, pat := [98], f_prev := [], bytes := 1, ctype := 1,
     f_pos := [9, 78, 44, 42, 44, 42, 44, 42],
     f := [9, 78, 44, 42, 44, 42, 44, 42, 44, 98, 10] }]

/-- A value of the constant `FEAT_UNK` used in the examples: `"\tU,*,*,*"`. -/
def unkN : List Nat := [9, 85, 44, 42, 44, 42, 44, 42]

/-- The POS part `"\tN,*,*,*"` of the features of the examples. -/
def posN : List Nat := [9, 78, 44, 42, 44, 42, 44, 42]

/-- The full feature `"\tN,*,*,*,a\n"` of the examples. -/
def featN : List Nat := [9, 78, 44, 42, 44, 42, 44, 42, 44, 97, 10]

/-- A pattern line without context: the pattern `a` with the feature `featN`. -/
def lineA : patternLine :=
  { count := 10, pat := [97], f_prev := [], bytes := 1, ctype := 1, f_pos := posN, f := featN }

/-- A pattern line conditioned on the previous feature `posN`: the pattern `b`
with the feature `featN`. -/
def lineB : patternLine :=
  { count := 1, pat := [98], f_prev := posN, bytes := 1, ctype := 1, f_pos := posN, f := featN }

/-- The context number `i` of the large pattern files, a POS part of four
fields: a tab, the letter `C` and the three digits of `i` in base 64, written
with the bytes from `0` on, then `",*,*,*"`. -/
def ctxOf (i : Nat) : List Nat :=
  [9, 67, 48 + i / 4096, 48 + i / 64 % 64, 48 + i % 64, 44, 42, 44, 42, 44, 42]

/-- The full feature `"\tN,*,*,*,b\n"`, with the POS part `posN`. -/
def featB : List Nat := [9, 78, 44, 42, 44, 42, 44, 42, 44, 98, 10]

/-- The first line of the large pattern files: the pattern `b` without context,
with the feature `featN` and the count `n + 1`. -/
def headLine (n : Nat) : patternLine :=
  { count := n + 1, pat := [98], f_prev := [], bytes := 1, ctype := 1, f_pos := posN, f := featN }

/-- The line number `i` of the large pattern files: the pattern `b` conditioned
on the context `ctxOf i`, with the feature `featN` and the count `n - i`. -/
def ctxLine (n i : Nat) : patternLine :=
  { count := n - i, pat := [98], f_prev := ctxOf i, bytes := 1, ctype := 1, f_pos := posN,
    f := featN }

/-- A large pattern file: the first line and `k` lines with the contexts
`ctxOf 0`, ..., `ctxOf (k - 1)`. -/
def ctxFile (n k : Nat) : List patternLine := headLine n :: (List.range k).map (ctxLine n)

/-- A line conditioned on the context `ctxOf 4093`: the pattern `b` with the
full feature `featB`. -/
def spillLine : patternLine :=
  { count := 0, pat := [98], f_prev := ctxOf 4093, bytes := 1, ctype := 1, f_pos := posN,
    f := featB }

/-- A line whose feature has the POS part `ctxOf 4093`: the pattern `a` without
context. -/
def prefLine : patternLine :=
  { count := 0, pat := [97], f_prev := [], bytes := 1, ctype := 1, f_pos := ctxOf 4093,
    f := ctxOf 4093 ++ [44, 97, 10] }

/-- A pattern file with 4094 different contexts: the first line, the lines of
the contexts `ctxOf 0`, ..., `ctxOf 4092`, and `spillLine`. -/
def spillFile : List patternLine := ctxFile 4093 4093 ++ spillLine :: []

/-- The file `spillFile` followed by `prefLine`. -/
def prefFile : List patternLine := ctxFile 4093 4093 ++ spillLine :: [prefLine]

/-- The entries of `counter` for the contexts of `ctxFile n k`: the context
`ctxOf i` has the index `i + 3 + CP_MAX` and the count `n - i + 1`. -/
def ctxEntries (n k : Nat) : List (Nat × Nat) :=
  (List.range k).map (fun i => (i + 3 + CP_MAX, n - i + 1))

/-- A line without context whose pattern is `a`, with the count 0. -/
def lastA : patternLine :=
  { count := 0, pat := [97], f_prev := [], bytes := 1, ctype := 1, f_pos := posN, f := featN }

/-- A pattern file with 65536 symbols: the pattern `b`, 65534 contexts and the
pattern `a`. -/
def wrapFile : List patternLine := ctxFile 65534 65534 ++ [lastA]

/-- A pattern file with 65537 symbols: the pattern `b`, 65535 contexts and the
pattern `a`. -/
def wrapFile2 : List patternLine := ctxFile 65535 65535 ++ [lastA]

/-- A pattern file with two lines without context: a pattern that is the byte 0
(count 0) and the pattern `a` (count 10). -/
def nulPatterns : List patternLine :=
  [{ count := 0, pat := [0], f_prev := [], bytes := 1, ctype := 3, f_pos := posN, f := featN },
   { count := 10, pat := [97], f_prev := [], bytes := 1, ctype := 1, f_pos := posN, f := featN }]

/-- The interners and `p2f_` after the first loop of `read_model` over
`ctxFile n k`. -/
def ctxInv (k : Nat) (s : compileState) : Prop :=
  s.cs.fbag.strs = [9, 66, 79, 83] :: posN :: (List.range k).map ctxOf ∧
    s.fbag_.strs = [unkN ++ wildcardNl, featN] ∧
    s.p2f_ = [(1 <<< 32) ||| 2, recordKey 2 2]

/-- The entries `(fi, s, c)` of a candidate seen with the feature 1 at the byte
length 2 three times, and with the features 2 and 3 at the byte length 3 twice
each. -/
def exSupport : List (Nat × Nat × Nat) := [(1, 2, 3), (2, 3, 2), (3, 3, 2)]

/-- Four candidates: `"ab"`, `"a"` and `"ac"` seen in the corpus and the word
`"b"` of the dictionary, not seen. -/
def exCands : List candidate :=
  [⟨[97, 98], 0, [(1, 2, 3)], []⟩, ⟨[97], 1, [(1, 2, 2)], []⟩, ⟨[98], 2, [], [(1, 5)]⟩,
    ⟨[97, 99], 3, [(2, 1, 1)], []⟩]

/-- The entries of `patterns` come from the candidates that were processed, and
the value of each has a pair in `pi2sf`. -/
def pruneInv (st : pruneState) (l : List candidate) : Prop :=
  (∀ kv ∈ st.patterns, ∃ x ∈ l, kv = (x.p, x.pi)) ∧
    ∀ kv ∈ st.patterns, (st.pi2sf.find? (fun e => e.1 == kv.2)).isSome = true

/-- A feature of 1024 bytes: a tab, 1022 letters and a newline. -/
def longFeature : List Nat := 9 :: (List.replicate 1022 78 ++ [10])

/-- The model `tagModel` with the feature of the pattern `ab` replaced by
`longFeature`: the record of `ab` has `full_feat_len = 1024`. -/
def longFeatureModel : tagger :=
  { da := smallTrie 9437185 19922946, c2i := abMap,
    p2f := [p2fRecord 0 5 2 0, p2fRecord 0 5 2 0, p2fRecord 0 1024 2 0],
    fs := longFeature }

/-! ## Reference notions for the matcher -/

/-- The input as a sequence of `c2i`-mapped code points, cut at the first symbol
that maps to 0. -/
def symbols (c2i : Nat → Nat) (key : List Nat) : List Int :=
  (((codepoints key).map c2i).takeWhile (fun i => decide (i ≠ 0))).map Int.ofNat

/-- The value the trie stores for the key `syms` below the node `frm`, if `syms`
is a key with a value. -/
def valueFrom (array : List node) (frm : Int) (syms : List Int) : Option Int :=
  match exactMatchSearch array syms frm with
  | result.value v => some v
  | _ => none

/-- The payload of the longest non-empty prefix of `syms` that is, below `frm`, a
key with a value; `dflt` when no prefix is. -/
def longestValuedFrom (array : List node) (frm : Int) (dflt : Int) (syms : List Int) : Int :=
  ((List.range syms.length).reverse.findSome?
    (fun k => valueFrom array frm (syms.take (k + 1)))).getD dflt

/-- The payload of the longest non-empty prefix of `syms` that is a key with a
value in the trie; 0 when no prefix is. -/
def longestValued (array : List node) (syms : List Int) : Int :=
  longestValuedFrom array 0 0 syms

/-- The nodes of the parent walk, deepest first: the nodes reached while
following `syms` from `frm`, back to the node of the last recorded value. `acc`
holds the nodes since the last recorded value; the list restarts at every node
that records a value and stops growing at the first symbol without a path. -/
def trail (array : List node) : List Int → Int → List Int → List Int
  | [], _, acc => acc
  | sym :: key, frm, acc =>
    match traverse array [sym] frm with
    | (result.CEDAR_NO_PATH, _) => acc
    | (result.CEDAR_NO_VALUE, to_) => trail array key to_ (to_ :: acc)
    | (result.value _, to_) => trail array key to_ [to_]

/-- The nodes of the parent walk for the input `syms`: from the deepest node
reached from the root up to the node of the last recorded value, or up to the
root when no value was recorded. -/
def walkNodes (array : List node) (syms : List Int) : List Int := trail array syms 0 [0]

/-- The node reached by following the key `syms` from `frm`, if the trie has
that path. -/
def nodeOf (array : List node) (frm : Int) (syms : List Int) : Option Int :=
  match _find array syms frm with
  | (result.CEDAR_NO_PATH, _) => none
  | (_, x) => some x

/-- A trie holding the key `[1]` with payload `v`; the key `[1, 2]` is a node
without value, and below it the key `[1, 2, 3]` holds the payload `w`. -/
def deepTrie (v w : Int) : List node :=
  [⟨1, -1⟩, ⟨0, -1⟩, ⟨3, 0⟩, ⟨v, 2⟩, ⟨0, -1⟩, ⟨7, 2⟩, ⟨0, -1⟩, ⟨0, -1⟩, ⟨0, -1⟩, ⟨0, -1⟩,
    ⟨11, 5⟩, ⟨w, 10⟩]

/-- The payload of the child of `x` on symbol `fi_prev`, if that child has a
value. -/
def posValue (array : List node) (fi_prev : Int) (x : Int) : Option Int :=
  valueFrom array x [fi_prev]

/-- A trie array is well formed when `check` is the parent pointer of a tree: a
rank decreases from every cell to the cell its `check` names. -/
def WellFormed (array : List node) : Prop :=
  ∃ d : Int → Nat, ∀ x : Int, 0 ≤ x → 0 ≤ (nodeAt array x).check →
    d (nodeAt array x).check < d x

/-- The character loop on the level of symbols: the registers after following
`syms` from the state `s`. -/
def feedSyms (array : List node) : List Int → feedState → feedState
  | [], s => s
  | sym :: key, s =>
    match traverse array [sym] s.frm with
    | (result.CEDAR_NO_VALUE, to_) => feedSyms array key { s with frm := to_ }
    | (result.CEDAR_NO_PATH, to_) => { s with frm := to_ }
    | (result.value v, to_) => feedSyms array key { frm := to_, from_ := to_, n := v }

/-! ## Reference notions for the tokenizer -/

/-- The sum of the byte lengths of the surfaces of `toks`. -/
def surfaceSum (toks : List PyToken) : Nat := (toks.map (fun t => t.surface.length)).sum

/-- The contexts the tokenizer can pass to the matcher: the one of the BOS
entry `c2i[CP_MAX + 1]` and those of the records of `p2f` (a pattern id outside
`p2f` reads as the record 0). -/
def contexts (t : tagger) : List Nat :=
  rec_ctx (t.c2i (CP_MAX + 1)) :: rec_ctx 0 :: t.p2f.map rec_ctx

/-- A piece with payload `r` found at offset `p` fits in a line that ends at
`p_end`: its byte length is taken from the next character (`r >> 23` is 0), or is
positive and does not pass the end of the line. -/
def pieceFits (p_end p : Nat) (r : Int) : Bool :=
  decide (r >>> (23 : Nat) = 0) ||
    (decide (0 < r >>> (23 : Nat)) && decide ((p : Int) + r >>> (23 : Nat) ≤ (p_end : Int)))

/-- The matcher, called at offset `p` of the line with the context `ctx`, returns
a piece that fits. -/
def fitsAt (fuel : Nat) (t : tagger) (line : List Nat) (p ctx : Nat) : Bool :=
  match longestPrefixSearchWithPOS fuel t.da
      ((line.take (line.length - ret line)).drop p) ctx t.c2i 0 with
  | some r => pieceFits (line.length - ret line) p r
  | none => true

/-- Every piece the matcher can return inside the line, under any context the
tokenizer can pass, fits in the rest of the line. -/
def piecesFit (fuel : Nat) (t : tagger) (line : List Nat) : Prop :=
  ∀ p ∈ List.range (line.length - ret line), ∀ ctx ∈ contexts t, fitsAt fuel t line p ctx = true

instance (fuel : Nat) (t : tagger) (line : List Nat) : Decidable (piecesFit fuel t line) := by
  unfold piecesFit; infer_instance

/-- The invariant of the loop of `tokenize_line`: the cursor is inside the line,
the surfaces collected so far cover the line up to the cursor, and the context
is one of `contexts`. -/
def loopInv (t : tagger) (p_end : Nat) (st : LoopState) : Prop :=
  0 ≤ st.p ∧ st.p ≤ (p_end : Int) ∧ (surfaceSum st.toks : Int) = st.p ∧
    (st.bos = true → st.concat = false ∧ st.toks = []) ∧
    (st.bos = false → st.toks ≠ []) ∧ rec_ctx st.offsets ∈ contexts t

/-- The number of bytes the lead byte `c0` announces; 0 for a byte that cannot
start a character. -/
def seqLen (c0 : Nat) : Nat :=
  if c0 < 0x80 then 1 else if c0 < 0xc0 then 0 else if c0 < 0xe0 then 2
  else if c0 < 0xf0 then 3 else if c0 < 0xf8 then 4 else 0

/-- The view does not start with a complete UTF-8 sequence: it is empty, its
first byte cannot start a character, the extent ends before the announced
length (a truncated character), or one of the following bytes is not a
continuation byte. -/
def invalidSeq (view : List Nat) : Bool :=
  match view with
  | [] => true
  | c0 :: rest =>
    seqLen c0 == 0 || decide (rest.length + 1 < seqLen c0) ||
      !((rest.take (seqLen c0 - 1)).all isCont)

/-- The link between the registers of the character loop and the nodes of the
parent walk `tr` (deepest first): `tr` starts at `frm`, ends at `from_`, and
every node of it names the next one in its `check`. -/
def trailInv (array : List node) (s : feedState) (tr : List Int) : Prop :=
  tr.head? = some s.frm ∧ tr.getLast? = some s.from_ ∧ (∀ x ∈ tr, 0 ≤ x) ∧
    List.Chain' (fun x y => (nodeAt array x).check = y) tr

/-! ## The loop of `run` -/

/-- Variables of the loop of `run` that live across iterations; `p` is the offset
of the cursor from the start of the line, `res` the bytes written through
`_ptr` for the line. -/
structure RunState where
  p : Int
  bytes_prev : Int
  ctype_prev : Int
  offsets : Nat
  bos : Bool
  concat : Bool
  res : List Nat
deriving DecidableEq, Repr

/-- The bytes `run` writes for the feature of the token that ends: with `concat`
set, `write_string (_ptr, &fs[offsets >> 34], (offsets >> MAX_KEY_BITS) & 0x7f)`
and `write_string (_ptr, ",*,*,*\n", 7)`; otherwise
`write_string (_ptr, &fs[offsets >> 34], (offsets >> 21) & 0x3ff)`. -/
def featureBytes (fs : List Nat) (offsets : Nat) (concat : Bool) : List Nat :=
  if concat then substr fs (offsets >>> 34) ((offsets >>> 14) &&& 0x7f) ++ wildcardNl
  else substr fs (offsets >>> 34) ((offsets >>> (14 + 7)) &&& 0x3ff)

/-- The part of the loop body of `run` before the surface is written: the first
piece clears `bos`; a later piece either ends the previous token (with
`POS_TAGGING` its feature is written and `concat` is cleared, without it one
space is written) or sets `concat`. -/
def runBoundary (POS_TAGGING : Bool) (t : tagger) (st : RunState) (ctype bytes : Int) :
    RunState :=
  if st.bos then { st with bos := false }
  else if boundary st.ctype_prev st.bytes_prev ctype bytes then
    if POS_TAGGING then
      { st with res := st.res ++ featureBytes t.fs st.offsets st.concat, concat := false }
    else { st with res := st.res ++ [32] }
  else { st with concat := true }

/-- The loop body and increment of `run` once the matcher has returned the
payload `r` for the key `key`. A negative `bytes` makes the copy of the surface
undefined (`none`). -/
def runStepWith (POS_TAGGING : Bool) (t : tagger) (line : List Nat) (st : RunState)
    (key : List Nat) (r : Int) : Option RunState :=
  let id := payload_id r
  let bytes := payload_bytes r key
  let ctype := payload_ctype r
  if bytes < 0 then none
  else
    let st1 := runBoundary POS_TAGGING t st ctype bytes
    some { st1 with
      res := st1.res ++ (line.drop st.p.toNat).take bytes.toNat,
      bytes_prev := bytes, ctype_prev := ctype,
      offsets := t.p2f.getD id.toNat 0, p := st.p + bytes }

/-- One iteration of the loop of `run`: the matcher call
`da.longestPrefixSearchWithPOS (p, p_end, offsets & 0x3fff, &c2i[0])`, the body
and the increment. -/
def runStep (POS_TAGGING : Bool) (fuel : Nat) (t : tagger) (line : List Nat) (p_end : Nat)
    (st : RunState) : Option RunState :=
  let key := (line.take p_end).drop st.p.toNat
  match longestPrefixSearchWithPOS fuel t.da key (st.offsets &&& 0x3fff) t.c2i 0 with
  | none => none
  | some r => runStepWith POS_TAGGING t line st key r

/-- The loop `for (p = line; p != p_end; ...)` of `run`; `k` bounds the number
of iterations. A cursor outside `[line, p_end]` makes the next read undefined
(`none`). -/
def runLoop (POS_TAGGING : Bool) (fuel : Nat) (t : tagger) (line : List Nat) (p_end : Nat) :
    Nat → RunState → Option RunState
  | 0, _ => none
  | k + 1, st =>
    if st.p = p_end then some st
    else if st.p < 0 ∨ (p_end : Int) < st.p then none
    else
      match runStep POS_TAGGING fuel t line p_end st with
      | none => none
      | some st1 => runLoop POS_TAGGING fuel t line p_end k st1

/-- The state of `run` before the first iteration of a line:
`offsets = c2i[CP_MAX + 1]`. -/
def runStart (t : tagger) : RunState :=
  { p := 0, bytes_prev := 0, ctype_prev := 0, offsets := t.c2i (CP_MAX + 1),
    bos := true, concat := false, res := [] }

/-- The part of the body of `run` after the loop: with `POS_TAGGING` the
feature of the last token, then `"EOS\n"` or `"\n"`. -/
def runFinish (POS_TAGGING : Bool) (t : tagger) (st : RunState) : List Nat :=
  let res1 :=
    if st.bos then st.res
    else if POS_TAGGING then st.res ++ featureBytes t.fs st.offsets st.concat
    else st.res
  res1 ++ (if POS_TAGGING then eosNl else [10])

/-- The bytes `run <BUF_SIZE_, POS_TAGGING>` writes for one line the reader
returns (`len` is positive); `line` is the byte range `[line, line + len)`. -/
def runLine (POS_TAGGING : Bool) (fuel : Nat) (t : tagger) (line : List Nat) :
    Option (List Nat) :=
  match runLoop POS_TAGGING fuel t line (line.length - ret line) fuel (runStart t) with
  | none => none
  | some st => some (runFinish POS_TAGGING t st)

/-- The bytes `run <BUF_SIZE_, POS_TAGGING>` writes for the lines of the input,
in order. -/
def run (POS_TAGGING : Bool) (fuel : Nat) (t : tagger) : List (List Nat) → Option (List Nat)
  | [] => some []
  | line :: rest =>
    match runLine POS_TAGGING fuel t line, run POS_TAGGING fuel t rest with
    | some o, some os => some (o ++ os)
    | _, _ => none

/-! ## Reference notions for the output of `run` -/

/-- A piece of a line: the bytes one call of the matcher consumes, with its
byte length, its character type and the pattern-to-feature record of its
pattern. -/
structure Piece where
  surface : List Nat
  bytes : Int
  ctype : Int
  offsets : Nat
deriving DecidableEq, Repr

/-- The pieces of the line from the cursor `p` on, when the matcher is called
with the context of the record `offsets`; `k` bounds their number. The result
is `none` where a call of the matcher is undefined or a piece leaves the
line. -/
def piecesFrom (fuel : Nat) (t : tagger) (line : List Nat) (p_end : Nat) :
    Nat → Int → Nat → Option (List Piece)
  | 0, _, _ => none
  | k + 1, p, offsets =>
    if p = p_end then some []
    else if p < 0 ∨ (p_end : Int) < p then none
    else
      let key := (line.take p_end).drop p.toNat
      match longestPrefixSearchWithPOS fuel t.da key (rec_ctx offsets) t.c2i 0 with
      | none => none
      | some r =>
        if payload_bytes r key < 0 then none
        else
          match piecesFrom fuel t line p_end k (p + payload_bytes r key)
              (t.p2f.getD (payload_id r).toNat 0) with
          | none => none
          | some ps =>
            some ({ surface := (line.drop p.toNat).take (payload_bytes r key).toNat,
                    bytes := payload_bytes r key, ctype := payload_ctype r,
                    offsets := t.p2f.getD (payload_id r).toNat 0 } :: ps)

/-- The pieces of a line, the first one found with the context of BOS. -/
def pieces (fuel : Nat) (t : tagger) (line : List Nat) : Option (List Piece) :=
  piecesFrom fuel t line (line.length - ret line) fuel 0 (t.c2i (CP_MAX + 1))

/-- The tokens of a sequence of pieces: `g ++ [x]` is the token that is open,
`x` its last piece; a piece joins the open token unless the boundary test
separates it from `x`. -/
def tokenRuns : List Piece → Piece → List Piece → List (List Piece)
  | g, x, [] => [g ++ [x]]
  | g, x, y :: rest =>
    if boundary x.ctype x.bytes y.ctype y.bytes then (g ++ [x]) :: tokenRuns [] y rest
    else tokenRuns (g ++ [x]) y rest

/-- The tokens of a line, each as the list of its pieces: the maximal runs of
pieces without a boundary between neighbours. -/
def tokensOf : List Piece → List (List Piece)
  | [] => []
  | x :: rest => tokenRuns [] x rest

/-- The surface of a token: the surfaces of its pieces, in order. -/
def tokenSurface (g : List Piece) : List Nat := (g.map (fun x => x.surface)).flatten

/-- The byte range `fs[a, b)`. -/
def slice (fs : List Nat) (a b : Nat) : List Nat := (fs.take b).drop a

/-- The feature bytes of a token as the output grammar gives them: taken from
the record of the last piece, `fs[feat_offset, feat_offset + full_feat_len)` for
a token of one piece, `fs[feat_offset, feat_offset + surface_feat_len)` followed
by `",*,*,*\n"` for a token of several pieces. -/
def tokenFeature (fs : List Nat) (g : List Piece) : List Nat :=
  match g.getLast? with
  | none => []
  | some x =>
    if 1 < g.length then
      slice fs (rec_feat_offset x.offsets)
        (rec_feat_offset x.offsets + rec_surface_len x.offsets) ++ wildcardNl
    else
      slice fs (rec_feat_offset x.offsets) (rec_feat_offset x.offsets + rec_full_len x.offsets)

/-- The output grammar of the tagging mode: every token as its surface followed
by its feature bytes, then `"EOS\n"`. -/
def taggingOutput (fs : List Nat) (toks : List (List Piece)) : List Nat :=
  (toks.map (fun g => tokenSurface g ++ tokenFeature fs g)).flatten ++ eosNl

/-- The bytes the tagging mode writes after the piece with character type
`ctype_prev`, byte length `bytes_prev` and record `offsets`, for the pieces `ps`
that follow it; `concat` tells whether the open token has several pieces. -/
def taggingRest (fs : List Nat) : Int → Int → Nat → Bool → List Piece → List Nat
  | _, _, offsets, concat, [] => featureBytes fs offsets concat ++ eosNl
  | ctype_prev, bytes_prev, offsets, concat, y :: rest =>
    if boundary ctype_prev bytes_prev y.ctype y.bytes then
      featureBytes fs offsets concat ++ (y.surface ++ taggingRest fs y.ctype y.bytes y.offsets false rest)
    else y.surface ++ taggingRest fs y.ctype y.bytes y.offsets true rest

/-- The bytes the segmentation mode writes after the piece with character type
`ctype_prev` and byte length `bytes_prev`, for the pieces `ps` that follow
it. -/
def segmentationRest : Int → Int → List Piece → List Nat
  | _, _, [] => [10]
  | ctype_prev, bytes_prev, y :: rest =>
    if boundary ctype_prev bytes_prev y.ctype y.bytes then
      32 :: (y.surface ++ segmentationRest y.ctype y.bytes rest)
    else y.surface ++ segmentationRest y.ctype y.bytes rest

/-! ## Reference notions for the tokens of `tokenize_line` -/

/-- The feature `tokenize_line` stores in a token, from the record of the last
piece of the token: for a token of one piece the full feature, trimmed on both
sides; for a token of several pieces the POS part, trimmed on the left, followed
by `",*,*,*"`. -/
def pyFeature (fs : List Nat) (g : List Piece) : List Nat :=
  match g.getLast? with
  | none => []
  | some x => (flush fs x.offsets (decide (1 < g.length))).2

/-- The token `tokenize_line` returns for a run of pieces. -/
def pyToken (fs : List Nat) (g : List Piece) : PyToken :=
  { surface := tokenSurface g, feature := pyFeature fs g }

/-- The tokens `tokenize_line` has after the piece with character type
`ctype_prev`, byte length `bytes_prev` and record `offsets`, once the pieces `ps`
that follow it are processed; `toks` are the tokens so far, the last of them
open, and `concat` tells whether the open token has several pieces. -/
def toksRest (fs : List Nat) : Int → Int → Nat → Bool → List PyToken → List Piece → List PyToken
  | _, _, offsets, concat, toks, [] => setBackFeature toks (flush fs offsets concat).2
  | ctype_prev, bytes_prev, offsets, concat, toks, y :: rest =>
    if boundary ctype_prev bytes_prev y.ctype y.bytes then
      toksRest fs y.ctype y.bytes y.offsets false
        (setBackFeature toks (flush fs offsets concat).2 ++ [{ surface := y.surface, feature := [] }])
        rest
    else toksRest fs y.ctype y.bytes y.offsets true (appendBackSurface toks y.surface) rest

/-- A model whose only pattern is the kana `U+3042`, three bytes long, of
character type 2 and pattern id 0. -/
def kanaModel : tagger :=
  { da := [⟨1, -1⟩, ⟨0, -1⟩, ⟨3, 0⟩, ⟨27262976, 2⟩],
    c2i := fun cp => if cp = 0x3042 then 1 else 0, p2f := [0], fs := [] }

/-- Six times the kana `U+3042`: 18 bytes. -/
def kanaLine : List Nat :=
  [0xe3, 0x81, 0x82, 0xe3, 0x81, 0x82, 0xe3, 0x81, 0x82, 0xe3, 0x81, 0x82, 0xe3, 0x81, 0x82,
    0xe3, 0x81, 0x82]

/-! ## Arithmetic of the bit fields -/

theorem shl_or_eq_add (a b i : Nat) (h : b < 2 ^ i) : (a <<< i) ||| b = a * 2 ^ i + b := by
  rw [Nat.shiftLeft_eq, Nat.mul_comm a, ← Nat.mul_add_lt_is_or h]

theorem and_mask3 (x : Nat) : x &&& 0x7 = x % 8 := by
  have h := Nat.and_pow_two_sub_one_eq_mod x 3
  norm_num at h
  exact h

theorem and_mask7 (x : Nat) : x &&& 0x7f = x % 128 := by
  have h := Nat.and_pow_two_sub_one_eq_mod x 7
  norm_num at h
  exact h

theorem and_mask10 (x : Nat) : x &&& 0x3ff = x % 1024 := by
  have h := Nat.and_pow_two_sub_one_eq_mod x 10
  norm_num at h
  exact h

theorem and_mask14 (x : Nat) : x &&& 0x3fff = x % 16384 := by
  have h := Nat.and_pow_two_sub_one_eq_mod x 14
  norm_num at h
  exact h

theorem and_mask20 (x : Nat) : x &&& 0xfffff = x % 1048576 := by
  have h := Nat.and_pow_two_sub_one_eq_mod x 20
  norm_num at h
  exact h

theorem keyValue_eq (bytes ctype pid fi_prev : Nat) (hb : bytes < 512) (hf : fi_prev < 4096) :
    keyValue bytes ctype pid fi_prev
      = ((bytes * 8 + ctype % 8) * 1048576 + pid % 1048576) * 4096 + fi_prev := by
  unfold keyValue
  rw [and_mask3, and_mask20]
  have h1 : (bytes <<< 23) % 2 ^ 64 = bytes <<< 23 := by
    rw [Nat.shiftLeft_eq]; apply Nat.mod_eq_of_lt; omega
  have h2 : (ctype % 8) <<< 20 ||| pid % 1048576 = (ctype % 8) * 2 ^ 20 + pid % 1048576 :=
    shl_or_eq_add (ctype % 8) (pid % 1048576) 20 (by omega)
  have h3 : bytes <<< 23 ||| ((ctype % 8) * 2 ^ 20 + pid % 1048576)
      = bytes * 2 ^ 23 + ((ctype % 8) * 2 ^ 20 + pid % 1048576) :=
    shl_or_eq_add bytes _ 23 (by omega)
  rw [h1, Nat.lor_assoc, h2, h3]
  have h4 : ((bytes * 2 ^ 23 + ((ctype % 8) * 2 ^ 20 + pid % 1048576)) <<< 12) % 2 ^ 64
      = (bytes * 2 ^ 23 + ((ctype % 8) * 2 ^ 20 + pid % 1048576)) <<< 12 := by
    rw [Nat.shiftLeft_eq]; apply Nat.mod_eq_of_lt; omega
  rw [h4, shl_or_eq_add _ fi_prev 12 (by omega)]
  omega

theorem storedPayload_keyValue (bytes ctype pid fi_prev : Nat) (hb : bytes < 256)
    (hc : ctype < 8) (hp : pid < 1048576) (hf : fi_prev < 4096) :
    storedPayload (keyValue bytes ctype pid fi_prev)
      = (((bytes * 8 + ctype) * 1048576 + pid : Nat) : Int) := by
  unfold storedPayload toI32
  rw [keyValue_eq bytes ctype pid fi_prev (by omega) hf, Nat.shiftRight_eq_div_pow]
  have h : (((bytes * 8 + ctype % 8) * 1048576 + pid % 1048576) * 4096 + fi_prev) / 2 ^ 12
      = (bytes * 8 + ctype) * 1048576 + pid := by omega
  rw [h]
  have h2 : ((bytes * 8 + ctype) * 1048576 + pid) % 4294967296
      = (bytes * 8 + ctype) * 1048576 + pid := by omega
  rw [h2, if_pos (by omega)]

theorem payload_id_ofNat (v : Nat) :
    payload_id (v : Int) = ((v % 1048576 : Nat) : Int) := by
  unfold payload_id andI32 toU32
  rw [and_mask20]
  congr 1
  omega

theorem payload_ctype_ofNat (v : Nat) :
    payload_ctype (v : Int) = ((v / 1048576 % 8 : Nat) : Int) := by
  unfold payload_ctype andI32 toU32
  rw [and_mask3, Int.shiftRight_eq_div_pow]
  congr 1
  omega

theorem shiftRight23_ofNat (v : Nat) :
    ((v : Int) >>> (23 : Nat)) = ((v / 8388608 : Nat) : Int) := by
  rw [Int.shiftRight_eq_div_pow]
  omega

theorem p2fRecord_eq (off full surf ctx : Nat) (ho : off < 2 ^ 30) (hl : full < 2 ^ 13)
    (hs : surf < 2 ^ 7) (hc : ctx < 2 ^ 14) :
    p2fRecord off full surf ctx = ((off * 8192 + full) * 128 + surf) * 16384 + ctx := by
  unfold p2fRecord
  have h1 : (off <<< 34) % 2 ^ 64 = off <<< 34 := by
    rw [Nat.shiftLeft_eq]; apply Nat.mod_eq_of_lt; omega
  have h2 : (full <<< (14 + 7)) % 2 ^ 64 = full <<< 21 := by
    rw [Nat.shiftLeft_eq]; apply Nat.mod_eq_of_lt; omega
  have h3 : (surf <<< 14) % 2 ^ 64 = surf <<< 14 := by
    rw [Nat.shiftLeft_eq]; apply Nat.mod_eq_of_lt; omega
  rw [h1, h2, h3, Nat.lor_assoc, Nat.lor_assoc]
  have h4 : surf <<< 14 ||| ctx = surf * 2 ^ 14 + ctx := shl_or_eq_add surf ctx 14 (by omega)
  have h5 : full <<< 21 ||| (surf * 2 ^ 14 + ctx) = full * 2 ^ 21 + (surf * 2 ^ 14 + ctx) :=
    shl_or_eq_add full _ 21 (by omega)
  have h6 : off <<< 34 ||| (full * 2 ^ 21 + (surf * 2 ^ 14 + ctx))
      = off * 2 ^ 34 + (full * 2 ^ 21 + (surf * 2 ^ 14 + ctx)) :=
    shl_or_eq_add off _ 34 (by omega)
  rw [h4, h5, h6]
  omega

theorem rec_fields_of_eq (o off full surf ctx : Nat) (hl : full < 2 ^ 13)
    (hs : surf < 2 ^ 7) (hc : ctx < 2 ^ 14)
    (h : o = ((off * 8192 + full) * 128 + surf) * 16384 + ctx) :
    rec_ctx o = ctx ∧ rec_surface_len o = surf ∧ rec_full_len o = full % 1024 ∧
      rec_feat_offset o = off := by
  unfold rec_ctx rec_surface_len rec_full_len rec_feat_offset
  rw [and_mask14, and_mask7, and_mask10, Nat.shiftRight_eq_div_pow, Nat.shiftRight_eq_div_pow,
    Nat.shiftRight_eq_div_pow]
  subst h
  refine ⟨by omega, by omega, by omega, by omega⟩

/-! ## The scanner -/

theorem unicode_len_pos (view : List Nat) : 1 ≤ (unicode view).2 := by
  unfold unicode
  split
  · simp
  · split_ifs
    all_goals (try split)
    all_goals (try split)
    all_goals (try simp)
    all_goals (split_ifs <;> simp)

theorem unicode_len_le (view : List Nat) (h : view ≠ []) : (unicode view).2 ≤ view.length := by
  unfold unicode
  split
  · exact absurd rfl h
  · split_ifs
    all_goals (try split)
    all_goals (try split)
    all_goals (try simp)
    all_goals (split_ifs <;> simp)

theorem u8_len_pos (view : List Nat) : 1 ≤ u8_len view := unicode_len_pos view

theorem u8_len_le (view : List Nat) (h : view ≠ []) : u8_len view ≤ view.length :=
  unicode_len_le view h

theorem codepointsAux_fuel : ∀ (f1 f2 : Nat) (rest : List Nat),
    rest.length ≤ f1 → rest.length ≤ f2 → codepointsAux f1 rest = codepointsAux f2 rest := by
  intro f1
  induction f1 with
  | zero =>
    intro f2 rest h1 _
    have hr : rest = [] := List.length_eq_zero.mp (by omega)
    subst hr
    cases f2 <;> simp [codepointsAux]
  | succ f1 ih =>
    intro f2 rest _ h2
    cases f2 with
    | zero =>
      have hr : rest = [] := List.length_eq_zero.mp (by omega)
      subst hr
      simp [codepointsAux]
    | succ f2 =>
      by_cases hr : rest = []
      · simp [codepointsAux, hr]
      · simp only [codepointsAux, hr, if_false]
        have hp := unicode_len_pos rest
        have hl : 0 < rest.length := List.length_pos.mpr hr
        rw [ih f2 _ (by rw [List.length_drop]; omega) (by rw [List.length_drop]; omega)]

theorem codepoints_cons (rest : List Nat) (h : rest ≠ []) :
    codepoints rest = (unicode rest).1 :: codepoints (rest.drop (unicode rest).2) := by
  unfold codepoints
  have hl : 0 < rest.length := List.length_pos.mpr h
  obtain ⟨k, hk⟩ : ∃ k, rest.length = k + 1 := ⟨rest.length - 1, by omega⟩
  rw [hk]
  simp only [codepointsAux, h, if_false]
  have hp := unicode_len_pos rest
  rw [codepointsAux_fuel k _ _ (by rw [List.length_drop]; omega) (le_refl _)]

theorem codepoints_length_le : ∀ (n : Nat) (rest : List Nat), rest.length ≤ n →
    (codepoints rest).length ≤ rest.length := by
  intro n
  induction n with
  | zero =>
    intro rest h
    have hr : rest = [] := List.length_eq_zero.mp (by omega)
    subst hr
    simp [codepoints, codepointsAux]
  | succ n ih =>
    intro rest h
    by_cases hr : rest = []
    · subst hr; simp [codepoints, codepointsAux]
    · rw [codepoints_cons rest hr]
      have hp := unicode_len_pos rest
      have hl : 0 < rest.length := List.length_pos.mpr hr
      have := ih (rest.drop (unicode rest).2) (by rw [List.length_drop]; omega)
      rw [List.length_drop] at this
      simp only [List.length_cons]
      omega

theorem symbols_nil (c2i : Nat → Nat) : symbols c2i [] = [] := by
  simp [symbols, codepoints, codepointsAux]

theorem symbols_zero (c2i : Nat → Nat) (rest : List Nat) (h : rest ≠ [])
    (hz : c2i (unicode rest).1 = 0) : symbols c2i rest = [] := by
  unfold symbols
  rw [codepoints_cons rest h]
  simp [List.takeWhile, hz]

theorem symbols_cons (c2i : Nat → Nat) (rest : List Nat) (h : rest ≠ [])
    (hz : c2i (unicode rest).1 ≠ 0) :
    symbols c2i rest
      = (c2i (unicode rest).1 : Int) :: symbols c2i (rest.drop (unicode rest).2) := by
  unfold symbols
  rw [codepoints_cons rest h]
  simp [List.takeWhile, hz]

theorem symbols_length_le (c2i : Nat → Nat) (key : List Nat) :
    (symbols c2i key).length ≤ key.length := by
  unfold symbols
  rw [List.length_map]
  calc (List.takeWhile (fun i => decide (i ≠ 0)) ((codepoints key).map c2i)).length
      ≤ ((codepoints key).map c2i).length := (List.takeWhile_sublist _).length_le
    _ = (codepoints key).length := List.length_map _ _
    _ ≤ key.length := codepoints_length_le key.length key (le_refl _)

/-! ## The character loop -/

/-- The three outcomes of a one-symbol `traverse`. -/
theorem traverse_single (array : List node) (sym frm : Int) :
    traverse array [sym] frm = (result.CEDAR_NO_PATH, frm) ∨
    (∃ to_, (nodeAt array to_).check = frm ∧
      (traverse array [sym] frm = (result.CEDAR_NO_VALUE, to_) ∨
        ∃ v, traverse array [sym] frm = (result.value v, to_))) := by
  unfold traverse
  simp only [_find]
  by_cases h : (nodeAt array ((nodeAt array frm).base + sym)).check = frm
  · right
    refine ⟨(nodeAt array frm).base + sym, h, ?_⟩
    simp only [h, ne_eq, not_true_eq_false, if_false]
    split_ifs
    · right; exact ⟨_, rfl⟩
    · left; rfl
  · left
    simp [h]

theorem feed_spec (array : List node) (c2i : Nat → Nat) (h0 : c2i 0 = 0) :
    ∀ (fuel : Nat) (rest : List Nat) (b : Nat) (s : feedState), rest.length < fuel →
      feed array c2i fuel rest b s = some (feedSyms array (symbols c2i rest) s) := by
  intro fuel
  induction fuel with
  | zero => intro rest b s h; omega
  | succ fuel ih =>
    intro rest b s h
    by_cases hr : rest = []
    · subst hr
      simp [feed, h0, symbols_nil, feedSyms]
    · have hp := unicode_len_pos rest
      have hle := unicode_len_le rest hr
      by_cases hz : c2i (unicode rest).1 = 0
      · simp [feed, hr, hz, symbols_zero c2i rest hr hz, feedSyms]
      · rw [symbols_cons c2i rest hr hz]
        have hrec : ∀ s1, feed array c2i fuel (rest.drop (unicode rest).2) (unicode rest).2 s1
            = some (feedSyms array (symbols c2i (rest.drop (unicode rest).2)) s1) :=
          fun s1 => ih _ _ s1 (by rw [List.length_drop]; omega)
        simp only [feed, hr, if_false, hz, feedSyms]
        rcases traverse_single array (c2i (unicode rest).1 : Int) s.frm with h1 | ⟨to_, _, h1 | ⟨v, h1⟩⟩
        · rw [h1]
        · rw [h1]
          simp only [if_neg (not_lt.mpr hle)]
          exact hrec _
        · rw [h1]
          simp only [if_neg (not_lt.mpr hle)]
          exact hrec _

theorem valueFrom_cons (array : List node) (frm x : Int) (p : List Int) :
    valueFrom array frm (x :: p)
      = if (nodeAt array ((nodeAt array frm).base + x)).check ≠ frm then none
        else valueFrom array ((nodeAt array frm).base + x) p := by
  unfold valueFrom exactMatchSearch
  simp only [_find]
  split_ifs <;> rfl

theorem traverse_single_eq (array : List node) (sym frm : Int) :
    traverse array [sym] frm
      = if (nodeAt array ((nodeAt array frm).base + sym)).check ≠ frm
        then (result.CEDAR_NO_PATH, frm)
        else match valueFrom array ((nodeAt array frm).base + sym) [] with
          | some v => (result.value v, (nodeAt array frm).base + sym)
          | none => (result.CEDAR_NO_VALUE, (nodeAt array frm).base + sym) := by
  unfold traverse valueFrom exactMatchSearch
  simp only [_find]
  split_ifs <;> rfl

theorem longestValuedFrom_cons (array : List node) (frm dflt x : Int) (xs : List Int) :
    longestValuedFrom array frm dflt (x :: xs)
      = if (nodeAt array ((nodeAt array frm).base + x)).check ≠ frm then dflt
        else longestValuedFrom array ((nodeAt array frm).base + x)
          ((valueFrom array ((nodeAt array frm).base + x) []).getD dflt) xs := by
  unfold longestValuedFrom
  rw [List.length_cons, List.range_succ_eq_map, List.reverse_cons, List.findSome?_append,
    ← List.map_reverse, List.findSome?_map]
  simp only [List.findSome?_cons, List.findSome?_nil, Function.comp_def, Nat.succ_eq_add_one,
    List.take_succ_cons, List.take_zero, valueFrom_cons]
  split_ifs with h
  · have : List.findSome? (fun _ : Nat => (none : Option Int)) (List.range xs.length).reverse
        = none := List.findSome?_eq_none_iff.mpr (fun _ _ => rfl)
    rw [this]; rfl
  · cases hv : valueFrom array ((nodeAt array frm).base + x) [] with
    | none => simp
    | some v =>
      cases List.findSome? (fun k => valueFrom array ((nodeAt array frm).base + x)
        (List.take (k + 1) xs)) (List.range xs.length).reverse <;> simp

theorem feedSyms_n (array : List node) : ∀ (syms : List Int) (s : feedState),
    (feedSyms array syms s).n = longestValuedFrom array s.frm s.n syms := by
  intro syms
  induction syms with
  | nil => intro s; simp [feedSyms, longestValuedFrom]
  | cons x xs ih =>
    intro s
    rw [longestValuedFrom_cons]
    simp only [feedSyms, traverse_single_eq]
    split_ifs with h
    · rfl
    · cases hv : valueFrom array ((nodeAt array s.frm).base + x) [] with
      | none => simp only [ih]; rfl
      | some v => simp only [ih]; rfl

/-! ## The parent walk -/

theorem nodeAt_check_nonneg (array : List node) (x frm : Int) (hf : 0 ≤ frm)
    (h : (nodeAt array x).check = frm) : 0 ≤ x := by
  by_contra hx
  have : nodeAt array x = ⟨0, -1⟩ := by simp [nodeAt, hx]
  rw [this] at h
  simp at h
  omega

theorem trailInv_push (array : List node) (s : feedState) (tr : List Int) (to_ : Int)
    (hi : trailInv array s tr) (hc : (nodeAt array to_).check = s.frm) :
    trailInv array { s with frm := to_ } (to_ :: tr) := by
  obtain ⟨hh, hl, hn, hch⟩ := hi
  cases tr with
  | nil => simp at hh
  | cons y r =>
    simp only [List.head?_cons, Option.some.injEq] at hh
    subst hh
    have hy : 0 ≤ s.frm := hn _ (List.mem_cons_self _ _)
    refine ⟨rfl, ?_, ?_, ?_⟩
    · rw [List.getLast?_cons_cons]; exact hl
    · intro x hx
      rcases List.mem_cons.mp hx with h | h
      · subst h; exact nodeAt_check_nonneg array _ _ hy hc
      · exact hn x h
    · exact List.chain'_cons.mpr ⟨hc, hch⟩

theorem trailInv_restart (array : List node) (s : feedState) (tr : List Int) (to_ v : Int)
    (hi : trailInv array s tr) (hc : (nodeAt array to_).check = s.frm) :
    trailInv array { frm := to_, from_ := to_, n := v } [to_] := by
  obtain ⟨hh, _, hn, _⟩ := hi
  have hy : 0 ≤ s.frm := by
    cases tr with
    | nil => simp at hh
    | cons y r =>
      simp only [List.head?_cons, Option.some.injEq] at hh
      subst hh
      exact hn _ (List.mem_cons_self _ _)
  refine ⟨rfl, rfl, ?_, List.chain'_singleton _⟩
  intro x hx
  rw [List.mem_singleton] at hx
  subst hx
  exact nodeAt_check_nonneg array _ _ hy hc

theorem trail_inv (array : List node) : ∀ (syms : List Int) (s : feedState) (tr : List Int),
    trailInv array s tr → trailInv array (feedSyms array syms s) (trail array syms s.frm tr) := by
  intro syms
  induction syms with
  | nil => intro s tr h; simpa [feedSyms, trail] using h
  | cons x xs ih =>
    intro s tr h
    simp only [feedSyms, trail, traverse_single_eq]
    split_ifs with hc
    · exact h
    · have hc' : (nodeAt array ((nodeAt array s.frm).base + x)).check = s.frm := by
        simpa using hc
      cases hv : valueFrom array ((nodeAt array s.frm).base + x) [] with
      | none => exact ih _ _ (trailInv_push array s tr _ h hc')
      | some v => exact ih _ _ (trailInv_restart array s tr _ v h hc')

theorem trail_length (array : List node) : ∀ (syms : List Int) (frm : Int) (tr : List Int),
    (trail array syms frm tr).length ≤ syms.length + tr.length := by
  intro syms
  induction syms with
  | nil => intro frm tr; simp [trail]
  | cons x xs ih =>
    intro frm tr
    simp only [trail, traverse_single_eq]
    split_ifs with hc
    · simp only [List.length_cons]; omega
    · cases hv : valueFrom array ((nodeAt array frm).base + x) [] with
      | none =>
        have := ih ((nodeAt array frm).base + x) (((nodeAt array frm).base + x) :: tr)
        simp only [List.length_cons] at this ⊢
        omega
      | some v =>
        have := ih ((nodeAt array frm).base + x) [(nodeAt array frm).base + x]
        simp only [List.length_cons, List.length_nil] at this ⊢
        omega

theorem walk_step (array : List node) (fi from_ n : Int) (fuel : Nat) (frm : Int) :
    walk array fi from_ n (fuel + 1) frm
      = match posValue array fi frm with
        | some v => some v
        | none => if frm = from_ then some n
                  else walk array fi from_ n fuel (nodeAt array frm).check := by
  unfold posValue valueFrom
  rw [walk]
  cases exactMatchSearch array [fi] frm <;> rfl

/-- The walk along a chain that ends at `from_` and does not meet `from_` before
its end returns the first probe that succeeds, and `n` when none does. -/
theorem walk_spec (array : List node) (fi from_ n : Int) :
    ∀ (tr : List Int) (fuel : Nat) (frm : Int), tr.head? = some frm →
      tr.getLast? = some from_ → List.Chain' (fun x y => (nodeAt array x).check = y) tr →
      from_ ∉ tr.dropLast → tr.length ≤ fuel →
      walk array fi from_ n fuel frm = some ((tr.findSome? (posValue array fi)).getD n) := by
  intro tr
  induction tr with
  | nil => intro fuel frm hh; simp at hh
  | cons x r ih =>
    intro fuel frm hh hl hch hnd hlen
    simp only [List.head?_cons, Option.some.injEq] at hh
    subst hh
    cases fuel with
    | zero => simp at hlen
    | succ fuel =>
      rw [walk_step, List.findSome?_cons]
      cases hp : posValue array fi x with
      | some v => simp
      | none =>
        simp only
        cases r with
        | nil =>
          simp only [List.getLast?_singleton, Option.some.injEq] at hl
          simp [hl]
        | cons y r' =>
          have hne : x ≠ from_ := by
            intro h
            apply hnd
            rw [List.dropLast_cons₂, h]
            exact List.mem_cons_self _ _
          rw [if_neg hne]
          obtain ⟨hxy, hch'⟩ := List.chain'_cons.mp hch
          rw [hxy]
          apply ih fuel y rfl
          · rw [List.getLast?_cons_cons] at hl; exact hl
          · exact hch'
          · intro h
            apply hnd
            rw [List.dropLast_cons₂]
            exact List.mem_cons_of_mem _ h
          · simp only [List.length_cons] at hlen ⊢; omega

/-- The walk along any chain that ends at `from_` stops within the length of the
chain, with `n` or with a payload probed on the chain. -/
theorem walk_total (array : List node) (fi from_ n : Int) :
    ∀ (tr : List Int) (fuel : Nat) (frm : Int), tr.head? = some frm →
      tr.getLast? = some from_ → List.Chain' (fun x y => (nodeAt array x).check = y) tr →
      tr.length ≤ fuel →
      ∃ r, walk array fi from_ n fuel frm = some r ∧
        (r = n ∨ ∃ x ∈ tr, posValue array fi x = some r) := by
  intro tr
  induction tr with
  | nil => intro fuel frm hh; simp at hh
  | cons x r ih =>
    intro fuel frm hh hl hch hlen
    simp only [List.head?_cons, Option.some.injEq] at hh
    subst hh
    cases fuel with
    | zero => simp at hlen
    | succ fuel =>
      rw [walk_step]
      cases hp : posValue array fi x with
      | some v => exact ⟨v, rfl, Or.inr ⟨x, List.mem_cons_self _ _, hp⟩⟩
      | none =>
        simp only
        by_cases he : x = from_
        · exact ⟨n, by rw [if_pos he], Or.inl rfl⟩
        · rw [if_neg he]
          cases r with
          | nil =>
            simp only [List.getLast?_singleton, Option.some.injEq] at hl
            exact absurd hl he
          | cons y r' =>
            obtain ⟨hxy, hch'⟩ := List.chain'_cons.mp hch
            rw [hxy]
            have hl' : (y :: r').getLast? = some from_ := by
              rw [List.getLast?_cons_cons] at hl; exact hl
            obtain ⟨r1, h1, h2⟩ := ih fuel y rfl hl' hch'
              (by simp only [List.length_cons] at hlen ⊢; omega)
            refine ⟨r1, h1, ?_⟩
            rcases h2 with h2 | ⟨z, hz, h2⟩
            · exact Or.inl h2
            · exact Or.inr ⟨z, List.mem_cons_of_mem _ hz, h2⟩

theorem chain_rank_lt (array : List node) (d : Int → Nat)
    (hd : ∀ x : Int, 0 ≤ x → 0 ≤ (nodeAt array x).check → d (nodeAt array x).check < d x) :
    ∀ (r : List Int) (x : Int), (∀ z ∈ x :: r, 0 ≤ z) →
      List.Chain' (fun x y => (nodeAt array x).check = y) (x :: r) →
      ∀ w ∈ r, d w < d x := by
  intro r
  induction r with
  | nil => intro x _ _ w hw; simp at hw
  | cons y r ih =>
    intro x hn hch w hw
    obtain ⟨hxy, hch'⟩ := List.chain'_cons.mp hch
    have hx : 0 ≤ x := hn x (List.mem_cons_self _ _)
    have hy : 0 ≤ y := hn y (List.mem_cons_of_mem _ (List.mem_cons_self _ _))
    have hlt : d y < d x := by
      have := hd x hx (by rw [hxy]; exact hy)
      rwa [hxy] at this
    rcases List.mem_cons.mp hw with h | h
    · rw [h]; exact hlt
    · have := ih y (fun z hz => hn z (List.mem_cons_of_mem _ hz)) hch' w h
      omega

theorem last_not_mem_dropLast (array : List node) (hwf : WellFormed array) :
    ∀ (tr : List Int) (z : Int), (∀ x ∈ tr, 0 ≤ x) →
      List.Chain' (fun x y => (nodeAt array x).check = y) tr →
      tr.getLast? = some z → z ∉ tr.dropLast := by
  obtain ⟨d, hd⟩ := hwf
  intro tr
  induction tr with
  | nil => intro z _ _ _; simp
  | cons x r ih =>
    intro z hn hch hl
    cases r with
    | nil => simp
    | cons y r' =>
      rw [List.dropLast_cons₂]
      rw [List.getLast?_cons_cons] at hl
      have hz : z ∈ y :: r' := List.mem_of_getLast?_eq_some hl
      have hlt := chain_rank_lt array d hd (y :: r') x hn hch z hz
      intro hmem
      rcases List.mem_cons.mp hmem with h | h
      · rw [h] at hlt; omega
      · exact ih z (fun w hw => hn w (List.mem_cons_of_mem _ hw))
          (List.chain'_cons.mp hch).2 hl h

theorem trailInv_init (array : List node) (n : Int) :
    trailInv array { frm := 0, from_ := 0, n := n } [0] :=
  ⟨rfl, rfl, by simp, List.chain'_singleton _⟩

/-- The character loop keeps the link between its registers and a chain whose
length grows by at most one per iteration. -/
theorem feed_inv (array : List node) (c2i : Nat → Nat) :
    ∀ (fuel : Nat) (rest : List Nat) (b : Nat) (s s1 : feedState) (tr : List Int),
      trailInv array s tr → feed array c2i fuel rest b s = some s1 →
      ∃ tr1, trailInv array s1 tr1 ∧ tr1.length + 1 ≤ tr.length + fuel := by
  intro fuel
  induction fuel with
  | zero => intro rest b s s1 tr _ h; simp [feed] at h
  | succ fuel ih =>
    intro rest b s s1 tr hi h
    simp only [feed] at h
    generalize (if rest = [] then (0, b) else unicode rest) = cb at h
    by_cases hz : c2i cb.1 = 0
    · rw [if_pos hz] at h
      simp only [Option.some.injEq] at h
      subst h
      exact ⟨tr, hi, by omega⟩
    · rw [if_neg hz] at h
      rcases traverse_single array ((c2i cb.1 : Nat) : Int) s.frm
        with h1 | ⟨to_, hc, h1 | ⟨v, h1⟩⟩
      · rw [h1] at h
        simp only [Option.some.injEq] at h
        subst h
        exact ⟨tr, hi, by omega⟩
      · rw [h1] at h
        simp only at h
        by_cases hl : rest.length < cb.2
        · rw [if_pos hl] at h; cases h
        · rw [if_neg hl] at h
          obtain ⟨tr1, hi1, hl1⟩ :=
            ih _ _ _ _ (to_ :: tr) (trailInv_push array s tr to_ hi hc) h
          exact ⟨tr1, hi1, by simp only [List.length_cons] at hl1; omega⟩
      · rw [h1] at h
        simp only at h
        by_cases hl : rest.length < cb.2
        · rw [if_pos hl] at h; cases h
        · rw [if_neg hl] at h
          obtain ⟨tr1, hi1, hl1⟩ :=
            ih _ _ _ _ [to_] (trailInv_restart array s tr to_ v hi hc) h
          have : 1 ≤ tr.length := by
            obtain ⟨hh, _⟩ := hi
            cases tr with
            | nil => simp at hh
            | cons _ _ => simp
          exact ⟨tr1, hi1, by simp only [List.length_cons, List.length_nil] at hl1; omega⟩

/-- Whenever the character loop returns, the matcher returns within the same
bound, with the unconditioned best or with a payload probed on symbol
`fi_prev`. -/
theorem matcher_returns (array : List node) (c2i : Nat → Nat) (key : List Nat)
    (fi_prev fuel : Nat) (s : feedState)
    (h : feed array c2i fuel key 0 { frm := 0, from_ := 0, n := 0 } = some s) :
    ∃ r, longestPrefixSearchWithPOS fuel array key fi_prev c2i 0 = some r ∧
      (r = s.n ∨ ∃ x, posValue array (fi_prev : Int) x = some r) := by
  unfold longestPrefixSearchWithPOS
  rw [h]
  simp only
  split_ifs with hf
  · exact ⟨s.n, rfl, Or.inl rfl⟩
  · obtain ⟨tr, ⟨hh, hl, _, hch⟩, hlen⟩ := feed_inv array c2i fuel key 0 _ s [0]
      (trailInv_init array 0) h
    obtain ⟨r, hr, h2⟩ := walk_total array (fi_prev : Int) s.from_ s.n tr fuel s.frm hh hl hch
      (by simp only [List.length_cons, List.length_nil] at hlen; omega)
    refine ⟨r, hr, ?_⟩
    rcases h2 with h2 | ⟨x, _, h2⟩
    · exact Or.inl h2
    · exact Or.inr ⟨x, h2⟩

/-- With `c2i[0] = 0` the matcher returns for every trie array once the fuel
exceeds the length of the input. -/
theorem matcher_total (array : List node) (c2i : Nat → Nat) (h0 : c2i 0 = 0) (key : List Nat)
    (fi_prev fuel : Nat) (hf : key.length < fuel) :
    ∃ r, longestPrefixSearchWithPOS fuel array key fi_prev c2i 0 = some r := by
  obtain ⟨r, hr, _⟩ := matcher_returns array c2i key fi_prev fuel _
    (feed_spec array c2i h0 fuel key 0 _ hf)
  exact ⟨r, hr⟩

theorem matcher_zero_eq (array : List node) (c2i : Nat → Nat) (h0 : c2i 0 = 0) (key : List Nat)
    (fuel : Nat) (hf : key.length < fuel) :
    longestPrefixSearchWithPOS fuel array key 0 c2i 0
      = some (longestValued array (symbols c2i key)) := by
  unfold longestPrefixSearchWithPOS
  rw [feed_spec array c2i h0 fuel key 0 _ hf]
  simp only [if_true, feedSyms_n]
  rfl

theorem matcher_pos_eq (array : List node) (c2i : Nat → Nat) (h0 : c2i 0 = 0) (key : List Nat)
    (fi_prev fuel : Nat) (hfi : fi_prev ≠ 0) (hwf : WellFormed array) (hf : key.length < fuel) :
    longestPrefixSearchWithPOS fuel array key fi_prev c2i 0
      = some (((walkNodes array (symbols c2i key)).findSome? (posValue array (fi_prev : Int))).getD
          (longestValued array (symbols c2i key))) := by
  unfold longestPrefixSearchWithPOS
  rw [feed_spec array c2i h0 fuel key 0 _ hf]
  simp only [if_neg hfi]
  obtain ⟨hh, hl, hn, hch⟩ := trail_inv array (symbols c2i key) _ [0] (trailInv_init array 0)
  have hlen := trail_length array (symbols c2i key) 0 [0]
  have hsl := symbols_length_le c2i key
  rw [walk_spec array (fi_prev : Int) _ _ (trail array (symbols c2i key) 0 [0]) fuel _ hh hl hch
    (last_not_mem_dropLast array hwf _ _ hn hch hl)
    (by simp only [List.length_cons, List.length_nil] at hlen; omega)]
  rw [feedSyms_n]
  rfl

/-! ## The tokenizer loop -/

theorem toks_cases (toks : List PyToken) : toks = [] ∨ ∃ l t, toks = l ++ [t] := by
  rcases List.eq_nil_or_concat toks with h | ⟨l, t, h⟩
  · exact Or.inl h
  · exact Or.inr ⟨l, t, by rw [h, List.concat_eq_append]⟩

theorem appendBackSurface_concat (l : List PyToken) (t : PyToken) (s : List Nat) :
    appendBackSurface (l ++ [t]) s = l ++ [{ t with surface := t.surface ++ s }] := by
  simp [appendBackSurface]

theorem setBackFeature_concat (l : List PyToken) (t : PyToken) (f : List Nat) :
    setBackFeature (l ++ [t]) f = l ++ [{ t with feature := f }] := by
  simp [setBackFeature]

theorem surfaceSum_append (l1 l2 : List PyToken) :
    surfaceSum (l1 ++ l2) = surfaceSum l1 + surfaceSum l2 := by
  simp [surfaceSum]

theorem surfaceSum_appendBack (toks : List PyToken) (h : toks ≠ []) (s : List Nat) :
    surfaceSum (appendBackSurface toks s) = surfaceSum toks + s.length := by
  rcases toks_cases toks with h1 | ⟨l, t, rfl⟩
  · exact absurd h1 h
  · rw [appendBackSurface_concat]
    simp only [surfaceSum, List.map_append, List.sum_append, List.map_cons, List.map_nil,
      List.sum_cons, List.sum_nil, List.length_append]
    omega

theorem surfaceSum_setBack (toks : List PyToken) (f : List Nat) :
    surfaceSum (setBackFeature toks f) = surfaceSum toks := by
  rcases toks_cases toks with h1 | ⟨l, t, rfl⟩
  · subst h1; rfl
  · rw [setBackFeature_concat]
    simp [surfaceSum]

theorem setBackFeature_ne_nil (toks : List PyToken) (f : List Nat) (h : toks ≠ []) :
    setBackFeature toks f ≠ [] := by
  rcases toks_cases toks with h1 | ⟨l, t, rfl⟩
  · exact absurd h1 h
  · rw [setBackFeature_concat]; simp

theorem length_appendBack (toks : List PyToken) (s : List Nat) :
    (appendBackSurface toks s).length = toks.length := by
  rcases toks_cases toks with h1 | ⟨l, t, rfl⟩
  · subst h1; rfl
  · rw [appendBackSurface_concat]; simp

theorem length_setBack (toks : List PyToken) (f : List Nat) :
    (setBackFeature toks f).length = toks.length := by
  rcases toks_cases toks with h1 | ⟨l, t, rfl⟩
  · subst h1; rfl
  · rw [setBackFeature_concat]; simp

theorem appendBack_ne_nil (toks : List PyToken) (s : List Nat) (h : toks ≠ []) :
    appendBackSurface toks s ≠ [] := by
  intro h1
  have := length_appendBack toks s
  rw [h1] at this
  exact h (List.length_eq_zero.mp this.symm)

/-- The tokens after one piece: the surfaces grow by the piece, and there is a
token. -/
theorem putSurface_sum (t : tagger) (st : LoopState) (ctype bytes : Int) (piece : List Nat)
    (h1 : st.bos = true → st.concat = false ∧ st.toks = [])
    (h2 : st.bos = false → st.toks ≠ []) :
    surfaceSum (putSurface (decide_boundary t st ctype bytes).toks
        (decide_boundary t st ctype bytes).concat piece) = surfaceSum st.toks + piece.length ∧
      putSurface (decide_boundary t st ctype bytes).toks
        (decide_boundary t st ctype bytes).concat piece ≠ [] := by
  unfold decide_boundary putSurface
  cases hb : st.bos with
  | true =>
    obtain ⟨hc, ht⟩ := h1 hb
    simp [hc, ht, surfaceSum]
  | false =>
    have ht := h2 hb
    simp only [Bool.false_eq_true, if_false]
    by_cases hbd : boundary st.ctype_prev st.bytes_prev ctype bytes = true
    · simp only [hbd, if_true, Bool.false_eq_true, if_false, surfaceSum_append,
        surfaceSum_setBack]
      refine ⟨by simp [surfaceSum], by simp⟩
    · simp only [hbd, if_false, if_true]
      exact ⟨surfaceSum_appendBack _ ht _, appendBack_ne_nil _ _ ht⟩

theorem decide_boundary_bos (t : tagger) (st : LoopState) (ctype bytes : Int) :
    (decide_boundary t st ctype bytes).bos = false := by
  unfold decide_boundary
  cases hb : st.bos with
  | true => simp
  | false => simp only [Bool.false_eq_true, if_false]; split_ifs <;> rfl

theorem view_length (line : List Nat) (p_end p : Nat) (hle : p_end ≤ line.length) :
    ((line.take p_end).drop p).length = p_end - p := by
  rw [List.length_drop, List.length_take]
  omega

theorem getD_mem_or (l : List Nat) (i d : Nat) : l.getD i d = d ∨ l.getD i d ∈ l := by
  by_cases h : i < l.length
  · right
    rw [List.getD_eq_getElem l d h]
    exact List.getElem_mem h
  · left
    exact List.getD_eq_default l d (by omega)

theorem ctx_getD_mem (t : tagger) (i : Nat) : rec_ctx (t.p2f.getD i 0) ∈ contexts t := by
  unfold contexts
  rcases getD_mem_or t.p2f i 0 with h | h
  · rw [h]; simp
  · exact List.mem_cons_of_mem _ (List.mem_cons_of_mem _ (List.mem_map_of_mem _ h))

/-- A piece that fits has a positive byte length that stays inside the line; a
piece without a length of its own gets the length of the next character. -/
theorem payload_bytes_fit (line : List Nat) (p_end p : Nat) (r : Int)
    (hle : p_end ≤ line.length) (hp : p < p_end) (hf : pieceFits p_end p r = true) :
    1 ≤ payload_bytes r ((line.take p_end).drop p) ∧
      (p : Int) + payload_bytes r ((line.take p_end).drop p) ≤ (p_end : Int) := by
  unfold payload_bytes
  unfold pieceFits at hf
  by_cases hz : r >>> (23 : Nat) = 0
  · rw [if_neg (by simpa using hz)]
    have hl := view_length line p_end p hle
    have hne : (line.take p_end).drop p ≠ [] := by
      intro h
      rw [h] at hl
      simp at hl
      omega
    have h1 := u8_len_pos ((line.take p_end).drop p)
    have h2 := u8_len_le ((line.take p_end).drop p) hne
    omega
  · rw [if_pos hz]
    simp only [hz, decide_False, Bool.false_or, Bool.and_eq_true, decide_eq_true_eq] at hf
    omega

theorem stepWith_inv (t : tagger) (line : List Nat) (p_end : Nat) (st : LoopState) (r : Int)
    (hle : p_end ≤ line.length) (hi : loopInv t p_end st) (hp : st.p < (p_end : Int))
    (hf : pieceFits p_end st.p.toNat r = true) :
    ∃ st1, stepWith t line st ((line.take p_end).drop st.p.toNat) r = some st1 ∧
      loopInv t p_end st1 ∧ st.p < st1.p ∧
      st1.p = st.p + payload_bytes r ((line.take p_end).drop st.p.toNat) := by
  obtain ⟨h0, _, hsum, hb1, hb2, _⟩ := hi
  have hpn : st.p.toNat < p_end := by omega
  obtain ⟨hb, hbe⟩ := payload_bytes_fit line p_end st.p.toNat r hle hpn hf
  have hpc : ((st.p.toNat : Nat) : Int) = st.p := Int.toNat_of_nonneg h0
  rw [hpc] at hbe
  generalize hbytes : payload_bytes r ((line.take p_end).drop st.p.toNat) = bytes at hb hbe
  have hnb : ¬ bytes < 0 := by omega
  unfold stepWith
  simp only [hbytes, if_neg hnb]
  refine ⟨_, rfl, ⟨?_, ?_, ?_, ?_, ?_, ?_⟩, ?_, rfl⟩
  · show 0 ≤ st.p + bytes
    omega
  · show st.p + bytes ≤ (p_end : Int)
    exact hbe
  · show ((surfaceSum (putSurface _ _ _) : Nat) : Int) = st.p + bytes
    rw [(putSurface_sum t st (payload_ctype r) bytes _ hb1 hb2).1, List.length_take,
      List.length_drop]
    have : min bytes.toNat (line.length - st.p.toNat) = bytes.toNat := by omega
    rw [this]
    push_cast
    rw [hsum, Int.toNat_of_nonneg (by omega)]
  · intro h
    have := decide_boundary_bos t st (payload_ctype r) bytes
    simp only at h
    rw [this] at h
    exact absurd h (by simp)
  · intro _
    exact (putSurface_sum t st (payload_ctype r) bytes _ hb1 hb2).2
  · exact ctx_getD_mem t _
  · show st.p < st.p + bytes
    omega

/-- One iteration from a state that satisfies the invariant, at a cursor before
the end of the line: the matcher returns, the step is defined, the invariant is
kept and the cursor moves forward. -/
theorem step_inv (fuel : Nat) (t : tagger) (line : List Nat) (h0 : t.c2i 0 = 0)
    (hfuel : line.length < fuel) (hfit : piecesFit fuel t line) (st : LoopState)
    (hi : loopInv t (line.length - ret line) st)
    (hp : st.p < ((line.length - ret line : Nat) : Int)) :
    ∃ st1, step fuel t line (line.length - ret line) st = some st1 ∧
      loopInv t (line.length - ret line) st1 ∧ st.p < st1.p := by
  have hle : line.length - ret line ≤ line.length := Nat.sub_le _ _
  have hp0 : 0 ≤ st.p := hi.1
  have hpn : st.p.toNat < line.length - ret line := by omega
  have hlen := view_length line (line.length - ret line) st.p.toNat hle
  obtain ⟨r, hr⟩ := matcher_total t.da t.c2i h0
    ((line.take (line.length - ret line)).drop st.p.toNat) (rec_ctx st.offsets) fuel (by omega)
  have hfa := hfit st.p.toNat (List.mem_range.mpr hpn) (rec_ctx st.offsets) hi.2.2.2.2.2
  unfold fitsAt at hfa
  rw [hr] at hfa
  obtain ⟨st1, h1, h2, h3, _⟩ :=
    stepWith_inv t line (line.length - ret line) st r hle hi hp hfa
  refine ⟨st1, ?_, h2, h3⟩
  unfold step matcherArgs
  simp only [hr]
  exact h1

theorem loop_terminates (fuel : Nat) (t : tagger) (line : List Nat) (h0 : t.c2i 0 = 0)
    (hfuel : line.length < fuel) (hfit : piecesFit fuel t line) :
    ∀ (k : Nat) (st : LoopState), loopInv t (line.length - ret line) st →
      (((line.length - ret line : Nat) : Int) - st.p).toNat < k →
      ∃ st1, loop fuel t line (line.length - ret line) k st = some st1 ∧
        st1.p = ((line.length - ret line : Nat) : Int) ∧
        loopInv t (line.length - ret line) st1 := by
  intro k
  induction k with
  | zero => intro st _ h; omega
  | succ k ih =>
    intro st hi hk
    unfold loop
    by_cases he : st.p = ((line.length - ret line : Nat) : Int)
    · rw [if_pos he]
      exact ⟨st, rfl, he, hi⟩
    · rw [if_neg he]
      have h1 : 0 ≤ st.p := hi.1
      have h2 : st.p ≤ ((line.length - ret line : Nat) : Int) := hi.2.1
      rw [if_neg (by omega)]
      obtain ⟨st1, hs, hi1, hlt⟩ := step_inv fuel t line h0 hfuel hfit st hi (by omega)
      rw [hs]
      simp only
      have h3 : st1.p ≤ ((line.length - ret line : Nat) : Int) := hi1.2.1
      exact ih st1 hi1 (by omega)

theorem loopInv_init (t : tagger) (p_end : Nat) : loopInv t p_end (init t) := by
  refine ⟨le_refl _, ?_, rfl, fun _ => ⟨rfl, rfl⟩, fun h => ?_, ?_⟩
  · show (0 : Int) ≤ (p_end : Int)
    omega
  · exact absurd h (by simp [init])
  · unfold contexts init
    exact List.mem_cons_self _ _

theorem finish_toks_sum (t : tagger) (st : LoopState) :
    surfaceSum (finish t st).toks = surfaceSum st.toks := by
  unfold finish
  cases st.bos with
  | true => rfl
  | false => simp only [Bool.false_eq_true, if_false]; exact surfaceSum_setBack _ _

/-- Under the three conditions the loop of `tokenize_line` ends with the cursor
at the end of the line and with surfaces that cover the line. -/
theorem tokenize_line_state_ok (fuel : Nat) (t : tagger) (line : List Nat) (h0 : t.c2i 0 = 0)
    (hfuel : line.length < fuel) (hfit : piecesFit fuel t line) :
    ∃ st, loop fuel t line (line.length - ret line) fuel (init t) = some st ∧
      st.p = ((line.length - ret line : Nat) : Int) ∧
      tokenize_line_state fuel t line = some (finish t st) ∧
      surfaceSum (finish t st).toks = line.length - ret line := by
  obtain ⟨st, hl, hp, hi⟩ := loop_terminates fuel t line h0 hfuel hfit fuel (init t)
    (loopInv_init t _) (by simp only [init]; omega)
  refine ⟨st, hl, hp, ?_, ?_⟩
  · unfold tokenize_line_state
    rw [hl]
  · rw [finish_toks_sum]
    have := hi.2.2.1
    omega

theorem u8_len_invalid (view : List Nat) (h : invalidSeq view = true) : u8_len view = 1 := by
  unfold u8_len unicode
  cases view with
  | nil => rfl
  | cons c0 rest =>
    simp only [invalidSeq, seqLen] at h
    simp only
    by_cases h1 : c0 < 0x80
    · simp [h1] at h
    · rw [if_neg h1]
      by_cases h2 : c0 < 0xc0
      · rw [if_pos h2]
      · rw [if_neg h2]
        by_cases h3 : c0 < 0xe0
        · rw [if_pos h3]
          simp only [h1, h2, h3, if_false, if_true] at h
          cases rest with
          | nil => rfl
          | cons c1 r1 =>
            simp at h
            have hc : isCont c1 = false := by
              rcases h with h | h
              · omega
              · exact h
            simp [hc]
        · rw [if_neg h3]
          by_cases h4 : c0 < 0xf0
          · rw [if_pos h4]
            simp only [h1, h2, h3, h4, if_false, if_true] at h
            rcases rest with _ | ⟨c1, _ | ⟨c2, r2⟩⟩
            · rfl
            · rfl
            · simp at h
              have hc : ¬ (isCont c1 = true ∧ isCont c2 = true) := by
                rintro ⟨ha, hb⟩
                rw [ha, hb] at h
                simp at h
                omega
              simp [hc]
          · rw [if_neg h4]
            by_cases h5 : c0 < 0xf8
            · rw [if_pos h5]
              simp only [h1, h2, h3, h4, h5, if_false, if_true] at h
              rcases rest with _ | ⟨c1, _ | ⟨c2, _ | ⟨c3, r3⟩⟩⟩
              · rfl
              · rfl
              · rfl
              · simp at h
                have hc : ¬ (isCont c1 = true ∧ isCont c2 = true ∧ isCont c3 = true) := by
                  rintro ⟨ha, hb, hd⟩
                  rw [ha, hb, hd] at h
                  simp at h
                  omega
                simp only [Bool.and_eq_true, decide_eq_true_eq]
                rw [if_neg (by tauto)]
            · rw [if_neg h5]

theorem findSome_range_reverse {α : Type} (f : Nat → Option α) : ∀ n : Nat,
    (∀ v, (List.range n).reverse.findSome? f = some v →
      ∃ k, k < n ∧ f k = some v ∧ ∀ j, k < j → j < n → f j = none) ∧
    ((List.range n).reverse.findSome? f = none → ∀ j, j < n → f j = none) := by
  intro n
  induction n with
  | zero => simp
  | succ n ih =>
    rw [List.range_succ, List.reverse_append, List.reverse_singleton, List.singleton_append,
      List.findSome?_cons]
    cases hf : f n with
    | some b =>
      simp only
      refine ⟨fun v hv => ⟨n, by omega, ?_, fun j h1 h2 => by omega⟩, fun h => by simp at h⟩
      rw [hf, hv]
    | none =>
      simp only
      refine ⟨fun v hv => ?_, fun h j hj => ?_⟩
      · obtain ⟨k, hk, hfk, hmax⟩ := ih.1 v hv
        refine ⟨k, by omega, hfk, fun j h1 h2 => ?_⟩
        by_cases hjn : j = n
        · rw [hjn]; exact hf
        · exact hmax j h1 (by omega)
      · by_cases hjn : j = n
        · rw [hjn]; exact hf
        · exact ih.2 h j (by omega)

/-- The loop does not return when its first iteration is undefined or leaves
the line. -/
theorem loop_none_of_step (fuel : Nat) (t : tagger) (line : List Nat) (p_end : Nat)
    (st : LoopState) (hp : st.p ≠ (p_end : Int))
    (hs : step fuel t line p_end st = none ∨
      ∃ st1, step fuel t line p_end st = some st1 ∧ (st1.p < 0 ∨ (p_end : Int) < st1.p)) :
    ∀ k, loop fuel t line p_end k st = none := by
  intro k
  cases k with
  | zero => rfl
  | succ k =>
    unfold loop
    rw [if_neg hp]
    split_ifs
    · rfl
    · rcases hs with hs | ⟨st1, hs, hout⟩
      · rw [hs]
      · rw [hs]
        simp only
        cases k with
        | zero => rfl
        | succ k =>
          unfold loop
          rw [if_neg (by omega), if_pos hout]

/-- The first step of a line `a` under a model whose symbol map knows only `a`
and whose BOS context is 0, once the fuel suffices for the matcher. -/
theorem first_step_eq (t : tagger) (v : Int) (f : Nat) (hc : t.c2i = fun cp => if cp = 97 then 1 else 0)
    (hv : longestValued t.da (symbols t.c2i [97]) = v) :
    step (f + 2) t [97] 1 (init t) = stepWith t [97] (init t) [97] v := by
  have h0 : t.c2i 0 = 0 := by rw [hc]; rfl
  have hm := matcher_zero_eq t.da t.c2i h0 [97] (f + 2) (by simp)
  rw [hv] at hm
  have ha : matcherArgs [97] 1 (init t) = ([97], 0) := by
    unfold matcherArgs init rec_ctx
    rw [hc]
    rfl
  unfold step
  simp only [ha]
  rw [hm]

/-! ## The claims -/

/-- C1 (amended). Byte coverage: for every loaded model with `c2i[0] = 0` and
every non-empty input line such that every piece the matcher can return inside
the line fits in the rest of the line, `tokenize_line` returns, and the byte
lengths of the surfaces of its tokens sum to the length of the line, not
counting a trailing newline. -/
theorem tokenize_line_byte_coverage (fuel : Nat) (t : tagger) (line : List Nat)
    (_hne : line ≠ []) (h0 : t.c2i 0 = 0) (hfuel : line.length < fuel)
    (hfit : piecesFit fuel t line) :
    ∃ toks, tokenize_line fuel t line = some toks ∧
      surfaceSum toks = line.length - ret line := by
  obtain ⟨st, _, _, hs, hsum⟩ := tokenize_line_state_ok fuel t line h0 hfuel hfit
  refine ⟨(finish t st).toks, ?_, hsum⟩
  unfold tokenize_line
  rw [hs]

/-- Witness of C1: the line `aab\n` under `unitModel`. -/
theorem tokenize_line_byte_coverage_witness :
    ∃ toks, tokenize_line 5 unitModel [97, 97, 98, 10] = some toks ∧ surfaceSum toks = 3 :=
  tokenize_line_byte_coverage 5 unitModel [97, 97, 98, 10] (by decide) (by decide) (by decide)
    (by decide)

/-- Counterexample to C1 as stated: under `longModel` the only piece of the line
`a` is two bytes long, so the first iteration moves the cursor from 0 to 2, past
the end of the one-byte line, and `tokenize_line` returns no tokens for any
fuel. -/
theorem byte_coverage_fails_for_long_piece :
    (step 2 longModel [97] 1 (init longModel)).map (fun st => st.p) = some 2 ∧
      ¬ ∃ fuel toks, tokenize_line fuel longModel [97] = some toks := by
  refine ⟨by decide, ?_⟩
  rintro ⟨fuel, toks, h⟩
  have hl : loop fuel longModel [97] 1 fuel (init longModel) = none := by
    apply loop_none_of_step
    · decide
    · rcases fuel with _ | _ | f
      · left; rfl
      · left; decide
      · right
        rw [first_step_eq longModel 17825793 f rfl (by decide)]
        exact ⟨_, rfl, by decide⟩
  have h2 : tokenize_line fuel longModel [97] = none := by
    unfold tokenize_line tokenize_line_state
    show (match (match loop fuel longModel [97] 1 fuel (init longModel) with
      | none => none
      | some st => some (finish longModel st)) with
      | none => none
      | some st => some st.toks) = none
    rw [hl]
  rw [h2] at h
  cases h

/-- C2 (amended). For every model with `c2i[0] = 0` and every non-empty line of
arbitrary bytes such that every piece the matcher can return inside the line
fits in the rest of the line, the loop of `tokenize_line` terminates with the
cursor exactly at the end of the line; and wherever the view at the cursor does
not start with a complete UTF-8 sequence (a truncated lead byte at the end of
the line included) a piece without a byte length of its own (`r >> 23 = 0`, an
unmatched byte) is consumed as one byte. -/
theorem tokenize_line_reaches_end (fuel : Nat) (t : tagger) (line : List Nat)
    (_hne : line ≠ []) (h0 : t.c2i 0 = 0) (hfuel : line.length < fuel)
    (hfit : piecesFit fuel t line) :
    (∃ st, loop fuel t line (line.length - ret line) fuel (init t) = some st ∧
      st.p = ((line.length - ret line : Nat) : Int)) ∧
    (∀ (st : LoopState) (key : List Nat) (r : Int), r >>> (23 : Nat) = 0 →
      invalidSeq key = true →
      ∃ st1, stepWith t line st key r = some st1 ∧ st1.p = st.p + 1 ∧ st1.bytes_prev = 1) := by
  obtain ⟨st, hl, hp, _⟩ := tokenize_line_state_ok fuel t line h0 hfuel hfit
  refine ⟨⟨st, hl, hp⟩, ?_⟩
  intro st key r hr hinv
  have hb : payload_bytes r key = 1 := by
    unfold payload_bytes
    rw [if_neg (by simpa using hr), u8_len_invalid key hinv]
    rfl
  unfold stepWith
  simp only [hb]
  exact ⟨_, rfl, rfl, rfl⟩

/-- Witness of C2: a line that ends in the lead byte of a three-byte
character. -/
theorem tokenize_line_reaches_end_witness :
    ∃ st, loop 5 unitModel [0xe3, 0x81, 0x82, 0xe3] 4 5 (init unitModel) = some st ∧ st.p = 4 :=
  (tokenize_line_reaches_end 5 unitModel [0xe3, 0x81, 0x82, 0xe3] (by decide) (by decide)
    (by decide) (by decide)).1

/-- Counterexample to C2 as stated: `wideModel` holds the payload `read_model`
builds for a pattern of 256 bytes; the tokenizer reads its byte length as -256,
the copy of the surface is undefined, and the loop never reaches the end of the
line `a`. -/
theorem loop_aborts_on_wide_piece :
    payload_bytes (storedPayload (keyValue 256 1 1 0)) [97] = -256 ∧
      ¬ ∃ fuel st, loop fuel wideModel [97] 1 fuel (init wideModel) = some st := by
  refine ⟨by decide, ?_⟩
  rintro ⟨fuel, st, h⟩
  have hl : loop fuel wideModel [97] 1 fuel (init wideModel) = none := by
    apply loop_none_of_step
    · decide
    · left
      rcases fuel with _ | _ | f
      · rfl
      · decide
      · rw [first_step_eq wideModel (storedPayload (keyValue 256 1 1 0)) f rfl (by decide)]
        decide
  rw [hl] at h
  cases h

/-- C3. With `fi_prev = 0` (and `c2i[0] = 0`, the terminator), the matcher
returns the payload stored at the longest non-empty prefix of the input, taken
as its sequence of `c2i`-mapped code points cut at the first symbol that maps to
0, that is a key with a value in the trie, and 0 when no prefix is such a key;
shorter prefixes without a value do not stop the search. -/
theorem longest_match_without_context (array : List node) (c2i : Nat → Nat) (key : List Nat)
    (fuel : Nat) (h0 : c2i 0 = 0) (hf : key.length < fuel) :
    ∃ r, longestPrefixSearchWithPOS fuel array key 0 c2i 0 = some r ∧
      ((∃ k, 1 ≤ k ∧ k ≤ (symbols c2i key).length ∧
          valueFrom array 0 ((symbols c2i key).take k) = some r ∧
          ∀ j, k < j → j ≤ (symbols c2i key).length →
            valueFrom array 0 ((symbols c2i key).take j) = none) ∨
       (r = 0 ∧ ∀ j, 1 ≤ j → j ≤ (symbols c2i key).length →
          valueFrom array 0 ((symbols c2i key).take j) = none)) := by
  refine ⟨_, matcher_zero_eq array c2i h0 key fuel hf, ?_⟩
  unfold longestValued longestValuedFrom
  obtain ⟨h1, h2⟩ := findSome_range_reverse
    (fun k => valueFrom array 0 ((symbols c2i key).take (k + 1))) (symbols c2i key).length
  cases hfs : (List.range (symbols c2i key).length).reverse.findSome?
      (fun k => valueFrom array 0 ((symbols c2i key).take (k + 1))) with
  | some v =>
    left
    obtain ⟨k, hk, hv, hmax⟩ := h1 v hfs
    refine ⟨k + 1, by omega, by omega, hv, fun j hj1 hj2 => ?_⟩
    have := hmax (j - 1) (by omega) (by omega)
    simp only at this
    rwa [Nat.sub_add_cancel (by omega)] at this
  | none =>
    right
    refine ⟨rfl, fun j hj1 hj2 => ?_⟩
    have := h2 hfs (j - 1) (by omega)
    simp only at this
    rwa [Nat.sub_add_cancel (by omega)] at this

/-- Witness of C3: the keys `a` (payload 77, a node that also has children) and
`a` followed by symbol 2 (payload 88); on the input `ab` the longer key wins. -/
theorem longest_match_without_context_witness :
    longestPrefixSearchWithPOS 3 (smallTrie 77 88) [97, 98] 0 abMap 0 = some 88 ∧
    ∃ r, longestPrefixSearchWithPOS 3 (smallTrie 77 88) [97, 98] 0 abMap 0 = some r ∧
      ((∃ k, 1 ≤ k ∧ k ≤ (symbols abMap [97, 98]).length ∧
          valueFrom (smallTrie 77 88) 0 ((symbols abMap [97, 98]).take k) = some r ∧
          ∀ j, k < j → j ≤ (symbols abMap [97, 98]).length →
            valueFrom (smallTrie 77 88) 0 ((symbols abMap [97, 98]).take j) = none) ∨
       (r = 0 ∧ ∀ j, 1 ≤ j → j ≤ (symbols abMap [97, 98]).length →
          valueFrom (smallTrie 77 88) 0 ((symbols abMap [97, 98]).take j) = none)) :=
  ⟨by decide,
    longest_match_without_context (smallTrie 77 88) abMap [97, 98] 3 (by decide) (by decide)⟩

theorem smallTrie_wellFormed (v w : Int) : WellFormed (smallTrie v w) := by
  refine ⟨Int.toNat, fun x hx hc => ?_⟩
  obtain ⟨n, rfl⟩ := Int.eq_ofNat_of_zero_le hx
  have hn : nodeAt (smallTrie v w) (n : Int) = (smallTrie v w).getD n ⟨0, -1⟩ := by
    simp [nodeAt]
  rw [hn] at hc ⊢
  rcases n with _ | _ | _ | _ | _ | _ | _ | n
  all_goals simp [smallTrie] at hc ⊢

/-- C4. With `fi_prev != 0` (and `c2i[0] = 0`) and a well-formed trie, the
matcher returns the payload of the first node, on the walk from the deepest
traversed node up the parent chain to the node of the last recorded value
(inclusive), that has a child with a value on symbol `fi_prev`, and the
unconditioned best (the result for `fi_prev = 0`) when no node of the walk has
one. The nodes of the walk start at the deepest node `from`, each names the next
one in its `check`, and they end at the node `from_` of the last recorded value,
so a payload conditioned on the context wins over the unconditioned value of
the same node. -/
theorem pos_match_first_on_walk (array : List node) (c2i : Nat → Nat) (key : List Nat)
    (fi_prev fuel : Nat) (h0 : c2i 0 = 0) (hfi : fi_prev ≠ 0) (hwf : WellFormed array)
    (hf : key.length < fuel) :
    longestPrefixSearchWithPOS fuel array key fi_prev c2i 0
      = some (((walkNodes array (symbols c2i key)).findSome?
          (posValue array (fi_prev : Int))).getD (longestValued array (symbols c2i key))) ∧
    longestPrefixSearchWithPOS fuel array key 0 c2i 0
      = some (longestValued array (symbols c2i key)) ∧
    (walkNodes array (symbols c2i key)).head?
      = some (feedSyms array (symbols c2i key) { frm := 0, from_ := 0, n := 0 }).frm ∧
    (walkNodes array (symbols c2i key)).getLast?
      = some (feedSyms array (symbols c2i key) { frm := 0, from_ := 0, n := 0 }).from_ ∧
    List.Chain' (fun x y => (nodeAt array x).check = y) (walkNodes array (symbols c2i key)) :=
  have hi := trail_inv array (symbols c2i key) _ [0] (trailInv_init array 0)
  ⟨matcher_pos_eq array c2i h0 key fi_prev fuel hfi hwf hf,
    matcher_zero_eq array c2i h0 key fuel hf, hi.1, hi.2.1, hi.2.2.2⟩

/-- Witness of C4: the node of the key `a` holds the value 77 and has a child on
symbol 2 with the value 88; with the context 2 the matcher returns 88 on the
input `a`, and 77 without context. -/
theorem pos_match_first_on_walk_witness :
    longestPrefixSearchWithPOS 2 (smallTrie 77 88) [97] 2 abMap 0 = some 88 ∧
    walkNodes (smallTrie 77 88) (symbols abMap [97]) = [2] ∧
    longestPrefixSearchWithPOS 2 (smallTrie 77 88) [97] 0 abMap 0 = some 77 :=
  have h := pos_match_first_on_walk (smallTrie 77 88) abMap [97] 2 2 (by decide) (by decide)
    (smallTrie_wellFormed 77 88) (by decide)
  ⟨h.1.trans (by decide), by decide, h.2.1.trans (by decide)⟩

/-- C6. Concat policy: the first piece of a line (`bos` set, `concat` still
clear) starts a token; for a later piece no token boundary is introduced, and
the piece is appended to the surface of the previous token, if and only if
`ctype_prev == ctype`, `ctype_prev != 3` and not (`ctype_prev == 2` and
`bytes_prev + bytes >= 18`); otherwise the previous token gets its feature and
the piece starts a new token. The step leaves `bytes` and `ctype` of this piece
as `bytes_prev` and `ctype_prev` of the next one. -/
theorem concat_policy (t : tagger) (line : List Nat) (st : LoopState) (key : List Nat) (r : Int)
    (hb : 0 ≤ payload_bytes r key) :
    ∃ st1, stepWith t line st key r = some st1 ∧
      st1.bytes_prev = payload_bytes r key ∧ st1.ctype_prev = payload_ctype r ∧
      (st.bos = true → st.concat = false →
        st1.toks = st.toks ++
          [{ surface := (line.drop st.p.toNat).take (payload_bytes r key).toNat,
             feature := [] }]) ∧
      (st.bos = false →
        ((st.ctype_prev = payload_ctype r ∧ st.ctype_prev ≠ 3 ∧
            ¬ (st.ctype_prev = 2 ∧ st.bytes_prev + payload_bytes r key ≥ 18)) ↔
          st1.toks.length = st.toks.length) ∧
        ((st.ctype_prev = payload_ctype r ∧ st.ctype_prev ≠ 3 ∧
            ¬ (st.ctype_prev = 2 ∧ st.bytes_prev + payload_bytes r key ≥ 18)) →
          st1.toks = appendBackSurface st.toks
            ((line.drop st.p.toNat).take (payload_bytes r key).toNat)) ∧
        (¬ (st.ctype_prev = payload_ctype r ∧ st.ctype_prev ≠ 3 ∧
            ¬ (st.ctype_prev = 2 ∧ st.bytes_prev + payload_bytes r key ≥ 18)) →
          st1.toks = setBackFeature st.toks (flush t.fs st.offsets st.concat).2 ++
            [{ surface := (line.drop st.p.toNat).take (payload_bytes r key).toNat,
               feature := [] }])) := by
  have hnb : ¬ payload_bytes r key < 0 := by omega
  unfold stepWith
  simp only [if_neg hnb]
  refine ⟨_, rfl, rfl, rfl, ?_, ?_⟩
  · intro hbos hcc
    simp [decide_boundary, putSurface, hbos, hcc]
  · intro hbos
    have hbd : boundary st.ctype_prev st.bytes_prev (payload_ctype r) (payload_bytes r key) = true
        ↔ ¬ (st.ctype_prev = payload_ctype r ∧ st.ctype_prev ≠ 3 ∧
            ¬ (st.ctype_prev = 2 ∧ st.bytes_prev + payload_bytes r key ≥ 18)) := by
      unfold boundary
      simp only [Bool.or_eq_true, Bool.and_eq_true, decide_eq_true_eq]
      tauto
    by_cases hc : boundary st.ctype_prev st.bytes_prev (payload_ctype r) (payload_bytes r key)
        = true
    · have hn := hbd.mp hc
      simp only [decide_boundary, putSurface, hbos, hc, Bool.false_eq_true, if_false, if_true]
      refine ⟨⟨fun h => absurd h hn, fun h => ?_⟩, fun h => absurd h hn, fun _ => trivial⟩
      rw [List.length_append, length_setBack] at h
      simp at h
    · have hn : st.ctype_prev = payload_ctype r ∧ st.ctype_prev ≠ 3 ∧
          ¬ (st.ctype_prev = 2 ∧ st.bytes_prev + payload_bytes r key ≥ 18) := by
        by_contra hcon
        exact hc (hbd.mpr hcon)
      simp only [decide_boundary, putSurface, hbos, hc, Bool.false_eq_true, if_false, if_true]
      exact ⟨⟨fun _ => length_appendBack _ _, fun _ => hn⟩, fun _ => trivial,
        fun h => absurd hn h⟩

/-- Witness of C6: the second `a` of `aab` under `unitModel`, after the first
one made a token: same character type 1, so the piece is appended. -/
theorem concat_policy_witness :
    ∃ st1, stepWith unitModel [97, 97, 98, 10]
        { p := 1, bytes_prev := 1, ctype_prev := 1, offsets := 5, bos := false, concat := false,
          toks := [{ surface := [97], feature := [] }], res := [97] } [97, 98] 9437185 = some st1 ∧
      st1.toks = [{ surface := [97, 97], feature := [] }] := by
  obtain ⟨st1, h1, _, _, _, h2⟩ := concat_policy unitModel [97, 97, 98, 10]
    { p := 1, bytes_prev := 1, ctype_prev := 1, offsets := 5, bos := false, concat := false,
      toks := [{ surface := [97], feature := [] }], res := [97] } [97, 98] 9437185 (by decide)
  exact ⟨st1, h1, (h2 rfl).2.1 (by decide)⟩

/-- Counterexample to C7 as stated: the pattern file `bosPatterns` has a pattern
conditioned on BOS, `read_model` gives the BOS context the symbol 1, and the
first matcher call of the line `a` gets `fi_prev = 1`. -/
theorem first_call_context_nonzero :
    persisted_c2i bosPatterns (CP_MAX + 1) = 1 ∧
      (matcherArgs [97] 1 (init bosModel)).2 = 1 := by
  constructor <;> decide

/-- C8. Unknown fallback: whenever the matcher returns the payload 0 at the
cursor, the tokenizer decodes the pattern id 0, the character type 0 and a byte
length equal to the UTF-8 length of the character at the cursor, advances by
that length, and the record for the next piece is `p2f[0]`. -/
theorem unknown_fallback (fuel : Nat) (t : tagger) (line : List Nat) (p_end : Nat)
    (st : LoopState)
    (h : longestPrefixSearchWithPOS fuel t.da (matcherArgs line p_end st).1
      (matcherArgs line p_end st).2 t.c2i 0 = some 0) :
    payload_id 0 = 0 ∧ payload_ctype 0 = 0 ∧
    payload_bytes 0 (matcherArgs line p_end st).1 = u8_len (matcherArgs line p_end st).1 ∧
    ∃ st1, step fuel t line p_end st = some st1 ∧
      st1.p = st.p + u8_len (matcherArgs line p_end st).1 ∧
      st1.bytes_prev = u8_len (matcherArgs line p_end st).1 ∧
      st1.ctype_prev = 0 ∧ st1.offsets = t.p2f.getD 0 0 := by
  have hb : payload_bytes 0 (matcherArgs line p_end st).1
      = (u8_len (matcherArgs line p_end st).1 : Int) := by
    unfold payload_bytes
    rw [if_neg (by decide)]
  refine ⟨by decide, by decide, hb, ?_⟩
  unfold step
  simp only [h]
  unfold stepWith
  have hnb : ¬ payload_bytes 0 (matcherArgs line p_end st).1 < 0 := by
    rw [hb]; omega
  simp only [if_neg hnb]
  have hc : payload_ctype 0 = 0 := by decide
  have hid : (payload_id 0).toNat = 0 := by decide
  refine ⟨_, rfl, ?_, ?_, hc, ?_⟩
  · simp only [hb]
  · simp only [hb]
  · simp only [hid]

/-- Witness of C8: the byte `b` is in no pattern of `unitModel`. -/
theorem unknown_fallback_witness :
    longestPrefixSearchWithPOS 3 unitModel.da (matcherArgs [98] 1 (init unitModel)).1
      (matcherArgs [98] 1 (init unitModel)).2 unitModel.c2i 0 = some 0 ∧
    ∃ st1, step 3 unitModel [98] 1 (init unitModel) = some st1 ∧
      st1.p = (init unitModel).p + u8_len (matcherArgs [98] 1 (init unitModel)).1 ∧
      st1.bytes_prev = u8_len (matcherArgs [98] 1 (init unitModel)).1 ∧
      st1.ctype_prev = 0 ∧ st1.offsets = unitModel.p2f.getD 0 0 :=
  ⟨by decide, (unknown_fallback 3 unitModel [98] 1 (init unitModel) (by decide)).2.2.2⟩

/-- C9 (amended). Trie payload round trip: for every `bytes < 256`,
`ctype < 8`, `pattern_id < 2^20` (and a context `fi_prev < 2^12` in the low
bits of the 44-bit value), packing the triple as `read_model` does and unpacking
the `int` payload as the tokenizer does returns the same `pattern_id`, `ctype`
and `bytes`. -/
theorem payload_round_trip (bytes ctype pid fi_prev : Nat) (hb : bytes < 256) (hc : ctype < 8)
    (hp : pid < 2 ^ 20) (hf : fi_prev < 2 ^ 12) :
    payload_id (storedPayload (keyValue bytes ctype pid fi_prev)) = (pid : Int) ∧
    payload_ctype (storedPayload (keyValue bytes ctype pid fi_prev)) = (ctype : Int) ∧
    storedPayload (keyValue bytes ctype pid fi_prev) >>> (23 : Nat) = (bytes : Int) := by
  rw [storedPayload_keyValue bytes ctype pid fi_prev hb hc (by omega) (by omega),
    payload_id_ofNat, payload_ctype_ofNat, shiftRight23_ofNat]
  refine ⟨?_, ?_, ?_⟩ <;> congr 1 <;> omega

/-- Witness of C9: a pattern of 255 bytes. -/
theorem payload_round_trip_witness :
    payload_id (storedPayload (keyValue 255 7 1048575 4095)) = 1048575 ∧
    payload_ctype (storedPayload (keyValue 255 7 1048575 4095)) = 7 ∧
    storedPayload (keyValue 255 7 1048575 4095) >>> (23 : Nat) = 255 :=
  payload_round_trip 255 7 1048575 4095 (by decide) (by decide) (by decide) (by decide)

/-- Counterexample to C9 as stated: for `bytes = 256 < 512` the stored `int` is
negative and the tokenizer reads the byte length `r >> 23` as -256. -/
theorem payload_bytes_sign_extended :
    storedPayload (keyValue 256 0 0 0) = -2147483648 ∧
      storedPayload (keyValue 256 0 0 0) >>> (23 : Nat) = -256 := by
  constructor <;> decide

/-- C10 (amended). Pattern-to-feature record round trip: for every
`ctx_sid < 2^14`, `surface_feat_len < 2^7`, `full_feat_len < 2^10` and
`feat_offset < 2^30`, the 64-bit word built by `read_model` decodes in the
tokenizer to the same four fields, `full_feat_len` being read from bits 21..30
with the mask `0x3ff`, and the normal path emits the `full_feat_len` bytes of
`fs` that start at `feat_offset`. -/
theorem record_round_trip (off full surf ctx : Nat) (ho : off < 2 ^ 30) (hl : full < 2 ^ 10)
    (hs : surf < 2 ^ 7) (hc : ctx < 2 ^ 14) :
    rec_ctx (p2fRecord off full surf ctx) = ctx ∧
    rec_surface_len (p2fRecord off full surf ctx) = surf ∧
    rec_full_len (p2fRecord off full surf ctx) = full ∧
    rec_feat_offset (p2fRecord off full surf ctx) = off ∧
    ∀ fs : List Nat, (flush fs (p2fRecord off full surf ctx) false).1 = substr fs off full ∧
      (off + full ≤ fs.length → (flush fs (p2fRecord off full surf ctx) false).1.length = full) := by
  obtain ⟨h1, h2, h3, h4⟩ := rec_fields_of_eq _ off full surf ctx (by omega) hs hc
    (p2fRecord_eq off full surf ctx ho (by omega) hs hc)
  have h3' : rec_full_len (p2fRecord off full surf ctx) = full := by
    rw [h3]; omega
  refine ⟨h1, h2, h3', h4, fun fs => ?_⟩
  have hfl : (flush fs (p2fRecord off full surf ctx) false).1 = substr fs off full := by
    unfold flush
    simp only [Bool.false_eq_true, if_false, h3', h4]
  refine ⟨hfl, fun hlen => ?_⟩
  rw [hfl]
  unfold substr
  rw [List.length_take, List.length_drop]
  omega

/-- Witness of C10: a feature of 1023 bytes. -/
theorem record_round_trip_witness :
    rec_ctx (p2fRecord 5 1023 127 16383) = 16383 ∧
    rec_surface_len (p2fRecord 5 1023 127 16383) = 127 ∧
    rec_full_len (p2fRecord 5 1023 127 16383) = 1023 ∧
    rec_feat_offset (p2fRecord 5 1023 127 16383) = 5 :=
  have h := record_round_trip 5 1023 127 16383 (by decide) (by decide) (by decide) (by decide)
  ⟨h.1, h.2.1, h.2.2.1, h.2.2.2.1⟩

/-- Counterexample to C10 as stated: a full feature of `1024 < 2^13` bytes is
decoded as a feature of 0 bytes, and the normal path emits nothing. -/
theorem record_full_len_truncated :
    rec_full_len (p2fRecord 0 1024 0 0) = 0 ∧
      (flush (List.replicate 2000 65) (p2fRecord 0 1024 0 0) false).1 = [] := by
  constructor <;> decide

/-! ## The output of `run` -/

theorem slice_eq_substr (fs : List Nat) (a n : Nat) : slice fs a (a + n) = substr fs a n := by
  unfold slice substr
  rw [List.drop_take]
  simp

theorem runBoundary_bos (b : Bool) (t : tagger) (st : RunState) (ctype bytes : Int) :
    (runBoundary b t st ctype bytes).bos = false := by
  unfold runBoundary
  cases hb : st.bos with
  | true => rfl
  | false =>
    simp only [Bool.false_eq_true, if_false]
    split_ifs <;> rfl

/-- The tagging loop from a state after the first piece writes, for the pieces
that follow, what `taggingRest` lists. -/
theorem runLoop_tagging (fuel : Nat) (t : tagger) (line : List Nat) (p_end : Nat) :
    ∀ (k : Nat) (st : RunState), st.bos = false →
      (runLoop true fuel t line p_end k st).map (runFinish true t) =
        (piecesFrom fuel t line p_end k st.p st.offsets).map
          (fun ps => st.res ++
            taggingRest t.fs st.ctype_prev st.bytes_prev st.offsets st.concat ps) := by
  intro k
  induction k with
  | zero => intro st _; rfl
  | succ k ih =>
    intro st hb
    unfold runLoop piecesFrom
    by_cases he : st.p = (p_end : Int)
    · rw [if_pos he, if_pos he]
      simp [runFinish, hb, taggingRest]
    · rw [if_neg he, if_neg he]
      by_cases ho : st.p < 0 ∨ (p_end : Int) < st.p
      · rw [if_pos ho, if_pos ho]; rfl
      · rw [if_neg ho, if_neg ho]
        unfold runStep rec_ctx
        simp only
        cases hm : longestPrefixSearchWithPOS fuel t.da ((line.take p_end).drop st.p.toNat)
            (st.offsets &&& 0x3fff) t.c2i 0 with
        | none => rfl
        | some r =>
          simp only
          unfold runStepWith
          simp only
          by_cases hn : payload_bytes r ((line.take p_end).drop st.p.toNat) < 0
          · rw [if_pos hn, if_pos hn]; rfl
          · rw [if_neg hn, if_neg hn]
            simp only
            refine Eq.trans (ih _ ?_) ?_
            · exact runBoundary_bos _ _ _ _ _
            simp only
            cases piecesFrom fuel t line p_end k
                (st.p + payload_bytes r ((line.take p_end).drop st.p.toNat))
                (t.p2f.getD (payload_id r).toNat 0) with
            | none => rfl
            | some ps =>
              simp only [Option.map_some']
              congr 1
              unfold runBoundary
              simp only [hb, Bool.false_eq_true, if_false, taggingRest]
              split_ifs <;> simp

/-- The segmentation loop from a state after the first piece writes, for the
pieces that follow, what `segmentationRest` lists. -/
theorem runLoop_segmentation (fuel : Nat) (t : tagger) (line : List Nat) (p_end : Nat) :
    ∀ (k : Nat) (st : RunState), st.bos = false →
      (runLoop false fuel t line p_end k st).map (runFinish false t) =
        (piecesFrom fuel t line p_end k st.p st.offsets).map
          (fun ps => st.res ++ segmentationRest st.ctype_prev st.bytes_prev ps) := by
  intro k
  induction k with
  | zero => intro st _; rfl
  | succ k ih =>
    intro st hb
    unfold runLoop piecesFrom
    by_cases he : st.p = (p_end : Int)
    · rw [if_pos he, if_pos he]
      simp [runFinish, hb, segmentationRest]
    · rw [if_neg he, if_neg he]
      by_cases ho : st.p < 0 ∨ (p_end : Int) < st.p
      · rw [if_pos ho, if_pos ho]; rfl
      · rw [if_neg ho, if_neg ho]
        unfold runStep rec_ctx
        simp only
        cases hm : longestPrefixSearchWithPOS fuel t.da ((line.take p_end).drop st.p.toNat)
            (st.offsets &&& 0x3fff) t.c2i 0 with
        | none => rfl
        | some r =>
          simp only
          unfold runStepWith
          simp only
          by_cases hn : payload_bytes r ((line.take p_end).drop st.p.toNat) < 0
          · rw [if_pos hn, if_pos hn]; rfl
          · rw [if_neg hn, if_neg hn]
            simp only
            refine Eq.trans (ih _ ?_) ?_
            · exact runBoundary_bos _ _ _ _ _
            simp only
            cases piecesFrom fuel t line p_end k
                (st.p + payload_bytes r ((line.take p_end).drop st.p.toNat))
                (t.p2f.getD (payload_id r).toNat 0) with
            | none => rfl
            | some ps =>
              simp only [Option.map_some']
              congr 1
              unfold runBoundary
              simp only [hb, Bool.false_eq_true, if_false, segmentationRest]
              split_ifs <;> simp

/-- The bytes of a line in terms of its pieces: the surface of the first piece,
then what the mode writes for the pieces that follow. -/
theorem runLine_pieces (m : Bool) (fuel : Nat) (t : tagger) (line : List Nat) :
    runLine m fuel t line = (pieces fuel t line).map (fun ps =>
      match ps with
      | [] => if m then eosNl else [10]
      | x :: rest =>
        x.surface ++ (if m then taggingRest t.fs x.ctype x.bytes x.offsets false rest
          else segmentationRest x.ctype x.bytes rest)) := by
  unfold runLine pieces
  cases fuel with
  | zero => rfl
  | succ k =>
    generalize line.length - ret line = p_end
    unfold runLoop piecesFrom
    by_cases he : (runStart t).p = (p_end : Int)
    · have he2 : (0 : Int) = (p_end : Int) := he
      rw [if_pos he, if_pos he2]
      simp [runFinish, runStart]
    · have he2 : ¬ (0 : Int) = (p_end : Int) := he
      rw [if_neg he, if_neg he2]
      have ho : ¬ ((0 : Int) < 0 ∨ (p_end : Int) < 0) := by omega
      have ho2 : ¬ ((runStart t).p < 0 ∨ (p_end : Int) < (runStart t).p) := ho
      rw [if_neg ho, if_neg ho2]
      unfold runStep rec_ctx
      simp only
      have hp : (runStart t).p = 0 := rfl
      have hof : (runStart t).offsets = t.c2i (CP_MAX + 1) := rfl
      rw [hp, hof]
      cases hm : longestPrefixSearchWithPOS (k + 1) t.da
          ((line.take p_end).drop (0 : Int).toNat) (t.c2i (CP_MAX + 1) &&& 0x3fff) t.c2i 0 with
      | none => rfl
      | some r =>
        simp only
        unfold runStepWith
        simp only
        by_cases hn : payload_bytes r ((line.take p_end).drop (0 : Int).toNat) < 0
        · rw [if_pos hn, if_pos hn]; rfl
        · rw [if_neg hn, if_neg hn]
          simp only
          have hfin : ∀ o : Option RunState,
              (match o with | none => none | some st => some (runFinish m t st)) =
                o.map (runFinish m t) := by
            intro o; cases o <;> rfl
          rw [hfin, hp]
          cases m with
          | true =>
            refine Eq.trans (runLoop_tagging (k + 1) t line p_end k _ ?_) ?_
            · exact runBoundary_bos _ _ _ _ _
            simp only
            cases piecesFrom (k + 1) t line p_end k
                (0 + payload_bytes r ((line.take p_end).drop (0 : Int).toNat))
                (t.p2f.getD (payload_id r).toNat 0) with
            | none => rfl
            | some ps => simp [runBoundary, runStart]
          | false =>
            refine Eq.trans (runLoop_segmentation (k + 1) t line p_end k _ ?_) ?_
            · exact runBoundary_bos _ _ _ _ _
            simp only
            cases piecesFrom (k + 1) t line p_end k
                (0 + payload_bytes r ((line.take p_end).drop (0 : Int).toNat))
                (t.p2f.getD (payload_id r).toNat 0) with
            | none => rfl
            | some ps => simp [runBoundary, runStart]

theorem tokenSurface_append (a b : List Piece) :
    tokenSurface (a ++ b) = tokenSurface a ++ tokenSurface b := by
  simp [tokenSurface]

theorem tokenSurface_single (x : Piece) : tokenSurface [x] = x.surface := by
  simp [tokenSurface]

/-- The feature bytes of the output grammar are the bytes `run` writes, the
flag `concat` telling whether the token has several pieces. -/
theorem tokenFeature_eq (fs : List Nat) (g : List Piece) (x : Piece) (c : Bool)
    (hc : c = true ↔ g ≠ []) :
    tokenFeature fs (g ++ [x]) = featureBytes fs x.offsets c := by
  unfold tokenFeature featureBytes
  rw [List.getLast?_concat]
  simp only [slice_eq_substr, rec_feat_offset, rec_surface_len, rec_full_len]
  cases c with
  | true =>
    have hg : g ≠ [] := hc.mp rfl
    have hl : 1 < (g ++ [x]).length := by
      rw [List.length_append]
      have := List.length_pos.mpr hg
      simp
      omega
    rw [if_pos hl]; rfl
  | false =>
    have hg : g = [] := by
      by_contra h
      exact absurd (hc.mpr h) (by simp)
    subst hg
    simp

theorem taggingOutput_cons (fs : List Nat) (g : List Piece) (l : List (List Piece)) :
    taggingOutput fs (g :: l) = tokenSurface g ++ (tokenFeature fs g ++ taggingOutput fs l) := by
  simp [taggingOutput]

/-- What the tagging mode writes after the open token is the output grammar
applied to the tokens that the remaining pieces complete. -/
theorem taggingRest_tokens (fs : List Nat) : ∀ (rest : List Piece) (g : List Piece) (x : Piece)
    (c : Bool), (c = true ↔ g ≠ []) →
      tokenSurface (g ++ [x]) ++ taggingRest fs x.ctype x.bytes x.offsets c rest =
        taggingOutput fs (tokenRuns g x rest) := by
  intro rest
  induction rest with
  | nil =>
    intro g x c hc
    simp only [taggingRest, tokenRuns, taggingOutput_cons, tokenFeature_eq fs g x c hc]
    simp [taggingOutput]
  | cons y rest ih =>
    intro g x c hc
    simp only [taggingRest, tokenRuns]
    by_cases hb : boundary x.ctype x.bytes y.ctype y.bytes = true
    · rw [if_pos hb, if_pos hb, taggingOutput_cons, tokenFeature_eq fs g x c hc,
        ← ih [] y false (by simp)]
      simp [tokenSurface_single]
    · rw [if_neg hb, if_neg hb, ← ih (g ++ [x]) y true (by simp),
        tokenSurface_append (g ++ [x]) [y], tokenSurface_single]
      simp

/-- Under the three conditions the pieces of a line are defined. -/
theorem piecesFrom_total (fuel : Nat) (t : tagger) (line : List Nat) (h0 : t.c2i 0 = 0)
    (hfuel : line.length < fuel) (hfit : piecesFit fuel t line) :
    ∀ (k : Nat) (p : Int) (o : Nat), 0 ≤ p → p ≤ ((line.length - ret line : Nat) : Int) →
      rec_ctx o ∈ contexts t → (((line.length - ret line : Nat) : Int) - p).toNat < k →
      ∃ ps, piecesFrom fuel t line (line.length - ret line) k p o = some ps := by
  intro k
  induction k with
  | zero => intro p o _ _ _ h; omega
  | succ k ih =>
    intro p o hp0 hpe hctx hk
    unfold piecesFrom
    by_cases he : p = ((line.length - ret line : Nat) : Int)
    · rw [if_pos he]
      exact ⟨[], rfl⟩
    · rw [if_neg he, if_neg (by omega)]
      simp only
      have hle : line.length - ret line ≤ line.length := Nat.sub_le _ _
      have hpn : p.toNat < line.length - ret line := by omega
      have hlen := view_length line (line.length - ret line) p.toNat hle
      obtain ⟨r, hr⟩ := matcher_total t.da t.c2i h0
        ((line.take (line.length - ret line)).drop p.toNat) (rec_ctx o) fuel (by omega)
      have hfa := hfit p.toNat (List.mem_range.mpr hpn) (rec_ctx o) hctx
      unfold fitsAt at hfa
      rw [hr] at hfa
      obtain ⟨hb, hbe⟩ := payload_bytes_fit line (line.length - ret line) p.toNat r hle hpn hfa
      rw [hr]
      simp only
      rw [if_neg (by omega)]
      have hpc : ((p.toNat : Nat) : Int) = p := Int.toNat_of_nonneg hp0
      rw [hpc] at hbe
      obtain ⟨qs, hq⟩ := ih (p + payload_bytes r ((line.take (line.length - ret line)).drop p.toNat))
        (t.p2f.getD (payload_id r).toNat 0) (by omega) hbe (ctx_getD_mem t _) (by omega)
      rw [hq]
      exact ⟨_, rfl⟩

theorem pieces_total (fuel : Nat) (t : tagger) (line : List Nat) (h0 : t.c2i 0 = 0)
    (hfuel : line.length < fuel) (hfit : piecesFit fuel t line) :
    ∃ ps, pieces fuel t line = some ps := by
  unfold pieces
  refine piecesFrom_total fuel t line h0 hfuel hfit fuel 0 _ (le_refl _) (by omega) ?_ (by omega)
  unfold contexts
  exact List.mem_cons_self _ _

/-- C11 (amended). Tagging output grammar: the bytes `run` writes for a line in
tagging mode are, for each token in order, its surface followed by its feature
bytes, then `"EOS\n"`. The tokens are the maximal runs of pieces without a
boundary (`tokensOf`); the feature bytes (`tokenFeature`) come from the record
of the last piece of the token and are
`fs[feat_offset, feat_offset + ((offsets >> 21) & 0x3ff))`, the length being the
low 10 bits of `full_feat_len`, for a token of one piece and
`fs[feat_offset, feat_offset + surface_feat_len)` followed by `",*,*,*\n"` for a
concatenated token. The output is defined exactly when the pieces of the line
are, which is the case for every line whose pieces fit. -/
theorem tagging_output_grammar (fuel : Nat) (t : tagger) (line : List Nat) :
    runLine true fuel t line =
        (pieces fuel t line).map (fun ps => taggingOutput t.fs (tokensOf ps)) ∧
      (t.c2i 0 = 0 → line.length < fuel → piecesFit fuel t line →
        ∃ ps, pieces fuel t line = some ps) := by
  refine ⟨?_, pieces_total fuel t line⟩
  rw [runLine_pieces]
  cases pieces fuel t line with
  | none => rfl
  | some ps =>
    simp only [Option.map_some', if_true]
    congr 1
    cases ps with
    | nil => rfl
    | cons x rest =>
      simp only [tokensOf]
      rw [← taggingRest_tokens t.fs rest [] x false (by simp)]
      simp [tokenSurface_single]

/-- C11, an instance: the line `"aaab\n"` under `tagModel` has the tokens `aa`
(concatenated, POS part and wildcards) and `ab` (full feature). -/
theorem tagging_output_grammar_witness :
    runLine true 6 tagModel [97, 97, 97, 98, 10] =
      some ([97, 97] ++ [9, 78] ++ wildcardNl ++ [97, 98] ++ [9, 86, 44, 121, 10] ++ eosNl) :=
  (tagging_output_grammar 6 tagModel [97, 97, 97, 98, 10]).1.trans (by decide)

/-- Counterexample to C11 as stated: in `longFeatureModel` the token `ab` is one
piece whose record has the offset 0 and, in the bits 21..33, the length 1024 of
a feature that lies inside `fs`; the tagging output of the line `"ab\n"` has no
feature byte between the surface and `"EOS\n"`. -/
theorem tagging_feature_truncated :
    pieces 4 longFeatureModel [97, 98, 10] =
        some [{ surface := [97, 98], bytes := 2, ctype := 3,
                offsets := p2fRecord 0 1024 2 0 }] ∧
      (p2fRecord 0 1024 2 0 >>> 21) &&& 0x1fff = 1024 ∧
      rec_feat_offset (p2fRecord 0 1024 2 0) = 0 ∧
      longFeatureModel.fs.length = 1024 ∧
      runLine true 4 longFeatureModel [97, 98, 10] = some ([97, 98] ++ eosNl) := by
  refine ⟨by decide, by decide, by decide, ?_, by decide⟩
  show (9 :: (List.replicate 1022 78 ++ [10])).length = 1024
  rw [List.length_cons, List.length_append, List.length_replicate]
  rfl

/-- C13. Empty line: for every model the line `"\n"` has no piece, hence no
token, and `run` writes exactly `"EOS\n"` for it in tagging mode and `"\n"` in
segmentation mode. -/
theorem empty_line_output (fuel : Nat) (t : tagger) :
    pieces (fuel + 1) t [10] = some [] ∧ tokensOf ([] : List Piece) = [] ∧
      runLine true (fuel + 1) t [10] = some eosNl ∧
      runLine false (fuel + 1) t [10] = some [10] := by
  have hp : pieces (fuel + 1) t [10] = some [] := by
    unfold pieces
    have : [10].length - ret [10] = 0 := by decide
    rw [this]
    unfold piecesFrom
    rw [if_pos (by simp)]
  refine ⟨hp, rfl, ?_, ?_⟩
  · rw [runLine_pieces, hp]; rfl
  · rw [runLine_pieces, hp]; rfl

/-! ## The ranking of the symbols -/

theorem bump_keys (counter : List (Nat × Nat)) (idx w : Nat) :
    (bump counter idx w).map Prod.fst =
      if idx ∈ counter.map Prod.fst then counter.map Prod.fst
      else counter.map Prod.fst ++ [idx] := by
  induction counter with
  | nil => simp [bump]
  | cons e rest ih =>
    obtain ⟨i, c⟩ := e
    unfold bump
    by_cases h : i = idx
    · simp [h]
    · rw [if_neg h]
      simp only [List.map_cons, ih, List.mem_cons]
      have h2 : ¬ idx = i := fun h3 => h h3.symm
      by_cases hm : idx ∈ rest.map Prod.fst
      · simp [hm]
      · simp [hm, h2]

theorem bump_nodup (counter : List (Nat × Nat)) (idx w : Nat)
    (h : (counter.map Prod.fst).Nodup) : ((bump counter idx w).map Prod.fst).Nodup := by
  rw [bump_keys]
  split_ifs with hm
  · exact h
  · rw [List.nodup_append]
    refine ⟨h, List.nodup_singleton _, ?_⟩
    intro a ha hb
    simp only [List.mem_singleton] at hb
    subst hb
    exact hm ha

theorem foldl_bump_nodup (w : Nat) : ∀ (cps : List Nat) (counter : List (Nat × Nat)),
    (counter.map Prod.fst).Nodup →
      ((cps.foldl (fun c cp => bump c cp w) counter).map Prod.fst).Nodup := by
  intro cps
  induction cps with
  | nil => intro c h; exact h
  | cons cp cps ih => intro c h; exact ih _ (bump_nodup c cp w h)

theorem countLine_counter (cs : counterState) (l : patternLine) :
    (countLine cs l).counter =
      if l.f_prev = [] then
        (codepoints l.pat).foldl (fun c cp => bump c cp (l.count + 1)) cs.counter
      else
        bump ((codepoints l.pat).foldl (fun c cp => bump c cp (l.count + 1)) cs.counter)
          ((cs.fbag.to_i l.f_prev).1 + 1 + CP_MAX) (l.count + 1) := by
  unfold countLine
  simp only
  split_ifs <;> rfl

theorem countLine_nodup (cs : counterState) (l : patternLine)
    (h : (cs.counter.map Prod.fst).Nodup) : ((countLine cs l).counter.map Prod.fst).Nodup := by
  rw [countLine_counter]
  split_ifs
  · exact foldl_bump_nodup _ _ _ h
  · exact bump_nodup _ _ _ (foldl_bump_nodup _ _ _ h)

theorem foldl_countLine_nodup : ∀ (lines : List patternLine) (cs : counterState),
    (cs.counter.map Prod.fst).Nodup →
      ((lines.foldl countLine cs).counter.map Prod.fst).Nodup := by
  intro lines
  induction lines with
  | nil => intro cs h; exact h
  | cons l lines ih => intro cs h; exact ih _ (countLine_nodup cs l h)

/-- The indices listed in `counter` after the first loop are distinct. -/
theorem counter_nodup (lines : List patternLine) :
    ((lines.foldl countLine counterInit).counter.map Prod.fst).Nodup :=
  foldl_countLine_nodup lines counterInit (by simp [counterInit])

theorem countOf_mem (counter : List (Nat × Nat)) (h : (counter.map Prod.fst).Nodup)
    (e : Nat × Nat) (he : e ∈ counter) : countOf counter e.1 = e.2 := by
  induction counter with
  | nil => exact absurd he (by simp)
  | cons a rest ih =>
    rw [List.map_cons, List.nodup_cons] at h
    unfold countOf
    rw [List.find?_cons]
    rcases List.mem_cons.mp he with h1 | h1
    · subst h1
      simp
    · have hne : a.1 ≠ e.1 := by
        intro h2
        exact h.1 (h2 ▸ List.mem_map_of_mem Prod.fst h1)
      have : (a.1 == e.1) = false := by simpa using hne
      rw [this]
      exact ih h.2 h1

theorem countOf_ne_zero_mem (counter : List (Nat × Nat)) (x : Nat)
    (h : countOf counter x ≠ 0) : (x, countOf counter x) ∈ counter := by
  unfold countOf at h ⊢
  cases hf : counter.find? (fun e => e.1 == x) with
  | none => rw [hf] at h; exact absurd rfl h
  | some e =>
    simp only
    have h1 := List.find?_some hf
    have h2 := List.mem_of_find?_eq_some hf
    simp only [beq_iff_eq] at h1
    rw [← h1]
    exact h2

theorem ranked_perm (counter : List (Nat × Nat)) :
    (rankedEntries counter).Perm
      (counter.filter (fun e => decide (1 ≤ e.1) && decide (e.2 ≠ 0))) :=
  List.perm_insertionSort _ _

theorem ranked_length (counter : List (Nat × Nat)) :
    (rankedEntries counter).length = symbolCount counter :=
  (ranked_perm counter).length_eq

theorem ranked_mem (counter : List (Nat × Nat)) (e : Nat × Nat) :
    e ∈ rankedEntries counter ↔ e ∈ counter ∧ 1 ≤ e.1 ∧ e.2 ≠ 0 := by
  rw [(ranked_perm counter).mem_iff, List.mem_filter]
  simp

theorem ranked_nodup (counter : List (Nat × Nat)) (h : (counter.map Prod.fst).Nodup) :
    ((rankedEntries counter).map Prod.fst).Nodup := by
  rw [((ranked_perm counter).map Prod.fst).nodup_iff]
  exact List.Nodup.sublist (List.Sublist.map _ (List.filter_sublist _)) h

/-- The ranked symbols are the symbols other than the code point 0 whose count
is not zero. -/
theorem ranked_keys (counter : List (Nat × Nat)) (h : (counter.map Prod.fst).Nodup) (x : Nat) :
    x ∈ (rankedEntries counter).map Prod.fst ↔ 1 ≤ x ∧ countOf counter x ≠ 0 := by
  rw [List.mem_map]
  constructor
  · rintro ⟨e, he, rfl⟩
    obtain ⟨h1, h2, h3⟩ := (ranked_mem counter e).mp he
    rw [countOf_mem counter h e h1]
    exact ⟨h2, h3⟩
  · rintro ⟨h1, h2⟩
    exact ⟨(x, countOf counter x),
      (ranked_mem counter _).mpr ⟨countOf_ne_zero_mem counter x h2, h1, h2⟩, rfl⟩

theorem orderedInsert_pairwise (a : Nat × Nat) : ∀ l : List (Nat × Nat),
    l.Pairwise (fun x y => ¬ greaterEntry y x) →
      (l.orderedInsert greaterEntry a).Pairwise (fun x y => ¬ greaterEntry y x) := by
  intro l
  induction l with
  | nil => intro _; simp
  | cons b l ih =>
    intro h
    rw [List.pairwise_cons] at h
    rw [List.orderedInsert]
    split_ifs with hab
    · rw [List.pairwise_cons]
      refine ⟨?_, List.pairwise_cons.mpr h⟩
      intro x hx
      rcases List.mem_cons.mp hx with hx | hx
      · subst hx
        unfold greaterEntry at hab ⊢
        omega
      · have := h.1 x hx
        unfold greaterEntry at hab this ⊢
        omega
    · rw [List.pairwise_cons]
      refine ⟨?_, ih h.2⟩
      intro x hx
      rw [(List.perm_orderedInsert greaterEntry a l).mem_iff] at hx
      rcases List.mem_cons.mp hx with hx | hx
      · subst hx; exact hab
      · exact h.1 x hx

/-- The ranked entries are in descending order of `(count, index)`. -/
theorem ranked_sorted (counter : List (Nat × Nat)) :
    (rankedEntries counter).Pairwise (fun x y => ¬ greaterEntry y x) := by
  unfold rankedEntries
  generalize counter.filter _ = l
  induction l with
  | nil => simp
  | cons a l ih =>
    rw [List.insertionSort]
    exact orderedInsert_pairwise a _ ih

theorem findIdx_key (x : Nat) : ∀ R : List (Nat × Nat),
    R.findIdx? (fun e => e.1 == x) =
      if x ∈ R.map Prod.fst then some ((R.map Prod.fst).indexOf x) else none := by
  intro R
  induction R with
  | nil => simp
  | cons a R ih =>
    rw [List.findIdx?_cons]
    by_cases h : a.1 = x
    · simp [h]
    · have hb : (a.1 == x) = false := by simpa using h
      rw [hb]
      simp only [Bool.false_eq_true, if_false, zero_add]
      rw [List.findIdx?_succ, ih]
      have h2 : ¬ x = a.1 := fun h3 => h h3.symm
      simp only [List.map_cons, List.mem_cons, h2, false_or]
      split_ifs with hm
      · rw [List.indexOf_cons_ne _ h]
        simp
      · rfl

/-- The value of `c2i_` is the position of the symbol among the ranked symbols,
plus one, cut to 16 bits. -/
theorem c2iOfCounter_eq (counter : List (Nat × Nat)) (x : Nat) :
    c2iOfCounter counter x =
      if x ∈ (rankedEntries counter).map Prod.fst then
        (((rankedEntries counter).map Prod.fst).indexOf x + 1) % 2 ^ 16
      else 0 := by
  unfold c2iOfCounter
  rw [findIdx_key]
  split_ifs <;> rfl

theorem pairwise_indexOf (P : Nat × Nat → Nat × Nat → Prop) : ∀ R : List (Nat × Nat),
    R.Pairwise P → (R.map Prod.fst).Nodup → ∀ e ∈ R, ∀ f ∈ R,
      (R.map Prod.fst).indexOf e.1 < (R.map Prod.fst).indexOf f.1 → P e f := by
  intro R
  induction R with
  | nil => intro _ _ e he; exact absurd he (by simp)
  | cons a R ih =>
    intro hp hn e he f hf hlt
    rw [List.pairwise_cons] at hp
    rw [List.map_cons, List.nodup_cons] at hn
    rw [List.map_cons] at hlt
    by_cases hea : a.1 = e.1
    · rw [List.indexOf_cons_eq _ hea] at hlt
      have hfa : a.1 ≠ f.1 := by
        intro h
        rw [List.indexOf_cons_eq _ h] at hlt
        omega
      have he2 : e = a := by
        rcases List.mem_cons.mp he with h | h
        · exact h
        · exact absurd (hea ▸ List.mem_map_of_mem Prod.fst h) hn.1
      have hf2 : f ∈ R := by
        rcases List.mem_cons.mp hf with h | h
        · exact absurd (by rw [h]) hfa
        · exact h
      rw [he2]
      exact hp.1 f hf2
    · rw [List.indexOf_cons_ne _ hea] at hlt
      have hfa : a.1 ≠ f.1 := by
        intro h
        rw [List.indexOf_cons_eq _ h] at hlt
        omega
      rw [List.indexOf_cons_ne _ hfa] at hlt
      have he2 : e ∈ R := by
        rcases List.mem_cons.mp he with h | h
        · exact absurd (by rw [h]) hea
        · exact h
      have hf2 : f ∈ R := by
        rcases List.mem_cons.mp hf with h | h
        · exact absurd (by rw [h]) hfa
        · exact h
      exact ih hp.2 hn.2 e he2 f hf2 (by omega)


theorem counterOf_nodup (lines : List patternLine) : ((counterOf lines).map Prod.fst).Nodup :=
  counter_nodup lines

/-- A ranked symbol, when fewer than `2 ^ 16` symbols are ranked, has the sid
`position + 1`, between 1 and the number of ranked symbols. -/
theorem c2i_ranked (counter : List (Nat × Nat)) (hk : symbolCount counter < 2 ^ 16) (x : Nat)
    (hx : x ∈ (rankedEntries counter).map Prod.fst) :
    c2iOfCounter counter x = ((rankedEntries counter).map Prod.fst).indexOf x + 1 ∧
      ((rankedEntries counter).map Prod.fst).indexOf x < symbolCount counter := by
  have hlt : ((rankedEntries counter).map Prod.fst).indexOf x < symbolCount counter := by
    rw [← ranked_length, ← List.length_map (rankedEntries counter) Prod.fst]
    exact List.indexOf_lt_length.mpr hx
  refine ⟨?_, hlt⟩
  rw [c2iOfCounter_eq, if_pos hx]
  exact Nat.mod_eq_of_lt (by omega)

theorem c2i_ne_zero_ranked (counter : List (Nat × Nat)) (x : Nat)
    (h : c2iOfCounter counter x ≠ 0) : x ∈ (rankedEntries counter).map Prod.fst := by
  rw [c2iOfCounter_eq] at h
  by_contra hx
  rw [if_neg hx] at h
  exact h rfl

theorem ranked_entry (counter : List (Nat × Nat)) (h : (counter.map Prod.fst).Nodup) (x : Nat)
    (hx : x ∈ (rankedEntries counter).map Prod.fst) :
    (x, countOf counter x) ∈ rankedEntries counter := by
  obtain ⟨h1, h2⟩ := (ranked_keys counter h x).mp hx
  exact (ranked_mem counter _).mpr ⟨countOf_ne_zero_mem counter x h2, h1, h2⟩

/-- Among ranked symbols, when fewer than `2 ^ 16` symbols are ranked, a smaller
sid means a greater or equal `(count, index)`. -/
theorem c2i_order (counter : List (Nat × Nat)) (h : (counter.map Prod.fst).Nodup)
    (hk : symbolCount counter < 2 ^ 16) (a b : Nat)
    (ha : a ∈ (rankedEntries counter).map Prod.fst)
    (hlt : c2iOfCounter counter a < c2iOfCounter counter b) :
    greaterEntry (a, countOf counter a) (b, countOf counter b) := by
  have hb : b ∈ (rankedEntries counter).map Prod.fst :=
    c2i_ne_zero_ranked counter b (by omega)
  rw [(c2i_ranked counter hk a ha).1, (c2i_ranked counter hk b hb).1] at hlt
  have hge := pairwise_indexOf (fun x y => ¬ greaterEntry y x) (rankedEntries counter)
    (ranked_sorted counter) (ranked_nodup counter h) _ (ranked_entry counter h a ha)
    _ (ranked_entry counter h b hb) (by simpa using hlt)
  have hne : a ≠ b := by
    intro hab
    rw [hab] at hlt
    omega
  unfold greaterEntry at hge ⊢
  simp only at hge ⊢
  omega

/-! ## The records and keys of `read_model` -/

theorem shl_mod64 (a k : Nat) (hk : k ≤ 64) :
    (a <<< k) % 2 ^ 64 = (a % 2 ^ (64 - k)) * 2 ^ k := by
  rw [Nat.shiftLeft_eq]
  have h : 2 ^ 64 = 2 ^ (64 - k) * 2 ^ k := by
    rw [← pow_add]
    congr 1
    omega
  rw [h, Nat.mul_mod_mul_right]

theorem and_mask12 (x : Nat) : x &&& 0xfff = x % 4096 := by
  have h := Nat.and_pow_two_sub_one_eq_mod x 12
  norm_num at h
  exact h

theorem and_mask32 (x : Nat) : x &&& 0xffffffff = x % 4294967296 := by
  have h := Nat.and_pow_two_sub_one_eq_mod x 32
  norm_num at h
  exact h

theorem shl_add_lt (a b i : Nat) (h : b < 2 ^ i) : a * 2 ^ i ||| b = a * 2 ^ i + b := by
  rw [Nat.mul_comm a, ← Nat.mul_add_lt_is_or h]

/-- The 64-bit value of a pattern line whose `fi_prev` fits in 12 bits: the
packed triple above the bit 12, `fi_prev` below. -/
theorem keyValue_split (bytes ctype pid fi_prev : Nat) (hf : fi_prev < 4096) :
    keyValue bytes ctype pid fi_prev =
      ((bytes % 2199023255552 * 8 + ctype % 8) * 1048576 + pid % 1048576)
        % 4503599627370496 * 4096 + fi_prev := by
  unfold keyValue
  have h1 : (bytes <<< 23) % 2 ^ 64 = bytes % 2199023255552 * 2 ^ 23 := by
    have h := shl_mod64 bytes 23 (by omega)
    norm_num at h ⊢
    exact h
  rw [and_mask3, and_mask20, h1]
  have h2 : (ctype % 8) <<< 20 ||| pid % 1048576 = (ctype % 8) * 2 ^ 20 + pid % 1048576 :=
    shl_or_eq_add (ctype % 8) (pid % 1048576) 20 (by omega)
  have h3 : bytes % 2199023255552 * 2 ^ 23 ||| ((ctype % 8) * 2 ^ 20 + pid % 1048576)
      = bytes % 2199023255552 * 2 ^ 23 + ((ctype % 8) * 2 ^ 20 + pid % 1048576) :=
    shl_add_lt _ _ 23 (by omega)
  rw [Nat.lor_assoc, h2, h3]
  have h4 : ∀ x : Nat, (x <<< 12) % 2 ^ 64 = x % 4503599627370496 * 2 ^ 12 := by
    intro x
    have h := shl_mod64 x 12 (by omega)
    norm_num at h ⊢
    exact h
  rw [h4, shl_add_lt _ fi_prev 12 (by omega)]
  omega

theorem payload_id_toI32 (n : Nat) : payload_id (toI32 n) = ((n % 1048576 : Nat) : Int) := by
  unfold payload_id andI32 toU32 toI32
  rw [and_mask20]
  congr 1
  split_ifs <;> omega

/-- The stored payload of a pattern line whose `fi_prev` fits in 12 bits is made
of `bytes`, `ctype` and the pattern id alone. -/
theorem storedPayload_split (bytes ctype pid fi_prev : Nat) (hf : fi_prev < 4096) :
    storedPayload (keyValue bytes ctype pid fi_prev) =
      toI32 ((bytes * 8 + ctype % 8) * 1048576 + pid % 1048576) := by
  unfold storedPayload
  rw [keyValue_split _ _ _ _ hf, Nat.shiftRight_eq_div_pow]
  unfold toI32
  have h : ∀ x : Nat, ((x % 4503599627370496 * 4096 + fi_prev) / 2 ^ 12) % 4294967296
      = x % 4294967296 := by
    intro x
    omega
  have h2 : ((bytes % 2199023255552 * 8 + ctype % 8) * 1048576 + pid % 1048576) % 4294967296
      = ((bytes * 8 + ctype % 8) * 1048576 + pid % 1048576) % 4294967296 := by
    omega
  rw [h, h2]

theorem keyValue_low12 (bytes ctype pid fi_prev : Nat) (hf : fi_prev < 4096) :
    keyValue bytes ctype pid fi_prev &&& 0xfff = fi_prev := by
  rw [and_mask12, keyValue_split _ _ _ _ hf]
  omega

theorem payload_id_stored (bytes ctype pid fi_prev : Nat) (hf : fi_prev < 4096) :
    payload_id (storedPayload (keyValue bytes ctype pid fi_prev)) =
      ((pid % 1048576 : Nat) : Int) := by
  rw [storedPayload_split _ _ _ _ hf, payload_id_toI32]
  congr 1
  omega


theorem compileLine_foldl_cs : ∀ (lines : List patternLine) (s : compileState),
    (lines.foldl compileLine s).cs = lines.foldl countLine s.cs := by
  intro lines
  induction lines with
  | nil => intro s; rfl
  | cons l lines ih => intro s; exact ih (compileLine s l)

theorem compileLines_counter (U : List Nat) (lines : List patternLine) :
    (compileLines U lines).cs.counter = counterOf lines := by
  unfold compileLines counterOf
  rw [compileLine_foldl_cs]
  rfl

theorem read_model_c2i (U : List Nat) (lines : List patternLine) :
    (read_model U lines).c2i_ = compile_c2i lines := by
  unfold read_model compile_c2i
  simp only
  rw [compileLines_counter]
  rfl

theorem compileLines_append (U : List Nat) (pre : List patternLine) (l : patternLine) :
    compileLines U (pre ++ [l]) = compileLine (compileLines U pre) l := by
  unfold compileLines
  rw [List.foldl_append]
  rfl

theorem foldl_compileLine_ids : ∀ (post : List patternLine) (s : compileState),
    ∃ more, (post.foldl compileLine s).ids = s.ids ++ more ∧ more.length = post.length := by
  intro post
  induction post with
  | nil => intro s; exact ⟨[], by simp, rfl⟩
  | cons l post ih =>
    intro s
    obtain ⟨more, h1, h2⟩ := ih (compileLine s l)
    refine ⟨lineIdsOf s l :: more, ?_, by simp [h2]⟩
    rw [List.foldl_cons, h1]
    simp [compileLine]

theorem compileLines_ids_length (U : List Nat) (lines : List patternLine) :
    (compileLines U lines).ids.length = lines.length := by
  obtain ⟨more, h1, h2⟩ := foldl_compileLine_ids lines (compileInit U)
  unfold compileLines
  rw [h1, List.length_append, h2]
  simp [compileInit]

/-- The ids kept for the line `l` of the file `pre ++ l :: post` are the ids
computed in the state after `pre`. -/
theorem compileLines_ids_at (U : List Nat) (pre post : List patternLine) (l : patternLine) :
    (compileLines U (pre ++ l :: post)).ids.get? pre.length =
      some (lineIdsOf (compileLines U pre) l) := by
  have h : compileLines U (pre ++ l :: post) =
      post.foldl compileLine (compileLine (compileLines U pre) l) := by
    unfold compileLines
    rw [List.foldl_append, List.foldl_cons]
  obtain ⟨more, h1, _⟩ := foldl_compileLine_ids post (compileLine (compileLines U pre) l)
  rw [h, h1]
  have h2 : (compileLine (compileLines U pre) l).ids =
      (compileLines U pre).ids ++ [lineIdsOf (compileLines U pre) l] := rfl
  rw [h2, List.append_assoc, List.get?_eq_getElem?,
    List.getElem?_append_right (by rw [compileLines_ids_length])]
  simp [compileLines_ids_length]


theorem lineIdsOf_pid (s : compileState) (l : patternLine) :
    (lineIdsOf s l).pid =
      if recordKey (lineIdsOf s l).fi (lineIdsOf s l).fi_ ∈ s.p2f_ then
        s.p2f_.indexOf (recordKey (lineIdsOf s l).fi (lineIdsOf s l).fi_)
      else s.p2f_.length := rfl

theorem compileLine_p2f (s : compileState) (l : patternLine) :
    (compileLine s l).p2f_ =
      if recordKey (lineIdsOf s l).fi (lineIdsOf s l).fi_ ∈ s.p2f_ then s.p2f_
      else s.p2f_ ++ [recordKey (lineIdsOf s l).fi (lineIdsOf s l).fi_] := rfl

theorem getD_indexOf (k d : Nat) : ∀ l : List Nat, k ∈ l → l.getD (l.indexOf k) d = k := by
  intro l
  induction l with
  | nil => intro h; exact absurd h (List.not_mem_nil k)
  | cons a l ih =>
    intro h
    by_cases ha : a = k
    · rw [List.indexOf_cons_eq _ ha]
      exact ha
    · rw [List.indexOf_cons_ne _ ha]
      have hk : k ∈ l := by
        rcases List.mem_cons.mp h with h1 | h1
        · exact absurd h1.symm ha
        · exact h1
      exact ih hk

theorem getD_append_last (l : List Nat) (k d : Nat) : (l ++ [k]).getD l.length d = k := by
  rw [List.getD_append_right _ _ _ _ (le_refl _), Nat.sub_self]
  rfl

theorem pidInv_compileLine (s : compileState) (l : patternLine) (h : pidInv s) :
    pidInv (compileLine s l) := by
  intro e he
  have hids : (compileLine s l).ids = s.ids ++ [lineIdsOf s l] := rfl
  rw [hids, List.mem_append, List.mem_singleton] at he
  rw [compileLine_p2f]
  generalize hk : recordKey (lineIdsOf s l).fi (lineIdsOf s l).fi_ = k
  have hpid := lineIdsOf_pid s l
  rw [hk] at hpid
  by_cases hm : k ∈ s.p2f_
  · rw [if_pos hm] at hpid ⊢
    rcases he with he | he
    · exact h e he
    · subst he
      have hlt := List.indexOf_lt_length.mpr hm
      refine ⟨by rw [hpid]; exact hlt, ?_⟩
      rw [hpid, hk]
      exact getD_indexOf k 0 _ hm
  · rw [if_neg hm] at hpid ⊢
    rcases he with he | he
    · obtain ⟨h1, h2⟩ := h e he
      refine ⟨by rw [List.length_append]; omega, ?_⟩
      rw [List.getD_append _ _ _ _ h1]
      exact h2
    · subst he
      refine ⟨by rw [hpid, List.length_append]; exact Nat.lt_succ_self _, ?_⟩
      rw [hpid, hk]
      exact getD_append_last _ _ _

theorem pidInv_foldl : ∀ (lines : List patternLine) (s : compileState), pidInv s →
    pidInv (lines.foldl compileLine s) := by
  intro lines
  induction lines with
  | nil => intro s h; exact h
  | cons l lines ih => intro s h; exact ih _ (pidInv_compileLine s l h)

theorem pidInv_compileLines (U : List Nat) (lines : List patternLine) :
    pidInv (compileLines U lines) :=
  pidInv_foldl lines _ (fun e he => absurd he (by simp [compileInit]))

theorem read_model_p2f_length (U : List Nat) (lines : List patternLine) :
    (read_model U lines).p2f.length = (compileLines U lines).p2f_.length := by
  simp [read_model]


theorem or_mod_pow (a b n : Nat) : (a ||| b) % 2 ^ n = a % 2 ^ n ||| b % 2 ^ n := by
  apply Nat.eq_of_testBit_eq
  intro i
  simp only [Nat.testBit_mod_two_pow, Nat.testBit_or]
  by_cases h : i < n <;> simp [h]

theorem or_shiftRight (a b n : Nat) : (a ||| b) >>> n = a >>> n ||| b >>> n := by
  apply Nat.eq_of_testBit_eq
  intro i
  simp only [Nat.testBit_shiftRight, Nat.testBit_or]

theorem shiftRight_of_lt (a n : Nat) (h : a < 2 ^ n) : a >>> n = 0 := by
  rw [Nat.shiftRight_eq_div_pow]
  exact Nat.div_eq_of_lt h

/-- The context field of a record is the low 14 bits of the sid that was or-ed
in. -/
theorem rec_ctx_record (off full surf ctx : Nat) :
    rec_ctx (p2fRecord off full surf ctx) = ctx % 16384 := by
  unfold rec_ctx p2fRecord
  rw [and_mask14]
  have h := or_mod_pow ((off <<< 34) % 2 ^ 64 ||| (full <<< (14 + 7)) % 2 ^ 64 |||
    (surf <<< 14) % 2 ^ 64) ctx 14
  have h2 := or_mod_pow ((off <<< 34) % 2 ^ 64 ||| (full <<< (14 + 7)) % 2 ^ 64)
    ((surf <<< 14) % 2 ^ 64) 14
  have h3 := or_mod_pow ((off <<< 34) % 2 ^ 64) ((full <<< (14 + 7)) % 2 ^ 64) 14
  have e1 : (off <<< 34) % 2 ^ 64 % 2 ^ 14 = 0 := by
    rw [shl_mod64 off 34 (by omega)]
    norm_num
    omega
  have e2 : (full <<< (14 + 7)) % 2 ^ 64 % 2 ^ 14 = 0 := by
    rw [shl_mod64 full (14 + 7) (by omega)]
    norm_num
    omega
  have e3 : (surf <<< 14) % 2 ^ 64 % 2 ^ 14 = 0 := by
    rw [shl_mod64 surf 14 (by omega)]
    norm_num
  rw [e1, e2] at h3
  rw [h3, e3] at h2
  rw [h2] at h
  norm_num at h ⊢
  exact h

/-- The offset and the full length of a record with offset 0 survive a sid of
16 bits. -/
theorem rec_fields_zero_offset (full surf ctx : Nat) (hl : full < 1024) (hs : surf < 128)
    (hc : ctx < 65536) :
    rec_feat_offset (p2fRecord 0 full surf ctx) = 0 ∧
      rec_full_len (p2fRecord 0 full surf ctx) = full := by
  unfold rec_feat_offset rec_full_len p2fRecord
  have e1 : (0 <<< 34) % 2 ^ 64 = 0 := by decide
  have e2 : (full <<< (14 + 7)) % 2 ^ 64 = full * 2 ^ 21 := by
    rw [Nat.shiftLeft_eq]
    exact Nat.mod_eq_of_lt (by omega)
  have e3 : (surf <<< 14) % 2 ^ 64 = surf * 2 ^ 14 := by
    rw [Nat.shiftLeft_eq]
    exact Nat.mod_eq_of_lt (by omega)
  rw [e1, e2, e3, Nat.zero_or]
  constructor
  · rw [or_shiftRight, or_shiftRight, shiftRight_of_lt _ 34 (by omega),
      shiftRight_of_lt _ 34 (by omega), shiftRight_of_lt _ 34 (by omega)]
    rfl
  · rw [or_shiftRight, or_shiftRight, shiftRight_of_lt (surf * 2 ^ 14) (14 + 7) (by omega),
      shiftRight_of_lt ctx (14 + 7) (by omega), and_mask10, Nat.shiftRight_eq_div_pow]
    simp only [Nat.or_zero]
    omega

theorem recordKey_low (fi fi_ : Nat) (h : fi_ < 4294967296) :
    recordKey fi fi_ &&& 0xffffffff = fi_ := by
  unfold recordKey
  rw [and_mask32]
  have h1 : (fi <<< 32) % 2 ^ 64 = fi % 4294967296 * 2 ^ 32 := by
    have h := shl_mod64 fi 32 (by omega)
    norm_num at h ⊢
    exact h
  rw [h1, shl_add_lt _ fi_ 32 (by omega)]
  omega

theorem skip_to_le : ∀ (f : List Nat) (n c : Nat), skip_to f n c ≤ f.length := by
  intro f
  induction f with
  | nil => intro n c; simp [skip_to]
  | cons x rest ih =>
    intro n c
    unfold skip_to
    by_cases hn : n = 0
    · rw [if_pos hn]
      exact Nat.zero_le _
    · rw [if_neg hn, List.length_cons]
      have := ih (if x = c then n - 1 else n) c
      omega


theorem c2iOfCounter_lt (counter : List (Nat × Nat)) (x : Nat) :
    c2iOfCounter counter x < 65536 := by
  rw [c2iOfCounter_eq]
  split_ifs
  · exact Nat.mod_lt _ (by norm_num)
  · norm_num

theorem to_i_strs (bag : sbag_t) (str : List Nat) :
    ∃ t, (bag.to_i str).2.strs = bag.strs ++ t := by
  unfold sbag_t.to_i
  split_ifs
  · exact ⟨[], by simp⟩
  · exact ⟨[str], rfl⟩

theorem compileLine_heads (s : compileState) (l : patternLine) (a : List Nat) (k : Nat)
    (h : (∃ t, s.fbag_.strs = a :: t) ∧ ∃ t, s.p2f_ = k :: t) :
    (∃ t, (compileLine s l).fbag_.strs = a :: t) ∧ ∃ t, (compileLine s l).p2f_ = k :: t := by
  obtain ⟨⟨t1, h1⟩, ⟨t2, h2⟩⟩ := h
  constructor
  · obtain ⟨t, ht⟩ := to_i_strs s.fbag_ l.f
    refine ⟨t1 ++ t, ?_⟩
    show (s.fbag_.to_i l.f).2.strs = _
    rw [ht, h1]
    rfl
  · unfold compileLine
    simp only
    split_ifs
    · exact ⟨t2, h2⟩
    · exact ⟨t2 ++ [_], by rw [h2]; rfl⟩

theorem compileLines_heads (U : List Nat) (lines : List patternLine) :
    (∃ t, (compileLines U lines).fbag_.strs = (U ++ wildcardNl) :: t) ∧
      ∃ t, (compileLines U lines).p2f_ = ((1 <<< 32) ||| 2) :: t := by
  unfold compileLines
  generalize hs : compileInit U = s
  have h : (∃ t, s.fbag_.strs = (U ++ wildcardNl) :: t) ∧ ∃ t, s.p2f_ = ((1 <<< 32) ||| 2) :: t := by
    rw [← hs]
    exact ⟨⟨[], rfl⟩, ⟨[], rfl⟩⟩
  clear hs
  induction lines generalizing s with
  | nil => exact h
  | cons l lines ih => exact ih (compileLine s l) (compileLine_heads s l _ _ h)

theorem read_model_p2f (U : List Nat) (lines : List patternLine) :
    (read_model U lines).p2f =
      (compileLines U lines).p2f_.map
        (finalRecord (read_model U lines).c2i_ (compileLines U lines).fbag_) := rfl

theorem read_model_fs (U : List Nat) (lines : List patternLine) :
    (read_model U lines).fs_ = (compileLines U lines).fbag_.strs.flatten := rfl

theorem read_model_updates (U : List Nat) (lines : List patternLine) :
    (read_model U lines).updates =
      (compileLines U lines).ids.map
        (fun e => (trieKey (read_model U lines).c2i_ e.pat e.value, storedPayload e.value)) := rfl

theorem serialize_offset_zero (bag : sbag_t) : bag.serialize.2.getD 0 0 = 0 := by
  unfold sbag_t.serialize
  cases bag.strs with
  | nil => rfl
  | cons a t =>
    rw [List.length_cons, List.range_succ_eq_map, List.map_cons]
    rfl

theorem finalRecord_head (c2i_ : Nat → Nat) (fbag_ : sbag_t) (a : List Nat) (t : List (List Nat))
    (h : fbag_.strs = a :: t) :
    finalRecord c2i_ fbag_ ((1 <<< 32) ||| 2) =
      p2fRecord 0 a.length (skip_to a NUM_POS_FIELD 44 - 1) (c2i_ (2 + CP_MAX)) := by
  have e1 : ((1 <<< 32 ||| 2) >>> 32) - 1 = 0 := by decide
  have e2 : (1 <<< 32 ||| 2) &&& 0xffffffff = 2 := by decide
  have e3 : fbag_.to_s 0 = a := by
    unfold sbag_t.to_s
    rw [h]
    rfl
  unfold finalRecord
  simp only [e1, e2, e3, serialize_offset_zero]

/-- The record 0 of the compiled model: offset 0, the length of the unknown
feature, the length of its POS part, and the sid of the second `fbag` id. -/
theorem read_model_p2f_head (U : List Nat) (lines : List patternLine) :
    ∃ t, (read_model U lines).p2f =
      p2fRecord 0 (U ++ wildcardNl).length (skip_to (U ++ wildcardNl) NUM_POS_FIELD 44 - 1)
        ((read_model U lines).c2i_ (2 + CP_MAX)) :: t := by
  obtain ⟨⟨t1, h1⟩, ⟨t2, h2⟩⟩ := compileLines_heads U lines
  rw [read_model_p2f, h2, List.map_cons, finalRecord_head _ _ _ _ h1]
  exact ⟨_, rfl⟩

theorem read_model_fs_head (U : List Nat) (lines : List patternLine) :
    ∃ t, (read_model U lines).fs_ = (U ++ wildcardNl) ++ t := by
  obtain ⟨⟨t1, h1⟩, _⟩ := compileLines_heads U lines
  rw [read_model_fs, h1, List.flatten_cons]
  exact ⟨_, rfl⟩


theorem substr_prefix (a t : List Nat) : substr (a ++ t) 0 a.length = a := by
  unfold substr
  rw [List.drop_zero, List.take_left']
  rfl


theorem lineIdsOf_fi_prev (s : compileState) (l : patternLine) :
    (lineIdsOf s l).fi_prev =
      if l.f_prev = [] then 0 else (s.cs.fbag.to_i l.f_prev).1 + 1 := rfl

theorem trieKey_eq (c2i_ : Nat → Nat) (e : lineIds) (hf : e.fi_prev < 4096) :
    trieKey c2i_ e.pat e.value =
      (codepoints e.pat).map c2i_ ++
        (if e.fi_prev = 0 then [] else [c2i_ (e.fi_prev + CP_MAX)]) := by
  unfold trieKey lineIds.value
  rw [keyValue_low12 _ _ _ _ hf]
  by_cases h : e.fi_prev = 0
  · rw [if_pos h, if_neg (by simpa using h)]
  · rw [if_neg h, if_pos h]


theorem indexOf_append_mem {α : Type} [BEq α] [LawfulBEq α] (a : α) (l2 : List α) :
    ∀ l1 : List α, a ∈ l1 → (l1 ++ l2).indexOf a = l1.indexOf a := by
  intro l1
  induction l1 with
  | nil => intro h; exact absurd h (List.not_mem_nil a)
  | cons x l1 ih =>
    intro h
    rw [List.cons_append, List.indexOf_cons, List.indexOf_cons]
    by_cases hx : x = a
    · have : (x == a) = true := by rw [hx]; exact beq_self_eq_true a
      rw [this]
      rfl
    · have : (x == a) = false := by
        cases hb : x == a with
        | false => rfl
        | true => exact absurd (eq_of_beq hb) hx
      rw [this]
      have ha : a ∈ l1 := by
        rcases List.mem_cons.mp h with h1 | h1
        · exact absurd h1.symm hx
        · exact h1
      simp only [cond_false]
      rw [ih ha]

theorem indexOf_append_new {α : Type} [BEq α] [LawfulBEq α] (a : α) :
    ∀ l1 : List α, a ∉ l1 → (l1 ++ [a]).indexOf a = l1.length := by
  intro l1
  induction l1 with
  | nil =>
    intro _
    rw [List.nil_append, List.indexOf_cons, beq_self_eq_true a]
    rfl
  | cons x l1 ih =>
    intro h
    rw [List.cons_append, List.indexOf_cons]
    have hx : x ≠ a := fun h2 => h (h2 ▸ List.mem_cons_self _ _)
    have : (x == a) = false := by
      cases hb : x == a with
      | false => rfl
      | true => exact absurd (eq_of_beq hb) hx
    rw [this]
    simp only [cond_false]
    rw [ih (fun h2 => h (List.mem_cons_of_mem _ h2))]
    rfl

theorem to_i_fst (bag : sbag_t) (str : List Nat) :
    (bag.to_i str).1 = (bag.to_i str).2.strs.indexOf str ∧ str ∈ (bag.to_i str).2.strs := by
  unfold sbag_t.to_i
  by_cases h : str ∈ bag.strs
  · rw [if_pos h]
    exact ⟨rfl, h⟩
  · rw [if_neg h]
    refine ⟨?_, List.mem_append_right _ (List.mem_singleton_self _)⟩
    show bag.strs.length = (bag.strs ++ [str]).indexOf str
    exact (indexOf_append_new str bag.strs h).symm

theorem countLine_fbag (cs : counterState) (l : patternLine) :
    (countLine cs l).fbag =
      ((if l.f_prev = [] then cs.fbag else (cs.fbag.to_i l.f_prev).2).to_i l.f_pos).2 := by
  unfold countLine
  simp only
  split_ifs <;> rfl

theorem countLine_fbag_ext (cs : counterState) (l : patternLine) :
    ∃ t, (countLine cs l).fbag.strs = cs.fbag.strs ++ t := by
  rw [countLine_fbag]
  by_cases h : l.f_prev = []
  · rw [if_pos h]
    exact to_i_strs _ _
  · rw [if_neg h]
    obtain ⟨t1, h1⟩ := to_i_strs cs.fbag l.f_prev
    obtain ⟨t2, h2⟩ := to_i_strs (cs.fbag.to_i l.f_prev).2 l.f_pos
    exact ⟨t1 ++ t2, by rw [h2, h1, List.append_assoc]⟩

theorem foldl_countLine_fbag_ext : ∀ (lines : List patternLine) (cs : counterState),
    ∃ t, (lines.foldl countLine cs).fbag.strs = cs.fbag.strs ++ t := by
  intro lines
  induction lines with
  | nil => intro cs; exact ⟨[], by simp⟩
  | cons l lines ih =>
    intro cs
    obtain ⟨t1, h1⟩ := countLine_fbag_ext cs l
    obtain ⟨t2, h2⟩ := ih (countLine cs l)
    exact ⟨t1 ++ t2, by rw [List.foldl_cons, h2, h1, List.append_assoc]⟩

/-- The interner `fbag` after the first loop over the lines of a pattern
file. -/
theorem compileLines_fbag_split (U : List Nat) (pre post : List patternLine) (l : patternLine) :
    ∃ t, (compileLines U (pre ++ l :: post)).cs.fbag.strs =
      (countLine (compileLines U pre).cs l).fbag.strs ++ t := by
  have h : (compileLines U (pre ++ l :: post)).cs =
      post.foldl countLine (countLine (compileLines U pre).cs l) := by
    unfold compileLines
    rw [compileLine_foldl_cs, List.foldl_append, List.foldl_cons, ← compileLine_foldl_cs]
  rw [h]
  exact foldl_countLine_fbag_ext post _

/-- The ids of `fbag` are stable: the id `fi_` of a line is the position of its
POS part in the final interner, plus one. -/
theorem fi_stable (U : List Nat) (pre post : List patternLine) (l : patternLine) :
    (lineIdsOf (compileLines U pre) l).fi_ =
      (compileLines U (pre ++ l :: post)).cs.fbag.strs.indexOf l.f_pos + 1 := by
  obtain ⟨t, ht⟩ := compileLines_fbag_split U pre post l
  rw [ht, countLine_fbag]
  have h := to_i_fst (if l.f_prev = [] then (compileLines U pre).cs.fbag
    else ((compileLines U pre).cs.fbag.to_i l.f_prev).2) l.f_pos
  rw [indexOf_append_mem _ _ _ h.2, ← h.1]
  rfl

/-- The id `fi_prev` of a line with context is the position of its context in
the final interner, plus one. -/
theorem fi_prev_stable (U : List Nat) (pre post : List patternLine) (l : patternLine)
    (hne : l.f_prev ≠ []) :
    (lineIdsOf (compileLines U pre) l).fi_prev =
      (compileLines U (pre ++ l :: post)).cs.fbag.strs.indexOf l.f_prev + 1 := by
  obtain ⟨t, ht⟩ := compileLines_fbag_split U pre post l
  rw [ht, countLine_fbag, if_neg hne, lineIdsOf_fi_prev, if_neg hne]
  have h := to_i_fst (compileLines U pre).cs.fbag l.f_prev
  obtain ⟨t2, h2⟩ := to_i_strs ((compileLines U pre).cs.fbag.to_i l.f_prev).2 l.f_pos
  rw [h2, List.append_assoc, indexOf_append_mem _ _ _ h.2, ← h.1]


theorem getD_map_lt (f : Nat → Nat) (d d2 : Nat) : ∀ (l : List Nat) (n : Nat), n < l.length →
    (l.map f).getD n d = f (l.getD n d2) := by
  intro l
  induction l with
  | nil => intro n h; exact absurd h (Nat.not_lt_zero _)
  | cons a l ih =>
    intro n h
    cases n with
    | zero => rfl
    | succ n => exact ih n (Nat.lt_of_succ_lt_succ h)

theorem get?_mem_ids (U : List Nat) (pre post : List patternLine) (l : patternLine) :
    lineIdsOf (compileLines U pre) l ∈ (compileLines U (pre ++ l :: post)).ids :=
  List.get?_mem (compileLines_ids_at U pre post l)

/-- The context field of the record written for the pattern id of a line is the
low 14 bits of the sid of `fi_ + CP_MAX`. -/
theorem record_ctx_of_line (U : List Nat) (pre post : List patternLine) (l : patternLine)
    (h32 : (lineIdsOf (compileLines U pre) l).fi_ < 4294967296) :
    rec_ctx ((read_model U (pre ++ l :: post)).p2f.getD (lineIdsOf (compileLines U pre) l).pid 0)
      = (read_model U (pre ++ l :: post)).c2i_
          ((lineIdsOf (compileLines U pre) l).fi_ + CP_MAX) % 16384 := by
  obtain ⟨h1, h2⟩ := pidInv_compileLines U (pre ++ l :: post) _ (get?_mem_ids U pre post l)
  rw [read_model_p2f, getD_map_lt _ 0 0 _ _ h1, h2]
  unfold finalRecord
  simp only
  rw [rec_ctx_record, recordKey_low _ _ h32]

/-! ## The claims on `read_model` -/

/-- C14 (amended). Monotone c2i: after `read_model` compiles a pattern file in
which fewer than `2 ^ 16` symbols have a count that is not zero, for every
symbol `a` other than the code point 0 whose count is not zero and every symbol
`b`, `sid (a) < sid (b)` implies `count (a) >= count (b)`; the count is the one
accumulated in `counter` (weight `count + 1` per occurrence, on `size_t`) and
the sid is the value stored in `c2i_`. -/
theorem c2i_monotone (lines : List patternLine) (a b : Nat)
    (hk : symbolCount (counterOf lines) < 2 ^ 16) (ha : 1 ≤ a)
    (hca : countOf (counterOf lines) a ≠ 0)
    (hlt : compile_c2i lines a < compile_c2i lines b) :
    countOf (counterOf lines) b ≤ countOf (counterOf lines) a := by
  have hn := counterOf_nodup lines
  have hra := (ranked_keys _ hn a).mpr ⟨ha, hca⟩
  have h := c2i_order (counterOf lines) hn hk a b hra hlt
  unfold greaterEntry at h
  simp only at h
  omega

/-- C14, an instance: in the file with the patterns `a` (count 10) and `b`
(count 1) the sid of `a` is smaller and its count is greater. -/
theorem c2i_monotone_witness :
    countOf (counterOf abPatterns) 98 ≤ countOf (counterOf abPatterns) 97 :=
  c2i_monotone abPatterns 97 98 (by decide) (by decide) (by decide) (by decide)

/-- C15 (amended). For every pattern file the compiled map has `c2i[0] == 0`;
and when fewer than `2 ^ 16` symbols have a count that is not zero, `c2i[x] != 0`
for every symbol `x` other than the code point 0 whose accumulated count is not
zero. -/
theorem c2i_zero_and_nonzero (lines : List patternLine) :
    compile_c2i lines 0 = 0 ∧
      (symbolCount (counterOf lines) < 2 ^ 16 → ∀ x, 1 ≤ x →
        countOf (counterOf lines) x ≠ 0 → compile_c2i lines x ≠ 0) := by
  have hn := counterOf_nodup lines
  constructor
  · show c2iOfCounter (counterOf lines) 0 = 0
    rw [c2iOfCounter_eq, if_neg]
    intro h
    have := ((ranked_keys _ hn 0).mp h).1
    omega
  · intro hk x hx hc
    have hr := (ranked_keys _ hn x).mpr ⟨hx, hc⟩
    show c2iOfCounter (counterOf lines) x ≠ 0
    rw [(c2i_ranked _ hk x hr).1]
    omega

/-- C15, an instance: in the file with the patterns `a` and `b` the entry 0 is 0
and the entry of `a` is not. -/
theorem c2i_zero_and_nonzero_witness :
    compile_c2i abPatterns 0 = 0 ∧ compile_c2i abPatterns 97 ≠ 0 :=
  ⟨(c2i_zero_and_nonzero abPatterns).1,
    (c2i_zero_and_nonzero abPatterns).2 (by decide) 97 (by decide) (by decide)⟩

/-- C16 (amended). Symbol ids are dense: if `k` symbols other than the code
point 0 have a count that is not zero and `k < 2 ^ 16`, `read_model` gives each
of them a sid between 1 and `k`, every sid between 1 and `k` is the sid of such
a symbol, no two symbols share a sid that is not zero, and a smaller sid goes
with a greater `(count, index)`. -/
theorem sids_dense (lines : List patternLine)
    (hk : symbolCount (counterOf lines) < 2 ^ 16) :
    (∀ x, 1 ≤ x → countOf (counterOf lines) x ≠ 0 →
        1 ≤ compile_c2i lines x ∧ compile_c2i lines x ≤ symbolCount (counterOf lines)) ∧
      (∀ s, 1 ≤ s → s ≤ symbolCount (counterOf lines) →
        ∃ x, 1 ≤ x ∧ countOf (counterOf lines) x ≠ 0 ∧ compile_c2i lines x = s) ∧
      (∀ x y, compile_c2i lines x ≠ 0 → compile_c2i lines x = compile_c2i lines y → x = y) ∧
      (∀ x y, compile_c2i lines x ≠ 0 → compile_c2i lines x < compile_c2i lines y →
        greaterEntry (x, countOf (counterOf lines) x) (y, countOf (counterOf lines) y)) := by
  have hn := counterOf_nodup lines
  have hrn := ranked_nodup _ hn
  refine ⟨?_, ?_, ?_, ?_⟩
  · intro x hx hc
    have hr := (ranked_keys _ hn x).mpr ⟨hx, hc⟩
    obtain ⟨h1, h2⟩ := c2i_ranked _ hk x hr
    show 1 ≤ c2iOfCounter (counterOf lines) x ∧ c2iOfCounter (counterOf lines) x ≤ _
    omega
  · intro s hs1 hs2
    have hlen : s - 1 < ((rankedEntries (counterOf lines)).map Prod.fst).length := by
      rw [List.length_map, ranked_length]
      omega
    have hmem : ((rankedEntries (counterOf lines)).map Prod.fst)[s - 1] ∈
        (rankedEntries (counterOf lines)).map Prod.fst := List.getElem_mem _
    obtain ⟨h1, h2⟩ := (ranked_keys _ hn _).mp hmem
    refine ⟨_, h1, h2, ?_⟩
    show c2iOfCounter (counterOf lines) _ = s
    rw [(c2i_ranked _ hk _ hmem).1, List.indexOf_getElem hrn]
    omega
  · intro x y hx hxy
    have hrx := c2i_ne_zero_ranked (counterOf lines) x hx
    have hy : compile_c2i lines y ≠ 0 := fun h => hx (hxy.trans h)
    have hry := c2i_ne_zero_ranked (counterOf lines) y hy
    have h1 : c2iOfCounter (counterOf lines) x = c2iOfCounter (counterOf lines) y := hxy
    rw [(c2i_ranked _ hk x hrx).1, (c2i_ranked _ hk y hry).1] at h1
    exact (List.indexOf_inj hrx hry).mp (by omega)
  · intro x y hx hlt
    exact c2i_order _ hn hk x y (c2i_ne_zero_ranked (counterOf lines) x hx) hlt

/-- C16, an instance: in the file with the patterns `a` and `b` two symbols are
ranked and the sids that are not zero belong to one symbol each. -/
theorem sids_dense_witness :
    symbolCount (counterOf abPatterns) < 2 ^ 16 ∧
      ∀ x y, compile_c2i abPatterns x ≠ 0 →
        compile_c2i abPatterns x = compile_c2i abPatterns y → x = y :=
  ⟨by decide, (sids_dense abPatterns (by decide)).2.2.1⟩

/-- C17 (amended). For every pattern file in which the id `fi_prev` of every
line is below `2 ^ 12`, every payload that `read_model` stores in the trie has a
pattern id field (low 20 bits) smaller than the number of records of `p2f`. -/
theorem stored_pattern_id_bound (U : List Nat) (lines : List patternLine)
    (h : ∀ e ∈ (compileLines U lines).ids, e.fi_prev < 4096) :
    ∀ u ∈ (read_model U lines).updates,
      payload_id u.2 < ((read_model U lines).p2f.length : Int) := by
  intro u hu
  rw [read_model_updates, List.mem_map] at hu
  obtain ⟨e, he, rfl⟩ := hu
  have hp := (pidInv_compileLines U lines e he).1
  rw [read_model_p2f_length]
  show payload_id (storedPayload e.value) < _
  unfold lineIds.value
  rw [payload_id_stored _ _ _ _ (h e he)]
  have : e.pid % 1048576 ≤ e.pid := Nat.mod_le _ _
  omega

/-- C17, an instance: the file with the lines `lineA` and `lineB`. -/
theorem stored_pattern_id_bound_witness :
    (∀ e ∈ (compileLines unkN [lineA, lineB]).ids, e.fi_prev < 4096) ∧
      ∀ u ∈ (read_model unkN [lineA, lineB]).updates,
        payload_id u.2 < ((read_model unkN [lineA, lineB]).p2f.length : Int) :=
  ⟨by decide, stored_pattern_id_bound unkN [lineA, lineB] (by decide)⟩

/-- C18 (amended). Key and payload split: for every pattern line whose id
`fi_prev` is below `2 ^ 12`, the key inserted into the trie is the sequence of
`c2i_`-mapped code points of the pattern, followed by the remapped previous-POS
symbol `c2i_[fi_prev + CP_MAX]` if and only if the line has a POS context, and
the value stored is the `int` made of `bytes`, `ctype & 7` and the low 20 bits
of the pattern id, with no bit of `fi_prev` in it. -/
theorem key_and_payload_split (U : List Nat) (pre post : List patternLine) (l : patternLine)
    (hf : (lineIdsOf (compileLines U pre) l).fi_prev < 4096) :
    (read_model U (pre ++ l :: post)).updates.get? pre.length =
      some ((codepoints l.pat).map (read_model U (pre ++ l :: post)).c2i_ ++
          (if l.f_prev = [] then []
           else [(read_model U (pre ++ l :: post)).c2i_
             ((lineIdsOf (compileLines U pre) l).fi_prev + CP_MAX)]),
        toI32 ((l.bytes * 8 + l.ctype % 8) * 1048576 +
          (lineIdsOf (compileLines U pre) l).pid % 1048576)) := by
  rw [read_model_updates, List.get?_map, compileLines_ids_at]
  simp only [Option.map_some']
  congr 1
  have hk := trieKey_eq (read_model U (pre ++ l :: post)).c2i_ _ hf
  have hv := storedPayload_split l.bytes l.ctype (lineIdsOf (compileLines U pre) l).pid _ hf
  have hz : (lineIdsOf (compileLines U pre) l).fi_prev = 0 ↔ l.f_prev = [] := by
    rw [lineIdsOf_fi_prev]
    by_cases h : l.f_prev = []
    · simp [h]
    · simp [h]
  refine Prod.ext ?_ ?_
  · refine hk.trans ?_
    by_cases h : l.f_prev = []
    · rw [if_pos (hz.mpr h), if_pos h]
      rfl
    · rw [if_neg (fun h2 => h (hz.mp h2)), if_neg h]
      rfl
  · exact hv

/-- C18, an instance: the line `lineB`, read after `lineA`. -/
theorem key_and_payload_split_witness :
    (lineIdsOf (compileLines unkN [lineA]) lineB).fi_prev < 4096 ∧
      (read_model unkN ([lineA] ++ lineB :: [])).updates.get? [lineA].length =
        some ((codepoints lineB.pat).map (read_model unkN ([lineA] ++ lineB :: [])).c2i_ ++
            (if lineB.f_prev = [] then []
             else [(read_model unkN ([lineA] ++ lineB :: [])).c2i_
               ((lineIdsOf (compileLines unkN [lineA]) lineB).fi_prev + CP_MAX)]),
          toI32 ((lineB.bytes * 8 + lineB.ctype % 8) * 1048576 +
            (lineIdsOf (compileLines unkN [lineA]) lineB).pid % 1048576)) :=
  ⟨by decide, key_and_payload_split unkN [lineA] [] lineB (by decide)⟩

/-- C19 (amended). Context consistency: for every POS-prefix feature `F` whose
id `fi_` is below `2 ^ 12` and whose sid `c2i_[fi_ + CP_MAX]` is below `2 ^ 14`,
the context the tokenizer passes to the matcher after a token whose pattern has
the POS prefix `F` (the low 14 bits of the record of that pattern) equals the
symbol that `read_model` appends to the trie key of a pattern conditioned on the
previous feature `F`, both being `c2i_[fi_ + CP_MAX]`. -/
theorem context_consistency (U : List Nat) (prea posta preb postb : List patternLine)
    (la lb : patternLine) (hfile : prea ++ la :: posta = preb ++ lb :: postb)
    (hF : lb.f_prev = la.f_pos) (hne : la.f_pos ≠ [])
    (h12 : (lineIdsOf (compileLines U prea) la).fi_ < 4096)
    (h14 : (read_model U (prea ++ la :: posta)).c2i_
      ((lineIdsOf (compileLines U prea) la).fi_ + CP_MAX) < 16384) :
    rec_ctx ((read_model U (prea ++ la :: posta)).p2f.getD
        (lineIdsOf (compileLines U prea) la).pid 0) =
      (read_model U (prea ++ la :: posta)).c2i_
        ((lineIdsOf (compileLines U prea) la).fi_ + CP_MAX) ∧
    (read_model U (prea ++ la :: posta)).updates.get? preb.length =
      some ((codepoints lb.pat).map (read_model U (prea ++ la :: posta)).c2i_ ++
          [(read_model U (prea ++ la :: posta)).c2i_
            ((lineIdsOf (compileLines U prea) la).fi_ + CP_MAX)],
        storedPayload (lineIdsOf (compileLines U preb) lb).value) := by
  have hfi : (lineIdsOf (compileLines U preb) lb).fi_prev =
      (lineIdsOf (compileLines U prea) la).fi_ := by
    rw [fi_prev_stable U preb postb lb (by rw [hF]; exact hne), fi_stable U prea posta la,
      ← hfile, hF]
  constructor
  · rw [record_ctx_of_line U prea posta la (by omega)]
    exact Nat.mod_eq_of_lt h14
  · rw [hfile, read_model_updates, List.get?_map, compileLines_ids_at]
    simp only [Option.map_some']
    congr 1
    refine Prod.ext ?_ rfl
    have hk := trieKey_eq (read_model U (preb ++ lb :: postb)).c2i_
      (lineIdsOf (compileLines U preb) lb) (by rw [hfi]; exact h12)
    refine hk.trans ?_
    have hpos : (lineIdsOf (compileLines U preb) lb).fi_prev ≠ 0 := by
      rw [fi_prev_stable U preb postb lb (by rw [hF]; exact hne)]
      exact Nat.succ_ne_zero _
    rw [if_neg hpos, hfi]
    rfl

/-- C19, an instance: `lineA` has the POS prefix `posN` and `lineB` is
conditioned on it. -/
theorem context_consistency_witness :
    rec_ctx ((read_model unkN ([] ++ lineA :: [lineB])).p2f.getD
        (lineIdsOf (compileLines unkN []) lineA).pid 0) =
      (read_model unkN ([] ++ lineA :: [lineB])).c2i_
        ((lineIdsOf (compileLines unkN []) lineA).fi_ + CP_MAX) ∧
    (read_model unkN ([] ++ lineA :: [lineB])).updates.get? [lineA].length =
      some ((codepoints lineB.pat).map (read_model unkN ([] ++ lineA :: [lineB])).c2i_ ++
          [(read_model unkN ([] ++ lineA :: [lineB])).c2i_
            ((lineIdsOf (compileLines unkN []) lineA).fi_ + CP_MAX)],
        storedPayload (lineIdsOf (compileLines unkN [lineA]) lineB).value) :=
  context_consistency unkN [] [lineB] [lineA] [] lineA lineB rfl rfl (by decide) (by decide)
    (by decide)

/-- C20. For every pattern file the compiled `p2f[0]` is the unknown/default
record: the record read for a piece with payload 0 (pattern id 0) decodes to the
feature offset 0 and to a full feature equal to `FEAT_UNK` followed by
`",*,*,*\n"`. The constant `FEAT_UNK` is a parameter of at most 121 bytes. -/
theorem unknown_record (U : List Nat) (lines : List patternLine) (hU : U.length ≤ 121) :
    (read_model U lines).p2f ≠ [] ∧
      rec_feat_offset ((read_model U lines).p2f.getD (payload_id 0).toNat 0) = 0 ∧
      rec_full_len ((read_model U lines).p2f.getD (payload_id 0).toNat 0) =
        (U ++ wildcardNl).length ∧
      substr (read_model U lines).fs_
        (rec_feat_offset ((read_model U lines).p2f.getD (payload_id 0).toNat 0))
        (rec_full_len ((read_model U lines).p2f.getD (payload_id 0).toNat 0)) =
          U ++ wildcardNl := by
  obtain ⟨t, ht⟩ := read_model_p2f_head U lines
  obtain ⟨t2, ht2⟩ := read_model_fs_head U lines
  have hid : (payload_id 0).toNat = 0 := by decide
  have hlen : (U ++ wildcardNl).length = U.length + 7 := by
    rw [List.length_append]
    rfl
  have hs := skip_to_le (U ++ wildcardNl) NUM_POS_FIELD 44
  have hc := c2iOfCounter_lt (compileLines U lines).cs.counter (2 + CP_MAX)
  have hc2 : (read_model U lines).c2i_ (2 + CP_MAX) < 65536 := hc
  obtain ⟨h1, h2⟩ := rec_fields_zero_offset (U ++ wildcardNl).length
    (skip_to (U ++ wildcardNl) NUM_POS_FIELD 44 - 1)
    ((read_model U lines).c2i_ (2 + CP_MAX)) (by omega) (by omega) hc2
  rw [hid, ht, ht2]
  refine ⟨List.cons_ne_nil _ _, ?_, ?_, ?_⟩
  · exact h1
  · exact h2
  · show substr _ (rec_feat_offset (p2fRecord _ _ _ _)) (rec_full_len (p2fRecord _ _ _ _)) = _
    rw [h1, h2]
    exact substr_prefix _ _

/-- C20, an instance: the unknown feature `unkN` and the file with the lines
`lineA` and `lineB`. -/
theorem unknown_record_witness :
    (read_model unkN [lineA, lineB]).p2f ≠ [] ∧
      rec_feat_offset ((read_model unkN [lineA, lineB]).p2f.getD (payload_id 0).toNat 0) = 0 ∧
      rec_full_len ((read_model unkN [lineA, lineB]).p2f.getD (payload_id 0).toNat 0) =
        (unkN ++ wildcardNl).length ∧
      substr (read_model unkN [lineA, lineB]).fs_
        (rec_feat_offset ((read_model unkN [lineA, lineB]).p2f.getD (payload_id 0).toNat 0))
        (rec_full_len ((read_model unkN [lineA, lineB]).p2f.getD (payload_id 0).toNat 0)) =
          unkN ++ wildcardNl :=
  unknown_record unkN [lineA, lineB] (by decide)

/-! ## Large pattern files -/

theorem ctxOf_inj (i j : Nat) (hi : i < 262144) (hj : j < 262144) (h : ctxOf i = ctxOf j) :
    i = j := by
  unfold ctxOf at h
  simp only [List.cons.injEq, true_and, and_true] at h
  omega

theorem ctxOf_not_mem (k : Nat) (hk : k < 262144) :
    ctxOf k ∉ [9, 66, 79, 83] :: posN :: (List.range k).map ctxOf := by
  intro h
  have hl : (ctxOf k).length = 11 := rfl
  rcases List.mem_cons.mp h with h1 | h1
  · rw [h1] at hl
    exact absurd hl (by decide)
  · rcases List.mem_cons.mp h1 with h2 | h2
    · rw [h2] at hl
      exact absurd hl (by decide)
    · obtain ⟨i, hi, he⟩ := List.mem_map.mp h2
      rw [List.mem_range] at hi
      have := ctxOf_inj i k (by omega) hk he
      omega

theorem to_i_new (bag : sbag_t) (str : List Nat) (h : str ∉ bag.strs) :
    bag.to_i str = (bag.strs.length, { strs := bag.strs ++ [str] }) := by
  unfold sbag_t.to_i
  rw [if_neg h]

theorem to_i_old (bag : sbag_t) (str : List Nat) (h : str ∈ bag.strs) :
    bag.to_i str = (bag.strs.indexOf str, bag) := by
  unfold sbag_t.to_i
  rw [if_pos h]

theorem lineIdsOf_fi_ (s : compileState) (l : patternLine) :
    (lineIdsOf s l).fi_ =
      ((if l.f_prev = [] then s.cs.fbag else (s.cs.fbag.to_i l.f_prev).2).to_i l.f_pos).1 + 1 :=
  rfl

theorem lineIdsOf_fi (s : compileState) (l : patternLine) :
    (lineIdsOf s l).fi = (s.fbag_.to_i l.f).1 + 1 := rfl

theorem compileLine_fbag_ (s : compileState) (l : patternLine) :
    (compileLine s l).fbag_ = (s.fbag_.to_i l.f).2 := rfl

theorem compileLine_cs (s : compileState) (l : patternLine) :
    (compileLine s l).cs = countLine s.cs l := rfl

theorem indexOf_second (a b : List Nat) (t : List (List Nat)) (h : a ≠ b) :
    (a :: b :: t).indexOf b = 1 := by
  rw [List.indexOf_cons, List.indexOf_cons, beq_self_eq_true b]
  have : (a == b) = false := by
    cases hb : a == b with
    | false => rfl
    | true => exact absurd (eq_of_beq hb) h
  rw [this]
  rfl

/-- The ids of `fbag` for a line with the context `ctxOf k` and the POS part
`posN`, read when `fbag` holds BOS, `posN` and the contexts before `ctxOf k`. -/
theorem ctx_fbag_ids (k : Nat) (hk : k < 262144) (s : compileState) (l : patternLine)
    (h : s.cs.fbag.strs = [9, 66, 79, 83] :: posN :: (List.range k).map ctxOf)
    (hprev : l.f_prev = ctxOf k) (hpos : l.f_pos = posN) :
    (lineIdsOf s l).fi_prev = k + 3 ∧ (lineIdsOf s l).fi_ = 2 ∧
      (compileLine s l).cs.fbag.strs =
        [9, 66, 79, 83] :: posN :: (List.range (k + 1)).map ctxOf := by
  have hne : l.f_prev ≠ [] := by rw [hprev]; exact List.cons_ne_nil _ _
  have hnm : l.f_prev ∉ s.cs.fbag.strs := by
    rw [hprev, h]
    exact ctxOf_not_mem k hk
  have hto := to_i_new s.cs.fbag l.f_prev hnm
  have hlen : s.cs.fbag.strs.length = k + 2 := by
    rw [h, List.length_cons, List.length_cons, List.length_map, List.length_range]
  have hstr : s.cs.fbag.strs ++ [l.f_prev] =
      [9, 66, 79, 83] :: posN :: (List.range (k + 1)).map ctxOf := by
    rw [h, hprev, List.range_succ, List.map_append]
    rfl
  have hmem : l.f_pos ∈ ({ strs := s.cs.fbag.strs ++ [l.f_prev] } : sbag_t).strs := by
    show l.f_pos ∈ s.cs.fbag.strs ++ [l.f_prev]
    rw [hstr, hpos]
    exact List.mem_cons_of_mem _ (List.mem_cons_self _ _)
  have hto2 := to_i_old { strs := s.cs.fbag.strs ++ [l.f_prev] } l.f_pos hmem
  have hidx : (s.cs.fbag.strs ++ [l.f_prev]).indexOf l.f_pos = 1 := by
    rw [hstr, hpos]
    exact indexOf_second _ _ _ (by decide)
  refine ⟨?_, ?_, ?_⟩
  · rw [lineIdsOf_fi_prev, if_neg hne, hto]
    show s.cs.fbag.strs.length + 1 = k + 3
    omega
  · rw [lineIdsOf_fi_, if_neg hne, hto]
    show (sbag_t.to_i { strs := s.cs.fbag.strs ++ [l.f_prev] } l.f_pos).1 + 1 = 2
    rw [hto2]
    show (s.cs.fbag.strs ++ [l.f_prev]).indexOf l.f_pos + 1 = 2
    rw [hidx]
  · rw [compileLine_cs, countLine_fbag, if_neg hne, hto]
    show (sbag_t.to_i { strs := s.cs.fbag.strs ++ [l.f_prev] } l.f_pos).2.strs = _
    rw [hto2]
    exact hstr

/-- The ids of a line whose full feature `featN` is known and whose POS part has
the id 2. -/
theorem feat_old_ids (s : compileState) (l : patternLine)
    (h2 : s.fbag_.strs = [unkN ++ wildcardNl, featN])
    (h3 : s.p2f_ = [(1 <<< 32) ||| 2, recordKey 2 2])
    (hf : l.f = featN) (hfi : (lineIdsOf s l).fi_ = 2) :
    (lineIdsOf s l).fi = 2 ∧ (lineIdsOf s l).pid = 1 ∧
      (compileLine s l).fbag_.strs = [unkN ++ wildcardNl, featN] ∧
      (compileLine s l).p2f_ = [(1 <<< 32) ||| 2, recordKey 2 2] := by
  have hmem : l.f ∈ s.fbag_.strs := by
    rw [h2, hf]
    exact List.mem_cons_of_mem _ (List.mem_cons_self _ _)
  have hto := to_i_old s.fbag_ l.f hmem
  have hidx : s.fbag_.strs.indexOf l.f = 1 := by
    rw [h2, hf]
    exact indexOf_second _ _ _ (by decide)
  have h1 : (lineIdsOf s l).fi = 2 := by
    rw [lineIdsOf_fi, hto]
    show s.fbag_.strs.indexOf l.f + 1 = 2
    rw [hidx]
  have hk : recordKey 2 2 ∈ [(1 <<< 32) ||| 2, recordKey 2 2] :=
    List.mem_cons_of_mem _ (List.mem_cons_self _ _)
  refine ⟨h1, ?_, ?_, ?_⟩
  · rw [lineIdsOf_pid, h1, hfi, h3, if_pos hk]
    decide
  · rw [compileLine_fbag_, hto]
    exact h2
  · rw [compileLine_p2f, h1, hfi, h3, if_pos hk]

/-- The ids of a line whose full feature `featB` is new and whose POS part has
the id 2. -/
theorem feat_new_ids (s : compileState) (l : patternLine)
    (h2 : s.fbag_.strs = [unkN ++ wildcardNl, featN])
    (h3 : s.p2f_ = [(1 <<< 32) ||| 2, recordKey 2 2])
    (hf : l.f = featB) (hfi : (lineIdsOf s l).fi_ = 2) :
    (lineIdsOf s l).fi = 3 ∧ (lineIdsOf s l).pid = 2 ∧
      (compileLine s l).p2f_ = [(1 <<< 32) ||| 2, recordKey 2 2, recordKey 3 2] := by
  have hnm : l.f ∉ s.fbag_.strs := by
    rw [h2, hf]
    decide
  have hto := to_i_new s.fbag_ l.f hnm
  have h1 : (lineIdsOf s l).fi = 3 := by
    rw [lineIdsOf_fi, hto]
    show s.fbag_.strs.length + 1 = 3
    rw [h2]
    rfl
  have hk : recordKey 3 2 ∉ [(1 <<< 32) ||| 2, recordKey 2 2] := by decide
  refine ⟨h1, ?_, ?_⟩
  · rw [lineIdsOf_pid, h1, hfi, h3, if_neg hk]
    rfl
  · rw [compileLine_p2f, h1, hfi, h3, if_neg hk]
    rfl

theorem ctxFile_succ (n k : Nat) : ctxFile n (k + 1) = ctxFile n k ++ [ctxLine n k] := by
  unfold ctxFile
  rw [List.range_succ, List.map_append]
  rfl

theorem ctxInv_head (n : Nat) : ctxInv 0 (compileLines unkN (ctxFile n 0)) := by
  have hs : compileLines unkN (ctxFile n 0) = compileLine (compileInit unkN) (headLine n) := rfl
  rw [hs]
  refine ⟨?_, ?_, ?_⟩
  · rw [compileLine_cs, countLine_fbag]
    show (sbag_t.to_i { strs := [[9, 66, 79, 83]] } posN).2.strs = _
    decide
  · rw [compileLine_fbag_]
    show (sbag_t.to_i { strs := [unkN ++ wildcardNl] } featN).2.strs = _
    decide
  · have hfi : (lineIdsOf (compileInit unkN) (headLine n)).fi = 2 := by
      rw [lineIdsOf_fi]
      show (sbag_t.to_i { strs := [unkN ++ wildcardNl] } featN).1 + 1 = 2
      decide
    have hfi_ : (lineIdsOf (compileInit unkN) (headLine n)).fi_ = 2 := by
      rw [lineIdsOf_fi_]
      show (sbag_t.to_i { strs := [[9, 66, 79, 83]] } posN).1 + 1 = 2
      decide
    rw [compileLine_p2f, hfi, hfi_]
    show (if recordKey 2 2 ∈ [(1 <<< 32) ||| 2] then [(1 <<< 32) ||| 2]
      else [(1 <<< 32) ||| 2] ++ [recordKey 2 2]) = _
    decide

/-- The state of the first loop of `read_model` after `ctxFile n k`. -/
theorem ctxInv_file (n : Nat) : ∀ k, k ≤ 262144 → ctxInv k (compileLines unkN (ctxFile n k)) := by
  intro k
  induction k with
  | zero => intro _; exact ctxInv_head n
  | succ k ih =>
    intro hk
    obtain ⟨h1, h2, h3⟩ := ih (by omega)
    rw [ctxFile_succ, compileLines_append]
    obtain ⟨_, hfi, hfb⟩ := ctx_fbag_ids k (by omega) _ (ctxLine n k) h1 rfl rfl
    obtain ⟨_, _, h5, h6⟩ := feat_old_ids _ (ctxLine n k) h2 h3 rfl hfi
    exact ⟨hfb, h5, h6⟩

theorem ctxFile_length (n k : Nat) : (ctxFile n k).length = k + 1 := by
  unfold ctxFile
  rw [List.length_cons, List.length_map, List.length_range]

/-- The ids of `spillLine` read after the 4093 context lines: its `fi_prev` is
`2 ^ 12` and its pattern id is 2. -/
theorem spillLine_ids :
    lineIdsOf (compileLines unkN (ctxFile 4093 4093)) spillLine =
      { pat := [98], bytes := 1, ctype := 1, fi_prev := 4096, fi_ := 2, fi := 3, pid := 2 } ∧
    (compileLine (compileLines unkN (ctxFile 4093 4093)) spillLine).p2f_.length = 3 := by
  obtain ⟨h1, h2, h3⟩ := ctxInv_file 4093 4093 (by omega)
  obtain ⟨ha, hb, _⟩ := ctx_fbag_ids 4093 (by omega) _ spillLine h1 rfl rfl
  obtain ⟨hc, hd, he⟩ := feat_new_ids _ spillLine h2 h3 rfl hb
  constructor
  · have hx : ∀ e : lineIds, e.pat = [98] → e.bytes = 1 → e.ctype = 1 → e.fi_prev = 4096 →
        e.fi_ = 2 → e.fi = 3 → e.pid = 2 →
        e = { pat := [98], bytes := 1, ctype := 1, fi_prev := 4096, fi_ := 2, fi := 3,
              pid := 2 } := by
      intro e p1 p2 p3 p4 p5 p6 p7
      cases e
      simp only at p1 p2 p3 p4 p5 p6 p7
      subst p1 p2 p3 p4 p5 p6 p7
      rfl
    exact hx _ rfl rfl rfl ha hb hc hd
  · rw [he]
    rfl

theorem spill_update (post : List patternLine) :
    (read_model unkN (ctxFile 4093 4093 ++ spillLine :: post)).updates.get? 4094 =
      some ([(read_model unkN (ctxFile 4093 4093 ++ spillLine :: post)).c2i_ 98], 9437187) := by
  have hat := compileLines_ids_at unkN (ctxFile 4093 4093) post spillLine
  rw [ctxFile_length, spillLine_ids.1] at hat
  rw [read_model_updates, List.get?_map, hat]
  simp only [Option.map_some']
  congr 1

theorem spillFile_eq : spillFile = ctxFile 4093 4093 ++ spillLine :: [] := rfl

theorem prefFile_eq : prefFile = ctxFile 4093 4093 ++ spillLine :: [prefLine] := rfl

theorem spillLine_f_prev : spillLine.f_prev = ctxOf 4093 := rfl

/-- C17, counterexample: in `spillFile` the last line has the pattern id 2, the
last of three records, and the id `fi_prev = 4096`, whose bit 12 lands in the
bit 0 of the stored payload: the stored pattern id field is 3, not smaller than
the number of records. -/
theorem stored_pattern_id_out_of_range :
    ∃ u ∈ (read_model unkN spillFile).updates,
      u.2 ≠ 0 ∧ ¬ payload_id u.2 < ((read_model unkN spillFile).p2f.length : Int) := by
  rw [spillFile_eq]
  refine ⟨([(read_model unkN (ctxFile 4093 4093 ++ spillLine :: [])).c2i_ 98], 9437187),
    List.get?_mem (spill_update []), ?_, ?_⟩
  · show (9437187 : Int) ≠ 0
    decide
  · have hl : (read_model unkN (ctxFile 4093 4093 ++ spillLine :: [])).p2f.length = 3 := by
      rw [read_model_p2f_length, compileLines_append]
      exact spillLine_ids.2
    rw [hl]
    show ¬ payload_id 9437187 < ((3 : Nat) : Int)
    decide

/-- C18, counterexample: the last line of `spillFile` has a POS context, but its
id `fi_prev = 4096` has no bit among the low 12: the key inserted into the trie
is the symbol of the pattern alone, and the stored value 9437187 differs from
the value 9437186 made of `bytes`, `ctype` and the pattern id 2. -/
theorem key_without_context_symbol :
    spillLine.f_prev ≠ [] ∧
      (lineIdsOf (compileLines unkN (ctxFile 4093 4093)) spillLine).pid = 2 ∧
      (read_model unkN spillFile).updates.get? 4094 =
        some ((codepoints spillLine.pat).map (read_model unkN spillFile).c2i_, 9437187) ∧
      toI32 ((spillLine.bytes * 8 + spillLine.ctype % 8) * 1048576 + 2 % 1048576) = 9437186 := by
  rw [spillFile_eq]
  refine ⟨?_, ?_, spill_update [], ?_⟩
  · rw [spillLine_f_prev]
    exact List.cons_ne_nil _ _
  · rw [spillLine_ids.1]
  · show toI32 ((1 * 8 + 1 % 8) * 1048576 + 2 % 1048576) = 9437186
    decide

/-- C19, counterexample: in `prefFile` the feature `ctxOf 4093` is the POS prefix
of the pattern of the last line and the context of the line before it, with the
id 4096; the trie key of the pattern conditioned on it is the symbol of the
pattern alone, without any context symbol. -/
theorem context_symbol_not_appended :
    spillLine.f_prev = prefLine.f_pos ∧ prefLine.f_pos ≠ [] ∧
      (read_model unkN prefFile).updates.get? 4094 =
        some ([(read_model unkN prefFile).c2i_ 98], 9437187) := by
  rw [prefFile_eq]
  exact ⟨rfl, List.cons_ne_nil _ _, spill_update [prefLine]⟩

theorem bump_head (rest : List (Nat × Nat)) (i c w : Nat) :
    bump ((i, c) :: rest) i w = (i, (c + w) % 2 ^ 64) :: rest := by
  unfold bump
  rw [if_pos rfl]

theorem bump_new (idx w : Nat) : ∀ counter : List (Nat × Nat), idx ∉ counter.map Prod.fst →
    bump counter idx w = counter ++ [(idx, w % 2 ^ 64)] := by
  intro counter
  induction counter with
  | nil => intro _; rfl
  | cons e rest ih =>
    intro h
    obtain ⟨i, c⟩ := e
    have hi : i ≠ idx := fun h2 => h (by rw [List.map_cons, h2]; exact List.mem_cons_self _ _)
    have hr : idx ∉ rest.map Prod.fst := fun h2 => h (by
      rw [List.map_cons]; exact List.mem_cons_of_mem _ h2)
    unfold bump
    rw [if_neg hi, ih hr]
    rfl

theorem ctxEntries_succ (n k : Nat) :
    ctxEntries n (k + 1) = ctxEntries n k ++ [(k + 3 + CP_MAX, n - k + 1)] := by
  unfold ctxEntries
  rw [List.range_succ, List.map_append]
  rfl

theorem ctxEntries_keys (n k idx : Nat) (h : idx ∈ (ctxEntries n k).map Prod.fst) :
    ∃ i, i < k ∧ idx = i + 3 + CP_MAX := by
  unfold ctxEntries at h
  rw [List.map_map, List.mem_map] at h
  obtain ⟨i, hi, he⟩ := h
  exact ⟨i, List.mem_range.mp hi, he.symm⟩

theorem cp_max_eq : CP_MAX = 1114111 := rfl

theorem codepoints_b : codepoints [98] = [98] := by decide

theorem codepoints_a : codepoints [97] = [97] := by decide

theorem ctx_counter_head (n : Nat) (hn : n ≤ 70000) :
    (compileLines unkN (ctxFile n 0)).cs.counter = (98, n + 2) :: ctxEntries n 0 := by
  have hs : compileLines unkN (ctxFile n 0) = compileLine (compileInit unkN) (headLine n) := rfl
  rw [hs, compileLine_cs, countLine_counter]
  have h1 : (headLine n).f_prev = [] := rfl
  have h2 : (headLine n).pat = [98] := rfl
  have h3 : (headLine n).count + 1 = n + 2 := rfl
  rw [if_pos h1, h2, codepoints_b, h3]
  show bump [] 98 (n + 2) = _
  show [(98, (n + 2) % 2 ^ 64)] = _
  rw [Nat.mod_eq_of_lt (by omega)]
  rfl

theorem ctx_counter_step (n k : Nat) (hn : n ≤ 70000) (hk : k < n) (W : Nat)
    (hW1 : n + 2 ≤ W) (hW2 : W ≤ (k + 1) * (n + 2))
    (hf : ctxInv k (compileLines unkN (ctxFile n k)))
    (hc : (compileLines unkN (ctxFile n k)).cs.counter = (98, W) :: ctxEntries n k) :
    (compileLines unkN (ctxFile n (k + 1))).cs.counter =
      (98, W + (n - k + 1)) :: ctxEntries n (k + 1) := by
  rw [ctxFile_succ, compileLines_append, compileLine_cs, countLine_counter]
  have h1 : (ctxLine n k).f_prev ≠ [] := List.cons_ne_nil _ _
  have h2 : (ctxLine n k).pat = [98] := rfl
  have h3 : (ctxLine n k).count + 1 = n - k + 1 := rfl
  have hfi := (ctx_fbag_ids k (by omega) _ (ctxLine n k) hf.1 rfl rfl).1
  rw [lineIdsOf_fi_prev, if_neg h1] at hfi
  rw [if_neg h1, h2, codepoints_b, h3, hfi, hc]
  show bump (bump ((98, W) :: ctxEntries n k) 98 (n - k + 1)) (k + 3 + CP_MAX) (n - k + 1) = _
  have hprod : (k + 1) * (n + 2) ≤ 70001 * 70002 := Nat.mul_le_mul (by omega) (by omega)
  have hmod : (W + (n - k + 1)) % 2 ^ 64 = W + (n - k + 1) := Nat.mod_eq_of_lt (by omega)
  rw [bump_head, hmod, bump_new]
  · rw [ctxEntries_succ, Nat.mod_eq_of_lt (by omega)]
    rfl
  · intro hm
    rw [List.map_cons] at hm
    rcases List.mem_cons.mp hm with h | h
    · have := cp_max_eq
      simp only at h
      omega
    · obtain ⟨i, hi, he⟩ := ctxEntries_keys n k _ h
      omega

/-- The counts after the first loop of `read_model` over `ctxFile n k`: the
pattern `b` first, with the greatest count, then the contexts in the order of
their lines. -/
theorem ctx_counter (n : Nat) (hn : n ≤ 70000) : ∀ k, k ≤ n →
    ∃ W, n + 2 ≤ W ∧ W ≤ (k + 1) * (n + 2) ∧
      (compileLines unkN (ctxFile n k)).cs.counter = (98, W) :: ctxEntries n k := by
  intro k
  induction k with
  | zero => intro _; exact ⟨n + 2, le_refl _, by omega, ctx_counter_head n hn⟩
  | succ k ih =>
    intro hk
    obtain ⟨W, h1, h2, h3⟩ := ih (by omega)
    refine ⟨W + (n - k + 1), by omega, ?_,
      ctx_counter_step n k hn (by omega) W h1 h2 (ctxInv_file n k (by omega)) h3⟩
    have : (k + 1 + 1) * (n + 2) = (k + 1) * (n + 2) + (n + 2) := by ring
    omega

theorem ctxEntries_mem (n k : Nat) (x : Nat × Nat) (h : x ∈ ctxEntries n k) :
    ∃ i, i < k ∧ x = (i + 3 + CP_MAX, n - i + 1) := by
  unfold ctxEntries at h
  rw [List.mem_map] at h
  obtain ⟨i, hi, he⟩ := h
  exact ⟨i, List.mem_range.mp hi, he.symm⟩

theorem ctxEntries_length (n k : Nat) : (ctxEntries n k).length = k := by
  unfold ctxEntries
  rw [List.length_map, List.length_range]

/-- The counts after `ctxFile n n` followed by `lastA`. -/
theorem wrap_counter (n : Nat) (hn : n ≤ 70000) :
    ∃ W, n + 2 ≤ W ∧
      counterOf (ctxFile n n ++ [lastA]) = (98, W) :: (ctxEntries n n ++ [(97, 1)]) := by
  obtain ⟨W, h1, _, h3⟩ := ctx_counter n hn n (le_refl _)
  refine ⟨W, h1, ?_⟩
  rw [← compileLines_counter unkN, compileLines_append, compileLine_cs, countLine_counter]
  have e1 : lastA.f_prev = [] := rfl
  have e2 : lastA.pat = [97] := rfl
  have e3 : lastA.count + 1 = 1 := rfl
  rw [if_pos e1, e2, codepoints_a, e3, h3]
  show bump ((98, W) :: ctxEntries n n) 97 1 = _
  rw [bump_new]
  · rfl
  · intro hm
    rw [List.map_cons] at hm
    rcases List.mem_cons.mp hm with h | h
    · simp only at h
      omega
    · obtain ⟨i, _, he⟩ := ctxEntries_keys n n _ h
      have := cp_max_eq
      omega

theorem wrap_sorted (n W : Nat) (hW : n + 2 ≤ W) :
    ((98, W) :: (ctxEntries n n ++ [(97, 1)])).Sorted greaterEntry := by
  unfold List.Sorted
  rw [List.pairwise_cons, List.pairwise_append]
  refine ⟨?_, ?_, List.pairwise_singleton _ _, ?_⟩
  · intro x hx
    rcases List.mem_append.mp hx with h | h
    · obtain ⟨i, hi, rfl⟩ := ctxEntries_mem n n x h
      unfold greaterEntry
      simp only
      omega
    · rw [List.mem_singleton] at h
      subst h
      unfold greaterEntry
      simp only
      omega
  · unfold ctxEntries
    rw [List.pairwise_map]
    refine List.Pairwise.imp_of_mem ?_ (List.pairwise_lt_range n)
    intro i j hi hj hij
    rw [List.mem_range] at hi hj
    unfold greaterEntry
    simp only
    omega
  · intro x hx y hy
    rw [List.mem_singleton] at hy
    subst hy
    obtain ⟨i, hi, rfl⟩ := ctxEntries_mem n n x hx
    unfold greaterEntry
    simp only
    omega

theorem wrap_ranked (n W : Nat) (hW : n + 2 ≤ W) :
    rankedEntries ((98, W) :: (ctxEntries n n ++ [(97, 1)])) =
      (98, W) :: (ctxEntries n n ++ [(97, 1)]) := by
  unfold rankedEntries
  have hf : ((98, W) :: (ctxEntries n n ++ [(97, 1)])).filter
      (fun e => decide (1 ≤ e.1) && decide (e.2 ≠ 0)) =
      (98, W) :: (ctxEntries n n ++ [(97, 1)]) := by
    rw [List.filter_eq_self]
    intro x hx
    rcases List.mem_cons.mp hx with h | h
    · subst h
      simp only [Bool.and_eq_true, decide_eq_true_eq]
      omega
    · rcases List.mem_append.mp h with h | h
      · obtain ⟨i, hi, rfl⟩ := ctxEntries_mem n n x h
        simp only [Bool.and_eq_true, decide_eq_true_eq]
        omega
      · rw [List.mem_singleton] at h
        subst h
        decide
  rw [hf]
  exact List.Sorted.insertionSort_eq (wrap_sorted n W hW)

/-- The sids and counts of the patterns `a` and `b` in the file `ctxFile n n`
followed by `lastA`: `b` is ranked first and `a` last, after the `n` contexts. -/
theorem wrap_c2i (n : Nat) (hn : n ≤ 70000) :
    compile_c2i (ctxFile n n ++ [lastA]) 97 = (n + 2) % 2 ^ 16 ∧
      compile_c2i (ctxFile n n ++ [lastA]) 98 = 1 ∧
      countOf (counterOf (ctxFile n n ++ [lastA])) 97 = 1 ∧
      n + 2 ≤ countOf (counterOf (ctxFile n n ++ [lastA])) 98 ∧
      symbolCount (counterOf (ctxFile n n ++ [lastA])) = n + 2 := by
  obtain ⟨W, hW, hc⟩ := wrap_counter n hn
  have hnd := counterOf_nodup (ctxFile n n ++ [lastA])
  have hkeys : (rankedEntries (counterOf (ctxFile n n ++ [lastA]))).map Prod.fst =
      98 :: ((ctxEntries n n).map Prod.fst ++ [97]) := by
    rw [hc, wrap_ranked n W hW, List.map_cons, List.map_append]
    rfl
  have hnotE : 97 ∉ (ctxEntries n n).map Prod.fst := by
    intro h
    obtain ⟨i, _, he⟩ := ctxEntries_keys n n 97 h
    have := cp_max_eq
    omega
  refine ⟨?_, ?_, ?_, ?_, ?_⟩
  · show c2iOfCounter (counterOf (ctxFile n n ++ [lastA])) 97 = _
    rw [c2iOfCounter_eq, hkeys,
      if_pos (List.mem_cons_of_mem _ (List.mem_append_right _ (List.mem_singleton_self _))),
      List.indexOf_cons_ne _ (by decide), List.indexOf_append_of_not_mem hnotE,
      List.indexOf_cons_self, List.length_map, ctxEntries_length]
  · show c2iOfCounter (counterOf (ctxFile n n ++ [lastA])) 98 = _
    rw [c2iOfCounter_eq, hkeys, if_pos (List.mem_cons_self _ _), List.indexOf_cons_self]
    rfl
  · have hm : ((97, 1) : Nat × Nat) ∈ counterOf (ctxFile n n ++ [lastA]) := by
      rw [hc]
      exact List.mem_cons_of_mem _ (List.mem_append_right _ (List.mem_singleton_self _))
    exact countOf_mem _ hnd _ hm
  · have hm : ((98, W) : Nat × Nat) ∈ counterOf (ctxFile n n ++ [lastA]) := by
      rw [hc]
      exact List.mem_cons_self _ _
    have := countOf_mem _ hnd _ hm
    simp only at this
    omega
  · rw [← ranked_length, hc, wrap_ranked n W hW, List.length_cons, List.length_append,
      ctxEntries_length]
    rfl

theorem wrapFile_eq : wrapFile = ctxFile 65534 65534 ++ [lastA] := rfl

theorem wrapFile2_eq : wrapFile2 = ctxFile 65535 65535 ++ [lastA] := rfl

/-- C14, counterexample: in `wrapFile` 65536 symbols have a count; the pattern
`a`, ranked last, gets the sid `65536 mod 2 ^ 16 = 0`, smaller than the sid 1 of
the pattern `b`, although its count 1 is smaller than the count of `b`. In
`nulPatterns` the code point 0 has the count 1 and keeps the sid 0, smaller than
the sid of `a`, whose count is 11. -/
theorem sid_order_broken :
    (countOf (counterOf wrapFile) 97 ≠ 0 ∧ countOf (counterOf wrapFile) 98 ≠ 0 ∧
      compile_c2i wrapFile 97 < compile_c2i wrapFile 98 ∧
      ¬ countOf (counterOf wrapFile) 97 ≥ countOf (counterOf wrapFile) 98) ∧
    (countOf (counterOf nulPatterns) 0 ≠ 0 ∧ countOf (counterOf nulPatterns) 97 ≠ 0 ∧
      compile_c2i nulPatterns 0 < compile_c2i nulPatterns 97 ∧
      ¬ countOf (counterOf nulPatterns) 0 ≥ countOf (counterOf nulPatterns) 97) := by
  constructor
  · rw [wrapFile_eq]
    obtain ⟨h1, h2, h3, h4, _⟩ := wrap_c2i 65534 (by omega)
    rw [h1, h2, h3]
    refine ⟨by omega, by omega, by decide, by omega⟩
  · decide

/-- C15, counterexample: in `wrapFile` the code point of the pattern `a` of the
last line has the count 1 and is ranked 65536th, so that its entry of `c2i_` is
`65536 mod 2 ^ 16 = 0`. In `nulPatterns` the code point 0 occurs in a pattern
and its entry is 0. -/
theorem counted_symbol_with_sid_zero :
    (lastA ∈ wrapFile ∧ 97 ∈ codepoints lastA.pat ∧ countOf (counterOf wrapFile) 97 ≠ 0 ∧
      compile_c2i wrapFile 97 = 0) ∧
    (countOf (counterOf nulPatterns) 0 ≠ 0 ∧ compile_c2i nulPatterns 0 = 0) := by
  constructor
  · rw [wrapFile_eq]
    obtain ⟨h1, _, h3, _, _⟩ := wrap_c2i 65534 (by omega)
    rw [h1, h3]
    refine ⟨List.mem_append_right _ (List.mem_singleton_self _), ?_, by omega, by decide⟩
    show 97 ∈ codepoints [97]
    rw [codepoints_a]
    exact List.mem_singleton_self _
  · decide

/-- C16, counterexample: in `wrapFile2` 65537 symbols have a count; the pattern
`a`, ranked last, gets the sid `65537 mod 2 ^ 16 = 1`, which is the sid of the
pattern `b`. In `nulPatterns` the code point 0 has a count but no sid. -/
theorem sid_shared_by_two_symbols :
    (symbolCount (counterOf wrapFile2) = 65537 ∧ compile_c2i wrapFile2 97 ≠ 0 ∧
      compile_c2i wrapFile2 97 = compile_c2i wrapFile2 98) ∧
    (countOf (counterOf nulPatterns) 0 ≠ 0 ∧ compile_c2i nulPatterns 0 = 0) := by
  constructor
  · rw [wrapFile2_eq]
    obtain ⟨h1, h2, _, _, h5⟩ := wrap_c2i 65535 (by omega)
    rw [h1, h2, h5]
    decide
  · decide

/-! ## The length of `counter` and of `c2i_` -/

theorem to_i_length (bag : sbag_t) (str : List Nat) :
    ((bag.to_i str).1 < bag.strs.length ∧ (bag.to_i str).2.strs.length = bag.strs.length) ∨
      ((bag.to_i str).1 = bag.strs.length ∧
        (bag.to_i str).2.strs.length = bag.strs.length + 1) := by
  by_cases h : str ∈ bag.strs
  · left
    rw [to_i_old bag str h]
    refine ⟨?_, rfl⟩
    have := (to_i_fst bag str)
    rw [to_i_old bag str h] at this
    show bag.strs.indexOf str < _
    have h2 : ∀ l : List (List Nat), str ∈ l → l.indexOf str < l.length := by
      intro l
      induction l with
      | nil => intro h; exact absurd h (List.not_mem_nil _)
      | cons a l ih =>
        intro hm
        rw [List.indexOf_cons]
        by_cases ha : a = str
        · have : (a == str) = true := by rw [ha]; exact beq_self_eq_true str
          rw [this]
          exact Nat.succ_pos _
        · have : (a == str) = false := by
            cases hb : a == str with
            | false => rfl
            | true => exact absurd (eq_of_beq hb) ha
          rw [this]
          have hl : str ∈ l := by
            rcases List.mem_cons.mp hm with h1 | h1
            · exact absurd h1.symm ha
            · exact h1
          have := ih hl
          simp only [cond_false, List.length_cons]
          omega
    exact h2 _ h
  · right
    rw [to_i_new bag str h]
    exact ⟨rfl, by simp⟩

/-- Interning one string and the push that follows keep the invariant on the
length of `counter`, and the entry of the id is inside `counter`. -/
theorem intern_size (bag : sbag_t) (size : Nat) (str : List Nat) (h1 : 1 ≤ bag.strs.length)
    (h2 : size = CP_MAX + 1 + max 2 bag.strs.length) :
    1 ≤ (bag.to_i str).2.strs.length ∧
      pushSize size ((bag.to_i str).1 + 1) = CP_MAX + 1 + max 2 (bag.to_i str).2.strs.length ∧
      (bag.to_i str).1 + 1 + CP_MAX < pushSize size ((bag.to_i str).1 + 1) ∧
      size ≤ pushSize size ((bag.to_i str).1 + 1) := by
  unfold pushSize
  rcases to_i_length bag str with ⟨ha, hb⟩ | ⟨ha, hb⟩
  · rw [hb]
    have hne : ¬ (bag.to_i str).1 + 1 + CP_MAX = size := by omega
    rw [if_neg hne]
    omega
  · rw [hb]
    by_cases hn : bag.strs.length = 1
    · have hne : ¬ (bag.to_i str).1 + 1 + CP_MAX = size := by omega
      rw [if_neg hne]
      omega
    · have he : (bag.to_i str).1 + 1 + CP_MAX = size := by omega
      rw [if_pos he]
      omega

theorem countLine_size (cs : counterState) (l : patternLine) :
    (countLine cs l).size =
      pushSize (if l.f_prev = [] then cs.size
          else pushSize cs.size ((cs.fbag.to_i l.f_prev).1 + 1))
        (((if l.f_prev = [] then cs.fbag else (cs.fbag.to_i l.f_prev).2).to_i l.f_pos).1 + 1) := by
  unfold countLine pushSize
  simp only
  split_ifs <;> rfl

/-- One pattern line keeps the invariant on the length of `counter`; the entry
of the context is inside `counter` when it is read, and the entries of both ids
are inside it after the line. -/
theorem countLine_sizeInv (s : compileState) (l : patternLine) (h : sizeInv s.cs) :
    sizeInv (countLine s.cs l) ∧ s.cs.size ≤ (countLine s.cs l).size ∧
      (l.f_prev ≠ [] →
        (lineIdsOf s l).fi_prev + CP_MAX < pushSize s.cs.size (lineIdsOf s l).fi_prev) ∧
      (lineIdsOf s l).fi_prev + CP_MAX < (countLine s.cs l).size ∧
      (lineIdsOf s l).fi_ + CP_MAX < (countLine s.cs l).size := by
  obtain ⟨h1, h2⟩ := h
  unfold sizeInv
  rw [countLine_size, countLine_fbag, lineIdsOf_fi_prev, lineIdsOf_fi_]
  by_cases hp : l.f_prev = []
  · simp only [if_pos hp]
    obtain ⟨a1, a2, a3, a4⟩ := intern_size s.cs.fbag s.cs.size l.f_pos h1 h2
    refine ⟨⟨a1, a2⟩, a4, fun hne => absurd hp hne, ?_, a3⟩
    omega
  · simp only [if_neg hp]
    obtain ⟨a1, a2, a3, a4⟩ := intern_size s.cs.fbag s.cs.size l.f_prev h1 h2
    obtain ⟨b1, b2, b3, b4⟩ := intern_size (s.cs.fbag.to_i l.f_prev).2
      (pushSize s.cs.size ((s.cs.fbag.to_i l.f_prev).1 + 1)) l.f_pos a1 a2
    refine ⟨⟨b1, b2⟩, by omega, fun _ => a3, by omega, b3⟩

theorem sizeInv_init (U : List Nat) : sizeInv (compileInit U).cs := by
  unfold sizeInv
  exact ⟨Nat.le_refl 1, rfl⟩

theorem sizeInv_compileLines (U : List Nat) (lines : List patternLine) :
    sizeInv (compileLines U lines).cs := by
  induction lines using List.reverseRecOn with
  | nil => exact sizeInv_init U
  | append_singleton pre l ih =>
    rw [compileLines_append, compileLine_cs]
    exact (countLine_sizeInv _ l ih).1

theorem foldl_countLine_size : ∀ (post : List patternLine) (cs : counterState)
    (s : compileState), s.cs = cs → sizeInv cs → cs.size ≤ (post.foldl countLine cs).size := by
  intro post
  induction post with
  | nil => intro cs _ _ _; exact Nat.le_refl _
  | cons l post ih =>
    intro cs s hs h
    rw [List.foldl_cons]
    have hstep := countLine_sizeInv s l (hs ▸ h)
    rw [hs] at hstep
    exact Nat.le_trans hstep.2.1 (ih (countLine cs l) (compileLine s l)
      (by rw [compileLine_cs, hs]) hstep.1)

theorem keyValue_low12_mod (bytes ctype pid fi_prev : Nat) :
    keyValue bytes ctype pid fi_prev &&& 0xfff = fi_prev % 4096 := by
  rw [and_mask12]
  unfold keyValue
  have h := or_mod_pow
    ((((bytes <<< 23) % 2 ^ 64 ||| ((ctype &&& 0x7) <<< 20) ||| (pid &&& 0xfffff)) <<< 12)
      % 2 ^ 64) fi_prev 12
  have h2 : ∀ x : Nat, (x <<< 12) % 2 ^ 64 % 2 ^ 12 = 0 := by
    intro x
    rw [shl_mod64 x 12 (by omega)]
    exact Nat.mul_mod_left _ _
  rw [h2, Nat.zero_or] at h
  exact h

theorem c2iVector_length (U : List Nat) (lines : List patternLine) :
    (c2iVector lines).length = (compileLines U lines).cs.size := by
  unfold c2iVector compileLines
  rw [List.length_map, List.length_range, compileLine_foldl_cs]
  rfl

theorem compileLines_size_le (U : List Nat) (pre post : List patternLine) (l : patternLine) :
    (countLine (compileLines U pre).cs l).size ≤ (compileLines U (pre ++ l :: post)).cs.size := by
  have h : (compileLines U (pre ++ l :: post)).cs =
      post.foldl countLine (countLine (compileLines U pre).cs l) := by
    unfold compileLines
    rw [compileLine_foldl_cs, List.foldl_append, List.foldl_cons, ← compileLine_foldl_cs]
  rw [h]
  exact foldl_countLine_size post _ (compileLine (compileLines U pre) l) (compileLine_cs _ _)
    (countLine_sizeInv _ l (sizeInv_compileLines U pre)).1

/-- C28. Push-back path of the compiler: for every pattern file and every line
`l` of it, the vector `counter` has the length
`CP_MAX + 1 + max (2, number of strings of fbag)` before and after the line,
whatever the order in which contexts and POS parts first appear; the entry
`counter[fi_prev + CP_MAX]` is inside `counter` when the line reads it, and the
entries `c2i_[fi_ + CP_MAX]`, `c2i_[fi_prev + CP_MAX]` and
`c2i_[(it->second & 0xfff) + CP_MAX]` are inside `c2i_`, which has the length of
`counter` after the last line. -/
theorem push_back_in_bounds (U : List Nat) (pre post : List patternLine) (l : patternLine) :
    sizeInv (compileLines U pre).cs ∧ sizeInv (compileLines U (pre ++ [l])).cs ∧
      (l.f_prev ≠ [] →
        (lineIdsOf (compileLines U pre) l).fi_prev + CP_MAX <
          pushSize (compileLines U pre).cs.size (lineIdsOf (compileLines U pre) l).fi_prev) ∧
      (lineIdsOf (compileLines U pre) l).fi_ + CP_MAX < (c2iVector (pre ++ l :: post)).length ∧
      (lineIdsOf (compileLines U pre) l).fi_prev + CP_MAX <
        (c2iVector (pre ++ l :: post)).length ∧
      ((lineIdsOf (compileLines U pre) l).value &&& 0xfff) + CP_MAX <
        (c2iVector (pre ++ l :: post)).length := by
  obtain ⟨_, _, h3, h4, h5⟩ := countLine_sizeInv (compileLines U pre) l
    (sizeInv_compileLines U pre)
  have hle := compileLines_size_le U pre post l
  rw [c2iVector_length U]
  refine ⟨sizeInv_compileLines U pre, sizeInv_compileLines U _, h3, by omega, by omega, ?_⟩
  unfold lineIds.value
  rw [keyValue_low12_mod]
  have := Nat.mod_le (lineIdsOf (compileLines U pre) l).fi_prev 4096
  omega

theorem getD_take_lt (d : Nat) : ∀ (v : List Nat) (n x : Nat), x < n →
    (v.take n).getD x d = v.getD x d := by
  intro v
  induction v with
  | nil => intro n x _; rw [List.take_nil]
  | cons a v ih =>
    intro n x h
    cases n with
    | zero => exact absurd h (Nat.not_lt_zero _)
    | succ n =>
      cases x with
      | zero => rfl
      | succ x => exact ih n x (Nat.lt_of_succ_lt_succ h)

theorem getD_map_range (f : Nat → Nat) (n x : Nat) (h : x < n) :
    ((List.range n).map f).getD x 0 = f x := by
  rw [List.getD_eq_getElem _ _ (by rw [List.length_map, List.length_range]; exact h),
    List.getElem_map, List.getElem_range]

theorem resize_le (v : List Nat) (n : Nat) (h : n ≤ v.length) : resize v n = v.take n := by
  unfold resize
  rw [Nat.sub_eq_zero_of_le h]
  exact List.append_nil _

/-- C21. The persisted `c2i` array has exactly `CP_MAX + 2` entries, and each of
them equals the entry of the full map `c2i_` that built the trie keys and the
records of `p2f`: the entry of every code point and the entry `CP_MAX + 1` of
BOS are unchanged by `c2i_.resize (CP_MAX + 2)`. -/
theorem persisted_c2i_prefix (U : List Nat) (lines : List patternLine) :
    (persistedVector lines).length = CP_MAX + 2 ∧
      ∀ x, x < CP_MAX + 2 →
        (persistedVector lines).getD x 0 = (c2iVector lines).getD x 0 ∧
        (persistedVector lines).getD x 0 = (read_model U lines).c2i_ x ∧
        (persistedVector lines).getD x 0 = persisted_c2i lines x := by
  have hs := (sizeInv_compileLines U lines).2
  have hl := c2iVector_length U lines
  have hle : CP_MAX + 2 ≤ (c2iVector lines).length := by omega
  unfold persistedVector
  rw [resize_le _ _ hle]
  constructor
  · rw [List.length_take]
    omega
  · intro x hx
    rw [getD_take_lt 0 _ _ _ hx]
    have hv : (c2iVector lines).getD x 0 = compile_c2i lines x := by
      have hl2 : (c2iVector lines).length = (lines.foldl countLine counterInit).size := by
        unfold c2iVector
        rw [List.length_map, List.length_range]
      unfold c2iVector
      exact getD_map_range _ _ _ (by omega)
    refine ⟨rfl, ?_, ?_⟩
    · rw [hv, read_model_c2i]
    · rw [hv]
      unfold persisted_c2i
      rw [if_pos hx]

/-! ## The pruning step of the trainer: selection -/

theorem selectBytesFrom_spec : ∀ (v : List Nat) (i m b : Nat),
    (selectBytesFrom v i (m, b) = (m, b) ∧ ∀ x ∈ v, x < m) ∨
      (∃ j, j < v.length ∧ selectBytesFrom v i (m, b) = (v.getD j 0, i + j) ∧ m ≤ v.getD j 0 ∧
        (∀ k, k < v.length → v.getD k 0 ≤ v.getD j 0) ∧
        (∀ k, j < k → k < v.length → v.getD k 0 < v.getD j 0)) := by
  intro v
  induction v with
  | nil => intro i m b; left; exact ⟨rfl, by simp⟩
  | cons x rest ih =>
    intro i m b
    unfold selectBytesFrom
    by_cases hx : x ≥ m
    · have hacc : (if x ≥ (m, b).1 then (x, i) else (m, b)) = (x, i) := if_pos hx
      rw [hacc]
      right
      rcases ih (i + 1) x i with ⟨h1, h2⟩ | ⟨j, hj, h1, h2, h3, h4⟩
      · refine ⟨0, by simp, ?_, hx, ?_, ?_⟩
        · rw [h1]; rfl
        · intro k hk
          cases k with
          | zero => exact le_refl _
          | succ k =>
            have hk2 : k < rest.length := by simpa using hk
            have hm : rest.getD k 0 ∈ rest := by
              rw [List.getD_eq_getElem _ _ hk2]; exact List.getElem_mem _
            exact le_of_lt (h2 _ hm)
        · intro k hk0 hk
          cases k with
          | zero => omega
          | succ k =>
            have hk2 : k < rest.length := by simpa using hk
            have hm : rest.getD k 0 ∈ rest := by
              rw [List.getD_eq_getElem _ _ hk2]; exact List.getElem_mem _
            exact h2 _ hm
      · refine ⟨j + 1, by simpa using hj, ?_, ?_, ?_, ?_⟩
        · rw [h1]
          show (rest.getD j 0, i + 1 + j) = (rest.getD j 0, i + (j + 1))
          congr 1; omega
        · show m ≤ rest.getD j 0
          omega
        · intro k hk
          cases k with
          | zero => exact h2
          | succ k => exact h3 k (by simpa using hk)
        · intro k hjk hk
          cases k with
          | zero => omega
          | succ k => exact h4 k (by omega) (by simpa using hk)
    · have hacc : (if x ≥ (m, b).1 then (x, i) else (m, b)) = (m, b) := if_neg hx
      rw [hacc]
      rcases ih (i + 1) m b with ⟨h1, h2⟩ | ⟨j, hj, h1, h2, h3, h4⟩
      · left
        refine ⟨h1, ?_⟩
        intro y hy
        rcases List.mem_cons.mp hy with h | h
        · rw [h]; omega
        · exact h2 y h
      · right
        refine ⟨j + 1, by simpa using hj, ?_, ?_, ?_, ?_⟩
        · rw [h1]
          show (rest.getD j 0, i + 1 + j) = (rest.getD j 0, i + (j + 1))
          congr 1; omega
        · exact h2
        · intro k hk
          cases k with
          | zero =>
            show x ≤ rest.getD j 0
            omega
          | succ k => exact h3 k (by simpa using hk)
        · intro k hjk hk
          cases k with
          | zero => omega
          | succ k => exact h4 k (by omega) (by simpa using hk)

theorem selectFeatureFrom_spec (bytes : Nat) : ∀ (l : List (Nat × Nat × Nat)) (m f : Nat),
    (selectFeatureFrom bytes l (m, f) = (m, f) ∧ ∀ e ∈ l, e.2.1 = bytes → e.2.2 ≤ m) ∨
      (∃ e ∈ l, selectFeatureFrom bytes l (m, f) = (e.2.2, e.1) ∧ e.2.1 = bytes ∧ m < e.2.2 ∧
        ∀ e2 ∈ l, e2.2.1 = bytes → e2.2.2 ≤ e.2.2) := by
  intro l
  induction l with
  | nil => intro m f; left; exact ⟨rfl, by simp⟩
  | cons x rest ih =>
    intro m f
    unfold selectFeatureFrom
    by_cases hx : x.2.1 = bytes ∧ x.2.2 > m
    · have hacc : (if x.2.1 = bytes ∧ x.2.2 > (m, f).1 then (x.2.2, x.1) else (m, f)) =
          (x.2.2, x.1) := if_pos hx
      rw [hacc]
      right
      rcases ih x.2.2 x.1 with ⟨h1, h2⟩ | ⟨e, he, h1, h2, h3, h4⟩
      · refine ⟨x, List.mem_cons_self _ _, h1, hx.1, hx.2, ?_⟩
        intro e2 he2 hb
        rcases List.mem_cons.mp he2 with h | h
        · rw [h]
        · exact h2 e2 h hb
      · refine ⟨e, List.mem_cons_of_mem _ he, h1, h2, by omega, ?_⟩
        intro e2 he2 hb
        rcases List.mem_cons.mp he2 with h | h
        · rw [h]; omega
        · exact h4 e2 h hb
    · have hacc : (if x.2.1 = bytes ∧ x.2.2 > (m, f).1 then (x.2.2, x.1) else (m, f)) =
          (m, f) := if_neg hx
      rw [hacc]
      rcases ih m f with ⟨h1, h2⟩ | ⟨e, he, h1, h2, h3, h4⟩
      · left
        refine ⟨h1, ?_⟩
        intro e2 he2 hb
        rcases List.mem_cons.mp he2 with h | h
        · rw [h] at hb ⊢
          by_contra hc
          exact hx ⟨hb, by omega⟩
        · exact h2 e2 h hb
      · right
        refine ⟨e, List.mem_cons_of_mem _ he, h1, h2, h3, ?_⟩
        intro e2 he2 hb
        rcases List.mem_cons.mp he2 with h | h
        · rw [h] at hb ⊢
          by_contra hc
          exact hx ⟨hb, by omega⟩
        · exact h4 e2 h hb

theorem getD_set_nat (v : List Nat) (k s a : Nat) :
    (v.set k a).getD s 0 = if k = s ∧ k < v.length then a else v.getD s 0 := by
  rw [List.getD_eq_getElem?_getD, List.getD_eq_getElem?_getD, List.getElem?_set]
  by_cases hk : k = s
  · subst hk
    by_cases hl : k < v.length
    · simp [hl]
    · have : v.length ≤ k := by omega
      simp [hl, List.getElem?_eq_none this]
  · simp [hk]

theorem supportOfLength_cons (e : Nat × Nat × Nat) (l : List (Nat × Nat × Nat)) (s : Nat) :
    supportOfLength (e :: l) s = (if e.2.1 = s then e.2.2 else 0) + supportOfLength l s := by
  unfold supportOfLength
  by_cases h : e.2.1 = s
  · simp [List.filter_cons, h]
  · simp [List.filter_cons, h]

theorem s2c_fold_length : ∀ (l : List (Nat × Nat × Nat)) (v : List Nat),
    (l.foldl (fun v e => v.set e.2.1 (v.getD e.2.1 0 + e.2.2)) v).length = v.length := by
  intro l
  induction l with
  | nil => intro v; rfl
  | cons e l ih => intro v; rw [List.foldl_cons, ih]; simp

theorem s2c_fold_getD : ∀ (l : List (Nat × Nat × Nat)) (v : List Nat) (s : Nat), s < v.length →
    (l.foldl (fun v e => v.set e.2.1 (v.getD e.2.1 0 + e.2.2)) v).getD s 0 =
      v.getD s 0 + supportOfLength l s := by
  intro l
  induction l with
  | nil => intro v s _; simp [supportOfLength]
  | cons e l ih =>
    intro v s hs
    rw [List.foldl_cons, ih _ s (by simpa using hs), getD_set_nat, supportOfLength_cons]
    by_cases h : e.2.1 = s
    · rw [if_pos ⟨h, by omega⟩, if_pos h, h]; omega
    · rw [if_neg (fun hh => h hh.1), if_neg h]; omega

theorem s2c_length (fi2sc : List (Nat × Nat × Nat)) (max_plen : Nat) :
    (s2c fi2sc max_plen).length = max_plen + 1 := by
  unfold s2c
  rw [s2c_fold_length]; simp

/-- The entry `s2c[s]` is the sum of the counts of the features recorded with
the byte length `s`. -/
theorem s2c_getD (fi2sc : List (Nat × Nat × Nat)) (max_plen s : Nat) (hs : s ≤ max_plen) :
    (s2c fi2sc max_plen).getD s 0 = supportOfLength fi2sc s := by
  unfold s2c
  rw [s2c_fold_getD _ _ s (by simp; omega)]
  rw [List.getD_eq_getElem _ _ (by simp; omega)]
  simp

theorem supportOfLength_pos (fi2sc : List (Nat × Nat × Nat)) (s : Nat)
    (h : 0 < supportOfLength fi2sc s) : ∃ e ∈ fi2sc, e.2.1 = s ∧ 0 < e.2.2 := by
  induction fi2sc with
  | nil => simp [supportOfLength] at h
  | cons e l ih =>
    rw [supportOfLength_cons] at h
    by_cases he : e.2.1 = s
    · rw [if_pos he] at h
      by_cases hc : 0 < e.2.2
      · exact ⟨e, List.mem_cons_self _ _, he, hc⟩
      · obtain ⟨e2, h1, h2⟩ := ih (by omega)
        exact ⟨e2, List.mem_cons_of_mem _ h1, h2⟩
    · rw [if_neg he] at h
      obtain ⟨e2, h1, h2⟩ := ih (by omega)
      exact ⟨e2, List.mem_cons_of_mem _ h1, h2⟩

theorem supportOfLength_ge (fi2sc : List (Nat × Nat × Nat)) (e : Nat × Nat × Nat)
    (h : e ∈ fi2sc) : e.2.2 ≤ supportOfLength fi2sc e.2.1 := by
  induction fi2sc with
  | nil => simp at h
  | cons x l ih =>
    rw [supportOfLength_cons]
    rcases List.mem_cons.mp h with h1 | h1
    · rw [h1]; simp
    · have := ih h1; omega

/-- The byte length selected is an index of `s2c` with the greatest entry, the
last one among these. -/
theorem selectBytes_spec (fi2sc : List (Nat × Nat × Nat)) (max_plen size : Nat) :
    selectBytes fi2sc max_plen size ≤ max_plen ∧
      ∀ s, s ≤ max_plen →
        supportOfLength fi2sc s ≤ supportOfLength fi2sc (selectBytes fi2sc max_plen size) ∧
        (supportOfLength fi2sc s = supportOfLength fi2sc (selectBytes fi2sc max_plen size) →
          s ≤ selectBytes fi2sc max_plen size) := by
  unfold selectBytes
  have hl := s2c_length fi2sc max_plen
  rcases selectBytesFrom_spec (s2c fi2sc max_plen) 0 0 size with ⟨_, h2⟩ | ⟨j, hj, h1, _, h3, h4⟩
  · exfalso
    have hm : (s2c fi2sc max_plen).getD 0 0 ∈ s2c fi2sc max_plen := by
      rw [List.getD_eq_getElem _ _ (by omega)]; exact List.getElem_mem _
    exact absurd (h2 _ hm) (by omega)
  · rw [h1]
    simp only [Nat.zero_add]
    have hjm : j ≤ max_plen := by omega
    refine ⟨hjm, ?_⟩
    intro s hs
    have e1 := s2c_getD fi2sc max_plen s hs
    have e2 := s2c_getD fi2sc max_plen j hjm
    refine ⟨?_, ?_⟩
    · rw [← e1, ← e2]; exact h3 s (by omega)
    · intro heq
      by_contra hc
      have := h4 s (by omega) (by omega)
      rw [e1, e2] at this
      omega

/-- The feature selected is the first entry, in the order of the map, among the
entries of the byte length with the greatest count: the entries before it with
that byte length have a smaller count. -/
theorem selectFeatureFrom_first (bytes : Nat) : ∀ (l : List (Nat × Nat × Nat)) (m f : Nat),
    (selectFeatureFrom bytes l (m, f) = (m, f) ∧ ∀ e ∈ l, e.2.1 = bytes → e.2.2 ≤ m) ∨
      (∃ pre e post, l = pre ++ e :: post ∧
        selectFeatureFrom bytes l (m, f) = (e.2.2, e.1) ∧ e.2.1 = bytes ∧ m < e.2.2 ∧
        (∀ e2 ∈ l, e2.2.1 = bytes → e2.2.2 ≤ e.2.2) ∧
        ∀ e2 ∈ pre, e2.2.1 = bytes → e2.2.2 < e.2.2) := by
  intro l
  induction l with
  | nil => intro m f; left; exact ⟨rfl, by simp⟩
  | cons x rest ih =>
    intro m f
    unfold selectFeatureFrom
    by_cases hx : x.2.1 = bytes ∧ x.2.2 > m
    · have hacc : (if x.2.1 = bytes ∧ x.2.2 > (m, f).1 then (x.2.2, x.1) else (m, f)) =
          (x.2.2, x.1) := if_pos hx
      rw [hacc]
      right
      rcases ih x.2.2 x.1 with ⟨h1, h2⟩ | ⟨pre, e, post, hl, h1, h2, h3, h4, h5⟩
      · refine ⟨[], x, rest, rfl, h1, hx.1, hx.2, ?_, by simp⟩
        intro e2 he2 hb
        rcases List.mem_cons.mp he2 with h | h
        · rw [h]
        · exact h2 e2 h hb
      · refine ⟨x :: pre, e, post, by rw [hl]; rfl, h1, h2, by omega, ?_, ?_⟩
        · intro e2 he2 hb
          rcases List.mem_cons.mp he2 with h | h
          · rw [h]; omega
          · exact h4 e2 h hb
        · intro e2 he2 hb
          rcases List.mem_cons.mp he2 with h | h
          · rw [h]; exact h3
          · exact h5 e2 h hb
    · have hacc : (if x.2.1 = bytes ∧ x.2.2 > (m, f).1 then (x.2.2, x.1) else (m, f)) =
          (m, f) := if_neg hx
      rw [hacc]
      rcases ih m f with ⟨h1, h2⟩ | ⟨pre, e, post, hl, h1, h2, h3, h4, h5⟩
      · left
        refine ⟨h1, ?_⟩
        intro e2 he2 hb
        rcases List.mem_cons.mp he2 with h | h
        · rw [h] at hb ⊢
          by_contra hc
          exact hx ⟨hb, by omega⟩
        · exact h2 e2 h hb
      · right
        have hxle : x.2.1 = bytes → x.2.2 ≤ m := by
          intro hb
          by_contra hc
          exact hx ⟨hb, by omega⟩
        refine ⟨x :: pre, e, post, by rw [hl]; rfl, h1, h2, h3, ?_, ?_⟩
        · intro e2 he2 hb
          rcases List.mem_cons.mp he2 with h | h
          · rw [h] at hb ⊢
            have := hxle hb
            omega
          · exact h4 e2 h hb
        · intro e2 he2 hb
          rcases List.mem_cons.mp he2 with h | h
          · rw [h] at hb ⊢
            have := hxle hb
            omega
          · exact h5 e2 h hb

/-- C25 (amended). Trainer pruning choice: for a candidate seen in the corpus
(its entries `(fi, s, c)` have positive counts and byte lengths inside `s2c`),
the pruning step selects the byte length whose support summed over all the
features recorded with that length is the greatest, the longer length on ties,
and then, among the features recorded with that length, the one with the
greatest count, the first of them in the order of the map on ties: every entry
before it with that length has a smaller count, and when the entries are in
increasing order of feature id, as in the `std::map`, it has the least feature
id among the entries of that length with the greatest count. -/
theorem pruning_choice (fi2sc : List (Nat × Nat × Nat)) (max_plen size max_fi : Nat)
    (hs : ∀ e ∈ fi2sc, e.2.1 ≤ max_plen) (hc : ∀ e ∈ fi2sc, 0 < e.2.2) (hne : fi2sc ≠ []) :
    selectBytes fi2sc max_plen size ≤ max_plen ∧
      (∀ s, s ≤ max_plen →
        supportOfLength fi2sc s ≤ supportOfLength fi2sc (selectBytes fi2sc max_plen size) ∧
        (supportOfLength fi2sc s = supportOfLength fi2sc (selectBytes fi2sc max_plen size) →
          s ≤ selectBytes fi2sc max_plen size)) ∧
      ∃ e ∈ fi2sc, e.1 = selectFeature fi2sc (selectBytes fi2sc max_plen size) max_fi ∧
        e.2.1 = selectBytes fi2sc max_plen size ∧
        (∀ e2 ∈ fi2sc, e2.2.1 = selectBytes fi2sc max_plen size → e2.2.2 ≤ e.2.2) ∧
        (∃ pre post, fi2sc = pre ++ e :: post ∧
          ∀ e2 ∈ pre, e2.2.1 = selectBytes fi2sc max_plen size → e2.2.2 < e.2.2) ∧
        (fi2sc.Pairwise (fun a c => a.1 < c.1) →
          ∀ e2 ∈ fi2sc, e2.2.1 = selectBytes fi2sc max_plen size → e2.2.2 = e.2.2 →
            e.1 ≤ e2.1) := by
  obtain ⟨h1, h2⟩ := selectBytes_spec fi2sc max_plen size
  refine ⟨h1, h2, ?_⟩
  obtain ⟨x, rest, hx⟩ := List.exists_cons_of_ne_nil hne
  have hxm : x ∈ fi2sc := by rw [hx]; exact List.mem_cons_self _ _
  have hpos : 0 < supportOfLength fi2sc (selectBytes fi2sc max_plen size) := by
    have a1 := supportOfLength_ge fi2sc x hxm
    have a2 := (h2 x.2.1 (hs x hxm)).1
    have a3 := hc x hxm
    omega
  obtain ⟨e0, he0, hb0, hc0⟩ := supportOfLength_pos fi2sc _ hpos
  unfold selectFeature
  rcases selectFeatureFrom_first (selectBytes fi2sc max_plen size) fi2sc 0 max_fi with
    ⟨_, h4⟩ | ⟨pre, e, post, hl, h3, h4, _, h6, h7⟩
  · exact absurd (h4 e0 he0 hb0) (by omega)
  · have he : e ∈ fi2sc := by rw [hl]; simp
    refine ⟨e, he, by rw [h3], h4, h6, ⟨pre, post, hl, h7⟩, ?_⟩
    intro hp e2 he2 hb heq
    have hmem : e2 ∈ pre ++ e :: post := hl ▸ he2
    rcases List.mem_append.mp hmem with h | h
    · have := h7 e2 h hb
      omega
    · rcases List.mem_cons.mp h with h | h
      · rw [h]
      · have hp2 : (pre ++ e :: post).Pairwise (fun a c => a.1 < c.1) := hl ▸ hp
        have := (List.pairwise_cons.mp (List.pairwise_append.mp hp2).2.1).1 e2 h
        omega

/-- Witness of C25: the candidate `exSupport`, whose features 2 and 3 tie at the
selected byte length 3; the feature 2, the first of them, is selected. -/
theorem pruning_choice_witness :
    (∀ e ∈ exSupport, e.2.1 ≤ 4) ∧ selectBytes exSupport 4 5 ≤ 4 ∧
      selectFeature exSupport (selectBytes exSupport 4 5) 0 = 2 ∧
      ∃ e ∈ exSupport, e.1 = selectFeature exSupport (selectBytes exSupport 4 5) 0 ∧
        e.2.1 = selectBytes exSupport 4 5 ∧
        (∀ e2 ∈ exSupport, e2.2.1 = selectBytes exSupport 4 5 → e2.2.2 ≤ e.2.2) ∧
        (∃ pre post, exSupport = pre ++ e :: post ∧
          ∀ e2 ∈ pre, e2.2.1 = selectBytes exSupport 4 5 → e2.2.2 < e.2.2) ∧
        (exSupport.Pairwise (fun a c => a.1 < c.1) →
          ∀ e2 ∈ exSupport, e2.2.1 = selectBytes exSupport 4 5 → e2.2.2 = e.2.2 →
            e.1 ≤ e2.1) :=
  ⟨by decide, (pruning_choice exSupport 4 5 0 (by decide) (by decide) (by decide)).1,
    by decide, (pruning_choice exSupport 4 5 0 (by decide) (by decide) (by decide)).2.2⟩

/-- C25, counterexample. The pair with the greatest count of `exSupport` is the
feature 1 at the byte length 2 (count 3), but the pruning step selects the byte
length 3, whose two features have the counts 2 and 2, and the feature 2. -/
theorem pruning_choice_not_max_pair :
    bestPair exSupport = some (1, 2, 3) ∧ (∀ e ∈ exSupport, e.2.2 ≤ 3) ∧
      selectBytes exSupport 4 5 = 3 ∧ selectFeature exSupport (selectBytes exSupport 4 5) 0 = 2 := by
  decide

/-! ## The pruning loop of the trainer -/

theorem strLt_irrefl : ∀ a : List Nat, strLt a a = false := by
  intro a
  induction a with
  | nil => rfl
  | cons x a ih => simp [strLt, ih]

theorem strLt_trans : ∀ a b c : List Nat, strLt a b = true → strLt b c = true →
    strLt a c = true := by
  intro a
  induction a with
  | nil =>
    intro b c h1 h2
    cases c with
    | nil => cases b <;> simp [strLt] at h2
    | cons z c => rfl
  | cons x a ih =>
    intro b c h1 h2
    cases b with
    | nil => simp [strLt] at h1
    | cons y b =>
      cases c with
      | nil => simp [strLt] at h2
      | cons z c =>
        simp only [strLt, Bool.or_eq_true, Bool.and_eq_true, decide_eq_true_eq] at h1 h2 ⊢
        rcases h1 with h1 | ⟨h1, h1b⟩
        · rcases h2 with h2 | ⟨h2, _⟩
          · left; omega
          · left; omega
        · rcases h2 with h2 | ⟨h2, h2b⟩
          · left; omega
          · right; exact ⟨by omega, ih b c h1b h2b⟩

theorem strLt_asymm (a b : List Nat) (h : strLt a b = true) : strLt b a = false := by
  by_contra hc
  have hc2 : strLt b a = true := by simpa using hc
  have := strLt_trans a b a h hc2
  rw [strLt_irrefl] at this
  exact absurd this (by simp)

theorem strLt_total : ∀ a b : List Nat, a ≠ b → strLt a b = true ∨ strLt b a = true := by
  intro a
  induction a with
  | nil =>
    intro b h
    cases b with
    | nil => exact absurd rfl h
    | cons y b => left; rfl
  | cons x a ih =>
    intro b h
    cases b with
    | nil => right; rfl
    | cons y b =>
      simp only [strLt, Bool.or_eq_true, Bool.and_eq_true, decide_eq_true_eq]
      rcases Nat.lt_trichotomy x y with hxy | hxy | hxy
      · left; left; exact hxy
      · have hab : a ≠ b := by
          intro e; apply h; rw [hxy, e]
        rcases ih b hab with h1 | h1
        · left; right; exact ⟨hxy, h1⟩
        · right; right; exact ⟨hxy.symm, h1⟩
      · right; left; exact hxy

theorem prefix_strLt : ∀ q p : List Nat, q <+: p → q ≠ p → strLt q p = true := by
  intro q
  induction q with
  | nil =>
    intro p _ hne
    cases p with
    | nil => exact absurd rfl hne
    | cons y p => rfl
  | cons x q ih =>
    intro p hp hne
    cases p with
    | nil => simp at hp
    | cons y p =>
      rw [List.cons_prefix_cons] at hp
      simp only [strLt, Bool.or_eq_true, Bool.and_eq_true, decide_eq_true_eq]
      right
      refine ⟨hp.1, ih p hp.2 ?_⟩
      intro e; apply hne; rw [hp.1, e]

theorem not_prefix_of_strLt (p q : List Nat) (h : strLt p q = true) : ¬ q <+: p := by
  intro hp
  by_cases e : q = p
  · rw [e, strLt_irrefl] at h; exact absurd h (by simp)
  · have := prefix_strLt q p hp e
    rw [strLt_asymm p q h] at this
    exact absurd this (by simp)

/-- Insertion into a list sorted for a strict order keeps it sorted. -/
theorem orderedInsert_sorted {α : Type} (lt : α → α → Prop) [DecidableRel lt]
    (hasym : ∀ a b, lt a b → ¬ lt b a)
    (htr : ∀ a b c, ¬ lt b a → ¬ lt c b → ¬ lt c a) (a : α) : ∀ l : List α,
    l.Pairwise (fun x y => ¬ lt y x) →
      (l.orderedInsert lt a).Pairwise (fun x y => ¬ lt y x) := by
  intro l
  induction l with
  | nil => intro _; simp
  | cons b l ih =>
    intro h
    rw [List.pairwise_cons] at h
    rw [List.orderedInsert]
    split_ifs with hab
    · rw [List.pairwise_cons]
      refine ⟨?_, List.pairwise_cons.mpr h⟩
      intro x hx
      rcases List.mem_cons.mp hx with hx | hx
      · subst hx; exact hasym _ _ hab
      · exact htr a b x (hasym _ _ hab) (h.1 x hx)
    · rw [List.pairwise_cons]
      refine ⟨?_, ih h.2⟩
      intro x hx
      rw [(List.perm_orderedInsert lt a l).mem_iff] at hx
      rcases List.mem_cons.mp hx with hx | hx
      · subst hx; exact hab
      · exact h.1 x hx

theorem insertionSort_sorted {α : Type} (lt : α → α → Prop) [DecidableRel lt]
    (hasym : ∀ a b, lt a b → ¬ lt b a)
    (htr : ∀ a b c, ¬ lt b a → ¬ lt c b → ¬ lt c a) : ∀ l : List α,
    (l.insertionSort lt).Pairwise (fun x y => ¬ lt y x) := by
  intro l
  induction l with
  | nil => simp
  | cons a l ih =>
    rw [List.insertionSort]
    exact orderedInsert_sorted lt hasym htr a _ ih

theorem pisLt_asymm (a b : candidate) (h : pisLt a b) : ¬ pisLt b a := by
  unfold pisLt at h ⊢
  intro hc
  rcases h with h | ⟨h1, h2⟩
  · rcases hc with hc | ⟨hc1, _⟩
    · rw [strLt_asymm _ _ h] at hc; exact absurd hc (by simp)
    · rw [hc1, strLt_irrefl] at h; exact absurd h (by simp)
  · rcases hc with hc | ⟨_, hc2⟩
    · rw [h1, strLt_irrefl] at hc; exact absurd hc (by simp)
    · omega

theorem not_pisLt (a b : candidate) (h : ¬ pisLt b a) :
    strLt a.p b.p = true ∨ (a.p = b.p ∧ a.pi ≤ b.pi) := by
  unfold pisLt at h
  by_cases e : a.p = b.p
  · right
    refine ⟨e, ?_⟩
    by_contra hc
    exact h (Or.inr ⟨e.symm, by omega⟩)
  · rcases strLt_total a.p b.p e with h1 | h1
    · left; exact h1
    · exact absurd (Or.inl h1) h

theorem pisLt_trans (a b c : candidate) (h1 : ¬ pisLt b a) (h2 : ¬ pisLt c b) : ¬ pisLt c a := by
  have k1 := not_pisLt a b h1
  have k2 := not_pisLt b c h2
  unfold pisLt
  intro hc
  rcases k1 with k1 | ⟨k1, k1b⟩
  · rcases k2 with k2 | ⟨k2, _⟩
    · have hac := strLt_trans _ _ _ k1 k2
      rcases hc with hc | ⟨hc, _⟩
      · rw [strLt_asymm _ _ hac] at hc; exact absurd hc (by simp)
      · rw [hc, strLt_irrefl] at hac; exact absurd hac (by simp)
    · rw [k2] at k1
      rcases hc with hc | ⟨hc, _⟩
      · rw [strLt_asymm _ _ k1] at hc; exact absurd hc (by simp)
      · rw [hc, strLt_irrefl] at k1; exact absurd k1 (by simp)
  · rcases k2 with k2 | ⟨k2, k2b⟩
    · rw [← k1] at k2
      rcases hc with hc | ⟨hc, _⟩
      · rw [strLt_asymm _ _ k2] at hc; exact absurd hc (by simp)
      · rw [hc, strLt_irrefl] at k2; exact absurd k2 (by simp)
    · rcases hc with hc | ⟨_, hc2⟩
      · rw [k1, k2, strLt_irrefl] at hc; exact absurd hc (by simp)
      · omega

theorem sortPis_perm (cands : List candidate) : (sortPis cands).Perm cands :=
  List.perm_insertionSort _ _

/-- The sorted `pis` of candidates with distinct strings is in strictly
increasing lexicographic order of the strings. -/
theorem sortPis_sorted (cands : List candidate) (hnd : (cands.map (fun c => c.p)).Nodup) :
    (sortPis cands).Pairwise (fun x y => strLt x.p y.p = true) := by
  have h1 : (sortPis cands).Pairwise (fun x y => ¬ pisLt y x) :=
    insertionSort_sorted pisLt pisLt_asymm pisLt_trans cands
  have h2 : ((sortPis cands).map (fun c => c.p)).Nodup :=
    ((sortPis_perm cands).map _).nodup_iff.mpr hnd
  have h3 : (sortPis cands).Pairwise (fun x y => x.p ≠ y.p) := by
    unfold List.Nodup at h2
    rw [List.pairwise_map] at h2
    exact h2
  refine (h1.and h3).imp ?_
  intro x y h
  rcases not_pisLt x y h.1 with k | ⟨k, _⟩
  · exact k
  · exact absurd k h.2

theorem pruneStep_counter (fi2c : List Nat) (max_plen max_fi : Nat) (st : pruneState) (i : Nat)
    (c : candidate) :
    (pruneStep fi2c max_plen max_fi st i c).counter = st.counter ∨
      ∃ n, (pruneStep fi2c max_plen max_fi st i c).counter = st.counter ++ [(n, -(i : Int))] := by
  unfold pruneStep
  by_cases h : c.fi2sc = []
  · rw [if_pos h]; right; exact ⟨0, rfl⟩
  · rw [if_neg h]
    simp only
    split_ifs
    · left; rfl
    · right; exact ⟨_, rfl⟩

theorem pruneFrom_counter (fi2c : List Nat) (max_plen max_fi : Nat) :
    ∀ (l : List candidate) (i : Nat) (st : pruneState),
      ∃ extra, (pruneFrom fi2c max_plen max_fi l i st).counter = st.counter ++ extra ∧
        (∀ e ∈ extra, ∃ j, i ≤ j ∧ j < i + l.length ∧ e.2 = -(j : Int)) ∧
        extra.Pairwise (fun a b => b.2 < a.2) := by
  intro l
  induction l with
  | nil => intro i st; exact ⟨[], by simp [pruneFrom], by simp, by simp⟩
  | cons c l ih =>
    intro i st
    obtain ⟨extra, h1, h2, h3⟩ := ih (i + 1) (pruneStep fi2c max_plen max_fi st i c)
    unfold pruneFrom
    rcases pruneStep_counter fi2c max_plen max_fi st i c with hs | ⟨n, hs⟩
    · refine ⟨extra, by rw [h1, hs], ?_, h3⟩
      intro e he
      obtain ⟨j, a, b, d⟩ := h2 e he
      exact ⟨j, by omega, by simp; omega, d⟩
    · refine ⟨(n, -(i : Int)) :: extra, by rw [h1, hs]; simp, ?_, ?_⟩
      · intro e he
        rcases List.mem_cons.mp he with he | he
        · exact ⟨i, le_refl _, by simp, by rw [he]⟩
        · obtain ⟨j, a, b, d⟩ := h2 e he
          exact ⟨j, by omega, by simp; omega, d⟩
      · rw [List.pairwise_cons]
        refine ⟨?_, h3⟩
        intro e he
        obtain ⟨j, a, b, d⟩ := h2 e he
        rw [d]
        show -(j : Int) < -(i : Int)
        omega

theorem sortCounter_sorted (counter : List (Nat × Int)) :
    (sortCounter counter).Pairwise (fun x y => ¬ counterLt x y) := by
  unfold sortCounter
  refine insertionSort_sorted (fun a b => counterLt b a) ?_ ?_ counter
  · intro a b h; unfold counterLt at h ⊢; omega
  · intro a b c h1 h2; unfold counterLt at h1 h2 ⊢; omega

theorem sortCounter_perm (counter : List (Nat × Int)) : (sortCounter counter).Perm counter :=
  List.perm_insertionSort _ _

/-- C27. Trainer emission order: the lines are written in non-increasing order
of their count, and lines with equal count in lexicographic order of their
pattern string. -/
theorem emission_order (fi2c : List Nat) (max_plen max_fi : Nat) (cands : List candidate)
    (hnd : (cands.map (fun c => c.p)).Nodup) :
    (emitted fi2c max_plen max_fi cands).Pairwise
      (fun a b => a.1 > b.1 ∨ (a.1 = b.1 ∧ strLt a.2.1 b.2.1 = true)) := by
  unfold emitted
  rw [List.pairwise_map]
  have hs := sortCounter_sorted (prune fi2c max_plen max_fi cands).counter
  have hperm := sortCounter_perm (prune fi2c max_plen max_fi cands).counter
  obtain ⟨extra, h1, h2, h3⟩ := pruneFrom_counter fi2c max_plen max_fi (sortPis cands) 0
    { counter := [], pi2sf := [], patterns := [] }
  have hc : (prune fi2c max_plen max_fi cands).counter = extra := by
    unfold prune; rw [h1]; rfl
  rw [hc] at hs hperm ⊢
  have hmem : ∀ e ∈ sortCounter extra, ∃ j, j < (sortPis cands).length ∧ e.2 = -(j : Int) := by
    intro e he
    obtain ⟨j, _, b, d⟩ := h2 e (hperm.mem_iff.mp he)
    exact ⟨j, by omega, d⟩
  have hd0 : extra.Pairwise (fun a b => a.2 ≠ b.2) := h3.imp (fun h => by omega)
  have hdist : (sortCounter extra).Pairwise (fun a b => a.2 ≠ b.2) :=
    (hperm.pairwise_iff (fun h => Ne.symm h)).mpr hd0
  have hsorted := sortPis_sorted cands hnd
  rw [List.pairwise_iff_getElem] at hsorted
  refine (hs.and hdist).imp_of_mem ?_
  intro a b ha hb hab
  obtain ⟨ja, hja, ea⟩ := hmem a ha
  obtain ⟨jb, hjb, eb⟩ := hmem b hb
  have ta : (-a.2).toNat = ja := by rw [ea]; simp
  have tb : (-b.2).toNat = jb := by rw [eb]; simp
  have ga : (sortPis cands).get? ja = some ((sortPis cands)[ja]) := by
    rw [List.get?_eq_getElem?, List.getElem?_eq_getElem hja]
  have gb : (sortPis cands).get? jb = some ((sortPis cands)[jb]) := by
    rw [List.get?_eq_getElem?, List.getElem?_eq_getElem hjb]
  rw [ta, tb, ga, gb]
  simp only
  obtain ⟨hlt, hne⟩ := hab
  unfold counterLt at hlt
  by_cases hgt : a.1 > b.1
  · left; exact hgt
  · right
    have h1 : a.1 = b.1 := by omega
    refine ⟨h1, ?_⟩
    have h2 : ja < jb := by
      have : b.2 < a.2 := by
        rcases lt_trichotomy a.2 b.2 with h | h | h
        · exact absurd (Or.inr ⟨h1, h⟩) hlt
        · exact absurd h hne
        · exact h
      omega
    exact hsorted ja jb hja hjb h2

theorem emission_order_witness :
    (exCands.map (fun c => c.p)).Nodup ∧
      emitted [0, 3, 1] 4 1 exCands = [(2, [97], 2, 1), (1, [97, 99], 1, 2), (0, [98], 1, 5)] ∧
      (emitted [0, 3, 1] 4 1 exCands).Pairwise
        (fun a b => a.1 > b.1 ∨ (a.1 = b.1 ∧ strLt a.2.1 b.2.1 = true)) :=
  ⟨by decide, by decide, emission_order [0, 3, 1] 4 1 exCands (by decide)⟩

theorem pruneFrom_append (fi2c : List Nat) (max_plen max_fi : Nat) :
    ∀ (l1 l2 : List candidate) (i : Nat) (st : pruneState),
      pruneFrom fi2c max_plen max_fi (l1 ++ l2) i st =
        pruneFrom fi2c max_plen max_fi l2 (i + l1.length) (pruneFrom fi2c max_plen max_fi l1 i st) := by
  intro l1
  induction l1 with
  | nil => intro l2 i st; rfl
  | cons c l1 ih =>
    intro l2 i st
    show pruneFrom fi2c max_plen max_fi (l1 ++ l2) (i + 1) _ = _
    rw [ih]
    have : i + 1 + l1.length = i + (c :: l1).length := by simp; omega
    rw [this]
    rfl

theorem pruneStep_cases (fi2c : List Nat) (max_plen max_fi : Nat) (st : pruneState) (i : Nat)
    (c : candidate) :
    pruneStep fi2c max_plen max_fi st i c = st ∨
      ∃ b f n, pruneStep fi2c max_plen max_fi st i c = retain st i c b f n := by
  unfold pruneStep
  by_cases h : c.fi2sc = []
  · rw [if_pos h]; right; exact ⟨_, _, _, rfl⟩
  · rw [if_neg h]
    simp only
    split_ifs
    · left; rfl
    · right; exact ⟨_, _, _, rfl⟩

theorem pi2sfInsert_find (m : List (Nat × Nat × Nat)) (pi : Nat) (sf : Nat × Nat) (v : Nat)
    (h : (m.find? (fun e => e.1 == v)).isSome = true) :
    (pi2sfInsert m pi sf).find? (fun e => e.1 == v) = m.find? (fun e => e.1 == v) := by
  unfold pi2sfInsert
  split_ifs
  · rfl
  · rw [List.find?_append]
    cases hf : m.find? (fun e => e.1 == v) with
    | none => rw [hf] at h; exact absurd h (by simp)
    | some x => rfl

theorem pi2sfInsert_self (m : List (Nat × Nat × Nat)) (pi : Nat) (sf : Nat × Nat) :
    ((pi2sfInsert m pi sf).find? (fun e => e.1 == pi)).isSome = true := by
  unfold pi2sfInsert
  split_ifs with h
  · exact h
  · rw [List.find?_append]
    cases hf : m.find? (fun e => e.1 == pi) with
    | none => simp
    | some x => rfl

theorem mem_patternsUpdate (m : List (List Nat × Nat)) (key : List Nat) (value : Nat)
    (kv : List Nat × Nat) :
    kv ∈ patternsUpdate m key value ↔ (kv ∈ m ∧ kv.1 ≠ key) ∨ kv = (key, value) := by
  unfold patternsUpdate
  simp [List.mem_filter]

theorem pruneInv_step (fi2c : List Nat) (max_plen max_fi : Nat) (st : pruneState) (i : Nat)
    (c : candidate) (l : List candidate) (h : pruneInv st l) :
    pruneInv (pruneStep fi2c max_plen max_fi st i c) (l ++ [c]) := by
  rcases pruneStep_cases fi2c max_plen max_fi st i c with hs | ⟨b, f, n, hs⟩
  · rw [hs]
    refine ⟨?_, h.2⟩
    intro kv hkv
    obtain ⟨x, hx, e⟩ := h.1 kv hkv
    exact ⟨x, List.mem_append_left _ hx, e⟩
  · rw [hs]
    refine ⟨?_, ?_⟩
    · intro kv hkv
      rcases (mem_patternsUpdate _ _ _ _).mp hkv with ⟨hm, _⟩ | hm
      · obtain ⟨x, hx, e⟩ := h.1 kv hm
        exact ⟨x, List.mem_append_left _ hx, e⟩
      · exact ⟨c, by simp, hm⟩
    · intro kv hkv
      rcases (mem_patternsUpdate _ _ _ _).mp hkv with ⟨hm, _⟩ | hm
      · show ((pi2sfInsert st.pi2sf c.pi (b, f)).find? _).isSome = true
        rw [pi2sfInsert_find _ _ _ _ (h.2 kv hm)]
        exact h.2 kv hm
      · rw [hm]
        exact pi2sfInsert_self _ _ _

theorem pruneInv_from (fi2c : List Nat) (max_plen max_fi : Nat) :
    ∀ (l2 l1 : List candidate) (i : Nat) (st : pruneState), pruneInv st l1 →
      pruneInv (pruneFrom fi2c max_plen max_fi l2 i st) (l1 ++ l2) := by
  intro l2
  induction l2 with
  | nil => intro l1 i st h; simpa [pruneFrom] using h
  | cons c l2 ih =>
    intro l1 i st h
    have := ih (l1 ++ [c]) (i + 1) _ (pruneInv_step fi2c max_plen max_fi st i c l1 h)
    simpa [pruneFrom] using this

/-- What the rest of the loop keeps of a state: the entries of `patterns` whose
key is not among the strings that follow, the pairs of `pi2sf`; every new entry
of `patterns` has one of the strings that follow as its key. -/
theorem pruneFrom_stable (fi2c : List Nat) (max_plen max_fi : Nat) :
    ∀ (l : List candidate) (i : Nat) (st : pruneState),
      (∀ kv ∈ st.patterns, kv.1 ∉ l.map (fun c => c.p) →
        kv ∈ (pruneFrom fi2c max_plen max_fi l i st).patterns) ∧
      (∀ kv ∈ (pruneFrom fi2c max_plen max_fi l i st).patterns,
        kv ∈ st.patterns ∨ kv.1 ∈ l.map (fun c => c.p)) ∧
      (∀ v, (st.pi2sf.find? (fun e => e.1 == v)).isSome = true →
        (pruneFrom fi2c max_plen max_fi l i st).pi2sf.find? (fun e => e.1 == v) =
          st.pi2sf.find? (fun e => e.1 == v)) := by
  intro l
  induction l with
  | nil => intro i st; simp [pruneFrom]
  | cons c l ih =>
    intro i st
    obtain ⟨h1, h2, h3⟩ := ih (i + 1) (pruneStep fi2c max_plen max_fi st i c)
    unfold pruneFrom
    rcases pruneStep_cases fi2c max_plen max_fi st i c with hs | ⟨b, f, n, hs⟩
    · rw [hs] at h1 h2 h3 ⊢
      refine ⟨?_, ?_, h3⟩
      · intro kv hkv hn
        exact h1 kv hkv (fun hc => hn (by simp at hc ⊢; right; exact hc))
      · intro kv hkv
        rcases h2 kv hkv with h | h
        · left; exact h
        · right; simp at h ⊢; right; exact h
    · rw [hs] at h1 h2 h3 ⊢
      refine ⟨?_, ?_, ?_⟩
      · intro kv hkv hn
        have hne : kv.1 ≠ c.p := fun e => hn (by simp [e])
        refine h1 kv ((mem_patternsUpdate _ _ _ _).mpr (Or.inl ⟨hkv, hne⟩)) ?_
        intro hc; apply hn; simp at hc ⊢; right; exact hc
      · intro kv hkv
        rcases h2 kv hkv with h | h
        · rcases (mem_patternsUpdate _ _ _ _).mp h with ⟨hm, _⟩ | hm
          · left; exact hm
          · right; rw [hm]; simp
        · right; simp at h ⊢; right; exact h
      · intro v hv
        have e1 : (retain st i c b f n).pi2sf.find? (fun e => e.1 == v) =
            st.pi2sf.find? (fun e => e.1 == v) := pi2sfInsert_find _ _ _ _ hv
        rw [h3 v (by rw [e1]; exact hv), e1]

theorem getLast_filterMap_range {α : Type} (f : Nat → Option α) : ∀ (n : Nat) (v : α),
    ((List.range n).filterMap f).getLast? = some v ↔
      ∃ k, k < n ∧ f k = some v ∧ ∀ j, k < j → j < n → f j = none := by
  intro n
  induction n with
  | zero => intro v; simp
  | succ n ih =>
    intro v
    rw [List.range_succ, List.filterMap_append]
    cases hf : f n with
    | none =>
      have e : List.filterMap f [n] = [] := by simp [List.filterMap_cons, hf]
      rw [e, List.append_nil, ih]
      constructor
      · rintro ⟨k, hk, h1, h2⟩
        refine ⟨k, by omega, h1, ?_⟩
        intro j hj hjn
        by_cases e2 : j = n
        · rw [e2]; exact hf
        · exact h2 j hj (by omega)
      · rintro ⟨k, hk, h1, h2⟩
        have hkn : k ≠ n := by
          intro e2; rw [e2, hf] at h1; exact absurd h1 (by simp)
        exact ⟨k, by omega, h1, fun j hj hjn => h2 j hj (by omega)⟩
    | some w =>
      have e : List.filterMap f [n] = [w] := by simp [List.filterMap_cons, hf]
      rw [e, List.getLast?_append]
      have e3 : ([w] : List α).getLast? = some w := rfl
      rw [e3]
      have e4 : ∀ o : Option α, (some w).or o = some w := fun o => rfl
      rw [e4]
      constructor
      · intro h
        have hw : w = v := by injection h
        exact ⟨n, by omega, by rw [hf, hw], fun j hj hjn => by omega⟩
      · rintro ⟨k, hk, h1, h2⟩
        by_cases e2 : k = n
        · rw [e2, hf] at h1; exact h1
        · have := h2 n (by omega) (by omega)
          rw [hf] at this; exact absurd this (by simp)

theorem find_key_some (m : List (List Nat × Nat)) (s : List Nat) (kv : List Nat × Nat)
    (h : m.find? (fun e => e.1 == s) = some kv) : kv ∈ m ∧ kv.1 = s := by
  refine ⟨List.mem_of_find?_eq_some h, ?_⟩
  have := List.find?_some h
  simpa using this

theorem find_key_none (m : List (List Nat × Nat)) (s : List Nat)
    (h : m.find? (fun e => e.1 == s) = none) : ∀ kv ∈ m, kv.1 ≠ s := by
  intro kv hkv e
  have := List.find?_eq_none.mp h kv hkv
  simp [e] at this

/-- A key of `patterns` is found with its own value: no two candidates share a
string. -/
theorem find_key_mem (st : pruneState) (l : List candidate) (hinv : pruneInv st l)
    (hnd : (l.map (fun c => c.p)).Nodup) (kv : List Nat × Nat) (h : kv ∈ st.patterns) :
    st.patterns.find? (fun e => e.1 == kv.1) = some kv := by
  cases hf : st.patterns.find? (fun e => e.1 == kv.1) with
  | none => exact absurd rfl (find_key_none _ _ hf kv h)
  | some kv2 =>
    obtain ⟨h1, h2⟩ := find_key_some _ _ _ hf
    obtain ⟨x, hx, ex⟩ := hinv.1 kv h
    obtain ⟨y, hy, ey⟩ := hinv.1 kv2 h1
    have hp : y.p = x.p := by
      rw [ex, ey] at h2; exact h2
    have hxy : y = x := List.inj_on_of_nodup_map hnd hy hx hp
    rw [ey, ex, hxy]

/-- The state in which a candidate is processed and the final state, for a
candidate at a given place of the sorted `pis`: the entries of `patterns` whose
key is a proper prefix of the candidate are the same in both, with the same
pairs in `pi2sf`, and the candidate is a key of the final state exactly when its
step kept it. -/
theorem prune_at (fi2c : List Nat) (max_plen max_fi : Nat) (pre post : List candidate)
    (c : candidate)
    (hs : (pre ++ c :: post).Pairwise (fun x y => strLt x.p y.p = true)) :
    pruneInv (pruneFrom fi2c max_plen max_fi pre 0 ⟨[], [], []⟩) pre ∧
      (∀ kv ∈ (pruneFrom fi2c max_plen max_fi pre 0 ⟨[], [], []⟩).patterns, kv.1 ≠ c.p) ∧
      (∀ kv : List Nat × Nat, kv.1 <+: c.p → kv.1 ≠ c.p →
        (kv ∈ (pruneFrom fi2c max_plen max_fi (pre ++ c :: post) 0 ⟨[], [], []⟩).patterns ↔
          kv ∈ (pruneFrom fi2c max_plen max_fi pre 0 ⟨[], [], []⟩).patterns)) ∧
      (∀ kv ∈ (pruneFrom fi2c max_plen max_fi pre 0 ⟨[], [], []⟩).patterns,
        pi2sfAt (pruneFrom fi2c max_plen max_fi (pre ++ c :: post) 0 ⟨[], [], []⟩).pi2sf kv.2 =
          pi2sfAt (pruneFrom fi2c max_plen max_fi pre 0 ⟨[], [], []⟩).pi2sf kv.2) ∧
      ((∃ v, (c.p, v) ∈ (pruneFrom fi2c max_plen max_fi (pre ++ c :: post) 0 ⟨[], [], []⟩).patterns) ↔
        pruneStep fi2c max_plen max_fi (pruneFrom fi2c max_plen max_fi pre 0 ⟨[], [], []⟩)
            pre.length c ≠
          pruneFrom fi2c max_plen max_fi pre 0 ⟨[], [], []⟩ ∨
        ∃ v, (c.p, v) ∈ (pruneFrom fi2c max_plen max_fi pre 0 ⟨[], [], []⟩).patterns) := by
  have hinv0 : pruneInv ⟨[], [], []⟩ [] := ⟨by simp, by simp⟩
  have hinv : pruneInv (pruneFrom fi2c max_plen max_fi pre 0 ⟨[], [], []⟩) pre := by
    have := pruneInv_from fi2c max_plen max_fi pre [] 0 _ hinv0
    simpa using this
  generalize hst : pruneFrom fi2c max_plen max_fi pre 0 ⟨[], [], []⟩ = st at hinv ⊢
  have hfin : pruneFrom fi2c max_plen max_fi (pre ++ c :: post) 0 ⟨[], [], []⟩ =
      pruneFrom fi2c max_plen max_fi post (0 + pre.length + 1)
        (pruneStep fi2c max_plen max_fi st (0 + pre.length) c) := by
    rw [pruneFrom_append, hst]; rfl
  rw [hfin]
  have hz : 0 + pre.length = pre.length := by omega
  rw [hz]
  obtain ⟨k1, k2, k3⟩ := pruneFrom_stable fi2c max_plen max_fi post (pre.length + 1)
    (pruneStep fi2c max_plen max_fi st pre.length c)
  rw [List.pairwise_append] at hs
  obtain ⟨_, hs2, hs3⟩ := hs
  rw [List.pairwise_cons] at hs2
  have hpost : ∀ y ∈ post, strLt c.p y.p = true := hs2.1
  have hpre : ∀ x ∈ pre, strLt x.p c.p = true := fun x hx => hs3 x hx c (List.mem_cons_self _ _)
  have hF1 : ∀ kv ∈ st.patterns, kv.1 ≠ c.p := by
    intro kv hkv e
    obtain ⟨x, hx, ex⟩ := hinv.1 kv hkv
    have := hpre x hx
    rw [ex] at e
    have e2 : x.p = c.p := e
    rw [e2, strLt_irrefl] at this
    exact absurd this (by simp)
  have hnp : ∀ s : List Nat, s <+: c.p → s ∉ post.map (fun c => c.p) := by
    intro s hsp hm
    obtain ⟨y, hy, ey⟩ := List.mem_map.mp hm
    have := not_prefix_of_strLt c.p y.p (hpost y hy)
    rw [ey] at this
    exact this hsp
  have hstep : ∀ kv : List Nat × Nat, kv.1 ≠ c.p →
      (kv ∈ (pruneStep fi2c max_plen max_fi st pre.length c).patterns ↔ kv ∈ st.patterns) := by
    intro kv hne
    rcases pruneStep_cases fi2c max_plen max_fi st pre.length c with h | ⟨b, f, n, h⟩
    · rw [h]
    · rw [h]
      show kv ∈ patternsUpdate st.patterns c.p c.pi ↔ _
      rw [mem_patternsUpdate]
      constructor
      · rintro (⟨h1, _⟩ | h1)
        · exact h1
        · rw [h1] at hne; exact absurd rfl hne
      · intro h1; exact Or.inl ⟨h1, hne⟩
  refine ⟨hinv, hF1, ?_, ?_, ?_⟩
  · intro kv hp hne
    constructor
    · intro h
      rcases k2 kv h with h1 | h1
      · exact (hstep kv hne).mp h1
      · exact absurd h1 (hnp kv.1 hp)
    · intro h
      exact k1 kv ((hstep kv hne).mpr h) (hnp kv.1 hp)
  · intro kv hkv
    have hsome := hinv.2 kv hkv
    have e1 : (pruneStep fi2c max_plen max_fi st pre.length c).pi2sf.find? (fun e => e.1 == kv.2) =
        st.pi2sf.find? (fun e => e.1 == kv.2) := by
      rcases pruneStep_cases fi2c max_plen max_fi st pre.length c with h | ⟨b, f, n, h⟩
      · rw [h]
      · rw [h]; exact pi2sfInsert_find _ _ _ _ hsome
    unfold pi2sfAt
    rw [k3 kv.2 (by rw [e1]; exact hsome), e1]
  · constructor
    · rintro ⟨v, hv⟩
      by_cases hc : pruneStep fi2c max_plen max_fi st pre.length c = st
      · right
        rcases k2 _ hv with h1 | h1
        · rw [hc] at h1; exact ⟨v, h1⟩
        · exact absurd h1 (hnp c.p (List.prefix_refl _))
      · left; exact hc
    · rintro (h | ⟨v, hv⟩)
      · rcases pruneStep_cases fi2c max_plen max_fi st pre.length c with h1 | ⟨b, f, n, h1⟩
        · exact absurd h1 h
        · refine ⟨c.pi, k1 _ ?_ (hnp c.p (List.prefix_refl _))⟩
          rw [h1]
          show (c.p, c.pi) ∈ patternsUpdate st.patterns c.p c.pi
          rw [mem_patternsUpdate]
          right; rfl
      · exact absurd rfl (hF1 _ hv)

/-- The test of the pruning loop in terms of the final state: it holds exactly
when the longest key of the final `patterns` that is a proper prefix of the
candidate has the pair `(bytes, fi)` in the final `pi2sf`. -/
theorem dropTest_iff (fi2c : List Nat) (max_plen max_fi : Nat) (pre post : List candidate)
    (c : candidate) (b f : Nat)
    (hs : (pre ++ c :: post).Pairwise (fun x y => strLt x.p y.p = true))
    (hnd : (pre.map (fun c => c.p)).Nodup) (hne : ∀ x ∈ pre, x.p ≠ []) :
    dropTest (pruneFrom fi2c max_plen max_fi pre 0 ⟨[], [], []⟩) c.p b f = true ↔
      ∃ q ∈ pre,
        (q.p, q.pi) ∈ (pruneFrom fi2c max_plen max_fi (pre ++ c :: post) 0 ⟨[], [], []⟩).patterns ∧
        q.p <+: c.p ∧ q.p ≠ c.p ∧
        (∀ kv ∈ (pruneFrom fi2c max_plen max_fi (pre ++ c :: post) 0 ⟨[], [], []⟩).patterns,
          kv.1 <+: c.p → kv.1 ≠ c.p → kv.1.length ≤ q.p.length) ∧
        pi2sfAt (pruneFrom fi2c max_plen max_fi (pre ++ c :: post) 0 ⟨[], [], []⟩).pi2sf q.pi =
          (b, f) := by
  obtain ⟨hinv, hF1, hM, hP, _⟩ := prune_at fi2c max_plen max_fi pre post c hs
  generalize pruneFrom fi2c max_plen max_fi pre 0 ⟨[], [], []⟩ = st at hinv hF1 hM hP ⊢
  generalize pruneFrom fi2c max_plen max_fi (pre ++ c :: post) 0 ⟨[], [], []⟩ = fin at hM hP ⊢
  have htake : ∀ s : List Nat, s <+: c.p → s = c.p.take s.length := fun s h =>
    List.prefix_iff_eq_take.mp h
  constructor
  · intro hD
    unfold dropTest commonPrefixSearch at hD
    cases hgl : ((List.range c.p.length).filterMap (fun k =>
        (st.patterns.find? (fun kv => kv.1 == c.p.take (k + 1))).map (fun kv => kv.2))).getLast? with
    | none => rw [hgl] at hD; exact absurd hD (by simp)
    | some v =>
      rw [hgl] at hD
      have hpair : (b, f) = pi2sfAt st.pi2sf v := by simpa using hD
      obtain ⟨k, hk, hg, hlater⟩ := (getLast_filterMap_range _ _ _).mp hgl
      obtain ⟨kv, hfind, hv⟩ := Option.map_eq_some'.mp hg
      obtain ⟨hmem, hkey⟩ := find_key_some _ _ _ hfind
      obtain ⟨x, hx, ex⟩ := hinv.1 kv hmem
      have hxp : x.p = c.p.take (k + 1) := by rw [← hkey, ex]
      have hxpi : x.pi = v := by rw [← hv, ex]
      have hpre : kv.1 <+: c.p := by rw [hkey]; exact List.take_prefix _ _
      have hlen : x.p.length = k + 1 := by rw [hxp, List.length_take]; omega
      refine ⟨x, hx, ?_, ?_, ?_, ?_, ?_⟩
      · have := (hM kv hpre (hF1 kv hmem)).mpr hmem
        rw [ex] at this; exact this
      · have := hpre; rw [ex] at this; exact this
      · have := hF1 kv hmem; rw [ex] at this; exact this
      · intro kv2 hkv2 hp2 hn2
        have hm2 := (hM kv2 hp2 hn2).mp hkv2
        by_contra hcon
        have hl2 : kv2.1.length ≤ c.p.length := hp2.length_le
        have hj := hlater (kv2.1.length - 1) (by omega) (by omega)
        have hj2 : st.patterns.find? (fun e => e.1 == c.p.take (kv2.1.length - 1 + 1)) = none := by
          cases hh : st.patterns.find? (fun e => e.1 == c.p.take (kv2.1.length - 1 + 1)) with
          | none => rfl
          | some y => rw [hh] at hj; exact absurd hj (by simp)
        have hidx : kv2.1.length - 1 + 1 = kv2.1.length := by omega
        rw [hidx] at hj2
        exact find_key_none _ _ hj2 kv2 hm2 (htake kv2.1 hp2)
      · have := hP kv hmem
        rw [hv] at this
        rw [hxpi, this, ← hpair]
  · rintro ⟨q, hq, hqf, hqp, hqn, hmax, hpair⟩
    have hqs : (q.p, q.pi) ∈ st.patterns := (hM (q.p, q.pi) hqp hqn).mp hqf
    have hq0 : q.p ≠ [] := hne q hq
    have hqlen : 0 < q.p.length := List.length_pos.mpr hq0
    have hql : q.p.length ≤ c.p.length := hqp.length_le
    have hfind := find_key_mem st pre hinv hnd (q.p, q.pi) hqs
    have hgl : ((List.range c.p.length).filterMap (fun k =>
        (st.patterns.find? (fun kv => kv.1 == c.p.take (k + 1))).map (fun kv => kv.2))).getLast? =
          some q.pi := by
      rw [getLast_filterMap_range]
      refine ⟨q.p.length - 1, by omega, ?_, ?_⟩
      · have hidx : q.p.length - 1 + 1 = q.p.length := by omega
        rw [hidx, ← htake q.p hqp]
        have hfind2 : st.patterns.find? (fun e => e.1 == q.p) = some (q.p, q.pi) := hfind
        rw [hfind2]; rfl
      · intro j hj hjl
        cases hh : st.patterns.find? (fun e => e.1 == c.p.take (j + 1)) with
        | none => rfl
        | some y =>
          exfalso
          obtain ⟨hy1, hy2⟩ := find_key_some _ _ _ hh
          have hyp : y.1 <+: c.p := by rw [hy2]; exact List.take_prefix _ _
          have hyf := (hM y hyp (hF1 y hy1)).mpr hy1
          have := hmax y hyf hyp (hF1 y hy1)
          rw [hy2, List.length_take] at this
          omega
    unfold dropTest commonPrefixSearch
    rw [hgl]
    have := hP (q.p, q.pi) hqs
    simp only at this
    show decide ((b, f) = pi2sfAt st.pi2sf q.pi) = true
    rw [← this, hpair]
    simp

theorem retain_ne (st : pruneState) (i : Nat) (c : candidate) (b f n : Nat) :
    retain st i c b f n ≠ st := by
  intro h
  have h2 : (retain st i c b f n).counter.length = st.counter.length := by rw [h]
  simp [retain] at h2

/-- C26. Trainer pruning drop rule: with the candidates processed in
lexicographic order, a pattern not seen in the corpus is always a key of the
final trie `patterns`, and a pattern seen in the corpus is dropped (is no key of
the final `patterns`) if and only if the pair `(bytes, fi)` selected for it is
the pair recorded in `pi2sf` for its longest retained proper prefix; no count
enters the test. -/
theorem drop_rule (fi2c : List Nat) (max_plen max_fi : Nat) (cands : List candidate)
    (hnd : (cands.map (fun c => c.p)).Nodup) (hne : ∀ x ∈ cands, x.p ≠ [])
    (c : candidate) (hc : c ∈ cands) :
    (c.fi2sc = [] → ∃ v, (c.p, v) ∈ (prune fi2c max_plen max_fi cands).patterns) ∧
      (c.fi2sc ≠ [] →
        ((¬ ∃ v, (c.p, v) ∈ (prune fi2c max_plen max_fi cands).patterns) ↔
          ∃ q ∈ cands, (q.p, q.pi) ∈ (prune fi2c max_plen max_fi cands).patterns ∧
            q.p <+: c.p ∧ q.p ≠ c.p ∧
            (∀ kv ∈ (prune fi2c max_plen max_fi cands).patterns,
              kv.1 <+: c.p → kv.1 ≠ c.p → kv.1.length ≤ q.p.length) ∧
            pi2sfAt (prune fi2c max_plen max_fi cands).pi2sf q.pi =
              (selectBytes c.fi2sc max_plen c.p.length,
                selectFeature c.fi2sc (selectBytes c.fi2sc max_plen c.p.length) max_fi))) := by
  have hperm := sortPis_perm cands
  have hsorted := sortPis_sorted cands hnd
  have hcs : c ∈ sortPis cands := hperm.mem_iff.mpr hc
  obtain ⟨pre, post, hsplit⟩ := List.append_of_mem hcs
  have hsub : ∀ x ∈ pre, x ∈ cands := by
    intro x hx
    apply hperm.mem_iff.mp
    rw [hsplit]
    exact List.mem_append_left _ hx
  have hnd2 : ((sortPis cands).map (fun c => c.p)).Nodup := (hperm.map _).nodup_iff.mpr hnd
  rw [hsplit] at hsorted hnd2
  have hndpre : (pre.map (fun c => c.p)).Nodup := by
    rw [List.map_append] at hnd2
    exact hnd2.of_append_left
  have hnepre : ∀ x ∈ pre, x.p ≠ [] := fun x hx => hne x (hsub x hx)
  have hD := dropTest_iff fi2c max_plen max_fi pre post c
  obtain ⟨hinv, hF1, hM, _, hK⟩ := prune_at fi2c max_plen max_fi pre post c hsorted
  unfold prune
  rw [hsplit]
  have hno : ¬ ∃ v, (c.p, v) ∈ (pruneFrom fi2c max_plen max_fi pre 0 ⟨[], [], []⟩).patterns := by
    rintro ⟨v, hv⟩
    exact hF1 _ hv rfl
  constructor
  · intro hun
    rw [hK]
    left
    unfold pruneStep
    rw [if_pos hun]
    exact retain_ne _ _ _ _ _ _
  · intro hseen
    have hstep : (¬ ∃ v, (c.p, v) ∈
        (pruneFrom fi2c max_plen max_fi (pre ++ c :: post) 0 ⟨[], [], []⟩).patterns) ↔
        dropTest (pruneFrom fi2c max_plen max_fi pre 0 ⟨[], [], []⟩) c.p
          (selectBytes c.fi2sc max_plen c.p.length)
          (selectFeature c.fi2sc (selectBytes c.fi2sc max_plen c.p.length) max_fi) = true := by
      rw [hK]
      unfold pruneStep
      rw [if_neg hseen]
      simp only
      by_cases hd : dropTest (pruneFrom fi2c max_plen max_fi pre 0 ⟨[], [], []⟩) c.p
          (selectBytes c.fi2sc max_plen c.p.length)
          (selectFeature c.fi2sc (selectBytes c.fi2sc max_plen c.p.length) max_fi) = true
      · rw [if_pos hd]
        constructor
        · intro _; exact hd
        · intro _ h
          rcases h with h | h
          · exact h rfl
          · exact hno h
      · rw [if_neg hd]
        constructor
        · intro h
          exact absurd (Or.inl (retain_ne _ _ _ _ _ _)) h
        · intro h; exact absurd h hd
    rw [hstep, hD _ _ hsorted hndpre hnepre]
    constructor
    · rintro ⟨q, hq, h⟩
      exact ⟨q, hsub q hq, h⟩
    · rintro ⟨q, hq, h1, h2, h3, h4⟩
      have hqs := (hM (q.p, q.pi) h2 h3).mp h1
      obtain ⟨x, hx, ex⟩ := hinv.1 _ hqs
      have hp : q.p = x.p := by
        have := congrArg Prod.fst ex
        exact this
      have hxq : q = x := List.inj_on_of_nodup_map hnd hq (hsub x hx) hp
      subst hxq
      exact ⟨q, hx, h1, h2, h3, h4⟩

theorem drop_rule_witness :
    (exCands.map (fun c => c.p)).Nodup ∧ (∀ x ∈ exCands, x.p ≠ []) ∧
      ¬ ∃ v, (([97, 98] : List Nat), v) ∈ (prune [0, 3, 1] 4 1 exCands).patterns :=
  ⟨by decide, by decide,
    ((drop_rule [0, 3, 1] 4 1 exCands (by decide) (by decide)
      ⟨[97, 98], 0, [(1, 2, 3)], []⟩ (by decide)).2 (by decide)).mpr
      ⟨⟨[97], 1, [(1, 2, 2)], []⟩, by decide, by decide, by decide, by decide, by decide,
        by decide⟩⟩

/-! ## The seeds of the trainer -/

theorem skip_to_first : ∀ (s rest : List Nat) (c : Nat), c ∉ s →
    skip_to (s ++ c :: rest) 1 c = s.length + 1 := by
  intro s
  induction s with
  | nil => intro rest c _; cases rest <;> simp [skip_to]
  | cons x s ih =>
    intro rest c h
    have hx : x ≠ c := fun e => h (by simp [e])
    have hs : c ∉ s := fun e => h (by simp [e])
    show skip_to (x :: (s ++ c :: rest)) 1 c = _
    unfold skip_to
    rw [if_neg (by decide), if_neg hx, ih rest c hs]
    simp; omega

theorem scanQuote_first : ∀ (s rest : List Nat), 34 ∉ s →
    scanQuote (s ++ 34 :: rest) = s.length := by
  intro s
  induction s with
  | nil => intro rest _; simp [scanQuote]
  | cons x s ih =>
    intro rest h
    have hx : x ≠ 34 := fun e => h (by simp [e])
    have hs : 34 ∉ s := fun e => h (by simp [e])
    show scanQuote (x :: (s ++ 34 :: rest)) = _
    unfold scanQuote
    rw [if_neg hx, ih rest hs]
    simp; omega

theorem seedMaxPlen_fold : ∀ (rows : List (List Nat)) (m : Nat),
    m ≤ rows.foldl (fun m row => max (seedLen row) m) m ∧
      (∀ r ∈ rows, seedLen r ≤ rows.foldl (fun m row => max (seedLen row) m) m) ∧
      (rows.foldl (fun m row => max (seedLen row) m) m = m ∨
        ∃ r ∈ rows, seedLen r = rows.foldl (fun m row => max (seedLen row) m) m) := by
  intro rows
  induction rows with
  | nil => intro m; simp
  | cons r rows ih =>
    intro m
    obtain ⟨h1, h2, h3⟩ := ih (max (seedLen r) m)
    rw [List.foldl_cons]
    refine ⟨by omega, ?_, ?_⟩
    · intro x hx
      rcases List.mem_cons.mp hx with e | e
      · rw [e]; omega
      · exact h2 x e
    · rcases h3 with h | ⟨x, hx, e⟩
      · by_cases hm : seedLen r ≤ m
        · left; rw [h]; omega
        · right
          exact ⟨r, List.mem_cons_self _ _, by rw [h]; omega⟩
      · right
        exact ⟨x, List.mem_cons_of_mem _ hx, e⟩

/-- C30 (amended). Dictionary surface parsing in the trainer: for a row whose
first field is not empty and does not start with a double quote, the interned
seed is the first field; for a row that starts with a double quote, followed
by a text without double quote, a double quote and a comma, the seed is that
text, commas included and quotes excluded; `max_plen` is the greatest byte
length of the seeds. -/
theorem seed_surface (s rest : List Nat) (rows : List (List Nat)) :
    (s ≠ [] → s.head? ≠ some 34 → 44 ∉ s →
      seedSurface (s ++ 44 :: rest) = s ∧ seedLen (s ++ 44 :: rest) = s.length ∧
        firstField (s ++ 44 :: rest) = s) ∧
    (34 ∉ s →
      seedSurface (34 :: (s ++ 34 :: 44 :: rest)) = s ∧
        seedLen (34 :: (s ++ 34 :: 44 :: rest)) = s.length) ∧
    (∀ r ∈ rows, seedLen r ≤ seedMaxPlen rows) ∧
    (rows ≠ [] → ∃ r ∈ rows, seedLen r = seedMaxPlen rows) := by
  refine ⟨?_, ?_, ?_, ?_⟩
  · intro hne hq hc
    obtain ⟨x, t, hx⟩ := List.exists_cons_of_ne_nil hne
    subst hx
    have hx34 : x ≠ 34 := by
      intro e; apply hq; rw [e]; rfl
    have hx44 : x ≠ 44 := fun e => hc (by simp [e])
    have ht : 44 ∉ t := fun e => hc (by simp [e])
    have hquoted : seedQuoted (x :: t ++ 44 :: rest) = false := by
      simp [seedQuoted, hx34]
    have hend : seedEnd (x :: t ++ 44 :: rest) = t.length + 2 := by
      unfold seedEnd
      rw [hquoted]
      simp only [Bool.false_eq_true, if_false]
      show 1 + skip_to (t ++ 44 :: rest) 1 44 = _
      rw [skip_to_first t rest 44 ht]; omega
    have hlen : seedLen (x :: t ++ 44 :: rest) = (x :: t).length := by
      unfold seedLen
      rw [hend, hquoted]; simp
    refine ⟨?_, hlen, ?_⟩
    · unfold seedSurface
      rw [hlen, hquoted]
      unfold substr
      simp
    · unfold firstField
      rw [List.takeWhile_append_of_pos]
      · simp
      · intro y hy
        have : y ≠ 44 := fun e => hc (by rw [← e]; exact hy)
        simpa using this
  · intro hq
    have hquoted : seedQuoted (34 :: (s ++ 34 :: 44 :: rest)) = true := by
      simp [seedQuoted]
    have hend : seedEnd (34 :: (s ++ 34 :: 44 :: rest)) = s.length + 3 := by
      unfold seedEnd
      rw [hquoted]
      simp only [if_true]
      have e1 : (34 :: (s ++ 34 :: 44 :: rest)).drop 1 = s ++ 34 :: 44 :: rest := rfl
      rw [e1, scanQuote_first s _ hq]
      have e2 : (34 :: (s ++ 34 :: 44 :: rest)).drop (1 + s.length) = 34 :: 44 :: rest := by
        have : 1 + s.length = s.length + 1 := by omega
        rw [this]
        show (s ++ 34 :: 44 :: rest).drop s.length = _
        simp
      rw [e2]
      have e3 : skip_to (34 :: 44 :: rest) 1 44 = 2 := by
        have := skip_to_first [34] rest 44 (by decide)
        simpa using this
      rw [e3]; omega
    have hlen : seedLen (34 :: (s ++ 34 :: 44 :: rest)) = s.length := by
      unfold seedLen
      rw [hend, hquoted]; simp
    refine ⟨?_, hlen⟩
    unfold seedSurface
    rw [hlen, hquoted]
    unfold substr
    simp
  · exact (seedMaxPlen_fold rows 0).2.1
  · intro hne
    rcases (seedMaxPlen_fold rows 0).2.2 with h | h
    · obtain ⟨r, t, hr⟩ := List.exists_cons_of_ne_nil hne
      refine ⟨r, by rw [hr]; exact List.mem_cons_self _ _, ?_⟩
      have h2 := (seedMaxPlen_fold rows 0).2.1 r (by rw [hr]; exact List.mem_cons_self _ _)
      unfold seedMaxPlen
      rw [h] at h2 ⊢
      omega
    · exact h

theorem seed_surface_witness :
    seedSurface ([97, 98] ++ 44 :: [49, 10]) = [97, 98] ∧
      seedSurface (34 :: ([97, 44, 98] ++ 34 :: 44 :: [49, 10])) = [97, 44, 98] :=
  ⟨((seed_surface [97, 98] [49, 10] []).1 (by decide) (by decide) (by decide)).1,
    ((seed_surface [97, 44, 98] [49, 10] []).2.1 (by decide)).1⟩

/-- C30, counterexample. For the row `,1,2` the first field is empty but the
seed is `,1`; for the row `"a"b,c` the text between the quotes is `a` but the
seed is `a"`. -/
theorem seed_not_first_field :
    firstField [44, 49, 44, 50, 10] = [] ∧ seedSurface [44, 49, 44, 50, 10] = [44, 49] ∧
      seedSurface [34, 97, 34, 98, 44, 99, 10] = [97, 34] := by
  decide

/-! ## The line splitter -/

theorem pushLine_inv (bound : Nat) (acc : List LineInfo) (prev i : Nat) (hi : i < bound)
    (h : ∀ l ∈ acc, 0 < l.len ∧ l.pos + l.len < bound) :
    ∀ l ∈ pushLine acc prev i, 0 < l.len ∧ l.pos + l.len < bound := by
  unfold pushLine
  split_ifs with hp
  · intro l hl
    rcases List.mem_append.mp hl with hl | hl
    · exact h l hl
    · have e : l = ⟨prev, i - prev⟩ := by simpa using hl
      rw [e]
      refine ⟨hp, ?_⟩
      show prev + (i - prev) < bound
      omega
  · exact h

theorem chunkLoop_inv (buffer : List Nat) (end_idx bound : Nat) :
    ∀ (n i : Nat) (st : Bool × Nat × List LineInfo), i + n ≤ bound →
      (∀ l ∈ st.2.2, 0 < l.len ∧ l.pos + l.len < bound) →
      ∀ l ∈ (chunkLoop buffer end_idx n i st).2.2, 0 < l.len ∧ l.pos + l.len < bound := by
  intro n
  induction n with
  | zero => intro i st _ h; exact h
  | succ n ih =>
    intro i st hb h
    obtain ⟨nlf, prev, acc⟩ := st
    unfold chunkLoop
    split_ifs
    · exact ih (i + 1) _ (by omega) h
    · exact ih (i + 1) _ (by omega) (pushLine_inv bound acc prev i (by omega) h)
    · exact ih (i + 1) _ (by omega) h

theorem tailScan_inv (buffer : List Nat) (buffer_length prev bound : Nat) :
    ∀ (n i : Nat) (acc : List LineInfo), i + n ≤ bound →
      (∀ l ∈ acc, 0 < l.len ∧ l.pos + l.len < bound) →
      ∀ l ∈ tailScan buffer buffer_length prev n i acc, 0 < l.len ∧ l.pos + l.len < bound := by
  intro n
  induction n with
  | zero => intro i acc _ h; exact h
  | succ n ih =>
    intro i acc hb h
    unfold tailScan
    split_ifs
    · exact pushLine_inv bound acc prev i (by omega) h
    · exact ih (i + 1) acc (by omega) h

theorem chunkEnd_le (L n c t : Nat) : chunkEnd L n c t ≤ L - 1 := by
  unfold chunkEnd
  split_ifs
  · exact le_refl _
  · exact Nat.min_le_right _ _

/-- Every line of a worker is non-empty and ends inside the source. -/
theorem worker_inv (buffer : List Nat) (num_threads chunk_size t : Nat) (hL : 1 ≤ buffer.length) :
    ∀ l ∈ worker buffer num_threads chunk_size t, 0 < l.len ∧ l.pos + l.len < buffer.length := by
  unfold worker
  simp only
  have he := chunkEnd_le buffer.length num_threads chunk_size t
  have h1 : ∀ l ∈ (chunkLoop buffer (chunkEnd buffer.length num_threads chunk_size t)
      (chunkEnd buffer.length num_threads chunk_size t - t * chunk_size) (t * chunk_size)
      (decide (t = 0) || is_line_ending buffer (t * chunk_size - 1)
        (chunkEnd buffer.length num_threads chunk_size t), t * chunk_size, [])).2.2,
      0 < l.len ∧ l.pos + l.len < buffer.length := by
    by_cases hle : t * chunk_size ≤ chunkEnd buffer.length num_threads chunk_size t
    · exact chunkLoop_inv buffer _ buffer.length _ _ _ (by omega) (by simp)
    · have hz : chunkEnd buffer.length num_threads chunk_size t - t * chunk_size = 0 := by omega
      rw [hz]
      simp [chunkLoop]
  split_ifs
  · exact tailScan_inv buffer _ _ buffer.length _ _ _ (by omega) h1
  · exact h1

theorem batchLines_inv (src : List Nat) (req hw : Nat) (r : List LineInfo)
    (h : batchLines src req hw = some r) :
    ∀ l ∈ r, 0 < l.len ∧ l.pos + l.len < src.length := by
  unfold batchLines split_lines at h
  by_cases h1 : src.length ≤ 1
  · rw [if_pos h1] at h; exact absurd h (by simp)
  · rw [if_neg h1] at h
    intro l hl
    by_cases h2 : src.length < requested req hw
    · rw [if_pos h2] at h
      have e : r = worker src 1 src.length 0 := by
        simp at h; exact h.symm
      rw [e] at hl
      exact worker_inv src _ _ _ (by omega) l hl
    · rw [if_neg h2] at h
      have e : r = ((List.range (requested req hw)).map
          (worker src (requested req hw) (src.length / requested req hw))).flatten := by
        simp at h; exact h.symm
      rw [e] at hl
      obtain ⟨w, hw1, hw2⟩ := List.mem_flatten.mp hl
      obtain ⟨t, _, ht⟩ := List.mem_map.mp hw1
      rw [← ht] at hw2
      exact worker_inv src _ _ _ (by omega) l hw2

/-- C32. `tokenize_line` is never called with an empty line: every line that
`tokenize_batch` takes from `split_lines` has a positive length and lies inside
the source, so that `line[len - 1]` is a byte of the line, and `tokenize`
returns the empty list for the empty string without calling `tokenize_line`
(whatever the fuel of the model). -/
theorem tokenize_line_never_empty (src : List Nat) (req hw : Nat) (r : List LineInfo)
    (h : batchLines src req hw = some r) (fuel : Nat) (t : tagger) :
    (∀ l ∈ r, 0 < l.len ∧ l.pos + l.len ≤ src.length ∧ (lineBytes src l).length = l.len) ∧
      tokenize fuel t [] = some [] := by
  refine ⟨?_, rfl⟩
  intro l hl
  obtain ⟨h1, h2⟩ := batchLines_inv src req hw r h l hl
  refine ⟨h1, by omega, ?_⟩
  unfold lineBytes substr
  rw [List.length_take, List.length_drop]
  omega

theorem tokenize_line_never_empty_witness :
    batchLines [97, 10, 98, 98, 10, 10, 99, 10] 3 0 = some [⟨0, 1⟩, ⟨2, 2⟩, ⟨6, 1⟩] ∧
      ∀ l ∈ [(⟨0, 1⟩ : LineInfo), ⟨2, 2⟩, ⟨6, 1⟩], 0 < l.len ∧ l.pos + l.len ≤ 8 ∧
        (lineBytes [97, 10, 98, 98, 10, 10, 99, 10] l).length = l.len :=
  ⟨by decide,
    (tokenize_line_never_empty [97, 10, 98, 98, 10, 10, 99, 10] 3 0 _ (by decide) 0 unitModel).1⟩

/-- C23. The last line of a source is lost when it has no trailing newline: for
`"abc"` and one worker `split_lines` returns no line, while the text has the
non-empty line `"abc"`; for `"a\nb"` it returns the line `"a"` only. -/
theorem last_line_dropped :
    batchLines [97, 98, 99] 1 0 = some [] ∧ nonEmptyLines [97, 98, 99] = [⟨0, 3⟩] ∧
      batchLines [97, 10, 98] 1 0 = some [⟨0, 1⟩] ∧
      nonEmptyLines [97, 10, 98] = [⟨0, 1⟩, ⟨2, 1⟩] := by
  decide

/-- C29. A line that ends in `"\r\n"` keeps its `'\r'`: for `"ab\r\n"` and one
worker `split_lines` returns the range of `"ab\r"`. -/
theorem crlf_keeps_cr :
    batchLines [97, 98, 13, 10] 1 0 = some [⟨0, 3⟩] ∧
      lineBytes [97, 98, 13, 10] ⟨0, 3⟩ = [97, 98, 13] := by
  decide

theorem byteAt_mem (src : List Nat) (i : Nat) (h : i < src.length) : byteAt src i ∈ src := by
  unfold byteAt
  rw [List.getD_eq_getElem _ _ h]
  exact List.getElem_mem _

/-- In a text without `'\r'` and NUL only `'\n'` ends a line, whatever the end
index given to the test. -/
theorem is_line_ending_nl (src : List Nat) (h13 : 13 ∉ src) (h0 : 0 ∉ src) (i e : Nat)
    (hi : i < src.length) : is_line_ending src i e = decide (byteAt src i = 10) := by
  have hm := byteAt_mem src i hi
  have a0 : byteAt src i ≠ 0 := fun h => h0 (h ▸ hm)
  have a13 : byteAt src i ≠ 13 := fun h => h13 (h ▸ hm)
  unfold is_line_ending
  rw [if_neg a0]
  by_cases h10 : byteAt src i = 10
  · rw [if_pos h10]; simp [h10]
  · rw [if_neg h10, if_neg a13]; simp [h10]

theorem pushLine_append (acc : List LineInfo) (prev i : Nat) :
    pushLine acc prev i = acc ++ pushLine [] prev i := by
  unfold pushLine
  split_ifs <;> simp

theorem chunkLoop_scan (src : List Nat) (h13 : 13 ∉ src) (h0 : 0 ∉ src) (e : Nat) :
    ∀ (n i : Nat) (nlf : Bool) (prev : Nat) (acc : List LineInfo), i + n ≤ src.length →
      chunkLoop src e n i (nlf, prev, acc) =
        ((scanState src n i nlf prev).1, (scanState src n i nlf prev).2,
          acc ++ scanLines src n i nlf prev) := by
  intro n
  induction n with
  | zero => intro i nlf prev acc _; simp [chunkLoop, scanState, scanLines]
  | succ n ih =>
    intro i nlf prev acc hb
    unfold chunkLoop scanState scanLines
    rw [is_line_ending_nl src h13 h0 i e (by omega)]
    by_cases h10 : byteAt src i = 10
    · simp only [h10, decide_True, if_true]
      cases nlf with
      | false =>
        simp only [Bool.not_false, if_true, Bool.false_eq_true, if_false]
        rw [ih (i + 1) true (i + 1) acc (by omega)]
        simp
      | true =>
        simp only [Bool.not_true, Bool.false_eq_true, if_false, if_true]
        rw [ih (i + 1) true (i + 1) _ (by omega), pushLine_append]
        simp
    · simp only [h10, decide_False, Bool.false_eq_true, if_false]
      exact ih (i + 1) nlf prev acc (by omega)

theorem scanLines_succ (src : List Nat) (n i : Nat) (nlf : Bool) (prev : Nat) :
    scanLines src (n + 1) i nlf prev =
      if byteAt src i = 10 then
        (if nlf then pushLine [] prev i else []) ++ scanLines src n (i + 1) true (i + 1)
      else scanLines src n (i + 1) nlf prev := rfl

theorem scanState_succ (src : List Nat) (n i : Nat) (nlf : Bool) (prev : Nat) :
    scanState src (n + 1) i nlf prev =
      if byteAt src i = 10 then scanState src n (i + 1) true (i + 1)
      else scanState src n (i + 1) nlf prev := rfl

theorem scanLines_add (src : List Nat) : ∀ (n m i : Nat) (nlf : Bool) (prev : Nat),
    scanLines src (n + m) i nlf prev =
      scanLines src n i nlf prev ++
        scanLines src m (i + n) (scanState src n i nlf prev).1 (scanState src n i nlf prev).2 := by
  intro n
  induction n with
  | zero => intro m i nlf prev; simp [scanLines, scanState]
  | succ n ih =>
    intro m i nlf prev
    have e : n + 1 + m = (n + m) + 1 := by omega
    rw [e, scanLines_succ, scanLines_succ, scanState_succ]
    have e2 : i + (n + 1) = i + 1 + n := by omega
    rw [e2]
    by_cases h10 : byteAt src i = 10
    · rw [if_pos h10, if_pos h10, if_pos h10, ih m (i + 1) true (i + 1)]
      simp
    · rw [if_neg h10, if_neg h10, if_neg h10]
      exact ih m (i + 1) nlf prev

theorem scanState_true (src : List Nat) : ∀ (n i prev : Nat),
    (scanState src n i true prev).1 = true := by
  intro n
  induction n with
  | zero => intro i prev; rfl
  | succ n ih =>
    intro i prev
    unfold scanState
    split_ifs
    · exact ih _ _
    · exact ih _ _

theorem scanState_last (src : List Nat) : ∀ (n i : Nat) (nlf : Bool) (prev : Nat),
    byteAt src (i + n) = 10 → scanState src (n + 1) i nlf prev = (true, i + n + 1) := by
  intro n
  induction n with
  | zero =>
    intro i nlf prev h
    unfold scanState
    rw [if_pos (by simpa using h)]
    rfl
  | succ n ih =>
    intro i nlf prev h
    have e : i + (n + 1) = i + 1 + n := by omega
    rw [e] at h
    unfold scanState
    have e2 : i + (n + 1) + 1 = i + 1 + n + 1 := by omega
    rw [e2]
    split_ifs
    · exact ih (i + 1) true (i + 1) h
    · exact ih (i + 1) nlf prev h

theorem scanState_false (src : List Nat) : ∀ (n i prev : Nat),
    (scanState src n i false prev).1 = false → ∀ k, k < n → byteAt src (i + k) ≠ 10 := by
  intro n
  induction n with
  | zero => intro i prev _ k hk; omega
  | succ n ih =>
    intro i prev h k hk
    unfold scanState at h
    by_cases h10 : byteAt src i = 10
    · rw [if_pos h10, scanState_true] at h
      exact absurd h (by simp)
    · rw [if_neg h10] at h
      cases k with
      | zero => exact h10
      | succ k =>
        have := ih (i + 1) prev h k (by omega)
        have e : i + (k + 1) = i + 1 + k := by omega
        rw [e]; exact this

theorem scanLines_false (src : List Nat) : ∀ (n i p q : Nat),
    scanLines src n i false p = scanLines src n i false q := by
  intro n
  induction n with
  | zero => intro i p q; rfl
  | succ n ih =>
    intro i p q
    rw [scanLines_succ, scanLines_succ]
    by_cases h10 : byteAt src i = 10
    · rw [if_pos h10, if_pos h10]; rfl
    · rw [if_neg h10, if_neg h10]; exact ih _ _ _

theorem tailScan_scan (src : List Nat) (h13 : 13 ∉ src) (h0 : 0 ∉ src) (prev x : Nat) :
    ∀ (n i : Nat) (acc : List LineInfo), i + n ≤ src.length →
      tailScan src src.length prev n i acc ++ scanLines src n i false x =
        acc ++ scanLines src n i true prev := by
  intro n
  induction n with
  | zero => intro i acc _; simp [tailScan, scanLines]
  | succ n ih =>
    intro i acc hb
    unfold tailScan
    rw [is_line_ending_nl src h13 h0 i _ (by omega), scanLines_succ, scanLines_succ]
    by_cases h10 : byteAt src i = 10
    · rw [if_pos h10, if_pos h10, if_pos (by simpa using h10), pushLine_append]
      simp
    · rw [if_neg h10, if_neg h10, if_neg (by simpa using h10)]
      exact ih (i + 1) acc (by omega)

/-- The lines of a worker whose chunk is `[a, b)`, followed by the lines that
start at `b` or later, are the lines that start at `a` or later. -/
theorem worker_scan (src : List Nat) (h13 : 13 ∉ src) (h0 : 0 ∉ src)
    (num_threads chunk_size t : Nat)
    (hab : t * chunk_size ≤ chunkEnd src.length num_threads chunk_size t)
    (hb1 : 1 ≤ chunkEnd src.length num_threads chunk_size t)
    (ht : t = 0 ∨ 1 ≤ t * chunk_size) :
    worker src num_threads chunk_size t ++
        scanLines src (src.length - chunkEnd src.length num_threads chunk_size t)
          (chunkEnd src.length num_threads chunk_size t)
          (lineStart src (chunkEnd src.length num_threads chunk_size t))
          (chunkEnd src.length num_threads chunk_size t) =
      scanLines src (src.length - t * chunk_size) (t * chunk_size)
        (lineStart src (t * chunk_size)) (t * chunk_size) := by
  have hbL := chunkEnd_le src.length num_threads chunk_size t
  unfold worker
  simp only
  generalize hb : chunkEnd src.length num_threads chunk_size t = b at hab hb1 hbL ⊢
  generalize ha : t * chunk_size = a at hab ht ⊢
  have hL : 2 ≤ src.length := by omega
  have hnlf : (decide (t = 0) || is_line_ending src (a - 1) b) = lineStart src a := by
    unfold lineStart
    rcases ht with ht | ht
    · have : a = 0 := by rw [← ha, ht]; simp
      simp [ht, this]
    · have ht0 : t ≠ 0 := by
        intro e; rw [e] at ha; omega
      have ha0 : a ≠ 0 := by omega
      rw [is_line_ending_nl src h13 h0 (a - 1) b (by omega)]
      simp [ht0, ha0]
  rw [hnlf, chunkLoop_scan src h13 h0 b (b - a) a _ _ _ (by omega)]
  simp only [List.nil_append]
  have hsplit : src.length - a = (b - a) + (src.length - b) := by omega
  rw [hsplit, scanLines_add]
  have hab2 : a + (b - a) = b := by omega
  rw [hab2]
  have hlsb : lineStart src b = decide (byteAt src (b - 1) = 10) := by
    unfold lineStart
    have : b ≠ 0 := by omega
    simp [this]
  cases hs1 : (scanState src (b - a) a (lineStart src a) a).1 with
  | true =>
    by_cases h10 : byteAt src (b - 1) = 10
    · have hc : (true && decide (byteAt src (b - 1) ≠ 10)) = false := by simp [h10]
      rw [hc]
      simp only [Bool.false_eq_true, if_false]
      congr 1
      have hls : lineStart src b = true := by rw [hlsb]; simp [h10]
      rw [hls]
      congr 1
      by_cases hlt : a < b
      · obtain ⟨k, hk⟩ : ∃ k, b - a = k + 1 := ⟨b - a - 1, by omega⟩
        rw [hk]
        have hidx : a + k = b - 1 := by omega
        rw [scanState_last src k a _ _ (by rw [hidx]; exact h10)]
        show b = a + k + 1
        omega
      · have : b - a = 0 := by omega
        rw [this]
        show b = a
        omega
    · have hc : (true && decide (byteAt src (b - 1) ≠ 10)) = true := by simp [h10]
      rw [hc]
      simp only [if_true]
      have hls : lineStart src b = false := by rw [hlsb]; simp [h10]
      rw [hls]
      exact tailScan_scan src h13 h0 _ _ (src.length - b) b _ (by omega)
  | false =>
    simp only [Bool.false_and, Bool.false_eq_true, if_false]
    congr 1
    have hls0 : lineStart src a = false := by
      cases hh : lineStart src a with
      | false => rfl
      | true =>
        rw [hh, scanState_true] at hs1
        exact absurd hs1 (by simp)
    have hls : lineStart src b = false := by
      rw [hlsb]
      by_cases hlt : a < b
      · rw [hls0] at hs1
        have := scanState_false src (b - a) a a hs1 (b - a - 1) (by omega)
        have hidx : a + (b - a - 1) = b - 1 := by omega
        rw [hidx] at this
        simp [this]
      · have hba : b = a := by omega
        rw [hba, ← hls0]
        unfold lineStart
        have ha0 : a ≠ 0 := by
          intro e
          rw [e] at hls0
          simp [lineStart] at hls0
        simp [ha0]
    rw [hls]
    exact scanLines_false src _ _ _ _

theorem scanLines_one (src : List Nat) (i : Nat) (nlf : Bool) : scanLines src 1 i nlf i = [] := by
  rw [scanLines_succ]
  have : pushLine [] i i = [] := by simp [pushLine]
  split_ifs <;> simp [scanLines, this]

/-- The lines of the workers `s`, ..., `n - 1`, put together, are the lines that
start in the chunk of the worker `s` or later. -/
theorem workers_scan (src : List Nat) (h13 : 13 ∉ src) (h0 : 0 ∉ src) (n c : Nat)
    (hL : 2 ≤ src.length) (hc : 1 ≤ c) (hnc : n * c ≤ src.length) :
    ∀ (m s : Nat), 1 ≤ m → s + m = n →
      ((List.range' s m).map (worker src n c)).flatten =
        scanLines src (src.length - s * c) (s * c) (lineStart src (s * c)) (s * c) := by
  intro m
  induction m with
  | zero => intro s h; omega
  | succ m ih =>
    intro s _ hs
    have hst : s = 0 ∨ 1 ≤ s * c := by
      cases s with
      | zero => left; rfl
      | succ k =>
        right
        have : (k + 1) * c = k * c + c := by ring
        omega
    by_cases hm : m = 0
    · subst hm
      have hlast : s = n - 1 := by omega
      have hend : chunkEnd src.length n c s = src.length - 1 := by
        unfold chunkEnd; rw [if_pos hlast]
      have hprod : n * c = s * c + c := by rw [← hs]; ring
      have := worker_scan src h13 h0 n c s (by rw [hend]; omega) (by rw [hend]; omega) hst
      rw [hend] at this
      have h1 : src.length - (src.length - 1) = 1 := by omega
      rw [h1, scanLines_one, List.append_nil] at this
      rw [← this]
      simp [List.range']
    · have hne : s ≠ n - 1 := by omega
      have hprod : n * c = (s + 1) * c + m * c := by rw [← hs]; ring
      have hmc : 1 ≤ m * c := by
        obtain ⟨k, hk⟩ : ∃ k, m = k + 1 := ⟨m - 1, by omega⟩
        have : m * c = k * c + c := by rw [hk]; ring
        omega
      have hsc : (s + 1) * c = s * c + c := by ring
      have hend : chunkEnd src.length n c s = (s + 1) * c := by
        unfold chunkEnd
        rw [if_neg hne]
        exact Nat.min_eq_left (by omega)
      have := worker_scan src h13 h0 n c s (by rw [hend]; omega) (by rw [hend]; omega) hst
      rw [hend] at this
      rw [← this, ← ih (s + 1) (by omega) (by omega)]
      simp [List.range']

theorem byteAt_append (pre : List Nat) (x : Nat) (rest : List Nat) :
    byteAt (pre ++ x :: rest) pre.length = x := by
  unfold byteAt
  rw [List.getD_eq_getElem?_getD, List.getElem?_append_right (le_refl _)]
  simp

/-- On a text whose last byte is a newline the scan records the non-empty
lines. -/
theorem scanLines_segments (src : List Nat) : ∀ (l pre : List Nat) (prev : Nat),
    src = pre ++ l → (l.getLast? = some 10 ∨ (l = [] ∧ prev = pre.length)) →
      scanLines src l.length pre.length true prev = segments l prev pre.length := by
  intro l
  induction l with
  | nil =>
    intro pre prev _ h
    rcases h with h | ⟨_, h⟩
    · simp at h
    · rw [h]; simp [scanLines, segments]
  | cons x rest ih =>
    intro pre prev hsrc h
    have hx : byteAt src pre.length = x := by rw [hsrc]; exact byteAt_append _ _ _
    have hsrc2 : src = (pre ++ [x]) ++ rest := by rw [hsrc]; simp
    have hlen : (pre ++ [x]).length = pre.length + 1 := by simp
    rw [List.length_cons, scanLines_succ, hx]
    unfold segments
    by_cases h10 : x = 10
    · rw [if_pos h10, if_pos h10]
      have hcond : rest.getLast? = some 10 ∨ (rest = [] ∧ pre.length + 1 = (pre ++ [x]).length) := by
        cases rest with
        | nil => right; exact ⟨rfl, hlen.symm⟩
        | cons y r =>
          left
          rcases h with h | ⟨h, _⟩
          · rw [List.getLast?_cons_cons] at h; exact h
          · exact absurd h (by simp)
      have := ih (pre ++ [x]) (pre.length + 1) hsrc2 hcond
      rw [hlen] at this
      rw [this]
      simp [pushLine]
    · rw [if_neg h10, if_neg h10]
      have hcond : rest.getLast? = some 10 ∨ (rest = [] ∧ prev = (pre ++ [x]).length) := by
        cases rest with
        | nil =>
          rcases h with h | ⟨h, _⟩
          · simp at h; exact absurd h h10
          · exact absurd h (by simp)
        | cons y r =>
          left
          rcases h with h | ⟨h, _⟩
          · rw [List.getLast?_cons_cons] at h; exact h
          · exact absurd h (by simp)
      have := ih (pre ++ [x]) prev hsrc2 hcond
      rw [hlen] at this
      exact this

theorem requested_pos (req hw : Nat) : 1 ≤ requested req hw := by
  unfold requested
  exact Nat.le_max_left _ _

/-- C31. For a source of at least 2 bytes without `'\r'` and NUL in which every
line ends in `'\n'`, and for every number of workers, the lines of
`split_lines`, put together in the order of the workers, are exactly the
non-empty lines of the source, in order, each once. -/
theorem split_lines_terminated (src : List Nat) (req hw : Nat) (hL : 2 ≤ src.length)
    (h13 : 13 ∉ src) (h0 : 0 ∉ src) (hterm : src.getLast? = some 10) :
    batchLines src req hw = some (nonEmptyLines src) := by
  have hseg : scanLines src src.length 0 true 0 = nonEmptyLines src := by
    have := scanLines_segments src src [] 0 (by simp) (Or.inl hterm)
    simpa [nonEmptyLines] using this
  have hls : lineStart src 0 = true := by simp [lineStart]
  unfold batchLines split_lines
  rw [if_neg (by omega)]
  by_cases h2 : src.length < requested req hw
  · rw [if_pos h2]
    have := workers_scan src h13 h0 1 src.length hL (by omega) (by omega) 1 0 (by omega) (by omega)
    simp only [Nat.zero_mul, Nat.sub_zero, hls, hseg] at this
    rw [← this]
    simp [List.range']
  · rw [if_neg h2]
    have hpos := requested_pos req hw
    have hc : 1 ≤ src.length / requested req hw :=
      Nat.div_pos (by omega) (by omega)
    have hnc : requested req hw * (src.length / requested req hw) ≤ src.length :=
      Nat.mul_div_le _ _
    have := workers_scan src h13 h0 (requested req hw) (src.length / requested req hw) hL hc hnc
      (requested req hw) 0 hpos (by omega)
    simp only [Nat.zero_mul, Nat.sub_zero, hls, hseg] at this
    rw [← this, List.range_eq_range']
    rfl

theorem split_lines_terminated_witness :
    batchLines [97, 10, 98, 98, 10, 10, 99, 10] 3 0 = some [⟨0, 1⟩, ⟨2, 2⟩, ⟨6, 1⟩] :=
  (split_lines_terminated [97, 10, 98, 98, 10, 10, 99, 10] 3 0 (by decide) (by decide) (by decide)
    (by decide)).trans (by decide)

/-! ## The feature parser -/

theorem u8_len_ascii (x : Nat) (rest : List Nat) (h : x < 0x80) : u8_len (x :: rest) = 1 := by
  unfold u8_len unicode
  simp [h]

/-- The bytes of a character after its first are continuation bytes. -/
theorem u8_len_skipped (view : List Nat) (j : Nat) (h1 : 1 ≤ j) (h2 : j < u8_len view) :
    0x80 ≤ view.getD j 0 := by
  unfold u8_len unicode at h2
  match view with
  | [] => simp at h2; omega
  | c0 :: rest =>
    simp only at h2
    split_ifs at h2 with a1 a2 a3 a4 a5
    · simp at h2; omega
    · simp at h2; omega
    · match rest with
      | [] => simp at h2; omega
      | c1 :: r =>
        simp only at h2
        split_ifs at h2 with b
        · have hj : j = 1 := by simp at h2; omega
          subst hj
          simp [isCont] at b
          simp; omega
        · simp at h2; omega
    · match rest with
      | [] => simp at h2; omega
      | [c1] => simp at h2; omega
      | c1 :: c2 :: r =>
        simp only at h2
        split_ifs at h2 with b
        · simp [isCont] at b
          have hj : j = 1 ∨ j = 2 := by simp at h2; omega
          rcases hj with hj | hj <;> subst hj <;> simp <;> omega
        · simp at h2; omega
    · match rest with
      | [] => simp at h2; omega
      | [c1] => simp at h2; omega
      | [c1, c2] => simp at h2; omega
      | c1 :: c2 :: c3 :: r =>
        simp only at h2
        split_ifs at h2 with b
        · simp [isCont] at b
          have hj : j = 1 ∨ j = 2 ∨ j = 3 := by simp at h2; omega
          rcases hj with hj | hj | hj <;> subst hj <;> simp <;> omega
        · simp at h2; omega
    · simp at h2; omega

theorem lineEnd_cont (c : Nat) (rest : List Nat) (h : 0x80 ≤ c) : lineEnd c rest = false := by
  unfold lineEnd
  have a0 : c ≠ 0 := by omega
  have a1 : c ≠ 10 := by omega
  have a2 : c ≠ 13 := by omega
  simp [a0, a1, a2]

theorem splitFields_cons (d q x : Nat) (rest : List Nat) (inq : Bool) (cur : List Nat) :
    splitFields d q (x :: rest) inq cur =
      if lineEnd x rest then [cur ++ x :: rest]
      else if rest ≠ [] ∧ x = q then splitFields d q rest (!inq) (cur ++ [x])
      else if inq = false ∧ x = d then cur :: splitFields d q rest inq []
      else splitFields d q rest inq (cur ++ [x]) := rfl

theorem splitFields_cont (d q : Nat) (hd : d < 0x80) (hq : q < 0x80) :
    ∀ (cs rest : List Nat) (inq : Bool) (cur : List Nat), (∀ c ∈ cs, 0x80 ≤ c) →
      splitFields d q (cs ++ rest) inq cur = splitFields d q rest inq (cur ++ cs) := by
  intro cs
  induction cs with
  | nil => intro rest inq cur _; simp
  | cons c cs ih =>
    intro rest inq cur h
    have hc : 0x80 ≤ c := h c (List.mem_cons_self _ _)
    have hcs : ∀ x ∈ cs, 0x80 ≤ x := fun x hx => h x (List.mem_cons_of_mem _ hx)
    show splitFields d q (c :: (cs ++ rest)) inq cur = _
    rw [splitFields_cons, lineEnd_cont c _ hc]
    have hcq : c ≠ q := by omega
    have hcd : c ≠ d := by omega
    simp only [Bool.false_eq_true, if_false, hcq, hcd, and_false]
    rw [ih rest inq (cur ++ [c]) hcs]
    simp

theorem drop_byteAt (p : List Nat) (i : Nat) (h : i < p.length) :
    p.drop i = byteAt p i :: p.drop (i + 1) := by
  unfold byteAt
  rw [List.getD_eq_getElem _ _ h]
  exact List.drop_eq_getElem_cons h

theorem byteAt_drop (p : List Nat) (i j : Nat) : (p.drop i).getD j 0 = byteAt p (i + j) := by
  unfold byteAt
  rw [List.getD_eq_getElem?_getD, List.getD_eq_getElem?_getD, List.getElem?_drop]

theorem is_line_ending_eq (p : List Nat) (i : Nat) (h : i < p.length) :
    is_line_ending p i (p.length - 1) = lineEnd (byteAt p i) (p.drop (i + 1)) := by
  unfold is_line_ending lineEnd
  rw [byteAt_drop, List.length_drop]
  by_cases a0 : byteAt p i = 0
  · simp [a0]
  · by_cases a1 : byteAt p i = 10
    · simp [a1]
    · by_cases a2 : byteAt p i = 13
      · rw [if_neg a0, if_neg a1, if_pos a2]
        have e : (i + 1 < p.length - 1) ↔ (2 ≤ p.length - (i + 1)) := by omega
        simp [a2, e]
      · simp [a0, a1, a2]

theorem substr_extend (p : List Nat) (s i k : Nat) (hs : s ≤ i) :
    substr p s (i + k - s) = substr p s (i - s) ++ (p.drop i).take k := by
  unfold substr
  have e1 : i + k - s = (i - s) + k := by omega
  rw [e1, List.take_add, List.drop_drop]
  have e2 : s + (i - s) = i := by omega
  rw [e2]



/-- The loop of `parse_feature` from a state at a character boundary gives the
tokens of the state followed by the fields the byte-wise reference finds in the
rest of the text. -/
theorem parseLoop_split (p : List Nat) (d q : Nat) (hd : d < 0x80) (hq : q < 0x80)
    (hp : 0 < p.length) :
    ∀ (n i : Nat) (inq : Bool) (s : Nat) (tokens : List (List Nat)),
      i ≤ p.length → s ≤ i → p.length - i ≤ n →
      parseRest p (parseLoop p d [q] n i (inq, s, tokens)) =
        tokens ++ splitFields d q (p.drop i) inq (substr p s (i - s)) := by
  have hbase : ∀ (inq : Bool) (s : Nat) (tokens : List (List Nat)), s ≤ p.length →
      parseRest p (inq, s, tokens) =
        tokens ++ splitFields d q (p.drop p.length) inq (substr p s (p.length - s)) := by
    intro inq s tokens hs
    unfold parseRest
    simp only [List.drop_length, splitFields]
    have hlen : (substr p s (p.length - s)).length = p.length - s := by
      unfold substr; simp
    by_cases h : s ≤ p.length - 1
    · rw [if_pos h]
      have : substr p s (p.length - s) ≠ [] := by
        intro e; rw [e] at hlen; simp at hlen; omega
      rw [if_neg this]
    · rw [if_neg h]
      have : substr p s (p.length - s) = [] := by
        apply List.eq_nil_of_length_eq_zero; omega
      rw [if_pos this]; simp
  have hq1 : u8_len [q] = 1 := u8_len_ascii q [] hq
  intro n
  induction n with
  | zero =>
    intro i inq s tokens hi hs hn
    have e : i = p.length := by omega
    subst e
    exact hbase inq s tokens hs
  | succ n ih =>
    intro i inq s tokens hi hs hn
    unfold parseLoop
    by_cases hlt : i < p.length
    · rw [if_pos hlt, is_line_ending_eq p i hlt, hq1, drop_byteAt p i hlt, splitFields_cons]
      have htok : (if s < i then substr p s (i - s) else []) = substr p s (i - s) := by
        split_ifs with h
        · rfl
        · have : i - s = 0 := by omega
          rw [this]; simp [substr]
      by_cases hle : lineEnd (byteAt p i) (p.drop (i + 1)) = true
      · rw [if_pos hle, if_pos hle]
        unfold parseRest
        rw [if_pos (by show s ≤ p.length - 1; omega)]
        congr 2
        rw [← drop_byteAt p i hlt]
        have := substr_extend p s i (p.length - i) hs
        have e1 : i + (p.length - i) - s = p.length - s := by omega
        rw [e1] at this
        rw [this]
        congr 1
        rw [List.take_of_length_le (by simp)]
      · rw [if_neg hle, if_neg hle]
        have hquote : (i + 1 < p.length ∧
            List.take 1 (byteAt p i :: p.drop (i + 1)) = List.take 1 ([q] ++ [0])) ↔
            (p.drop (i + 1) ≠ [] ∧ byteAt p i = q) := by
          have a : p.drop (i + 1) ≠ [] ↔ i + 1 < p.length := by
            rw [Ne, List.drop_eq_nil_iff]; omega
          rw [a]; simp
        have hsub1 : substr p s (i + 1 - s) = substr p s (i - s) ++ [byteAt p i] := by
          rw [substr_extend p s i 1 hs, drop_byteAt p i hlt]; simp
        by_cases hqc : p.drop (i + 1) ≠ [] ∧ byteAt p i = q
        · rw [if_pos (hquote.mpr hqc), if_pos hqc]
          have hk : u8_len (byteAt p i :: p.drop (i + 1)) = 1 :=
            u8_len_ascii _ _ (by rw [hqc.2]; exact hq)
          rw [hk, ih (i + 1) (!inq) s tokens (by omega) (by omega) (by omega), hsub1]
        · rw [if_neg (fun h => hqc (hquote.mp h)), if_neg hqc]
          by_cases hdc : inq = false ∧ byteAt p i = d
          · rw [if_pos hdc, if_pos hdc]
            have hk : u8_len (byteAt p i :: p.drop (i + 1)) = 1 :=
              u8_len_ascii _ _ (by rw [hdc.2]; exact hd)
            rw [hk, htok, ih (i + 1) inq (i + 1) _ (by omega) (by omega) (by omega)]
            have : substr p (i + 1) (i + 1 - (i + 1)) = [] := by simp [substr]
            rw [this]; simp
          · rw [if_neg hdc, if_neg hdc]
            have hview : p.drop i = byteAt p i :: p.drop (i + 1) := drop_byteAt p i hlt
            rw [← hview]
            have hk1 : 1 ≤ u8_len (p.drop i) := u8_len_pos _
            have hk2 : u8_len (p.drop i) ≤ (p.drop i).length :=
              u8_len_le _ (by rw [hview]; simp)
            rw [List.length_drop] at hk2
            generalize hk : u8_len (p.drop i) = k at hk1 hk2
            rw [ih (i + k) inq s tokens (by omega) (by omega) (by omega)]
            congr 1
            have hsplit : p.drop (i + 1) = (p.drop (i + 1)).take (k - 1) ++ p.drop (i + k) := by
              have := (List.take_append_drop (k - 1) (p.drop (i + 1))).symm
              rw [List.drop_drop] at this
              have e : i + 1 + (k - 1) = i + k := by omega
              rw [e] at this
              exact this
            have hcont : ∀ c ∈ (p.drop (i + 1)).take (k - 1), 0x80 ≤ c := by
              intro c hc
              obtain ⟨j, hj, ej⟩ := List.getElem_of_mem hc
              rw [List.length_take, List.length_drop] at hj
              have hview2 := u8_len_skipped (p.drop i) (j + 1) (by omega) (by rw [hk]; omega)
              rw [byteAt_drop] at hview2
              have ec : c = byteAt p (i + (j + 1)) := by
                rw [← ej, List.getElem_take, List.getElem_drop]
                unfold byteAt
                rw [List.getD_eq_getElem _ _ (by omega)]
                congr 1
                omega
              rw [ec]; exact hview2
            rw [hsplit, splitFields_cont d q hd hq _ _ _ _ hcont]
            congr 1
            rw [substr_extend p s i k hs, hview]
            have : List.take k (byteAt p i :: p.drop (i + 1)) =
                byteAt p i :: (p.drop (i + 1)).take (k - 1) := by
              obtain ⟨m, hm⟩ : ∃ m, k = m + 1 := ⟨k - 1, by omega⟩
              rw [hm]; simp
            rw [this]; simp
    · rw [if_neg hlt]
      have e : i = p.length := by omega
      subst e
      exact hbase inq s tokens hs

theorem lineEnd_plain (x : Nat) (rest : List Nat) (h0 : x ≠ 0) (h1 : x ≠ 10) (h2 : x ≠ 13) :
    lineEnd x rest = false := by
  unfold lineEnd
  simp [h0, h1, h2]

/-- Between an opening quote and the next quote no field ends: the bytes go to
the field that is open. -/
theorem splitFields_quoted (d q : Nat) (hq0 : q ≠ 0) (hq1 : q ≠ 10) (hq2 : q ≠ 13)
    (rest : List Nat) (hrest : rest ≠ []) :
    ∀ (m cur : List Nat), (∀ x ∈ m, x ≠ q ∧ x ≠ 0 ∧ x ≠ 10 ∧ x ≠ 13) →
      splitFields d q (m ++ q :: rest) true cur = splitFields d q rest false (cur ++ m ++ [q]) := by
  intro m
  induction m with
  | nil =>
    intro cur _
    show splitFields d q (q :: rest) true cur = _
    rw [splitFields_cons, lineEnd_plain q rest hq0 hq1 hq2]
    simp [hrest]
  | cons x m ih =>
    intro cur h
    obtain ⟨a, b, c, e⟩ := h x (List.mem_cons_self _ _)
    show splitFields d q (x :: (m ++ q :: rest)) true cur = _
    rw [splitFields_cons, lineEnd_plain x _ b c e]
    simp only [Bool.false_eq_true, if_false, a, and_false, Bool.true_eq_false, false_and]
    rw [ih (cur ++ [x]) (fun y hy => h y (List.mem_cons_of_mem _ hy))]
    simp

/-- Outside quotes and before a line ending a delimiter ends the field that is
open. -/
theorem splitFields_delimiter (d q : Nat) (hd0 : d ≠ 0) (hd1 : d ≠ 10) (hd2 : d ≠ 13)
    (hdq : d ≠ q) (rest : List Nat) :
    ∀ (a cur : List Nat), (∀ x ∈ a, x ≠ q ∧ x ≠ d ∧ x ≠ 0 ∧ x ≠ 10 ∧ x ≠ 13) →
      splitFields d q (a ++ d :: rest) false cur = (cur ++ a) :: splitFields d q rest false [] := by
  intro a
  induction a with
  | nil =>
    intro cur _
    show splitFields d q (d :: rest) false cur = _
    rw [splitFields_cons, lineEnd_plain d rest hd0 hd1 hd2]
    simp [hdq]
  | cons x a ih =>
    intro cur h
    obtain ⟨a1, a2, b, c, e⟩ := h x (List.mem_cons_self _ _)
    show splitFields d q (x :: (a ++ d :: rest)) false cur = _
    rw [splitFields_cons, lineEnd_plain x _ b c e]
    simp only [Bool.false_eq_true, if_false, a1, a2, and_false]
    rw [ih (cur ++ [x]) (fun y hy => h y (List.mem_cons_of_mem _ hy))]
    simp

/-- C24 (amended). `parse_feature` with an ASCII delimiter and an ASCII quote
character of one byte returns the fields of the byte-wise reference
`splitFields`: a quote character that is not the last byte toggles the quoted
state, a delimiter ends a field only outside quotes, and the scan stops at the
first line ending, the open field taking the rest of the text. In particular a
quoted part goes to the open field whole, delimiters included, and outside
quotes every delimiter before the first line ending ends a field. -/
theorem parse_feature_fields (p : List Nat) (d q : Nat) (hd : d < 0x80) (hq : q < 0x80) :
    parse_feature p d [q] = splitFields d q p false [] ∧
      (q ≠ 0 → q ≠ 10 → q ≠ 13 → ∀ (m rest cur : List Nat), rest ≠ [] →
        (∀ x ∈ m, x ≠ q ∧ x ≠ 0 ∧ x ≠ 10 ∧ x ≠ 13) →
        splitFields d q (q :: (m ++ q :: rest)) false cur =
          splitFields d q rest false (cur ++ q :: m ++ [q])) ∧
      (d ≠ 0 → d ≠ 10 → d ≠ 13 → d ≠ q → ∀ (a rest cur : List Nat),
        (∀ x ∈ a, x ≠ q ∧ x ≠ d ∧ x ≠ 0 ∧ x ≠ 10 ∧ x ≠ 13) →
        splitFields d q (a ++ d :: rest) false cur =
          (cur ++ a) :: splitFields d q rest false []) := by
  refine ⟨?_, ?_, ?_⟩
  · unfold parse_feature
    by_cases h : p.length = 0
    · rw [if_pos h]
      have : p = [] := List.eq_nil_of_length_eq_zero h
      rw [this]; rfl
    · rw [if_neg h]
      have := parseLoop_split p d q hd hq (by omega) p.length 0 false 0 [] (by omega) (by omega)
        (by omega)
      rw [this]
      simp [substr]
  · intro hq0 hq1 hq2 m rest cur hrest hm
    rw [splitFields_cons, lineEnd_plain q _ hq0 hq1 hq2]
    simp only [Bool.false_eq_true, if_false]
    rw [if_pos ⟨by simp, trivial⟩]
    have := splitFields_quoted d q hq0 hq1 hq2 rest hrest m (cur ++ [q]) hm
    simp only [Bool.not_false]
    rw [this]
    simp
  · intro hd0 hd1 hd2 hdq a rest cur ha
    exact splitFields_delimiter d q hd0 hd1 hd2 hdq rest a cur ha

theorem parse_feature_fields_witness :
    parse_feature [97, 44, 34, 98, 44, 99, 34, 44, 100] 44 [34] =
      [[97], [34, 98, 44, 99, 34], [100]] :=
  (parse_feature_fields [97, 44, 34, 98, 44, 99, 34, 44, 100] 44 34 (by decide) (by decide)).1.trans
    (by decide)

/-- C24, counterexample. In `"a\nb,c"` the delimiter is outside quotes, but the
scan stops at the newline and no field ends at the delimiter: the text is
returned as one field. -/
theorem delimiter_after_line_ending :
    parse_feature [97, 10, 98, 44, 99] 44 [34] = [[97, 10, 98, 44, 99]] := by
  decide

/-- The function `parse_feature` with an ASCII delimiter and an ASCII quote
character gives the fields of the byte-wise reference. -/
theorem parse_feature_eq (p : List Nat) (d q : Nat) (hd : d < 0x80) (hq : q < 0x80) :
    parse_feature p d [q] = splitFields d q p false [] := by
  unfold parse_feature
  by_cases h : p.length = 0
  · rw [if_pos h]
    have : p = [] := List.eq_nil_of_length_eq_zero h
    rw [this]; rfl
  · rw [if_neg h]
    have := parseLoop_split p d q hd hq (by omega) p.length 0 false 0 [] (by omega) (by omega)
      (by omega)
    rw [this]
    simp [substr]

theorem intercalate_cons_ne (d : Nat) (cur : List Nat) (L : List (List Nat)) (h : L ≠ []) :
    [d].intercalate (cur :: L) = cur ++ d :: [d].intercalate L := by
  cases L with
  | nil => exact absurd rfl h
  | cons a L => simp [List.intercalate, List.intersperse]

/-- The fields of a text without quote character and line ending that does not
end in the delimiter. -/
theorem splitFields_plain (d q : Nat) : ∀ (l cur : List Nat),
    (∀ x ∈ l, x ≠ q ∧ x ≠ 0 ∧ x ≠ 10 ∧ x ≠ 13) → l.getLast? ≠ some d → (l = [] → cur ≠ []) →
    d ∉ cur →
      (splitFields d q l false cur).length = l.count d + 1 ∧
        [d].intercalate (splitFields d q l false cur) = cur ++ l ∧
        ∀ f ∈ splitFields d q l false cur, d ∉ f := by
  intro l
  induction l with
  | nil =>
    intro cur _ _ hcur hd
    have hc : cur ≠ [] := hcur rfl
    simp [splitFields, hc, List.intercalate, hd]
  | cons x l ih =>
    intro cur hsp hlast _ hd
    obtain ⟨a, b, c, e⟩ := hsp x (List.mem_cons_self _ _)
    have hsp2 : ∀ y ∈ l, y ≠ q ∧ y ≠ 0 ∧ y ≠ 10 ∧ y ≠ 13 :=
      fun y hy => hsp y (List.mem_cons_of_mem _ hy)
    have hlast2 : l.getLast? ≠ some d := by
      cases l with
      | nil => simp
      | cons y l2 => rw [List.getLast?_cons_cons] at hlast; exact hlast
    rw [splitFields_cons, lineEnd_plain x _ b c e]
    simp only [Bool.false_eq_true, if_false, a, and_false, true_and]
    by_cases hx : x = d
    · rw [if_pos hx]
      have hl : l ≠ [] := by
        intro e2
        rw [e2, hx] at hlast
        exact hlast rfl
      obtain ⟨i1, i2, i3⟩ := ih [] hsp2 hlast2 (fun e2 => absurd e2 hl) (by simp)
      have hne : splitFields d q l false [] ≠ [] := by
        intro e2; rw [e2] at i1; simp at i1
      refine ⟨?_, ?_, ?_⟩
      · rw [List.length_cons, i1, hx, List.count_cons_self]
      · rw [intercalate_cons_ne d cur _ hne, i2, hx]; simp
      · intro f hf
        rcases List.mem_cons.mp hf with h1 | h1
        · rw [h1]; exact hd
        · exact i3 f h1
    · rw [if_neg hx]
      have hd2 : d ∉ cur ++ [x] := by
        intro h
        rcases List.mem_append.mp h with h1 | h1
        · exact hd h1
        · simp at h1; exact hx h1.symm
      obtain ⟨i1, i2, i3⟩ := ih (cur ++ [x]) hsp2 hlast2 (fun _ => by simp) hd2
      refine ⟨?_, ?_, i3⟩
      · rw [i1, List.count_cons_of_ne (fun h => hx h.symm)]
      · rw [i2]; simp

/-- C36. For a non-empty input without quote character, NUL, `'\n'` and `'\r'`
that does not end in the delimiter, `parse_feature` returns one field more than
the input has delimiters, no field holds a delimiter (so an empty field stands
between two adjacent delimiters), and the fields joined by the delimiter give
back the input. -/
theorem parse_feature_plain (p : List Nat) (d q : Nat) (hd : d < 0x80) (hq : q < 0x80)
    (hne : p ≠ []) (hsp : ∀ x ∈ p, x ≠ q ∧ x ≠ 0 ∧ x ≠ 10 ∧ x ≠ 13)
    (hlast : p.getLast? ≠ some d) :
    (parse_feature p d [q]).length = p.count d + 1 ∧
      [d].intercalate (parse_feature p d [q]) = p ∧
      ∀ f ∈ parse_feature p d [q], d ∉ f := by
  rw [parse_feature_eq p d q hd hq]
  have := splitFields_plain d q p [] hsp hlast (fun h => absurd h hne) (by simp)
  simpa using this

theorem parse_feature_plain_witness :
    parse_feature [97, 44, 44, 98] 44 [34] = [[97], [], [98]] ∧
      (parse_feature [97, 44, 44, 98] 44 [34]).length = [97, 44, 44, 98].count 44 + 1 ∧
      [44].intercalate (parse_feature [97, 44, 44, 98] 44 [34]) = [97, 44, 44, 98] :=
  ⟨by decide,
    (parse_feature_plain [97, 44, 44, 98] 44 34 (by decide) (by decide) (by decide) (by decide)
      (by decide)).1,
    (parse_feature_plain [97, 44, 44, 98] 44 34 (by decide) (by decide) (by decide) (by decide)
      (by decide)).2.1⟩

/-! ## The tags of a token -/

theorem load_model_flag (s : PyJaggerState) (path : List Nat) (read : Option tagger) :
    (load_model s path read).1 = read.isSome ∧
      (load_model s path read).2.model_loaded = read.isSome := by
  cases read with
  | none => exact ⟨rfl, rfl⟩
  | some t => exact ⟨rfl, rfl⟩

/-- The last call of a sequence of calls of `load_model`. -/
theorem loadAll_snoc (path : List Nat) (read : Option tagger) :
    ∀ (cs : List (List Nat × Option tagger)) (s0 : PyJaggerState),
      loadAll s0 (cs ++ [(path, read)]) = (load_model (loadAll s0 cs) path read).2 := by
  intro cs
  induction cs with
  | nil => intro s0; rfl
  | cons c cs ih => intro s0; exact ih _

/-- The model that `load_model` leaves in `_tagger`: the one `read_model` loaded,
a new `jagger::tagger` after a failed reload, the old one otherwise. -/
theorem load_model_tagger (s : PyJaggerState) (path : List Nat) (read : Option tagger) :
    (load_model s path read).2.tagger_ =
      match read with
      | some t => some t
      | none => if s.model_loaded then none else s.tagger_ := by
  cases read with
  | none =>
    unfold load_model
    cases s.model_loaded <;> rfl
  | some t => rfl

/-- From the constructor on, `_tagger` holds a model only while the flag is
set. -/
theorem loadAll_new_tagger : ∀ (n : Nat) (calls : List (List Nat × Option tagger)),
    calls.length = n →
    (loadAll PyJaggerState.new calls).model_loaded = false →
      (loadAll PyJaggerState.new calls).tagger_ = none := by
  intro n
  induction n with
  | zero =>
    intro calls hl _
    rw [List.length_eq_zero.mp hl]
    rfl
  | succ n ih =>
    intro calls hl hf
    obtain ⟨cs, c, rfl⟩ : ∃ cs c, calls = cs ++ [c] := by
      refine ⟨calls.dropLast, calls.getLast (by intro h; simp [h] at hl), ?_⟩
      exact (List.dropLast_append_getLast _).symm
    obtain ⟨p, r⟩ := c
    rw [loadAll_snoc] at hf ⊢
    rw [(load_model_flag _ p r).2] at hf
    rw [load_model_tagger]
    cases r with
    | some t => simp at hf
    | none =>
      simp only
      split_ifs with hm
      · rfl
      · exact ih cs (by simpa using hl) (by simpa using hm)

/-- C38. Model-loaded state of `PyJagger`: `load_model` returns true exactly
when `read_model` succeeded; after any sequence of calls the flag is true
exactly when the last call succeeded; while the flag is false `tokenize` returns
the empty list for every input, as it does after the constructor. A successful
load leaves the model just read in `_tagger`, a failed reload of a loaded
instance discards the model held before, a failed load of an instance without a
loaded model leaves `_tagger` as it was; so after any sequence of calls on a new
instance `_tagger` holds exactly what the last `read_model` loaded, nothing when
it failed, and `tokenize` is the tokenizer of that model or returns the empty
list. -/
theorem model_loaded_state (s : PyJaggerState) (calls : List (List Nat × Option tagger))
    (path : List Nat) (read : Option tagger) (fuel : Nat) (src : List Nat) :
    ((load_model s path read).1 = true ↔ read.isSome = true) ∧
      (loadAll s (calls ++ [(path, read)])).model_loaded = read.isSome ∧
      ((loadAll s (calls ++ [(path, read)])).model_loaded = false →
        (loadAll s (calls ++ [(path, read)])).tokenize fuel src = some []) ∧
      PyJaggerState.new.tokenize fuel src = some [] ∧
      (∀ t, (load_model s path (some t)).2.tagger_ = some t) ∧
      (s.model_loaded = true → (load_model s path none).2.tagger_ = none) ∧
      (s.model_loaded = false → (load_model s path none).2.tagger_ = s.tagger_) ∧
      (loadAll PyJaggerState.new (calls ++ [(path, read)])).tagger_ = read ∧
      ((loadAll PyJaggerState.new (calls ++ [(path, read)])).tokenize fuel src =
        match read with
        | some t => tokenize fuel t src
        | none => some []) := by
  have htag : (loadAll PyJaggerState.new (calls ++ [(path, read)])).tagger_ = read := by
    rw [loadAll_snoc, load_model_tagger]
    cases read with
    | some t => rfl
    | none =>
      simp only
      split_ifs with hm
      · rfl
      · exact loadAll_new_tagger _ calls rfl (by simpa using hm)
  have hflag : ∀ s0 : PyJaggerState,
      (loadAll s0 (calls ++ [(path, read)])).model_loaded = read.isSome := by
    intro s0
    rw [loadAll_snoc]; exact (load_model_flag _ path read).2
  refine ⟨by rw [(load_model_flag s path read).1], hflag s, ?_, rfl, fun t => rfl, ?_, ?_,
    htag, ?_⟩
  · intro h
    unfold PyJaggerState.tokenize
    rw [if_pos h]
  · intro h
    rw [load_model_tagger]
    simp [h]
  · intro h
    rw [load_model_tagger]
    simp [h]
  · unfold PyJaggerState.tokenize
    rw [htag, hflag]
    cases read with
    | some t => simp
    | none => simp

/-- Witness of C38: after a successful load of `tagModel` and a failed reload
the flag is false, no model is held and `tokenize` returns the empty list. -/
theorem model_loaded_state_witness :
    (loadAll PyJaggerState.new ([([1], some tagModel)] ++ [([2], none)])).model_loaded = false ∧
      (loadAll PyJaggerState.new ([([1], some tagModel)] ++ [([2], none)])).tagger_ = none ∧
      (loadAll PyJaggerState.new ([([1], some tagModel)] ++ [([2], none)])).tokenize 6
        [97, 97, 10] = some [] :=
  ⟨(model_loaded_state PyJaggerState.new [([1], some tagModel)] [2] none 6 [97, 97, 10]).2.1,
    (model_loaded_state PyJaggerState.new [([1], some tagModel)] [2] none 6
      [97, 97, 10]).2.2.2.2.2.2.2.1,
    (model_loaded_state PyJaggerState.new [([1], some tagModel)] [2] none 6
      [97, 97, 10]).2.2.2.2.2.2.2.2⟩

/-! ## The nodes of the parent walk -/

theorem nodeOf_cons (array : List node) (frm sym : Int) (l : List Int) :
    nodeOf array frm (sym :: l) =
      if (nodeAt array ((nodeAt array frm).base + sym)).check ≠ frm then none
      else nodeOf array ((nodeAt array frm).base + sym) l := by
  unfold nodeOf
  simp only [_find]
  split_ifs <;> rfl

theorem nodeOf_single (array : List node) (frm sym : Int)
    (h : (nodeAt array ((nodeAt array frm).base + sym)).check = frm) :
    nodeOf array frm [sym] = some ((nodeAt array frm).base + sym) := by
  rw [nodeOf_cons, if_neg (by simpa using h)]
  unfold nodeOf
  simp only [_find]
  split_ifs <;> rfl

/-- Every node of the parent walk either was on the walk before the symbols were
followed, and then no prefix of the symbols has a value, or is the node of a
non-empty prefix of the symbols after which no longer prefix has a value. -/
theorem trail_nodes (array : List node) : ∀ (syms : List Int) (frm : Int) (acc : List Int)
    (x : Int), x ∈ trail array syms frm acc →
      (x ∈ acc ∧ ∀ j, 1 ≤ j → j ≤ syms.length → valueFrom array frm (syms.take j) = none) ∨
      (∃ k, 1 ≤ k ∧ k ≤ syms.length ∧ nodeOf array frm (syms.take k) = some x ∧
        ∀ j, k < j → j ≤ syms.length → valueFrom array frm (syms.take j) = none) := by
  intro syms
  induction syms with
  | nil =>
    intro frm acc x hx
    left
    exact ⟨by simpa [trail] using hx, fun j h1 h2 => by simp at h2; omega⟩
  | cons sym rest ih =>
    intro frm acc x hx
    simp only [trail, traverse_single_eq] at hx
    by_cases hc : (nodeAt array ((nodeAt array frm).base + sym)).check ≠ frm
    · rw [if_pos hc] at hx
      left
      refine ⟨hx, ?_⟩
      intro j h1 _
      obtain ⟨m, hm⟩ : ∃ m, j = m + 1 := ⟨j - 1, by omega⟩
      rw [hm, List.take_succ_cons, valueFrom_cons, if_pos hc]
    · rw [if_neg hc] at hx
      have hc2 : (nodeAt array ((nodeAt array frm).base + sym)).check = frm := by
        simpa using hc
      have hlater : ∀ (k : Nat), (∀ j, k < j → j ≤ rest.length →
          valueFrom array ((nodeAt array frm).base + sym) (rest.take j) = none) →
          ∀ j, k + 1 < j → j ≤ (sym :: rest).length →
            valueFrom array frm ((sym :: rest).take j) = none := by
        intro k h j h1 h2
        obtain ⟨m, hm⟩ : ∃ m, j = m + 1 := ⟨j - 1, by omega⟩
        rw [hm, List.take_succ_cons, valueFrom_cons, if_neg hc]
        exact h m (by omega) (by simp at h2; omega)
      have hdeep : ∀ (k : Nat), 1 ≤ k → k ≤ rest.length →
          nodeOf array ((nodeAt array frm).base + sym) (rest.take k) = some x →
          (∀ j, k < j → j ≤ rest.length →
            valueFrom array ((nodeAt array frm).base + sym) (rest.take j) = none) →
          ∃ k, 1 ≤ k ∧ k ≤ (sym :: rest).length ∧ nodeOf array frm ((sym :: rest).take k) = some x ∧
            ∀ j, k < j → j ≤ (sym :: rest).length →
              valueFrom array frm ((sym :: rest).take j) = none := by
        intro k h1 h2 h3 h4
        refine ⟨k + 1, by omega, by simp; omega, ?_, hlater k h4⟩
        rw [List.take_succ_cons, nodeOf_cons, if_neg hc]
        exact h3
      have hone : x = (nodeAt array frm).base + sym →
          (∀ j, 1 ≤ j → j ≤ rest.length →
            valueFrom array ((nodeAt array frm).base + sym) (rest.take j) = none) →
          ∃ k, 1 ≤ k ∧ k ≤ (sym :: rest).length ∧ nodeOf array frm ((sym :: rest).take k) = some x ∧
            ∀ j, k < j → j ≤ (sym :: rest).length →
              valueFrom array frm ((sym :: rest).take j) = none := by
        intro hx1 h
        refine ⟨1, le_refl _, by simp, ?_, ?_⟩
        · rw [hx1]
          show nodeOf array frm [sym] = _
          exact nodeOf_single array frm sym hc2
        · have := hlater 0 (fun j h1 h2 => h j (by omega) h2)
          intro j h1 h2
          exact this j (by omega) h2
      cases hv : valueFrom array ((nodeAt array frm).base + sym) [] with
      | none =>
        rw [hv] at hx
        rcases ih _ _ x hx with ⟨h1, h2⟩ | ⟨k, h1, h2, h3, h4⟩
        · rcases List.mem_cons.mp h1 with h1 | h1
          · right; exact hone h1 h2
          · left
            refine ⟨h1, ?_⟩
            intro j hj1 hj2
            obtain ⟨m, hm⟩ : ∃ m, j = m + 1 := ⟨j - 1, by omega⟩
            rw [hm, List.take_succ_cons, valueFrom_cons, if_neg hc]
            cases m with
            | zero => simpa using hv
            | succ m => exact h2 (m + 1) (by omega) (by simp at hj2; omega)
        · right; exact hdeep k h1 h2 h3 h4
      | some v =>
        rw [hv] at hx
        rcases ih _ _ x hx with ⟨h1, h2⟩ | ⟨k, h1, h2, h3, h4⟩
        · right
          exact hone (by simpa using h1) h2
        · right; exact hdeep k h1 h2 h3 h4

theorem nodeOf_nil (array : List node) (frm : Int) : nodeOf array frm [] = some frm := by
  unfold nodeOf
  simp only [_find]
  split_ifs <;> rfl

/-- C33. For a well-formed trie (and `c2i[0] = 0`), the matcher called with a
context returns either the unconditioned best, when no node of the walk has a
child with a value on the context, or the POS-conditioned payload of a node
that is reached by a prefix of the input after which no longer prefix has a
value: its prefix is at least as long as the one of the unconditioned best, so
a POS-conditioned pattern attached to a strictly shorter prefix is never
returned. One attached to a longer prefix without value can be: in `deepTrie`
the input `ab` has the best `a` (77) and the matcher returns the payload 88
attached to the node of `ab`. -/
theorem pos_payload_not_shorter (array : List node) (c2i : Nat → Nat) (key : List Nat)
    (fi_prev fuel : Nat) (h0 : c2i 0 = 0) (hfi : fi_prev ≠ 0) (hwf : WellFormed array)
    (hf : key.length < fuel) :
    (∃ r, longestPrefixSearchWithPOS fuel array key fi_prev c2i 0 = some r ∧
      ((r = longestValued array (symbols c2i key) ∧
          ∀ x ∈ walkNodes array (symbols c2i key), posValue array (fi_prev : Int) x = none) ∨
        ∃ x k, posValue array (fi_prev : Int) x = some r ∧ k ≤ (symbols c2i key).length ∧
          nodeOf array 0 ((symbols c2i key).take k) = some x ∧
          ∀ j, k < j → j ≤ (symbols c2i key).length →
            valueFrom array 0 ((symbols c2i key).take j) = none)) ∧
    (longestPrefixSearchWithPOS 3 (deepTrie 77 88) [97, 98] 3 abMap 0 = some 88 ∧
      longestPrefixSearchWithPOS 3 (deepTrie 77 88) [97, 98] 0 abMap 0 = some 77 ∧
      symbols abMap [97, 98] = [1, 2] ∧
      valueFrom (deepTrie 77 88) 0 [1] = some 77 ∧ valueFrom (deepTrie 77 88) 0 [1, 2] = none ∧
      nodeOf (deepTrie 77 88) 0 [1, 2] = some 5 ∧ posValue (deepTrie 77 88) 3 5 = some 88) := by
  refine ⟨?_, by decide⟩
  have hm := matcher_pos_eq array c2i h0 key fi_prev fuel hfi hwf hf
  cases hfs : (walkNodes array (symbols c2i key)).findSome? (posValue array (fi_prev : Int)) with
  | none =>
    rw [hfs] at hm
    refine ⟨_, hm, Or.inl ⟨rfl, ?_⟩⟩
    exact List.findSome?_eq_none_iff.mp hfs
  | some r =>
    rw [hfs] at hm
    refine ⟨r, hm, Or.inr ?_⟩
    obtain ⟨x, hx, hpx⟩ := List.exists_of_findSome?_eq_some hfs
    unfold walkNodes at hx
    rcases trail_nodes array (symbols c2i key) 0 [0] x hx with ⟨h1, h2⟩ | ⟨k, _, h2, h3, h4⟩
    · have hx0 : x = 0 := by simpa using h1
      refine ⟨x, 0, hpx, Nat.zero_le _, ?_, fun j hj1 hj2 => h2 j (by omega) hj2⟩
      rw [hx0, List.take_zero]
      exact nodeOf_nil array 0
    · exact ⟨x, k, hpx, h2, h3, h4⟩

theorem pos_payload_not_shorter_witness :
    ∃ r, longestPrefixSearchWithPOS 2 (smallTrie 77 88) [97] 2 abMap 0 = some r ∧
      ((r = longestValued (smallTrie 77 88) (symbols abMap [97]) ∧
          ∀ x ∈ walkNodes (smallTrie 77 88) (symbols abMap [97]),
            posValue (smallTrie 77 88) ((2 : Nat) : Int) x = none) ∨
        ∃ x k, posValue (smallTrie 77 88) ((2 : Nat) : Int) x = some r ∧
          k ≤ (symbols abMap [97]).length ∧
          nodeOf (smallTrie 77 88) 0 ((symbols abMap [97]).take k) = some x ∧
          ∀ j, k < j → j ≤ (symbols abMap [97]).length →
            valueFrom (smallTrie 77 88) 0 ((symbols abMap [97]).take j) = none) :=
  (pos_payload_not_shorter (smallTrie 77 88) abMap [97] 2 2 (by decide) (by decide)
    (smallTrie_wellFormed 77 88) (by decide)).1

/-! ## The bytes written to the scratch buffer -/

theorem decide_boundary_res (t : tagger) (st : LoopState) (ctype bytes : Int) :
    st.res.length ≤ (decide_boundary t st ctype bytes).res.length := by
  unfold decide_boundary
  split_ifs
  · exact le_refl _
  · simp
  · exact le_refl _

/-- When the loop of `tokenize_line` returns, the bytes written to `_res` are at
least as many as the line has before its end `p_end`. -/
theorem loop_res_length (fuel : Nat) (t : tagger) (line : List Nat) (p_end : Nat)
    (hpe : p_end ≤ line.length) :
    ∀ (k : Nat) (st st2 : LoopState), loop fuel t line p_end k st = some st2 →
      (st.p ≤ (p_end : Int) → st.p ≤ (st.res.length : Int)) →
      (p_end : Int) ≤ (st2.res.length : Int) := by
  intro k
  induction k with
  | zero => intro st st2 h _; simp [loop] at h
  | succ k ih =>
    intro st st2 h hinv
    unfold loop at h
    by_cases he : st.p = (p_end : Int)
    · rw [if_pos he] at h
      have e : st2 = st := by injection h with h; exact h.symm
      rw [e, ← he]
      exact hinv (by omega)
    · rw [if_neg he] at h
      by_cases ho : st.p < 0 ∨ (p_end : Int) < st.p
      · rw [if_pos ho] at h; exact absurd h (by simp)
      · rw [if_neg ho] at h
        cases hs : step fuel t line p_end st with
        | none => rw [hs] at h; exact absurd h (by simp)
        | some st1 =>
          rw [hs] at h
          simp only at h
          refine ih st1 st2 h ?_
          intro hp1
          unfold step at hs
          simp only at hs
          cases hm : longestPrefixSearchWithPOS fuel t.da (matcherArgs line p_end st).1
              (matcherArgs line p_end st).2 t.c2i 0 with
          | none => rw [hm] at hs; exact absurd hs (by simp)
          | some r =>
            rw [hm] at hs
            simp only at hs
            unfold stepWith at hs
            simp only at hs
            by_cases hn : payload_bytes r (matcherArgs line p_end st).1 < 0
            · rw [if_pos hn] at hs; exact absurd hs (by simp)
            · rw [if_neg hn] at hs
              injection hs with hs
              subst hs
              simp only at hp1 ⊢
              generalize payload_bytes r (matcherArgs line p_end st).1 = b at hn hp1 ⊢
              have hres := decide_boundary_res t st (payload_ctype r) b
              rw [List.length_append, List.length_take, List.length_drop]
              have h1 := hinv (by omega)
              have h2 : b.toNat ≤ line.length - st.p.toNat := by omega
              rw [Nat.min_eq_left h2]
              push_cast
              omega

theorem finish_res_length (t : tagger) (st : LoopState) :
    st.res.length + 4 ≤ (finish t st).res.length := by
  unfold finish
  simp only
  split_ifs
  · simp [eosNl]
  · simp [eosNl]

/-- C39. The bytes `tokenize_line` writes into `_res` are not bounded by the
size of that buffer: a call that returns has written at least the bytes of the
line (without its newline) and the four bytes of `"EOS\n"`, so for every size
`BUF_SIZE` a line of `BUF_SIZE` bytes makes the writes leave the buffer; and
the call returns for every model with `c2i[0] = 0` and every line whose pieces
fit. -/
theorem scratch_buffer_unbounded (fuel : Nat) (t : tagger) (line : List Nat) (BUF_SIZE : Nat) :
    (∀ st, tokenize_line_state fuel t line = some st →
      line.length - ret line + 4 ≤ st.res.length ∧
        (BUF_SIZE < line.length - ret line + 4 → BUF_SIZE < st.res.length)) ∧
    (t.c2i 0 = 0 → line.length < fuel → piecesFit fuel t line →
      ∃ st, tokenize_line_state fuel t line = some st) := by
  constructor
  · intro st h
    unfold tokenize_line_state at h
    cases hl : loop fuel t line (line.length - ret line) fuel (init t) with
    | none => rw [hl] at h; exact absurd h (by simp)
    | some st1 =>
      rw [hl] at h
      have e : st = finish t st1 := by injection h with h; exact h.symm
      have h1 := loop_res_length fuel t line (line.length - ret line) (by omega) fuel (init t) st1 hl
        (by intro _; simp [init])
      have h2 := finish_res_length t st1
      rw [e]
      constructor
      · omega
      · intro hb; omega
  · intro h0 hf hfit
    obtain ⟨st, _, _, h3, _⟩ := tokenize_line_state_ok fuel t line h0 hf hfit
    exact ⟨_, h3⟩

theorem scratch_buffer_unbounded_witness :
    ∃ st, tokenize_line_state 4 unitModel [97, 97, 10] = some st ∧ 5 < st.res.length :=
  have h := scratch_buffer_unbounded 4 unitModel [97, 97, 10] 5
  have ⟨st, hst⟩ := h.2 (by decide) (by decide) (by decide)
  ⟨st, hst, (h.1 st hst).2 (by decide)⟩

/-! ## The tokens of `tokenize_line` -/

theorem finish_toks (t : tagger) (st : LoopState) (hb : st.bos = false) :
    (finish t st).toks = setBackFeature st.toks (flush t.fs st.offsets st.concat).2 := by
  unfold finish
  simp [hb]

/-- The loop of `tokenize_line` from a state after the first piece builds, for
the pieces that follow, the tokens `toksRest` lists. -/
theorem loop_toks (fuel : Nat) (t : tagger) (line : List Nat) (p_end : Nat) :
    ∀ (k : Nat) (st : LoopState), st.bos = false →
      (loop fuel t line p_end k st).map (fun s => (finish t s).toks) =
        (piecesFrom fuel t line p_end k st.p st.offsets).map
          (fun ps => toksRest t.fs st.ctype_prev st.bytes_prev st.offsets st.concat st.toks ps) := by
  intro k
  induction k with
  | zero => intro st _; rfl
  | succ k ih =>
    intro st hb
    unfold loop piecesFrom
    by_cases he : st.p = (p_end : Int)
    · rw [if_pos he, if_pos he]
      simp [finish_toks t st hb, toksRest]
    · rw [if_neg he, if_neg he]
      by_cases ho : st.p < 0 ∨ (p_end : Int) < st.p
      · rw [if_pos ho, if_pos ho]; rfl
      · rw [if_neg ho, if_neg ho]
        unfold step matcherArgs
        simp only
        cases hm : longestPrefixSearchWithPOS fuel t.da ((line.take p_end).drop st.p.toNat)
            (rec_ctx st.offsets) t.c2i 0 with
        | none => rfl
        | some r =>
          simp only
          unfold stepWith
          simp only
          by_cases hn : payload_bytes r ((line.take p_end).drop st.p.toNat) < 0
          · rw [if_pos hn, if_pos hn]; rfl
          · rw [if_neg hn, if_neg hn]
            simp only
            refine Eq.trans (ih _ ?_) ?_
            · exact decide_boundary_bos _ _ _ _
            simp only
            cases piecesFrom fuel t line p_end k
                (st.p + payload_bytes r ((line.take p_end).drop st.p.toNat))
                (t.p2f.getD (payload_id r).toNat 0) with
            | none => rfl
            | some ps =>
              simp only [Option.map_some']
              congr 1
              unfold decide_boundary putSurface
              simp only [hb, Bool.false_eq_true, if_false, toksRest]
              by_cases hbd : boundary st.ctype_prev st.bytes_prev (payload_ctype r)
                  (payload_bytes r ((line.take p_end).drop st.p.toNat)) = true
              · simp [hbd]
              · simp [hbd]

theorem tokenize_line_map (fuel : Nat) (t : tagger) (line : List Nat) :
    tokenize_line fuel t line =
      (loop fuel t line (line.length - ret line) fuel (init t)).map (fun s => (finish t s).toks) := by
  unfold tokenize_line tokenize_line_state
  cases loop fuel t line (line.length - ret line) fuel (init t) <;> rfl

/-- The tokens of a line in terms of its pieces: the first piece opens a token,
then `toksRest` processes the pieces that follow. -/
theorem tokenize_line_first (fuel : Nat) (t : tagger) (line : List Nat) :
    tokenize_line fuel t line = (pieces fuel t line).map (fun ps =>
      match ps with
      | [] => []
      | x :: rest =>
        toksRest t.fs x.ctype x.bytes x.offsets false [{ surface := x.surface, feature := [] }]
          rest) := by
  rw [tokenize_line_map]
  unfold pieces
  cases fuel with
  | zero => rfl
  | succ k =>
    generalize line.length - ret line = p_end
    unfold loop piecesFrom
    by_cases he : (init t).p = (p_end : Int)
    · have he2 : (0 : Int) = (p_end : Int) := he
      rw [if_pos he, if_pos he2]
      simp [finish, init]
    · have he2 : ¬ (0 : Int) = (p_end : Int) := he
      rw [if_neg he, if_neg he2]
      have ho : ¬ ((0 : Int) < 0 ∨ (p_end : Int) < 0) := by omega
      have ho2 : ¬ ((init t).p < 0 ∨ (p_end : Int) < (init t).p) := ho
      rw [if_neg ho, if_neg ho2]
      unfold step matcherArgs
      simp only
      have hp : (init t).p = 0 := rfl
      have hof : (init t).offsets = t.c2i (CP_MAX + 1) := rfl
      rw [hp, hof]
      cases hm : longestPrefixSearchWithPOS (k + 1) t.da
          ((line.take p_end).drop (0 : Int).toNat) (rec_ctx (t.c2i (CP_MAX + 1))) t.c2i 0 with
      | none => rfl
      | some r =>
        simp only
        unfold stepWith
        simp only
        by_cases hn : payload_bytes r ((line.take p_end).drop (0 : Int).toNat) < 0
        · rw [if_pos hn, if_pos hn]; rfl
        · rw [if_neg hn, if_neg hn]
          simp only
          rw [hp]
          refine Eq.trans (loop_toks (k + 1) t line p_end k _ ?_) ?_
          · exact decide_boundary_bos _ _ _ _
          simp only
          cases piecesFrom (k + 1) t line p_end k
              (0 + payload_bytes r ((line.take p_end).drop (0 : Int).toNat))
              (t.p2f.getD (payload_id r).toNat 0) with
          | none => rfl
          | some ps => simp [decide_boundary, putSurface, init]

theorem pyFeature_snoc (fs : List Nat) (g : List Piece) (x : Piece) (c : Bool)
    (hc : c = true ↔ g ≠ []) : pyFeature fs (g ++ [x]) = (flush fs x.offsets c).2 := by
  unfold pyFeature
  rw [List.getLast?_concat]
  simp only
  have : decide (1 < (g ++ [x]).length) = c := by
    cases c with
    | true =>
      have hg : g ≠ [] := hc.mp rfl
      have := List.length_pos.mpr hg
      simp
      omega
    | false =>
      have hg : g = [] := by
        by_contra h
        exact absurd (hc.mpr h) (by simp)
      subst hg
      simp
  rw [this]

/-- The tokens `toksRest` builds after the open token are the tokens of the
runs that the remaining pieces complete. -/
theorem toksRest_tokens (fs : List Nat) : ∀ (rest : List Piece) (g : List Piece) (x : Piece)
    (c : Bool) (done : List PyToken) (f : List Nat), (c = true ↔ g ≠ []) →
      toksRest fs x.ctype x.bytes x.offsets c
          (done ++ [{ surface := tokenSurface (g ++ [x]), feature := f }]) rest =
        done ++ (tokenRuns g x rest).map (pyToken fs) := by
  intro rest
  induction rest with
  | nil =>
    intro g x c done f hc
    simp only [toksRest, tokenRuns, List.map_cons, List.map_nil]
    rw [setBackFeature_concat]
    unfold pyToken
    rw [pyFeature_snoc fs g x c hc]
  | cons y rest ih =>
    intro g x c done f hc
    simp only [toksRest, tokenRuns]
    by_cases hb : boundary x.ctype x.bytes y.ctype y.bytes = true
    · rw [if_pos hb, if_pos hb, setBackFeature_concat]
      have hy : y.surface = tokenSurface ([] ++ [y]) := by simp [tokenSurface]
      rw [hy, ih [] y false _ [] (by simp)]
      simp only [List.map_cons, List.append_assoc, List.singleton_append]
      unfold pyToken
      rw [pyFeature_snoc fs g x c hc]
    · rw [if_neg hb, if_neg hb, appendBackSurface_concat]
      have hs : tokenSurface (g ++ [x]) ++ y.surface = tokenSurface ((g ++ [x]) ++ [y]) := by
        rw [tokenSurface_append (g ++ [x]) [y], tokenSurface_single]
      simp only
      rw [hs]
      exact ih (g ++ [x]) y true done f (by simp)

/-- The tokens `tokenize_line` returns are the tokens of the maximal runs of
pieces without a boundary, each with the surface of its pieces and the feature
of its last piece. -/
theorem tokenize_line_tokens (fuel : Nat) (t : tagger) (line : List Nat) :
    tokenize_line fuel t line =
      (pieces fuel t line).map (fun ps => (tokensOf ps).map (pyToken t.fs)) := by
  rw [tokenize_line_first]
  cases pieces fuel t line with
  | none => rfl
  | some ps =>
    simp only [Option.map_some']
    congr 1
    cases ps with
    | nil => rfl
    | cons x rest =>
      simp only [tokensOf]
      have hx : x.surface = tokenSurface ([] ++ [x]) := by simp [tokenSurface]
      rw [hx]
      have := toksRest_tokens t.fs rest [] x false [] [] (by simp)
      simpa using this

theorem boundary_false (cp bp c b : Int) (h : boundary cp bp c b = false) :
    cp = c ∧ cp ≠ 3 ∧ (cp = 2 → bp + b < 18) := by
  unfold boundary at h
  simp only [Bool.or_eq_false_iff, Bool.and_eq_false_iff, decide_eq_false_iff_not,
    ne_eq, not_not] at h
  obtain ⟨⟨h1, h2⟩, h3⟩ := h
  refine ⟨h1, h2, ?_⟩
  intro h4
  rcases h3 with h3 | h3
  · exact absurd h4 h3
  · omega

/-- Inside every run of `tokenRuns` no two neighbours are separated by the
boundary test. -/
theorem tokenRuns_chain : ∀ (rest : List Piece) (g : List Piece) (x : Piece),
    List.Chain' (fun a b => boundary a.ctype a.bytes b.ctype b.bytes = false) (g ++ [x]) →
      ∀ h ∈ tokenRuns g x rest,
        List.Chain' (fun a b => boundary a.ctype a.bytes b.ctype b.bytes = false) h := by
  intro rest
  induction rest with
  | nil =>
    intro g x hg h hh
    simp only [tokenRuns, List.mem_singleton] at hh
    rw [hh]; exact hg
  | cons y rest ih =>
    intro g x hg h hh
    simp only [tokenRuns] at hh
    by_cases hb : boundary x.ctype x.bytes y.ctype y.bytes = true
    · rw [if_pos hb] at hh
      rcases List.mem_cons.mp hh with e | e
      · rw [e]; exact hg
      · exact ih [] y (by simp) h e
    · rw [if_neg hb] at hh
      refine ih (g ++ [x]) y ?_ h hh
      refine List.Chain'.append hg (List.chain'_singleton y) ?_
      intro a ha b hb2
      rw [List.getLast?_concat] at ha
      have ea : a = x := by simpa using ha.symm
      have eb : b = y := by simpa using hb2.symm
      rw [ea, eb]
      simpa using hb

/-- C35. The 18-byte kana rule bounds adjacent pieces, not the token: in every
token `tokenize_line` returns, two adjacent pieces have the same character type,
which is not 3, and when it is 2 their byte lengths total fewer than 18; and for
`kanaModel`, where each kana is a piece of 3 bytes and character type 2, the
line of six kana is returned as one concatenated token of 18 bytes. -/
theorem kana_rule_adjacent (fuel : Nat) (t : tagger) (line : List Nat) (ps : List Piece)
    (h : pieces fuel t line = some ps) :
    tokenize_line fuel t line = some ((tokensOf ps).map (pyToken t.fs)) ∧
      (∀ g ∈ tokensOf ps, List.Chain'
        (fun a b => a.ctype = b.ctype ∧ a.ctype ≠ 3 ∧ (a.ctype = 2 → a.bytes + b.bytes < 18)) g) ∧
      (tokenize_line 19 kanaModel kanaLine = some [⟨kanaLine, wildcard⟩] ∧
        kanaLine.length = 18 ∧
        (pieces 19 kanaModel kanaLine).map (fun l => l.map (fun x => (x.bytes, x.ctype))) =
          some [(3, 2), (3, 2), (3, 2), (3, 2), (3, 2), (3, 2)]) := by
  refine ⟨by rw [tokenize_line_tokens, h]; rfl, ?_, by decide⟩
  intro g hg
  have hc : List.Chain' (fun a b => boundary a.ctype a.bytes b.ctype b.bytes = false) g := by
    cases ps with
    | nil => simp [tokensOf] at hg
    | cons x rest =>
      simp only [tokensOf] at hg
      exact tokenRuns_chain rest [] x (by simp) g hg
  exact hc.imp (fun {a b} hab => boundary_false a.ctype a.bytes b.ctype b.bytes hab)

theorem kana_rule_adjacent_witness :
    tokenize_line 6 tagModel [97, 97, 97, 98, 10] =
        some ((tokensOf [⟨[97], 1, 1, 10518528⟩, ⟨[97], 1, 1, 10518528⟩,
          ⟨[97, 98], 2, 3, 85909864448⟩]).map (pyToken tagModel.fs)) :=
  (kana_rule_adjacent 6 tagModel [97, 97, 97, 98, 10] _ (by decide)).1

/-- The mask `0x3fff` keeps a number below `2 ^ 14`. -/
theorem and_3fff_of_lt (x : Nat) (h : x < 2 ^ 14) : x &&& 0x3fff = x := by
  have e : (0x3fff : Nat) = 2 ^ 14 - 1 := by norm_num
  rw [e, Nat.and_pow_two_sub_one_eq_mod]
  exact Nat.mod_eq_of_lt h

/-- The BOS context of a compiled map has a sid between 1 and the number of
ranked symbols when its count is not zero and fewer than `2 ^ 16` symbols are
ranked. -/
theorem compile_c2i_bos (lines : List patternLine)
    (hc : countOf (counterOf lines) (CP_MAX + 1) ≠ 0)
    (hk : symbolCount (counterOf lines) < 2 ^ 16) :
    1 ≤ compile_c2i lines (CP_MAX + 1) ∧
      compile_c2i lines (CP_MAX + 1) ≤ symbolCount (counterOf lines) := by
  have hx : CP_MAX + 1 ∈ (rankedEntries (counterOf lines)).map Prod.fst :=
    (ranked_keys (counterOf lines) (counterOf_nodup lines) (CP_MAX + 1)).mpr ⟨by omega, hc⟩
  obtain ⟨h1, h2⟩ := c2i_ranked (counterOf lines) hk (CP_MAX + 1) hx
  have e : compile_c2i lines (CP_MAX + 1) = c2iOfCounter (counterOf lines) (CP_MAX + 1) := rfl
  rw [e, h1]
  omega

/-- C7 (amended). For every model and every line that is not empty, the loop
starts with an iteration from the initial state, and the matcher call of that
iteration, the one for the first token, gets the whole line as key and
`fi_prev = c2i[CP_MAX + 1] & 0x3fff`. For a model whose symbol map is the one
`read_model` compiles from a pattern file, this is the low 14 bits of the sid
`read_model` gave the BOS context; when the count of the BOS context is not
zero and fewer than `2 ^ 14` symbols are ranked, it is that sid itself and is
not 0. -/
theorem first_call_context (fuel : Nat) (t : tagger) (line : List Nat) (k : Nat)
    (hne : line.length - ret line ≠ 0) :
    loop fuel t line (line.length - ret line) (k + 1) (init t)
      = (step fuel t line (line.length - ret line) (init t)).bind
          (loop fuel t line (line.length - ret line) k) ∧
    matcherArgs line (line.length - ret line) (init t)
      = (line.take (line.length - ret line), t.c2i (CP_MAX + 1) &&& 0x3fff) ∧
    ∀ (U : List Nat) (lines : List patternLine), t.c2i = persisted_c2i lines →
      (matcherArgs line (line.length - ret line) (init t)).2
          = (read_model U lines).c2i_ (CP_MAX + 1) &&& 0x3fff ∧
        (countOf (counterOf lines) (CP_MAX + 1) ≠ 0 →
          symbolCount (counterOf lines) < 2 ^ 14 →
          (matcherArgs line (line.length - ret line) (init t)).2
              = (read_model U lines).c2i_ (CP_MAX + 1) ∧
            (matcherArgs line (line.length - ret line) (init t)).2 ≠ 0) := by
  have hargs : (matcherArgs line (line.length - ret line) (init t)).2
      = t.c2i (CP_MAX + 1) &&& 0x3fff := by
    simp [matcherArgs, init, rec_ctx]
  refine ⟨?_, ?_, ?_⟩
  · rw [loop]
    have h1 : (init t).p ≠ ((line.length - ret line : Nat) : Int) := by
      simp only [init]
      omega
    have h2 : ¬ ((init t).p < 0 ∨ ((line.length - ret line : Nat) : Int) < (init t).p) := by
      simp only [init]
      omega
    rw [if_neg h1, if_neg h2]
    cases step fuel t line (line.length - ret line) (init t) <;> rfl
  · simp [matcherArgs, init, rec_ctx]
  · intro U lines ht
    have e1 : t.c2i (CP_MAX + 1) = (read_model U lines).c2i_ (CP_MAX + 1) := by
      rw [ht, read_model_c2i]
      unfold persisted_c2i
      rw [if_pos (by omega)]
    refine ⟨by rw [hargs, e1], ?_⟩
    intro hc hk
    obtain ⟨h1, h2⟩ := compile_c2i_bos lines hc (by omega)
    rw [hargs, e1, read_model_c2i, and_3fff_of_lt _ (by omega)]
    exact ⟨rfl, by omega⟩

/-- Witness of C7: the line `a` under the model compiled from `bosPatterns`,
where the first matcher call gets the sid of BOS, which is not 0. -/
theorem first_call_context_witness :
    matcherArgs [97] ([97].length - ret [97]) (init bosModel)
        = ([97].take ([97].length - ret [97]), bosModel.c2i (CP_MAX + 1) &&& 0x3fff) ∧
      (matcherArgs [97] ([97].length - ret [97]) (init bosModel)).2
        = (read_model [] bosPatterns).c2i_ (CP_MAX + 1) ∧
      (matcherArgs [97] ([97].length - ret [97]) (init bosModel)).2 ≠ 0 :=
  ⟨(first_call_context 2 bosModel [97] 1 (by decide)).2.1,
    ((first_call_context 2 bosModel [97] 1 (by decide)).2.2 [] bosPatterns rfl).2
      (by decide) (by decide)⟩

end Jagger
